import Mathlib

/-!
# LIRS replacement simulator (`lirs.c`): shallow embedding

The page table `page_tbl` is a map from block numbers to `page_struct`; the C pointers
into the table (`LIRS_next`, `HIR_list_head`, ...) are `Option Nat` (`none` is `NULL`).
The globals of `lirs.c` and the locals of `LIRS_Repl` that live across loop iterations
form `State`.  The trace file is the list of references the `while` loop processes.

Functions that can dereference `NULL`, call `exit(1)` or loop return `Option State`
(`none`: the run does not complete the reference).  The two pointer-chasing loops take
their fuel from the table size.

`lirs.h` is not part of the sources: its constants are the fields of `Params`
(`MAX_S_LEN`, `STAT_START_POINT`) or are given the values the specification documents
(`HIR_RATE`, `LOWEST_HG_NUM`).  The per-block diagnostic counters `ref_times`,
`pf_times` and the field `page_num` are never read by `LIRS_Repl` and are left out.
-/

namespace LIRS

/-- Value of `recency` for a block without metadata in stack S. -/
def S_STACK_OUT : Bool := false

/-- Value of `recency` for a block with metadata in stack S. -/
def S_STACK_IN : Bool := true

/-- One entry of `page_tbl`. -/
@[ext]
structure page_struct where
  isResident : Bool
  isHIR_block : Bool
  LIRS_next : Option Nat
  LIRS_prev : Option Nat
  HIR_rsd_next : Option Nat
  HIR_rsd_prev : Option Nat
  recency : Bool
  deriving DecidableEq, Repr

/-- The quantities fixed for one run: table size, cache size, the HIR share computed by
`main`, and the two `lirs.h` constants the replacement loop reads. -/
structure Params where
  vm_size : Nat
  mem_size : Nat
  HIR_block_portion_limit : Nat
  MAX_S_LEN : Nat
  STAT_START_POINT : Nat
  deriving DecidableEq, Repr

/-- Globals of `lirs.c` together with the loop-carried locals of `LIRS_Repl`. -/
@[ext]
structure State where
  page_tbl : Nat → page_struct
  LRU_list_head : Option Nat
  LRU_list_tail : Option Nat
  HIR_list_head : Option Nat
  HIR_list_tail : Option Nat
  LIR_LRU_block_ptr : Option Nat
  free_mem_size : Nat
  cur_lir_S_len : Nat
  total_pg_refs : Nat
  warm_pg_refs : Nat
  no_dup_refs : Nat
  num_pg_flt : Nat
  last_ref_pg : Option Nat
  num_LIR_pgs : Nat
  collect_stat : Bool

/-- Modelled from the spec: `HIR_RATE` of `lirs.h`, the percentage of the cache reserved
for HIR blocks (default 1.0). -/
def HIR_RATE : Nat := 1

/-- Modelled from the spec: `LOWEST_HG_NUM` of `lirs.h`, the floor of the HIR share (2). -/
def LOWEST_HG_NUM : Nat := 2

/-- Lines 140-142 of `main`: `(unsigned long)(HIR_RATE/100.0*mem_size)`, raised to
`LOWEST_HG_NUM`.  The cast truncates.  The product is taken here as an exact quotient;
`HIR_limit_double` is the same computation in `double` arithmetic, and the two agree for
`mem_size < 2 ^ 53` (`HIR_limit_double_eq`) but not beyond (`HIR_limit_double_large`). -/
def HIR_limit_of (mem_size : Nat) : Nat :=
  if HIR_RATE * mem_size / 100 < LOWEST_HG_NUM then LOWEST_HG_NUM
  else HIR_RATE * mem_size / 100

/-- The parameters `main` hands to `LIRS_Repl` for cache size `mem_size`. -/
def mainParams (vm_size mem_size max_s_len stat_start : Nat) : Params :=
  { vm_size := vm_size, mem_size := mem_size,
    HIR_block_portion_limit := HIR_limit_of mem_size,
    MAX_S_LEN := max_s_len, STAT_START_POINT := stat_start }

/-- Table entry written by the initialisation loop of `main` (lines 114-129). -/
def init_page : page_struct :=
  { isResident := false, isHIR_block := true, LIRS_next := none, LIRS_prev := none,
    HIR_rsd_next := none, HIR_rsd_prev := none, recency := S_STACK_OUT }

/-- State at the first loop test of `LIRS_Repl` (lines 103-137 and 179-183). -/
def init_state (P : Params) : State :=
  { page_tbl := fun _ => init_page,
    LRU_list_head := none, LRU_list_tail := none,
    HIR_list_head := none, HIR_list_tail := none,
    LIR_LRU_block_ptr := none,
    free_mem_size := P.mem_size, cur_lir_S_len := 0,
    total_pg_refs := 0, warm_pg_refs := 0, no_dup_refs := 0, num_pg_flt := 0,
    last_ref_pg := none, num_LIR_pgs := 0,
    collect_stat := decide (P.STAT_START_POINT = 0) }

/-- Follow the pointer `p` and go on with `k`: a `NULL` pointer cannot be followed. -/
def deref {σ : Type} (p : Option Nat) (k : Nat → Option σ) : Option σ :=
  match p with
  | none => none
  | some t => k t

/-- Store `p` at `page_tbl[i]`. -/
def setPage (s : State) (i : Nat) (p : page_struct) : State :=
  { s with page_tbl := Function.update s.page_tbl i p }

/-- `x--` on an `unsigned long`. -/
def dec64 (x : Nat) : Nat := if x = 0 then 18446744073709551615 else x - 1

/-- `a - b` on `unsigned long`. -/
def usub64 (a b : Nat) : Nat := if b ≤ a then a - b else a + 18446744073709551616 - b

/-- Bound on the iterations of a walk along a list threaded through the table. -/
def walkFuel (P : Params) : Nat := P.vm_size + 2

/-- `remove_HIR_list` for a non-null argument. -/
def remove_HIR_list (s : State) (h : Nat) : State :=
  let s1 := match (s.page_tbl h).HIR_rsd_prev with
    | none => { s with HIR_list_head := (s.page_tbl h).HIR_rsd_next }
    | some p => setPage s p { s.page_tbl p with HIR_rsd_next := (s.page_tbl h).HIR_rsd_next }
  let s2 := match (s1.page_tbl h).HIR_rsd_next with
    | none => { s1 with HIR_list_tail := (s1.page_tbl h).HIR_rsd_prev }
    | some n => setPage s1 n { s1.page_tbl n with HIR_rsd_prev := (s1.page_tbl h).HIR_rsd_prev }
  setPage s2 h { s2.page_tbl h with HIR_rsd_prev := none, HIR_rsd_next := none }

/-- `add_HIR_list_head` for a non-null argument. -/
def add_HIR_list_head (s : State) (n : Nat) : State :=
  let s1 := setPage s n { s.page_tbl n with HIR_rsd_next := s.HIR_list_head }
  let s2 := match s1.HIR_list_head with
    | none => { s1 with HIR_list_tail := some n, HIR_list_head := some n }
    | some h => setPage s1 h { s1.page_tbl h with HIR_rsd_prev := some n }
  { s2 with HIR_list_head := some n }

/-- The `while` loop of `find_last_LIR_LRU`. -/
def find_last_LIR_LRU_loop : Nat → State → Option State
  | 0, _ => none
  | fuel + 1, s =>
    match s.LIR_LRU_block_ptr with
    | none => none
    | some p =>
      if (s.page_tbl p).isHIR_block = true then
        find_last_LIR_LRU_loop fuel
          { setPage s p { s.page_tbl p with recency := S_STACK_OUT } with
            cur_lir_S_len := dec64 s.cur_lir_S_len,
            LIR_LRU_block_ptr := (s.page_tbl p).LIRS_prev }
      else some s

/-- `find_last_LIR_LRU`: the result pointer is the global `LIR_LRU_block_ptr` of the
returned state. -/
def find_last_LIR_LRU (P : Params) (s : State) : Option State :=
  match s.LIR_LRU_block_ptr with
  | none => none
  | some _ => find_last_LIR_LRU_loop (walkFuel P) s

/-- Lines 302-312 of `remove_LIRS_list`: take `x` out of the list threaded through
`LIRS_prev`/`LIRS_next`. -/
def unlink_LIRS (s1 : State) (x : Nat) : State :=
  let s2 := match (s1.page_tbl x).LIRS_prev with
    | none => { s1 with LRU_list_head := (s1.page_tbl x).LIRS_next }
    | some p => setPage s1 p { s1.page_tbl p with LIRS_next := (s1.page_tbl x).LIRS_next }
  let s3 := match (s2.page_tbl x).LIRS_next with
    | none => { s2 with LRU_list_tail := (s2.page_tbl x).LIRS_prev }
    | some n => setPage s2 n { s2.page_tbl n with LIRS_prev := (s2.page_tbl x).LIRS_prev }
  setPage s3 x { s3.page_tbl x with LIRS_prev := none, LIRS_next := none }

/-- `remove_LIRS_list` for a non-null argument. -/
def remove_LIRS_list (P : Params) (s : State) (x : Nat) : Option State :=
  if (s.page_tbl x).LIRS_prev = none ∧ (s.page_tbl x).LIRS_next = none then some s
  else do
    let s1 ← if some x = s.LIR_LRU_block_ptr then
        find_last_LIR_LRU P { s with LIR_LRU_block_ptr := (s.page_tbl x).LIRS_prev }
      else some s
    some (unlink_LIRS s1 x)

/-- `add_LRU_list_head` for a non-null argument. -/
def add_LRU_list_head (s : State) (n : Nat) : State :=
  let s1 := setPage s n { s.page_tbl n with LIRS_next := s.LRU_list_head }
  match s1.LRU_list_head with
  | none => { s1 with LRU_list_head := some n, LRU_list_tail := some n,
                      LIR_LRU_block_ptr := some n }
  | some h => { setPage s1 h { s1.page_tbl h with LIRS_prev := some n } with
                LRU_list_head := some n }

/-- `insert_LRU_list(old_ref_ptr, new_ref_ptr)` for non-null arguments. -/
def insert_LRU_list (s : State) (o n : Nat) : State :=
  let s1 := setPage s o { s.page_tbl o with LIRS_next := (s.page_tbl n).LIRS_next }
  let s2 := setPage s1 o { s1.page_tbl o with LIRS_prev := some n }
  let s3 := match (s2.page_tbl n).LIRS_next with
    | none => s2
    | some m => setPage s2 m { s2.page_tbl m with LIRS_prev := some o }
  setPage s3 n { s3.page_tbl n with LIRS_next := some o }

/-- The scan of `prune_LIRS_stack` (lines 363-364) from `tmp_ptr`. -/
def prune_scan (s : State) : Nat → Option Nat → Option Nat
  | 0, _ => none
  | _ + 1, none => none
  | fuel + 1, some t =>
    if (s.page_tbl t).isHIR_block = false then prune_scan s fuel (s.page_tbl t).LIRS_prev
    else some t

/-- `prune_LIRS_stack`. -/
def prune_LIRS_stack (P : Params) (s : State) : Option State :=
  if s.cur_lir_S_len ≤ P.MAX_S_LEN then some s
  else
    deref (prune_scan s (walkFuel P) s.LIR_LRU_block_ptr) fun t =>
      let s1 := setPage s t { s.page_tbl t with recency := S_STACK_OUT }
      (remove_LIRS_list P s1 t).bind fun s2 =>
        deref s2.LIR_LRU_block_ptr fun l =>
          let s3 := insert_LRU_list s2 t l
          some { s3 with cur_lir_S_len := dec64 s3.cur_lir_S_len }

/-- Lines 218-232 of `LIRS_Repl`: make room for a block that missed. -/
def make_room (P : Params) (s1 : State) (ref_block : Nat) : Option State :=
  if s1.free_mem_size = 0 then
    deref s1.HIR_list_tail fun t =>
      let s2 := setPage s1 t { s1.page_tbl t with isResident := false }
      let s3 := remove_HIR_list s2 t
      some { s3 with free_mem_size := s3.free_mem_size + 1 }
  else if s1.free_mem_size > P.HIR_block_portion_limit then
    some { setPage s1 ref_block { s1.page_tbl ref_block with isHIR_block := false } with
           num_LIR_pgs := s1.num_LIR_pgs + 1 }
  else some s1

/-- Lines 214-238 of `LIRS_Repl`: the miss branch (fault count, eviction of the tail of Q
or admission as LIR, one frame taken) and the hit on a resident HIR block. -/
def miss_or_hit (P : Params) (s : State) (ref_block : Nat) : Option State :=
  if (s.page_tbl ref_block).isResident = false then
    let s1 := if s.collect_stat = true then { s with num_pg_flt := s.num_pg_flt + 1 } else s
    (make_room P s1 ref_block).bind fun s2 =>
      some { s2 with free_mem_size := s2.free_mem_size - 1 }
  else if (s.page_tbl ref_block).isHIR_block = true then some (remove_HIR_list s ref_block)
  else some s

/-- Lines 241-247 of `LIRS_Repl`: move the block to the top of S and make it resident. -/
def relink (P : Params) (s : State) (ref_block : Nat) : Option State :=
  (remove_LIRS_list P s ref_block).bind fun s1 =>
    let s2 := add_LRU_list_head s1 ref_block
    let s3 := setPage s2 ref_block { s2.page_tbl ref_block with isResident := true }
    some (if (s3.page_tbl ref_block).recency = S_STACK_OUT then
      { s3 with cur_lir_S_len := s3.cur_lir_S_len + 1 } else s3)

/-- Lines 255-259 of `LIRS_Repl`: the block at the cursor goes to the head of Q as an HIR
block without metadata in S, and the cursor is moved up. -/
def demote (P : Params) (s1 : State) : Option State :=
  deref s1.LIR_LRU_block_ptr fun l =>
    let s2 := add_HIR_list_head s1 l
    deref s2.HIR_list_head fun h =>
      let s3 := setPage s2 h { s2.page_tbl h with isHIR_block := true }
      let s4 := setPage s3 h { s3.page_tbl h with recency := S_STACK_OUT }
      find_last_LIR_LRU P { s4 with num_LIR_pgs := s4.num_LIR_pgs - 1 }

/-- Lines 250-268 of `LIRS_Repl`: status switch of an HIR block found in S, or queueing
of an HIR block in Q. -/
def promote_or_queue (P : Params) (s : State) (ref_block : Nat) : Option State :=
  if (s.page_tbl ref_block).isHIR_block = true ∧
      (s.page_tbl ref_block).recency = S_STACK_IN then
    let s1 := { setPage s ref_block { s.page_tbl ref_block with isHIR_block := false } with
                num_LIR_pgs := s.num_LIR_pgs + 1 }
    if s1.num_LIR_pgs > usub64 P.mem_size P.HIR_block_portion_limit then demote P s1
    else some s1
  else if (s.page_tbl ref_block).isHIR_block = true then some (add_HIR_list_head s ref_block)
  else some s

/-- Lines 241-271 of `LIRS_Repl`: the block goes to the top of S, changes status or is
queued, and is marked as in S. -/
def post (P : Params) (s1 : State) (ref_block : Nat) : Option State :=
  (relink P s1 ref_block).bind fun s2 =>
    (promote_or_queue P s2 ref_block).bind fun s3 =>
      some (setPage s3 ref_block { s3.page_tbl ref_block with recency := S_STACK_IN })

/-- Lines 210-273 of `LIRS_Repl`: the work done for a reference that is in range and not
a repetition of the previous one. -/
def LIRS_access (P : Params) (s : State) (ref_block : Nat) : Option State :=
  let s0 := { s with last_ref_pg := some ref_block, no_dup_refs := s.no_dup_refs + 1 }
  (miss_or_hit P s0 ref_block).bind fun s1 =>
    (post P s1 ref_block).bind fun s4 => prune_LIRS_stack P s4

/-- How one iteration of the `while` loop of `LIRS_Repl` ends. -/
inductive Step where
  | next (s : State)
  | returnFALSE (s : State)
  | abort

/-- One iteration of the `while` loop of `LIRS_Repl` (lines 192-281). -/
def LIRS_Repl_iter (P : Params) (s : State) (ref_block : Nat) : Step :=
  let s1 := { s with total_pg_refs := s.total_pg_refs + 1 }
  let s2 := if s1.total_pg_refs > P.STAT_START_POINT then
      { s1 with collect_stat := true, warm_pg_refs := s1.warm_pg_refs + 1 } else s1
  if ref_block > P.vm_size then Step.returnFALSE s2
  else if some ref_block = s2.last_ref_pg then Step.next s2
  else match LIRS_access P s2 ref_block with
    | some s3 => Step.next s3
    | none => Step.abort

/-- The `while` loop of `LIRS_Repl` over the references still to be read. -/
def LIRS_Repl_loop (P : Params) : State → List Nat → Step
  | s, [] => Step.next s
  | s, r :: rest =>
    match LIRS_Repl_iter P s r with
    | Step.next s1 => LIRS_Repl_loop P s1 rest
    | Step.returnFALSE s1 => Step.returnFALSE s1
    | Step.abort => Step.abort

/-- `LIRS_Repl` on a trace, from the state `main` sets up. -/
def LIRS_Repl (P : Params) (trace : List Nat) : Step :=
  LIRS_Repl_loop P (init_state P) trace

/-- State in which `LIRS_Repl` reaches the end of the trace, if it does. -/
def runState (P : Params) (trace : List Nat) : Option State :=
  match LIRS_Repl P trace with
  | Step.next s => some s
  | _ => none

end LIRS

/-! ## Lists threaded through the table, and the same machine on lists

`nextOf` and `prevOf` are the links a list induces on its members.  `LState` carries
stack S and queue Q as lists instead of links; `conc` lays a list state out as a `State`.
Every function of the embedding has a counterpart on `LState` that commutes with `conc`.
-/

namespace LIRS

/-- Successor of `x` in `l` (the `next` link of `x` when `l` is threaded through the table). -/
def nextOf : List Nat → Nat → Option Nat
  | [], _ => none
  | a :: t, x => if a = x then t.head? else nextOf t x

/-- Predecessor of `x` in `l` (the `prev` link of `x`). -/
def prevOf : List Nat → Nat → Option Nat
  | [], _ => none
  | a :: t, x => if t.head? = some x then some a else prevOf t x

/-- List `l` with `o` put right after `n`. -/
def insertAfter (n o : Nat) : List Nat → List Nat
  | [] => []
  | a :: t => if a = n then a :: o :: t else a :: insertAfter n o t

/-- State with stack S and queue Q as lists (head first). -/
@[ext]
structure LState where
  resF : Nat → Bool
  hirF : Nat → Bool
  recF : Nat → Bool
  S : List Nat
  Q : List Nat
  cur : Option Nat
  tailp : Option Nat
  free : Nat
  slen : Nat
  total : Nat
  warm : Nat
  nodup : Nat
  flt : Nat
  last : Option Nat
  nlir : Nat
  collect : Bool

/-- Layout of a list state in the table. -/
def conc (l : LState) : State :=
  { page_tbl := fun x =>
      { isResident := l.resF x, isHIR_block := l.hirF x,
        LIRS_next := nextOf l.S x, LIRS_prev := prevOf l.S x,
        HIR_rsd_next := nextOf l.Q x, HIR_rsd_prev := prevOf l.Q x,
        recency := l.recF x },
    LRU_list_head := l.S.head?, LRU_list_tail := l.tailp,
    HIR_list_head := l.Q.head?, HIR_list_tail := l.Q.getLast?,
    LIR_LRU_block_ptr := l.cur,
    free_mem_size := l.free, cur_lir_S_len := l.slen,
    total_pg_refs := l.total, warm_pg_refs := l.warm, no_dup_refs := l.nodup,
    num_pg_flt := l.flt, last_ref_pg := l.last, num_LIR_pgs := l.nlir,
    collect_stat := l.collect }

/-- List form of `init_state`. -/
def l_init (P : Params) : LState :=
  { resF := fun _ => false, hirF := fun _ => true, recF := fun _ => S_STACK_OUT,
    S := [], Q := [], cur := none, tailp := none,
    free := P.mem_size, slen := 0, total := 0, warm := 0, nodup := 0, flt := 0,
    last := none, nlir := 0, collect := decide (P.STAT_START_POINT = 0) }

/-- List form of `remove_HIR_list`. -/
def l_remove_HIR_list (l : LState) (h : Nat) : LState := { l with Q := l.Q.erase h }

/-- List form of `add_HIR_list_head`. -/
def l_add_HIR_list_head (l : LState) (n : Nat) : LState := { l with Q := n :: l.Q }

/-- List form of `find_last_LIR_LRU_loop`. -/
def l_find_last_LIR_LRU_loop : Nat → LState → Option LState
  | 0, _ => none
  | fuel + 1, l =>
    match l.cur with
    | none => none
    | some p =>
      if l.hirF p = true then
        l_find_last_LIR_LRU_loop fuel
          { l with recF := Function.update l.recF p S_STACK_OUT,
                   slen := dec64 l.slen, cur := prevOf l.S p }
      else some l

/-- List form of `find_last_LIR_LRU`. -/
def l_find_last_LIR_LRU (P : Params) (l : LState) : Option LState :=
  match l.cur with
  | none => none
  | some _ => l_find_last_LIR_LRU_loop (walkFuel P) l

/-- List form of `unlink_LIRS`. -/
def l_unlink_LIRS (l1 : LState) (x : Nat) : LState :=
  { l1 with S := l1.S.erase x,
            tailp := if nextOf l1.S x = none then prevOf l1.S x else l1.tailp }

/-- List form of `remove_LIRS_list`. -/
def l_remove_LIRS_list (P : Params) (l : LState) (x : Nat) : Option LState :=
  if prevOf l.S x = none ∧ nextOf l.S x = none then some l
  else do
    let l1 ← if some x = l.cur then
        l_find_last_LIR_LRU P { l with cur := prevOf l.S x }
      else some l
    some (l_unlink_LIRS l1 x)

/-- List form of `add_LRU_list_head`. -/
def l_add_LRU_list_head (l : LState) (n : Nat) : LState :=
  match l.S.head? with
  | none => { l with S := n :: l.S, tailp := some n, cur := some n }
  | some _ => { l with S := n :: l.S }

/-- List form of `insert_LRU_list`. -/
def l_insert_LRU_list (l : LState) (o n : Nat) : LState := { l with S := insertAfter n o l.S }

/-- List form of `prune_scan`. -/
def l_prune_scan (l : LState) : Nat → Option Nat → Option Nat
  | 0, _ => none
  | _ + 1, none => none
  | fuel + 1, some t =>
    if l.hirF t = false then l_prune_scan l fuel (prevOf l.S t) else some t

/-- List form of `prune_LIRS_stack`. -/
def l_prune_LIRS_stack (P : Params) (l : LState) : Option LState :=
  if l.slen ≤ P.MAX_S_LEN then some l
  else
    deref (l_prune_scan l (walkFuel P) l.cur) fun t =>
      let l1 := { l with recF := Function.update l.recF t S_STACK_OUT }
      (l_remove_LIRS_list P l1 t).bind fun l2 =>
        deref l2.cur fun d =>
          let l3 := l_insert_LRU_list l2 t d
          some { l3 with slen := dec64 l3.slen }

/-- List form of `make_room`. -/
def l_make_room (P : Params) (l1 : LState) (ref_block : Nat) : Option LState :=
  if l1.free = 0 then
    deref l1.Q.getLast? fun t =>
      let l2 := { l1 with resF := Function.update l1.resF t false }
      let l3 := l_remove_HIR_list l2 t
      some { l3 with free := l3.free + 1 }
  else if l1.free > P.HIR_block_portion_limit then
    some { l1 with hirF := Function.update l1.hirF ref_block false, nlir := l1.nlir + 1 }
  else some l1

/-- List form of `miss_or_hit`. -/
def l_miss_or_hit (P : Params) (l : LState) (ref_block : Nat) : Option LState :=
  if l.resF ref_block = false then
    let l1 := if l.collect = true then { l with flt := l.flt + 1 } else l
    (l_make_room P l1 ref_block).bind fun l2 => some { l2 with free := l2.free - 1 }
  else if l.hirF ref_block = true then some (l_remove_HIR_list l ref_block)
  else some l

/-- List form of `relink`. -/
def l_relink (P : Params) (l : LState) (ref_block : Nat) : Option LState :=
  (l_remove_LIRS_list P l ref_block).bind fun l1 =>
    let l2 := l_add_LRU_list_head l1 ref_block
    let l3 := { l2 with resF := Function.update l2.resF ref_block true }
    some (if l3.recF ref_block = S_STACK_OUT then { l3 with slen := l3.slen + 1 } else l3)

/-- List form of `demote`. -/
def l_demote (P : Params) (l1 : LState) : Option LState :=
  deref l1.cur fun d =>
    let l2 := l_add_HIR_list_head l1 d
    deref l2.Q.head? fun h =>
      let l3 := { l2 with hirF := Function.update l2.hirF h true }
      let l4 := { l3 with recF := Function.update l3.recF h S_STACK_OUT }
      l_find_last_LIR_LRU P { l4 with nlir := l4.nlir - 1 }

/-- List form of `promote_or_queue`. -/
def l_promote_or_queue (P : Params) (l : LState) (ref_block : Nat) : Option LState :=
  if l.hirF ref_block = true ∧ l.recF ref_block = S_STACK_IN then
    let l1 := { l with hirF := Function.update l.hirF ref_block false, nlir := l.nlir + 1 }
    if l1.nlir > usub64 P.mem_size P.HIR_block_portion_limit then l_demote P l1
    else some l1
  else if l.hirF ref_block = true then some (l_add_HIR_list_head l ref_block)
  else some l

/-- List form of `post`. -/
def l_post (P : Params) (l1 : LState) (ref_block : Nat) : Option LState :=
  (l_relink P l1 ref_block).bind fun l2 =>
    (l_promote_or_queue P l2 ref_block).bind fun l3 =>
      some { l3 with recF := Function.update l3.recF ref_block S_STACK_IN }

/-- List form of lines 210-271 of `LIRS_Repl`: `l_access` before the call of
`prune_LIRS_stack`. -/
def l_access_core (P : Params) (l : LState) (ref_block : Nat) : Option LState :=
  let l0 := { l with last := some ref_block, nodup := l.nodup + 1 }
  (l_miss_or_hit P l0 ref_block).bind fun l1 => l_post P l1 ref_block

/-- List form of `LIRS_access`. -/
def l_access (P : Params) (l : LState) (ref_block : Nat) : Option LState :=
  (l_access_core P l ref_block).bind fun l4 => l_prune_LIRS_stack P l4

/-- List form of the counter updates at the top of the loop body of `LIRS_Repl`
(lines 192-198). -/
def l_count (P : Params) (l : LState) : LState :=
  let l1 := { l with total := l.total + 1 }
  if l1.total > P.STAT_START_POINT then
    { l1 with collect := true, warm := l1.warm + 1 } else l1

/-- List form of one iteration of the loop of `LIRS_Repl` for a reference in range. -/
def l_iter (P : Params) (l : LState) (ref_block : Nat) : Option LState :=
  if some ref_block = (l_count P l).last then some (l_count P l)
  else l_access P (l_count P l) ref_block

/-- List form of `LIRS_Repl_loop` on a trace of references in range. -/
def l_run (P : Params) : LState → List Nat → Option LState
  | l, [] => some l
  | l, r :: rest => (l_iter P l r).bind fun l1 => l_run P l1 rest

/-- Requirements on the parameters: a non-empty HIR share, at least two LIR frames, and a
stack bound that is not below the cache size. -/
structure PWF (P : Params) : Prop where
  hir_pos : 1 ≤ P.HIR_block_portion_limit
  lir_two : P.HIR_block_portion_limit + 2 ≤ P.mem_size
  max_s : P.mem_size ≤ P.MAX_S_LEN

/-- The relations between stack S, queue Q, the flags and the counters that hold between
two references, the bound on the stack length apart. -/
structure LInvCore (P : Params) (l : LState) : Prop where
  S_nodup : l.S.Nodup
  Q_nodup : l.Q.Nodup
  S_range : ∀ x ∈ l.S, x ≤ P.vm_size
  Q_sub : ∀ x ∈ l.Q, x ∈ l.S
  Q_iff : ∀ x, x ∈ l.Q ↔ (l.resF x = true ∧ l.hirF x = true)
  lir_res : ∀ x, l.hirF x = false → l.resF x = true
  lir_rec : ∀ x, l.hirF x = false → l.recF x = true
  split : ∃ top below, l.S = top ++ below ∧ l.cur = top.getLast? ∧
    (∀ x, l.recF x = true ↔ x ∈ top) ∧ l.slen = top.length ∧
    (∀ d, l.cur = some d → l.hirF d = false) ∧ (top = [] → below = [])
  nlir_eq : l.nlir = (List.range (P.vm_size + 1)).countP (fun x => !l.hirF x)
  frame : l.nlir + l.Q.length + l.free = P.mem_size
  phaseA : P.HIR_block_portion_limit < l.free → l.Q = [] ∧ ∀ x ∈ l.S, l.hirF x = false
  phaseB : l.free ≤ P.HIR_block_portion_limit →
    l.nlir + P.HIR_block_portion_limit = P.mem_size
  last_mem : ∀ y, l.last = some y → y ∈ l.S
  last_none : l.last = none → l.S = []

/-- The invariant of the replacement loop. -/
structure LInv (P : Params) (l : LState) : Prop where
  core : LInvCore P l
  slen_le : l.slen ≤ P.MAX_S_LEN

/-- What holds after lines 214-238 for the referenced block `b`: the invariant with `b`
in transit (taken out of Q, or admitted but not yet on the stack). -/
structure MidInv (P : Params) (l : LState) (b : Nat) : Prop where
  S_nodup : l.S.Nodup
  Q_nodup : l.Q.Nodup
  S_range : ∀ x ∈ l.S, x ≤ P.vm_size
  b_range : b ≤ P.vm_size
  Q_sub : ∀ x ∈ l.Q, x ∈ l.S
  b_notin_Q : b ∉ l.Q
  Q_iff : ∀ x, x ≠ b → (x ∈ l.Q ↔ (l.resF x = true ∧ l.hirF x = true))
  lir_res : ∀ x, x ≠ b → l.hirF x = false → l.resF x = true
  lir_rec : ∀ x, x ≠ b → l.hirF x = false → l.recF x = true
  split : ∃ top below, l.S = top ++ below ∧ l.cur = top.getLast? ∧
    (∀ x, l.recF x = true ↔ x ∈ top) ∧ l.slen = top.length ∧
    (∀ d, l.cur = some d → l.hirF d = false) ∧ (top = [] → below = [])
  b_fresh : l.hirF b = false → l.recF b = false → b ∉ l.S
  nlir_eq : l.nlir = (List.range (P.vm_size + 1)).countP (fun x => !l.hirF x)
  frame : l.nlir + l.Q.length + l.free + (if l.hirF b = true then 1 else 0) = P.mem_size
  phaseA : P.HIR_block_portion_limit < l.free →
    l.Q = [] ∧ (∀ x ∈ l.S, l.hirF x = false) ∧ l.hirF b = false
  phaseB : l.free ≤ P.HIR_block_portion_limit →
    l.nlir + P.HIR_block_portion_limit = P.mem_size
  last_eq : l.last = some b
  S_ne : l.S ≠ [b]
  S_empty : l.S = [] → l.hirF b = false

/-- What lines 241-271 leave alone: they make `b` resident, put it on top of S, and do
not touch the frame count, the fault count or the reference counters. -/
structure PostFrame (l l4 : LState) (b : Nat) : Prop where
  resF_eq : l4.resF = Function.update l.resF b true
  free_eq : l4.free = l.free
  flt_eq : l4.flt = l.flt
  nlir_eq : l4.nlir = l.nlir
  total_eq : l4.total = l.total
  warm_eq : l4.warm = l.warm
  nodup_eq : l4.nodup = l.nodup
  collect_eq : l4.collect = l.collect
  last_eq : l4.last = l.last
  head_eq : l4.S.head? = some b
  mem_S : ∀ x, x ∈ l4.S ↔ (x = b ∨ x ∈ l.S)

/-- Blocks reached from `head` along `next`, at most `fuel` of them. -/
def walk (next : Nat → Option Nat) : Nat → Option Nat → List Nat
  | 0, _ => []
  | _ + 1, none => []
  | fuel + 1, some x => x :: walk next fuel (next x)

/-- Stack S as linked in the table: the chain from `LRU_list_head` along `LIRS_next`. -/
def S_list (P : Params) (s : State) : List Nat :=
  walk (fun x => (s.page_tbl x).LIRS_next) (P.vm_size + 1) s.LRU_list_head

/-- Queue Q as linked in the table: the chain from `HIR_list_head` along `HIR_rsd_next`. -/
def Q_list (P : Params) (s : State) : List Nat :=
  walk (fun x => (s.page_tbl x).HIR_rsd_next) (P.vm_size + 1) s.HIR_list_head

/-- Number of table entries that are LIR blocks. -/
def count_LIR (P : Params) (s : State) : Nat :=
  (List.range (P.vm_size + 1)).countP (fun x => !(s.page_tbl x).isHIR_block)

end LIRS

namespace LIRS

/-- State `t` differs from state `s` at most in the links of queue Q (`HIR_rsd_next`,
`HIR_rsd_prev`, `HIR_list_head`, `HIR_list_tail`) and in the counters: flags, links of
stack S, its head, tail, cursor and length are the same. -/
def Q_links_only (s t : State) : Prop :=
  (∀ x, (t.page_tbl x).recency = (s.page_tbl x).recency ∧
    (t.page_tbl x).LIRS_next = (s.page_tbl x).LIRS_next ∧
    (t.page_tbl x).LIRS_prev = (s.page_tbl x).LIRS_prev ∧
    (t.page_tbl x).isHIR_block = (s.page_tbl x).isHIR_block ∧
    (t.page_tbl x).isResident = (s.page_tbl x).isResident) ∧
  t.LRU_list_head = s.LRU_list_head ∧ t.LRU_list_tail = s.LRU_list_tail ∧
  t.LIR_LRU_block_ptr = s.LIR_LRU_block_ptr ∧ t.cur_lir_S_len = s.cur_lir_S_len

end LIRS

namespace LIRS

/-- History of queue Q: `V` lists, most recently queued first, every HIR block that is
linked in S (every HIR block referenced so far); queue Q is its front part, and all of it
while a frame is free. -/
structure VInv (l : LState) (V : List Nat) : Prop where
  nodup : V.Nodup
  mem : ∀ y, y ∈ V ↔ (y ∈ l.S ∧ l.hirF y = true)
  pre : ∃ W, V = l.Q ++ W
  full : 0 < l.free → V = l.Q

/-- Two sets of parameters for runs on the same trace that are compared: same table size
and warm-up point, the second with at least as many frames for HIR blocks and for LIR
blocks, and a bound `MAX_S_LEN` that stack S cannot reach. -/
structure PRel (P1 P2 : Params) : Prop where
  vm_eq : P1.vm_size = P2.vm_size
  start_eq : P1.STAT_START_POINT = P2.STAT_START_POINT
  hir_le : P1.HIR_block_portion_limit ≤ P2.HIR_block_portion_limit
  lir_le : P1.mem_size - P1.HIR_block_portion_limit ≤
    P2.mem_size - P2.HIR_block_portion_limit
  big1 : P1.vm_size + 1 ≤ P1.MAX_S_LEN
  big2 : P2.vm_size + 1 ≤ P2.MAX_S_LEN

/-- Coupling of the run with the smaller cache (`l1`, history `V1`) and the run with the
larger cache (`l2`, history `V2`) on the same trace. -/
structure Coup (P1 P2 : Params) (l1 : LState) (V1 : List Nat) (l2 : LState)
    (V2 : List Nat) : Prop where
  S_eq : l1.S = l2.S
  lir : ∀ y, l1.hirF y = false → l2.hirF y = false
  idx : ∀ y ∈ V2, V2.indexOf y ≤ V1.indexOf y
  last_eq : l1.last = l2.last
  collect_eq : l1.collect = l2.collect
  total_eq : l1.total = l2.total
  flt_le : l2.flt ≤ l1.flt
  room : l2.nlir + (P1.mem_size - P1.HIR_block_portion_limit) ≤
    l1.nlir + (P2.mem_size - P2.HIR_block_portion_limit)

/-- What a reference to `b` that is not a repetition does in every case: the block goes to
the head of the list of S, is recorded as the last reference, and counts as a miss when it
was not resident and statistics are collected. -/
structure StepCommon (l l5 : LState) (b : Nat) : Prop where
  S_eq : l5.S = b :: l.S.erase b
  last_eq : l5.last = some b
  collect_eq : l5.collect = l.collect
  total_eq : l5.total = l.total
  flt_eq : l5.flt = if l.resF b = false ∧ l.collect = true then l.flt + 1 else l.flt

/-- The four ways a reference to `b` that is not a repetition is processed, with the
status flags, the LIR count and the history of Q afterwards: hit on an LIR block; HIR
block found in stack S (it changes status with the block `d` at the cursor); HIR block
that is queued; miss while more than `HIR_block_portion_limit` frames are free. -/
def StepCase (P : Params) (l l5 : LState) (b : Nat) (V V5 : List Nat) : Prop :=
  (l.hirF b = false ∧ l5.hirF = l.hirF ∧ l5.nlir = l.nlir ∧ V5 = V) ∨
  (l.hirF b = true ∧ l.recF b = true ∧ ∃ d, l.cur = some d ∧ l.hirF d = false ∧ d ≠ b ∧
    l5.hirF = Function.update (Function.update l.hirF b false) d true ∧
    l5.nlir = l.nlir ∧ V5 = d :: V.erase b) ∨
  (l.hirF b = true ∧ l.recF b = false ∧
    ¬ (l.resF b = false ∧ P.HIR_block_portion_limit < l.free) ∧
    l5.hirF = l.hirF ∧ l5.nlir = l.nlir ∧ V5 = b :: V.erase b) ∨
  (l.hirF b = true ∧ l.resF b = false ∧ P.HIR_block_portion_limit < l.free ∧ b ∉ l.S ∧
    V = [] ∧ l5.hirF = Function.update l.hirF b false ∧ l5.nlir = l.nlir + 1 ∧ V5 = V)

end LIRS

namespace LIRS

/-- The capacity formula in the words of the specification: the larger of
`ceil(HIR_RATE · c)`, with `HIR_RATE` a percentage, and the floor `LOWEST_HG_NUM`. -/
def HIR_cap_spec (c : Nat) : Nat := max ((HIR_RATE * c + 99) / 100) LOWEST_HG_NUM

/-- Lines 192-198 of `LIRS_Repl`: the reference is counted, and from reference number
`STAT_START_POINT + 1` on statistics are collected. -/
def count_refs (P : Params) (s : State) : State :=
  let s1 := { s with total_pg_refs := s.total_pg_refs + 1 }
  if s1.total_pg_refs > P.STAT_START_POINT then
    { s1 with collect_stat := true, warm_pg_refs := s1.warm_pg_refs + 1 } else s1

/-- Lines 210-271 of `LIRS_Repl`: `LIRS_access` up to the call of `prune_LIRS_stack`. -/
def access_core (P : Params) (s : State) (ref_block : Nat) : Option State :=
  (miss_or_hit P { s with last_ref_pg := some ref_block, no_dup_refs := s.no_dup_refs + 1 }
    ref_block).bind fun s1 => post P s1 ref_block

/-- The list of S is a well-formed doubly-linked list: the chain from `LRU_list_head` along
`LIRS_next` has no repetition and ends with a null link, the head has no `LIRS_prev`,
`LIRS_prev` is the inverse of `LIRS_next`, and blocks off the chain have no links. -/
def S_wellformed (P : Params) (s : State) : Prop :=
  (S_list P s).Nodup ∧ (S_list P s).head? = s.LRU_list_head ∧
  (∀ x, s.LRU_list_head = some x → (s.page_tbl x).LIRS_prev = none) ∧
  (∀ x, (S_list P s).getLast? = some x → (s.page_tbl x).LIRS_next = none) ∧
  (∀ x y, (s.page_tbl x).LIRS_next = some y ↔ (s.page_tbl y).LIRS_prev = some x) ∧
  (∀ x y, (s.page_tbl x).LIRS_next = some y → x ∈ S_list P s ∧ y ∈ S_list P s) ∧
  (∀ x, x ∉ S_list P s → (s.page_tbl x).LIRS_next = none ∧ (s.page_tbl x).LIRS_prev = none)

end LIRS

namespace LIRS

/-- The state `s` with the statistics of the run (`num_pg_flt`, `warm_pg_refs`,
`total_pg_refs`, `collect_stat`) replaced. -/
def setStat (s : State) (f w t : Nat) (c : Bool) : State :=
  { s with num_pg_flt := f, warm_pg_refs := w, total_pg_refs := t, collect_stat := c }

/-- The parameters `P` with another value of `STAT_START_POINT`. -/
def withStart (P : Params) (start : Nat) : Params :=
  { P with STAT_START_POINT := start }

/-- Two states hold the same cache: they agree on the table, the lists of S and Q, the
cursor, the frame and stack counters and the reference bookkeeping, that is on everything
but `num_pg_flt`, `warm_pg_refs` and `collect_stat`. -/
def same_cache (s s1 : State) : Prop :=
  s.page_tbl = s1.page_tbl ∧ s.LRU_list_head = s1.LRU_list_head ∧
  s.LRU_list_tail = s1.LRU_list_tail ∧ s.HIR_list_head = s1.HIR_list_head ∧
  s.HIR_list_tail = s1.HIR_list_tail ∧ s.LIR_LRU_block_ptr = s1.LIR_LRU_block_ptr ∧
  s.free_mem_size = s1.free_mem_size ∧ s.cur_lir_S_len = s1.cur_lir_S_len ∧
  s.total_pg_refs = s1.total_pg_refs ∧ s.no_dup_refs = s1.no_dup_refs ∧
  s.last_ref_pg = s1.last_ref_pg ∧ s.num_LIR_pgs = s1.num_LIR_pgs

/-- Whether a reference to `r` read in state `s` is a miss: it is not a repetition of the
previous reference (those leave the loop body at line 205) and finds its block
non-resident (line 214). -/
def is_miss (s : State) (r : Nat) : Bool :=
  decide (some r ≠ s.last_ref_pg) && !(s.page_tbl r).isResident

/-- For each reference of the trace that the loop of `LIRS_Repl` processes from state `s`,
in order, whether it is a miss. -/
def miss_flags (P : Params) : State → List Nat → List Bool
  | _, [] => []
  | s, r :: rest =>
    match LIRS_Repl_iter P s r with
    | Step.next s1 => is_miss s r :: miss_flags P s1 rest
    | _ => []

/-- What the statistics of a run satisfy between two references: faults are counted among
the warm references only, the warm references are those after the first
`STAT_START_POINT` ones, and statistics are collected from then on. -/
def stat_inv (P : Params) (s : State) : Prop :=
  s.num_pg_flt ≤ s.warm_pg_refs ∧
  s.warm_pg_refs = s.total_pg_refs - P.STAT_START_POINT ∧
  (s.collect_stat = true ↔ (P.STAT_START_POINT = 0 ∨ P.STAT_START_POINT < s.total_pg_refs))

/-- Two runs end the same way and with the same cache: both go on, both return `FALSE`,
or both stop inside the loop body. -/
def same_outcome : Step → Step → Prop
  | Step.next s, Step.next s1 => same_cache s s1
  | Step.returnFALSE s, Step.returnFALSE s1 => same_cache s s1
  | Step.abort, Step.abort => True
  | _, _ => False

/-- One pass of the loop trace of the specification: the references `1, 2, ..., c + 1`. -/
def loop_pass (c : Nat) : List Nat := List.range' 1 (c + 1)

/-- The LIR blocks of the table, in increasing order. -/
def lir_blocks (P : Params) (s : State) : List Nat :=
  (List.range (P.vm_size + 1)).filter fun x => !(s.page_tbl x).isHIR_block

/-- The resident blocks of the table, in increasing order. -/
def resident_blocks (P : Params) (s : State) : List Nat :=
  (List.range (P.vm_size + 1)).filter fun x => (s.page_tbl x).isResident

/-- The LIR blocks, the resident blocks and queue Q after the run on `trace`, if the run
reaches the end of the trace. -/
def cache_after (P : Params) (trace : List Nat) : Option (List Nat × List Nat × List Nat) :=
  (runState P trace).map fun s => (lir_blocks P s, resident_blocks P s, Q_list P s)

/-- Whether the loop stopped inside the body of an iteration (null pointer followed,
`exit(1)`, or a walk that does not end). -/
def is_abort : Step → Bool
  | Step.abort => true
  | _ => false

/-- What holds after the first `k` references of the first pass of the loop trace: the
list of S holds blocks among `1 .. k` only, the first `mem_size -
HIR_block_portion_limit` blocks referenced are LIR, each of them took a free frame, and
the last reference is `k`. -/
structure FirstPass (P : Params) (l : LState) (k : Nat) : Prop where
  S_sub : ∀ x ∈ l.S, 1 ≤ x ∧ x ≤ k
  lir : ∀ x, 1 ≤ x → x ≤ k → x ≤ P.mem_size - P.HIR_block_portion_limit → l.hirF x = false
  free : k ≤ P.mem_size - P.HIR_block_portion_limit → l.free + k = P.mem_size
  last : 1 ≤ k → l.last = some k

/-- The parameters `P` with another value of `MAX_S_LEN`. -/
def withMax (P : Params) (m : Nat) : Params :=
  { P with MAX_S_LEN := m }

/-- Whether, in the run of the loop from `s` on the trace, the stack length found by every
call of `prune_LIRS_stack` is at most `n`. -/
def slen_within (P : Params) (n : Nat) : State → List Nat → Bool
  | _, [] => true
  | s, b :: rest =>
    (match access_core P (count_refs P s) b with
      | some s4 => decide (s4.cur_lir_S_len ≤ n)
      | none => true) &&
    (match LIRS_Repl_iter P s b with
      | Step.next s1 => slen_within P n s1 rest
      | _ => true)

/-- The scan scenario of the specification, `A B 1 B 2 B 3 B 4 B`, with block 0 for `A`
and block 5 for `B`. -/
def scan_trace : List Nat := [0, 5, 1, 5, 2, 5, 3, 5, 4, 5]

/-- Parameters for the scan scenario: the six blocks of the trace, `c` frames of which
`h` for HIR blocks, stack bound `m`, statistics collected from the first reference. -/
def scanParams (c h m : Nat) : Params :=
  { vm_size := 5, mem_size := c, HIR_block_portion_limit := h, MAX_S_LEN := m,
    STAT_START_POINT := 0 }

/-- Parameters for the loop scenario of the specification: the blocks `1 .. 4`, three
frames of which one for HIR blocks. -/
def loopParams : Params :=
  { vm_size := 4, mem_size := 3, HIR_block_portion_limit := 1, MAX_S_LEN := 3,
    STAT_START_POINT := 0 }

end LIRS

namespace LIRS

/-- Number of low binary digits of `n` that do not fit in a significand of 53 digits:
the least `sh` with `n / 2 ^ sh < 2 ^ 53`, for `n < 2 ^ (53 + fuel)`. -/
def drop53 : Nat → Nat → Nat
  | 0, _ => 0
  | fuel + 1, n => if n < 2 ^ 53 then 0 else drop53 fuel (n / 2) + 1

/-- Rounding of the natural number `n` to a `double`: the nearest number with a
significand of 53 binary digits, a tie going to the even significand (IEEE 754 binary64,
round to nearest even). Rounding commutes with scaling by a power of two, so `round53 n /
2 ^ e` is the `double` nearest to `n / 2 ^ e`. Meant for `n < 2 ^ 181`. -/
def round53 (n : Nat) : Nat :=
  let sh := drop53 128 n
  let q := n / 2 ^ sh
  let r := n % 2 ^ sh
  if 2 * r > 2 ^ sh ∨ (2 * r = 2 ^ sh ∧ q % 2 = 1) then (q + 1) * 2 ^ sh else q * 2 ^ sh

/-- Modelled from the spec: the `double` value of `HIR_RATE/100.0` for `HIR_RATE` 1.0 is
`HIR_frac_double / 2 ^ 59`, the `double` nearest to 0.01. -/
def HIR_frac_double : Nat := 5764607523034235

/-- Lines 140-142 of `main` in `double` arithmetic: `mem_size` is converted to `double`,
multiplied by the `double` `HIR_RATE/100.0`, the product is rounded to `double`, the cast
to `unsigned long` truncates it, and the result is raised to `LOWEST_HG_NUM`. -/
def HIR_limit_double (mem_size : Nat) : Nat :=
  let p := round53 (HIR_frac_double * round53 mem_size) / 2 ^ 59
  if p < LOWEST_HG_NUM then LOWEST_HG_NUM else p

end LIRS

/-! ## Links induced by a list -/

namespace LIRS

theorem deref_some {σ : Type} (t : Nat) (k : Nat → Option σ) : deref (some t) k = k t := rfl

theorem deref_none {σ : Type} (k : Nat → Option σ) : deref none k = none := rfl

theorem deref_eq_some {σ : Type} {p : Option Nat} {t : Nat} (h : p = some t)
    (k : Nat → Option σ) : deref p k = k t := by
  subst h; rfl

theorem deref_eq_none {σ : Type} {p : Option Nat} (h : p = none)
    (k : Nat → Option σ) : deref p k = none := by
  subst h; rfl

theorem nextOf_not_mem {l : List Nat} {x : Nat} (h : x ∉ l) : nextOf l x = none := by
  induction l with
  | nil => rfl
  | cons a t ih =>
    simp only [List.mem_cons, not_or] at h
    simp [nextOf, Ne.symm h.1, ih h.2]

theorem prevOf_not_mem {l : List Nat} {x : Nat} (h : x ∉ l) : prevOf l x = none := by
  induction l with
  | nil => rfl
  | cons a t ih =>
    simp only [List.mem_cons, not_or] at h
    have h1 : t.head? ≠ some x := by
      intro hh
      exact h.2 (List.mem_of_mem_head? hh)
    simp [prevOf, h1, ih h.2]

theorem nextOf_mem {l : List Nat} {x y : Nat} (h : nextOf l x = some y) : x ∈ l ∧ y ∈ l := by
  induction l with
  | nil => simp [nextOf] at h
  | cons a t ih =>
    simp only [nextOf] at h
    split_ifs at h with hax
    · subst hax
      exact ⟨List.mem_cons_self _ _, List.mem_cons_of_mem _ (List.mem_of_mem_head? h)⟩
    · exact ⟨List.mem_cons_of_mem _ (ih h).1, List.mem_cons_of_mem _ (ih h).2⟩

theorem prevOf_mem {l : List Nat} {x y : Nat} (h : prevOf l x = some y) : x ∈ l ∧ y ∈ l := by
  induction l with
  | nil => simp [prevOf] at h
  | cons a t ih =>
    simp only [prevOf] at h
    split_ifs at h with hax
    · simp only [Option.some.injEq] at h
      subst h
      exact ⟨List.mem_cons_of_mem _ (List.mem_of_mem_head? hax), List.mem_cons_self _ _⟩
    · exact ⟨List.mem_cons_of_mem _ (ih h).1, List.mem_cons_of_mem _ (ih h).2⟩

theorem nextOf_ne {l : List Nat} (hl : l.Nodup) {x y : Nat} (h : nextOf l x = some y) : y ≠ x := by
  induction l with
  | nil => simp [nextOf] at h
  | cons a t ih =>
    simp only [nextOf] at h
    rw [List.nodup_cons] at hl
    split_ifs at h with hax
    · subst hax
      intro hyx
      subst hyx
      exact hl.1 (List.mem_of_mem_head? h)
    · exact ih hl.2 h

theorem prevOf_head {l : List Nat} (hl : l.Nodup) {y : Nat} (h : l.head? = some y) :
    prevOf l y = none := by
  cases l with
  | nil => rfl
  | cons a t =>
    simp only [List.head?_cons, Option.some.injEq] at h
    subst h
    rw [List.nodup_cons] at hl
    have h1 : t.head? ≠ some a := fun hh => hl.1 (List.mem_of_mem_head? hh)
    simp [prevOf, h1, prevOf_not_mem hl.1]

theorem next_iff_prev {l : List Nat} (hl : l.Nodup) {x y : Nat} :
    nextOf l x = some y ↔ prevOf l y = some x := by
  induction l with
  | nil => simp [nextOf, prevOf]
  | cons a t ih =>
    rw [List.nodup_cons] at hl
    simp only [nextOf, prevOf]
    by_cases hax : a = x
    · subst hax
      by_cases hy : t.head? = some y
      · simp [hy]
      · simp only [if_true, hy, if_false]
        constructor
        · intro h; exact h.elim
        · intro h; exact absurd (prevOf_mem h).2 hl.1
    · by_cases hy : t.head? = some y
      · simp only [hax, if_false, hy, if_true, Option.some.injEq]
        constructor
        · intro h
          have h1 := (ih hl.2).1 h
          rw [prevOf_head hl.2 hy] at h1
          cases h1
        · intro h; exact h.elim
      · simp only [hax, if_false, hy]
        exact ih hl.2

theorem head?_erase (t : List Nat) (h : Nat) :
    (t.erase h).head? = if t.head? = some h then nextOf t h else t.head? := by
  cases t with
  | nil => simp
  | cons b t' =>
    by_cases hb : b = h
    · subst hb; simp [nextOf]
    · simp [List.erase_cons, hb]

theorem nextOf_erase {l : List Nat} (hl : l.Nodup) (h x : Nat) :
    nextOf (l.erase h) x =
      if x = h then none else if nextOf l x = some h then nextOf l h else nextOf l x := by
  induction l with
  | nil => simp [nextOf]
  | cons a t ih =>
    rw [List.nodup_cons] at hl
    by_cases hah : a = h
    · subst hah
      simp only [List.erase_cons_head]
      by_cases hx : x = a
      · subst hx; simp [nextOf_not_mem hl.1]
      · have h1 : nextOf (a :: t) x = nextOf t x := by simp [nextOf, Ne.symm hx]
        have h2 : nextOf t x ≠ some a := fun hh => hl.1 (nextOf_mem hh).2
        simp [hx, h1, h2]
    · have he : (a :: t).erase h = a :: t.erase h := by simp [List.erase_cons, hah]
      rw [he]
      by_cases hax : a = x
      · subst hax
        simp only [nextOf, if_true, hah, if_false]
        rw [head?_erase]
      · simp only [nextOf, hax, if_false, hah]
        exact ih hl.2

theorem prevOf_erase {l : List Nat} (hl : l.Nodup) (h x : Nat) :
    prevOf (l.erase h) x =
      if x = h then none else if prevOf l x = some h then prevOf l h else prevOf l x := by
  induction l with
  | nil => simp [prevOf]
  | cons a t ih =>
    rw [List.nodup_cons] at hl
    by_cases hah : a = h
    · subst hah
      simp only [List.erase_cons_head]
      by_cases hx : x = a
      · subst hx; simp [prevOf_not_mem hl.1]
      · have h3 : t.head? ≠ some a := fun hh => hl.1 (List.mem_of_mem_head? hh)
        have h4 : prevOf t x ≠ some a := fun hh => hl.1 (prevOf_mem hh).2
        by_cases hhd : t.head? = some x
        · simp [prevOf, hx, hhd, prevOf_head hl.2 hhd, h3, prevOf_not_mem hl.1]
        · simp [prevOf, hx, hhd, h4]
    · have he : (a :: t).erase h = a :: t.erase h := by simp [List.erase_cons, hah]
      rw [he]
      have hne : h ∉ t.erase h := fun hm => by
        have := (List.Nodup.mem_erase_iff hl.2).1 hm
        exact this.1 rfl
      by_cases hx : x = h
      · subst hx
        have h5 : (t.erase x).head? ≠ some x := fun hh => hne (List.mem_of_mem_head? hh)
        simp [prevOf, h5, prevOf_not_mem hne]
      · have e1 : prevOf (a :: t.erase h) x =
            if (t.erase h).head? = some x then some a else prevOf (t.erase h) x := rfl
        have e2 : prevOf (a :: t) x = if t.head? = some x then some a else prevOf t x := rfl
        have e3 : prevOf (a :: t) h = if t.head? = some h then some a else prevOf t h := rfl
        rw [e1, e2, e3, head?_erase, ih hl.2, if_neg hx, if_neg hx]
        by_cases hhx : t.head? = some x
        · have h6 : t.head? ≠ some h := by
            rw [hhx]; intro hh; exact hx (Option.some.inj hh)
          have h7 : (some a : Option Nat) ≠ some h := fun hh => hah (Option.some.inj hh)
          rw [if_neg h6, if_pos hhx, if_pos hhx, if_neg h7]
        · by_cases hhh : t.head? = some h
          · rw [if_pos hhh, if_neg hhx, if_pos hhh]
            by_cases hn : nextOf t h = some x
            · have := (next_iff_prev hl.2).1 hn
              rw [if_pos hn, if_pos this]
            · have hp : prevOf t x ≠ some h := fun hh => hn ((next_iff_prev hl.2).2 hh)
              rw [if_neg hn, if_neg hp, if_neg hp]
          · rw [if_neg hhh, if_neg hhx, if_neg hhx, if_neg hhh]

theorem head_of_prevOf_none {l : List Nat} {x : Nat} (hx : x ∈ l) (h : prevOf l x = none) :
    l.head? = some x := by
  induction l with
  | nil => simp at hx
  | cons a t ih =>
    simp only [prevOf] at h
    split_ifs at h with hh
    rcases List.mem_cons.1 hx with rfl | hxt
    · rfl
    · have := ih hxt h
      exact absurd this hh

theorem getLast_of_nextOf_none {l : List Nat} {x : Nat} (hx : x ∈ l) (h : nextOf l x = none) :
    l.getLast? = some x := by
  induction l with
  | nil => simp at hx
  | cons a t ih =>
    simp only [nextOf] at h
    split_ifs at h with hh
    · subst hh
      cases t with
      | nil => rfl
      | cons b t' => simp at h
    · rcases List.mem_cons.1 hx with rfl | hxt
      · exact absurd rfl hh
      · have h1 := ih hxt h
        cases t with
        | nil => simp at hxt
        | cons b t' => rw [List.getLast?_cons_cons]; exact h1

theorem nextOf_getLast {l : List Nat} (hl : l.Nodup) {x : Nat} (h : l.getLast? = some x) :
    nextOf l x = none := by
  induction l with
  | nil => rfl
  | cons a t ih =>
    rw [List.nodup_cons] at hl
    cases t with
    | nil =>
      simp [nextOf]
    | cons b t' =>
      rw [List.getLast?_cons_cons] at h
      have hx : x ∈ b :: t' := List.mem_of_getLast?_eq_some h
      have hax : a ≠ x := fun e => hl.1 (e ▸ hx)
      simp only [nextOf, hax, if_false]
      exact ih hl.2 h

theorem singleton_of_no_links {l : List Nat} {x : Nat} (hx : x ∈ l)
    (hp : prevOf l x = none) (hn : nextOf l x = none) : l = [x] := by
  have h1 := head_of_prevOf_none hx hp
  cases l with
  | nil => simp at hx
  | cons a t =>
    simp only [List.head?_cons, Option.some.injEq] at h1
    subst h1
    simp only [nextOf, if_true] at hn
    cases t with
    | nil => rfl
    | cons b t' => simp at hn

theorem getLast?_erase {l : List Nat} (hl : l.Nodup) {h : Nat} (hh : h ∈ l) :
    (l.erase h).getLast? = if nextOf l h = none then prevOf l h else l.getLast? := by
  induction l with
  | nil => simp at hh
  | cons a t ih =>
    rw [List.nodup_cons] at hl
    by_cases hah : a = h
    · subst hah
      simp only [List.erase_cons_head, nextOf, if_true]
      cases t with
      | nil => simp [prevOf]
      | cons b t' => simp [List.getLast?_cons_cons]
    · have he : (a :: t).erase h = a :: t.erase h := by simp [List.erase_cons, hah]
      have hht : h ∈ t := by
        rcases List.mem_cons.1 hh with e | e
        · exact absurd e.symm hah
        · exact e
      have e1 : nextOf (a :: t) h = nextOf t h := by simp [nextOf, hah]
      have e3 : prevOf (a :: t) h = if t.head? = some h then some a else prevOf t h := rfl
      rw [he, e1, e3]
      cases t with
      | nil => simp at hht
      | cons b t' =>
        by_cases hbh : b = h
        · subst hbh
          simp only [List.erase_cons_head, List.head?_cons, if_true, nextOf]
          cases t' with
          | nil => simp
          | cons c t'' => simp [List.getLast?_cons_cons]
        · have he2 : (b :: t').erase h = b :: t'.erase h := by simp [List.erase_cons, hbh]
          have ih' := ih hl.2 hht
          rw [he2] at ih' ⊢
          rw [List.getLast?_cons_cons, List.getLast?_cons_cons, ih']
          have : (b :: t').head? ≠ some h := by simp [hbh]
          rw [if_neg this]

theorem prevOf_append_mid {X B : List Nat} {p : Nat} (hl : (X ++ p :: B).Nodup) :
    prevOf (X ++ p :: B) p = X.getLast? := by
  induction X with
  | nil =>
    simp only [List.nil_append] at hl ⊢
    exact prevOf_head hl rfl
  | cons a X' ih =>
    simp only [List.cons_append] at hl ⊢
    rw [List.nodup_cons] at hl
    cases X' with
    | nil => simp [prevOf]
    | cons b X'' =>
      have hb : b ≠ p := by
        intro e
        have := hl.2
        simp [e] at this
      have e : prevOf (a :: (b :: X'' ++ p :: B)) p = prevOf (b :: X'' ++ p :: B) p := by
        simp [prevOf, hb]
      rw [e, ih hl.2, List.getLast?_cons_cons]

theorem nextOf_append_mid {X B : List Nat} {p : Nat} (hl : (X ++ p :: B).Nodup) :
    nextOf (X ++ p :: B) p = B.head? := by
  induction X with
  | nil => simp [nextOf]
  | cons a X' ih =>
    simp only [List.cons_append] at hl ⊢
    rw [List.nodup_cons] at hl
    have hap : a ≠ p := by
      intro e
      exact hl.1 (by simp [e])
    simp only [nextOf, hap, if_false]
    exact ih hl.2

theorem head?_insertAfter (n o : Nat) (l : List Nat) : (insertAfter n o l).head? = l.head? := by
  cases l with
  | nil => rfl
  | cons a t => by_cases h : a = n <;> simp [insertAfter, h]

theorem mem_insertAfter {n o : Nat} {l : List Nat} (hn : n ∈ l) (x : Nat) :
    x ∈ insertAfter n o l ↔ x = o ∨ x ∈ l := by
  induction l with
  | nil => simp at hn
  | cons a t ih =>
    by_cases h : a = n
    · simp only [insertAfter, h, if_true, List.mem_cons]
      tauto
    · have hnt : n ∈ t := by
        rcases List.mem_cons.1 hn with e | e
        · exact absurd e.symm h
        · exact e
      simp only [insertAfter, h, if_false, List.mem_cons, ih hnt]
      tauto

theorem insertAfter_not_mem {n o : Nat} {l : List Nat} (hn : n ∉ l) : insertAfter n o l = l := by
  induction l with
  | nil => rfl
  | cons a t ih =>
    simp only [List.mem_cons, not_or] at hn
    simp [insertAfter, Ne.symm hn.1, ih hn.2]

theorem nodup_insertAfter {n o : Nat} {l : List Nat} (hl : l.Nodup) (ho : o ∉ l) :
    (insertAfter n o l).Nodup := by
  induction l with
  | nil => simp [insertAfter]
  | cons a t ih =>
    rw [List.nodup_cons] at hl
    simp only [List.mem_cons, not_or] at ho
    by_cases h : a = n
    · simp only [insertAfter, h, if_true, List.nodup_cons, List.mem_cons, not_or]
      subst h
      exact ⟨⟨Ne.symm ho.1, hl.1⟩, ho.2, hl.2⟩
    · simp only [insertAfter, h, if_false, List.nodup_cons]
      refine ⟨?_, ih hl.2 ho.2⟩
      by_cases hnt : n ∈ t
      · rw [mem_insertAfter hnt]
        simp only [not_or]
        exact ⟨Ne.symm ho.1, hl.1⟩
      · rw [insertAfter_not_mem hnt]; exact hl.1

theorem nextOf_insertAfter {l : List Nat} {n o : Nat} (hl : l.Nodup) (ho : o ∉ l) (hn : n ∈ l)
    (x : Nat) :
    nextOf (insertAfter n o l) x =
      if x = n then some o else if x = o then nextOf l n else nextOf l x := by
  induction l with
  | nil => simp at hn
  | cons a t ih =>
    rw [List.nodup_cons] at hl
    simp only [List.mem_cons, not_or] at ho
    by_cases han : a = n
    · subst han
      have e : insertAfter a o (a :: t) = a :: o :: t := by simp [insertAfter]
      rw [e]
      by_cases hxa : x = a
      · subst hxa; simp [nextOf]
      · by_cases hxo : x = o
        · subst hxo; simp [nextOf, Ne.symm hxa, hxa]
        · simp [nextOf, hxa, hxo, Ne.symm hxa, Ne.symm hxo]
    · have hnt : n ∈ t := by
        rcases List.mem_cons.1 hn with e | e
        · exact absurd e.symm han
        · exact e
      have e : insertAfter n o (a :: t) = a :: insertAfter n o t := by simp [insertAfter, han]
      rw [e]
      by_cases hxa : x = a
      · subst hxa
        have h1 : x ≠ n := han
        have h2 : x ≠ o := Ne.symm ho.1
        simp [nextOf, head?_insertAfter, h1, h2]
      · have e1 : nextOf (a :: insertAfter n o t) x = nextOf (insertAfter n o t) x := by
          simp [nextOf, Ne.symm hxa]
        have e2 : nextOf (a :: t) x = nextOf t x := by simp [nextOf, Ne.symm hxa]
        have e3 : nextOf (a :: t) n = nextOf t n := by simp [nextOf, han]
        rw [e1, e2, e3, ih hl.2 ho.2 hnt]

theorem prevOf_insertAfter {l : List Nat} {n o : Nat} (hl : l.Nodup) (ho : o ∉ l) (hn : n ∈ l)
    (x : Nat) :
    prevOf (insertAfter n o l) x =
      if x = o then some n else if nextOf l n = some x then some o else prevOf l x := by
  induction l with
  | nil => simp at hn
  | cons a t ih =>
    rw [List.nodup_cons] at hl
    simp only [List.mem_cons, not_or] at ho
    by_cases han : a = n
    · subst han
      have e : insertAfter a o (a :: t) = a :: o :: t := by simp [insertAfter]
      rw [e]
      by_cases hxo : x = o
      · subst hxo; simp [prevOf]
      · have hne : (some o : Option Nat) ≠ some x := fun hh => hxo (Option.some.inj hh).symm
        by_cases hh : t.head? = some x
        · simp [prevOf, nextOf, hxo, hh, hne]
        · simp [prevOf, nextOf, hxo, hh, hne]
    · have hnt : n ∈ t := by
        rcases List.mem_cons.1 hn with e | e
        · exact absurd e.symm han
        · exact e
      have e : insertAfter n o (a :: t) = a :: insertAfter n o t := by simp [insertAfter, han]
      have e1 : prevOf (a :: insertAfter n o t) x =
          if t.head? = some x then some a else prevOf (insertAfter n o t) x := by
        simp [prevOf, head?_insertAfter]
      have e2 : prevOf (a :: t) x = if t.head? = some x then some a else prevOf t x := rfl
      have e3 : nextOf (a :: t) n = nextOf t n := by simp [nextOf, han]
      rw [e, e1, e2, e3, ih hl.2 ho.2 hnt]
      by_cases hxo : x = o
      · subst hxo
        have : t.head? ≠ some x := fun hh => ho.2 (List.mem_of_mem_head? hh)
        simp [this]
      · by_cases hh : t.head? = some x
        · have h1 : nextOf t n ≠ some x := by
            intro hnx
            have := (next_iff_prev hl.2).1 hnx
            rw [prevOf_head hl.2 hh] at this
            cases this
          simp [hxo, hh, h1]
        · simp [hxo, hh]

theorem nextOf_no_two_cycle {l : List Nat} (hl : l.Nodup) {x y : Nat}
    (h : nextOf l x = some y) : nextOf l y ≠ some x := by
  induction l with
  | nil => simp [nextOf] at h
  | cons a t ih =>
    rw [List.nodup_cons] at hl
    simp only [nextOf] at h ⊢
    by_cases hax : a = x
    · subst hax
      rw [if_pos rfl] at h
      have hy : y ∈ t := List.mem_of_mem_head? h
      have hay : a ≠ y := fun e => hl.1 (e ▸ hy)
      rw [if_neg hay]
      intro hh
      exact hl.1 (nextOf_mem hh).2
    · rw [if_neg hax] at h
      have hy : y ∈ t := (nextOf_mem h).2
      have hay : a ≠ y := fun e => hl.1 (e ▸ hy)
      rw [if_neg hay]
      exact ih hl.2 h

end LIRS

/-! ## The table functions act on the lists -/

namespace LIRS

theorem conc_init (P : Params) : conc (l_init P) = init_state P := by
  apply State.ext <;> rfl

theorem conc_remove_HIR_list (l : LState) (h : Nat) (hq : l.Q.Nodup) (hh : h ∈ l.Q) :
    remove_HIR_list (conc l) h = conc (l_remove_HIR_list l h) := by
  have hne : ∀ p, prevOf l.Q h = some p → p ≠ h := fun p hp =>
    Ne.symm (nextOf_ne hq ((next_iff_prev hq).2 hp))
  have hne2 : ∀ n, nextOf l.Q h = some n → n ≠ h := fun n hn => nextOf_ne hq hn
  have d1 : ∀ x, nextOf l.Q x = some h ↔ prevOf l.Q h = some x := fun x => next_iff_prev hq
  have d2 : ∀ x, prevOf l.Q x = some h ↔ nextOf l.Q h = some x := fun x =>
    (next_iff_prev hq).symm
  have hhd := head?_erase l.Q h
  have hlt := getLast?_erase hq hh
  cases hp : prevOf l.Q h with
  | none =>
    have hhead := head_of_prevOf_none hh hp
    cases hn : nextOf l.Q h with
    | none =>
      apply State.ext
      · funext x
        by_cases hx : x = h <;>
        simp [remove_HIR_list, l_remove_HIR_list, conc, setPage, Function.update_apply, prevOf_erase hq,
          nextOf_erase hq, hp, hn, d1, d2, hx]
      all_goals simp [remove_HIR_list, l_remove_HIR_list, conc, setPage, hp, hn, hhd, hlt, hhead]
    | some n =>
      have hnh := hne2 n hn
      have hhn := Ne.symm hnh
      apply State.ext
      · funext x
        by_cases hx : x = h
        · subst hx
          simp [remove_HIR_list, l_remove_HIR_list, conc, setPage, Function.update_apply, prevOf_erase hq,
            nextOf_erase hq, hp, hn, d1, d2, hnh, hhn]
        · by_cases hxn : x = n
          · subst hxn
            simp [remove_HIR_list, l_remove_HIR_list, conc, setPage, Function.update_apply, prevOf_erase hq,
              nextOf_erase hq, hp, hn, d1, d2, hnh, hhn]
          · simp [remove_HIR_list, l_remove_HIR_list, conc, setPage, Function.update_apply, prevOf_erase hq,
              nextOf_erase hq, hp, hn, d1, d2, hnh, hhn, hx, hxn, Ne.symm hxn]
      all_goals simp [remove_HIR_list, l_remove_HIR_list, conc, setPage, hp, hn, hhd, hlt, hhead,
        Function.update_apply, hnh, hhn]
  | some p =>
    have hph := hne p hp
    have hhp := Ne.symm hph
    have hhead : l.Q.head? ≠ some h := fun e => by
      rw [prevOf_head hq e] at hp; cases hp
    cases hn : nextOf l.Q h with
    | none =>
      apply State.ext
      · funext x
        by_cases hx : x = h
        · subst hx
          simp [remove_HIR_list, l_remove_HIR_list, conc, setPage, Function.update_apply, prevOf_erase hq,
            nextOf_erase hq, hp, hn, d1, d2, hph, hhp]
        · by_cases hxp : x = p
          · subst hxp
            simp [remove_HIR_list, l_remove_HIR_list, conc, setPage, Function.update_apply, prevOf_erase hq,
              nextOf_erase hq, hp, hn, d1, d2, hph, hhp]
          · simp [remove_HIR_list, l_remove_HIR_list, conc, setPage, Function.update_apply, prevOf_erase hq,
              nextOf_erase hq, hp, hn, d1, d2, hph, hhp, hx, hxp, Ne.symm hxp]
      all_goals simp [remove_HIR_list, l_remove_HIR_list, conc, setPage, hp, hn, hhd, hlt, hhead,
        Function.update_apply, hph, hhp]
    | some n =>
      have hnh := hne2 n hn
      have hhn := Ne.symm hnh
      have hpn : p ≠ n := by
        intro e
        subst e
        have h1 : nextOf l.Q p = some h := (d1 p).2 hp
        exact nextOf_no_two_cycle hq h1 hn
      apply State.ext
      · funext x
        by_cases hx : x = h
        · subst hx
          simp [remove_HIR_list, l_remove_HIR_list, conc, setPage, Function.update_apply, prevOf_erase hq,
            nextOf_erase hq, hp, hn, d1, d2, hph, hhp, hnh, hhn]
        · by_cases hxp : x = p
          · subst hxp
            simp [remove_HIR_list, l_remove_HIR_list, conc, setPage, Function.update_apply, prevOf_erase hq,
              nextOf_erase hq, hp, hn, d1, d2, hph, hhp, hnh, hhn, hpn, Ne.symm hpn]
          · by_cases hxn : x = n
            · subst hxn
              simp [remove_HIR_list, l_remove_HIR_list, conc, setPage, Function.update_apply, prevOf_erase hq,
                nextOf_erase hq, hp, hn, d1, d2, hph, hhp, hnh, hhn, hpn, Ne.symm hpn]
            · simp [remove_HIR_list, l_remove_HIR_list, conc, setPage, Function.update_apply, prevOf_erase hq,
                nextOf_erase hq, hp, hn, d1, d2, hph, hhp, hnh, hhn, hx, hxp, hxn,
                Ne.symm hxp, Ne.symm hxn]
      all_goals simp [remove_HIR_list, l_remove_HIR_list, conc, setPage, hp, hn, hhd, hlt, hhead,
        Function.update_apply, hph, hhp, hnh, hhn]

theorem conc_add_HIR_list_head (l : LState) (n : Nat) (hn : n ∉ l.Q) :
    add_HIR_list_head (conc l) n = conc (l_add_HIR_list_head l n) := by
  have hp : prevOf l.Q n = none := prevOf_not_mem hn
  cases hQ : l.Q with
  | nil =>
    apply State.ext
    · funext x
      by_cases hx : x = n
      · subst hx
        simp [add_HIR_list_head, l_add_HIR_list_head, conc, setPage, hQ, nextOf, prevOf]
      · simp [add_HIR_list_head, l_add_HIR_list_head, conc, setPage, hQ, nextOf, prevOf, hx,
          Function.update_apply, Ne.symm hx]
    all_goals simp [add_HIR_list_head, l_add_HIR_list_head, conc, setPage, hQ]
  | cons a t =>
    rw [hQ] at hn hp
    have han : a ≠ n := fun e => hn (by simp [e])
    have hna : n ≠ a := Ne.symm han
    apply State.ext
    · funext x
      have e1 : nextOf (n :: a :: t) x = if n = x then some a else nextOf (a :: t) x := rfl
      have e2 : prevOf (n :: a :: t) x = if a = x then some n else prevOf (a :: t) x := by
        simp [prevOf]
      by_cases hx : x = n
      · subst hx
        simp [add_HIR_list_head, l_add_HIR_list_head, conc, setPage, hQ, e1, e2,
          Function.update_apply, han, hna, hp]
      · by_cases hxa : x = a
        · subst hxa
          simp [add_HIR_list_head, l_add_HIR_list_head, conc, setPage, hQ, e1, e2,
            Function.update_apply, han, hna]
        · simp [add_HIR_list_head, l_add_HIR_list_head, conc, setPage, hQ, e1, e2,
            Function.update_apply, han, hna, hx, hxa, Ne.symm hx, Ne.symm hxa]
    all_goals simp [add_HIR_list_head, l_add_HIR_list_head, conc, setPage, hQ,
      Function.update_apply, List.getLast?_cons_cons]

theorem conc_set_isResident (l : LState) (i : Nat) (v : Bool) :
    setPage (conc l) i { (conc l).page_tbl i with isResident := v } =
      conc { l with resF := Function.update l.resF i v } := by
  apply State.ext
  · funext x
    by_cases hx : x = i
    · subst hx; simp [conc, setPage]
    · simp [conc, setPage, Function.update_apply, hx]
  all_goals rfl

theorem conc_set_isHIR_block (l : LState) (i : Nat) (v : Bool) :
    setPage (conc l) i { (conc l).page_tbl i with isHIR_block := v } =
      conc { l with hirF := Function.update l.hirF i v } := by
  apply State.ext
  · funext x
    by_cases hx : x = i
    · subst hx; simp [conc, setPage]
    · simp [conc, setPage, Function.update_apply, hx]
  all_goals rfl

theorem conc_set_recency (l : LState) (i : Nat) (v : Bool) :
    setPage (conc l) i { (conc l).page_tbl i with recency := v } =
      conc { l with recF := Function.update l.recF i v } := by
  apply State.ext
  · funext x
    by_cases hx : x = i
    · subst hx; simp [conc, setPage]
    · simp [conc, setPage, Function.update_apply, hx]
  all_goals rfl

theorem find_last_LIR_LRU_loop_hir (k : Nat) (s : State) (p : Nat)
    (h1 : s.LIR_LRU_block_ptr = some p) (h2 : (s.page_tbl p).isHIR_block = true) :
    find_last_LIR_LRU_loop (k + 1) s =
      find_last_LIR_LRU_loop k
          { setPage s p { s.page_tbl p with recency := S_STACK_OUT } with
            cur_lir_S_len := dec64 s.cur_lir_S_len,
            LIR_LRU_block_ptr := (s.page_tbl p).LIRS_prev } := by
  rw [find_last_LIR_LRU_loop, h1]
  simp only []
  rw [if_pos h2]

theorem find_last_LIR_LRU_loop_lir (k : Nat) (s : State) (p : Nat)
    (h1 : s.LIR_LRU_block_ptr = some p) (h2 : ¬ (s.page_tbl p).isHIR_block = true) :
    find_last_LIR_LRU_loop (k + 1) s = some s := by
  rw [find_last_LIR_LRU_loop, h1]
  simp only []
  rw [if_neg h2]

theorem l_find_last_LIR_LRU_loop_hir (k : Nat) (l : LState) (p : Nat)
    (h1 : l.cur = some p) (h2 : l.hirF p = true) :
    l_find_last_LIR_LRU_loop (k + 1) l =
      l_find_last_LIR_LRU_loop k
          { l with recF := Function.update l.recF p S_STACK_OUT,
                   slen := dec64 l.slen, cur := prevOf l.S p } := by
  rw [l_find_last_LIR_LRU_loop, h1]
  simp only []
  rw [if_pos h2]

theorem l_find_last_LIR_LRU_loop_lir (k : Nat) (l : LState) (p : Nat)
    (h1 : l.cur = some p) (h2 : ¬ l.hirF p = true) :
    l_find_last_LIR_LRU_loop (k + 1) l = some l := by
  rw [l_find_last_LIR_LRU_loop, h1]
  simp only []
  rw [if_neg h2]

theorem conc_find_last_LIR_LRU_loop (fuel : Nat) (l : LState) :
    find_last_LIR_LRU_loop fuel (conc l) = (l_find_last_LIR_LRU_loop fuel l).map conc := by
  induction fuel generalizing l with
  | zero => rfl
  | succ k ih =>
    cases hc : l.cur with
    | none => simp [find_last_LIR_LRU_loop, l_find_last_LIR_LRU_loop, conc, hc]
    | some p =>
      have h1 : (conc l).LIR_LRU_block_ptr = some p := hc
      by_cases hh : l.hirF p = true
      · have key : ({ setPage (conc l) p { (conc l).page_tbl p with recency := S_STACK_OUT } with
              cur_lir_S_len := dec64 (conc l).cur_lir_S_len,
              LIR_LRU_block_ptr := ((conc l).page_tbl p).LIRS_prev } : State) =
            conc { l with recF := Function.update l.recF p S_STACK_OUT,
                          slen := dec64 l.slen, cur := prevOf l.S p } := by
          rw [conc_set_recency]; rfl
        have h2 : ((conc l).page_tbl p).isHIR_block = true := hh
        rw [find_last_LIR_LRU_loop_hir k _ p h1 h2, l_find_last_LIR_LRU_loop_hir k _ p hc hh,
          key, ih]
      · have h2 : ¬ ((conc l).page_tbl p).isHIR_block = true := hh
        rw [find_last_LIR_LRU_loop_lir k _ p h1 h2, l_find_last_LIR_LRU_loop_lir k _ p hc hh]
        rfl

theorem conc_find_last_LIR_LRU (P : Params) (l : LState) :
    find_last_LIR_LRU P (conc l) = (l_find_last_LIR_LRU P l).map conc := by
  cases hc : l.cur with
  | none => simp [find_last_LIR_LRU, l_find_last_LIR_LRU, conc, hc]
  | some p =>
    have h1 : (conc l).LIR_LRU_block_ptr = some p := hc
    simp only [find_last_LIR_LRU, l_find_last_LIR_LRU, h1, hc]
    exact conc_find_last_LIR_LRU_loop _ l

theorem conc_unlink_LIRS (l : LState) (h : Nat) (hq : l.S.Nodup) (hh : h ∈ l.S) :
    unlink_LIRS (conc l) h = conc (l_unlink_LIRS l h) := by
  have hne : ∀ p, prevOf l.S h = some p → p ≠ h := fun p hp =>
    Ne.symm (nextOf_ne hq ((next_iff_prev hq).2 hp))
  have hne2 : ∀ n, nextOf l.S h = some n → n ≠ h := fun n hn => nextOf_ne hq hn
  have d1 : ∀ x, nextOf l.S x = some h ↔ prevOf l.S h = some x := fun x => next_iff_prev hq
  have d2 : ∀ x, prevOf l.S x = some h ↔ nextOf l.S h = some x := fun x =>
    (next_iff_prev hq).symm
  have hhd := head?_erase l.S h
  cases hp : prevOf l.S h with
  | none =>
    have hhead := head_of_prevOf_none hh hp
    cases hn : nextOf l.S h with
    | none =>
      apply State.ext
      · funext x
        by_cases hx : x = h <;>
        simp [unlink_LIRS, l_unlink_LIRS, conc, setPage, Function.update_apply, prevOf_erase hq,
          nextOf_erase hq, hp, hn, d1, d2, hx]
      all_goals simp [unlink_LIRS, l_unlink_LIRS, conc, setPage, hp, hn, hhd, hhead]
    | some n =>
      have hnh := hne2 n hn
      have hhn := Ne.symm hnh
      apply State.ext
      · funext x
        by_cases hx : x = h
        · subst hx
          simp [unlink_LIRS, l_unlink_LIRS, conc, setPage, Function.update_apply, prevOf_erase hq,
            nextOf_erase hq, hp, hn, d1, d2, hnh, hhn]
        · by_cases hxn : x = n
          · subst hxn
            simp [unlink_LIRS, l_unlink_LIRS, conc, setPage, Function.update_apply, prevOf_erase hq,
              nextOf_erase hq, hp, hn, d1, d2, hnh, hhn]
          · simp [unlink_LIRS, l_unlink_LIRS, conc, setPage, Function.update_apply, prevOf_erase hq,
              nextOf_erase hq, hp, hn, d1, d2, hnh, hhn, hx, hxn, Ne.symm hxn]
      all_goals simp [unlink_LIRS, l_unlink_LIRS, conc, setPage, hp, hn, hhd, hhead,
        Function.update_apply, hnh, hhn]
  | some p =>
    have hph := hne p hp
    have hhp := Ne.symm hph
    have hhead : l.S.head? ≠ some h := fun e => by
      rw [prevOf_head hq e] at hp; cases hp
    cases hn : nextOf l.S h with
    | none =>
      apply State.ext
      · funext x
        by_cases hx : x = h
        · subst hx
          simp [unlink_LIRS, l_unlink_LIRS, conc, setPage, Function.update_apply, prevOf_erase hq,
            nextOf_erase hq, hp, hn, d1, d2, hph, hhp]
        · by_cases hxp : x = p
          · subst hxp
            simp [unlink_LIRS, l_unlink_LIRS, conc, setPage, Function.update_apply, prevOf_erase hq,
              nextOf_erase hq, hp, hn, d1, d2, hph, hhp]
          · simp [unlink_LIRS, l_unlink_LIRS, conc, setPage, Function.update_apply, prevOf_erase hq,
              nextOf_erase hq, hp, hn, d1, d2, hph, hhp, hx, hxp, Ne.symm hxp]
      all_goals simp [unlink_LIRS, l_unlink_LIRS, conc, setPage, hp, hn, hhd, hhead,
        Function.update_apply, hph, hhp]
    | some n =>
      have hnh := hne2 n hn
      have hhn := Ne.symm hnh
      have hpn : p ≠ n := by
        intro e
        subst e
        have h1 : nextOf l.S p = some h := (d1 p).2 hp
        exact nextOf_no_two_cycle hq h1 hn
      apply State.ext
      · funext x
        by_cases hx : x = h
        · subst hx
          simp [unlink_LIRS, l_unlink_LIRS, conc, setPage, Function.update_apply, prevOf_erase hq,
            nextOf_erase hq, hp, hn, d1, d2, hph, hhp, hnh, hhn]
        · by_cases hxp : x = p
          · subst hxp
            simp [unlink_LIRS, l_unlink_LIRS, conc, setPage, Function.update_apply, prevOf_erase hq,
              nextOf_erase hq, hp, hn, d1, d2, hph, hhp, hnh, hhn, hpn, Ne.symm hpn]
          · by_cases hxn : x = n
            · subst hxn
              simp [unlink_LIRS, l_unlink_LIRS, conc, setPage, Function.update_apply,
                prevOf_erase hq, nextOf_erase hq, hp, hn, d1, d2, hph, hhp, hnh, hhn, hpn,
                Ne.symm hpn]
            · simp [unlink_LIRS, l_unlink_LIRS, conc, setPage, Function.update_apply,
                prevOf_erase hq, nextOf_erase hq, hp, hn, d1, d2, hph, hhp, hnh, hhn, hx, hxp,
                hxn, Ne.symm hxp, Ne.symm hxn]
      all_goals simp [unlink_LIRS, l_unlink_LIRS, conc, setPage, hp, hn, hhd, hhead,
        Function.update_apply, hph, hhp, hnh, hhn]

theorem l_find_last_LIR_LRU_loop_S (k : Nat) (l l1 : LState)
    (h : l_find_last_LIR_LRU_loop k l = some l1) :
    l1.S = l.S ∧ l1.Q = l.Q ∧ l1.hirF = l.hirF ∧ l1.resF = l.resF ∧ l1.tailp = l.tailp ∧
    l1.free = l.free ∧ l1.nlir = l.nlir ∧ l1.last = l.last ∧ l1.flt = l.flt ∧
    l1.total = l.total ∧ l1.warm = l.warm ∧ l1.nodup = l.nodup ∧ l1.collect = l.collect := by
  induction k generalizing l with
  | zero => simp [l_find_last_LIR_LRU_loop] at h
  | succ k ih =>
    cases hc : l.cur with
    | none => simp [l_find_last_LIR_LRU_loop, hc] at h
    | some p =>
      by_cases hh : l.hirF p = true
      · rw [l_find_last_LIR_LRU_loop_hir k _ p hc hh] at h
        have := ih _ h
        simpa using this
      · rw [l_find_last_LIR_LRU_loop_lir k _ p hc hh] at h
        cases h
        simp

theorem l_find_last_LIR_LRU_S (P : Params) (l l1 : LState)
    (h : l_find_last_LIR_LRU P l = some l1) :
    l1.S = l.S ∧ l1.Q = l.Q ∧ l1.hirF = l.hirF ∧ l1.resF = l.resF ∧ l1.tailp = l.tailp ∧
    l1.free = l.free ∧ l1.nlir = l.nlir ∧ l1.last = l.last ∧ l1.flt = l.flt ∧
    l1.total = l.total ∧ l1.warm = l.warm ∧ l1.nodup = l.nodup ∧ l1.collect = l.collect := by
  cases hc : l.cur with
  | none => simp [l_find_last_LIR_LRU, hc] at h
  | some p =>
    simp only [l_find_last_LIR_LRU, hc] at h
    exact l_find_last_LIR_LRU_loop_S _ _ _ h

theorem conc_remove_LIRS_list (P : Params) (l : LState) (x : Nat) (hq : l.S.Nodup) :
    remove_LIRS_list P (conc l) x = (l_remove_LIRS_list P l x).map conc := by
  by_cases hc : prevOf l.S x = none ∧ nextOf l.S x = none
  · have hc2 : ((conc l).page_tbl x).LIRS_prev = none ∧ ((conc l).page_tbl x).LIRS_next = none :=
      hc
    rw [remove_LIRS_list, l_remove_LIRS_list, if_pos hc, if_pos hc2]
    rfl
  · have hc2 : ¬ (((conc l).page_tbl x).LIRS_prev = none ∧
        ((conc l).page_tbl x).LIRS_next = none) := hc
    have hx : x ∈ l.S := by
      by_contra hx
      exact hc ⟨prevOf_not_mem hx, nextOf_not_mem hx⟩
    rw [remove_LIRS_list, l_remove_LIRS_list, if_neg hc, if_neg hc2]
    by_cases hcur : some x = l.cur
    · have hcur2 : some x = (conc l).LIR_LRU_block_ptr := hcur
      have e : ({ conc l with LIR_LRU_block_ptr := ((conc l).page_tbl x).LIRS_prev } : State) =
          conc { l with cur := prevOf l.S x } := rfl
      rw [if_pos hcur, if_pos hcur2, e, conc_find_last_LIR_LRU]
      cases hf : l_find_last_LIR_LRU P { l with cur := prevOf l.S x } with
      | none => rfl
      | some l1 =>
        have hS := (l_find_last_LIR_LRU_S P _ _ hf).1
        simp only [Option.map_some', Option.bind_eq_bind, Option.some_bind]
        rw [conc_unlink_LIRS l1 x (hS ▸ hq) (hS ▸ hx)]
    · have hcur2 : ¬ some x = (conc l).LIR_LRU_block_ptr := hcur
      rw [if_neg hcur, if_neg hcur2]
      simp only [Option.map_some', Option.bind_eq_bind, Option.some_bind]
      rw [conc_unlink_LIRS l x hq hx]

end LIRS

namespace LIRS

theorem conc_add_LRU_list_head (l : LState) (n : Nat) (hn : n ∉ l.S) :
    add_LRU_list_head (conc l) n = conc (l_add_LRU_list_head l n) := by
  have hp : prevOf l.S n = none := prevOf_not_mem hn
  cases hQ : l.S with
  | nil =>
    apply State.ext
    · funext x
      by_cases hx : x = n
      · subst hx
        simp [add_LRU_list_head, l_add_LRU_list_head, conc, setPage, hQ, nextOf, prevOf]
      · simp [add_LRU_list_head, l_add_LRU_list_head, conc, setPage, hQ, nextOf, prevOf, hx,
          Function.update_apply, Ne.symm hx]
    all_goals simp [add_LRU_list_head, l_add_LRU_list_head, conc, setPage, hQ]
  | cons a t =>
    rw [hQ] at hn hp
    have han : a ≠ n := fun e => hn (by simp [e])
    have hna : n ≠ a := Ne.symm han
    apply State.ext
    · funext x
      have e1 : nextOf (n :: a :: t) x = if n = x then some a else nextOf (a :: t) x := rfl
      have e2 : prevOf (n :: a :: t) x = if a = x then some n else prevOf (a :: t) x := by
        simp [prevOf]
      by_cases hx : x = n
      · subst hx
        simp [add_LRU_list_head, l_add_LRU_list_head, conc, setPage, hQ, e1, e2,
          Function.update_apply, han, hna, hp]
      · by_cases hxa : x = a
        · subst hxa
          simp [add_LRU_list_head, l_add_LRU_list_head, conc, setPage, hQ, e1, e2,
            Function.update_apply, han, hna]
        · simp [add_LRU_list_head, l_add_LRU_list_head, conc, setPage, hQ, e1, e2,
            Function.update_apply, han, hna, hx, hxa, Ne.symm hx, Ne.symm hxa]
    all_goals simp [add_LRU_list_head, l_add_LRU_list_head, conc, setPage, hQ,
      Function.update_apply]

theorem conc_insert_LRU_list (l : LState) (o n : Nat) (hl : l.S.Nodup) (ho : o ∉ l.S)
    (hn : n ∈ l.S) :
    insert_LRU_list (conc l) o n = conc (l_insert_LRU_list l o n) := by
  have hon : o ≠ n := fun e => ho (e ▸ hn)
  have hno : n ≠ o := Ne.symm hon
  have hpo : prevOf l.S o = none := prevOf_not_mem ho
  have hnxo : nextOf l.S o = none := nextOf_not_mem ho
  cases hnn : nextOf l.S n with
  | none =>
    apply State.ext
    · funext x
      by_cases hx : x = o
      · subst hx
        simp [insert_LRU_list, l_insert_LRU_list, conc, setPage, Function.update_apply,
          nextOf_insertAfter hl ho hn, prevOf_insertAfter hl ho hn, hnn, hon, hno]
      · by_cases hxn : x = n
        · subst hxn
          simp [insert_LRU_list, l_insert_LRU_list, conc, setPage, Function.update_apply,
            nextOf_insertAfter hl ho hn, prevOf_insertAfter hl ho hn, hnn, hon, hno]
        · simp [insert_LRU_list, l_insert_LRU_list, conc, setPage, Function.update_apply,
            nextOf_insertAfter hl ho hn, prevOf_insertAfter hl ho hn, hnn, hon, hno, hx, hxn]
    all_goals simp [insert_LRU_list, l_insert_LRU_list, conc, setPage, Function.update_apply,
      hnn, hon, hno, head?_insertAfter]
  | some m =>
    have hmn : m ≠ n := nextOf_ne hl hnn
    have hnm : n ≠ m := Ne.symm hmn
    have hmo : m ≠ o := fun e => ho (e ▸ (nextOf_mem hnn).2)
    have hom : o ≠ m := Ne.symm hmo
    apply State.ext
    · funext x
      by_cases hx : x = o
      · subst hx
        simp [insert_LRU_list, l_insert_LRU_list, conc, setPage, Function.update_apply,
          nextOf_insertAfter hl ho hn, prevOf_insertAfter hl ho hn, hnn, hon, hno, hmn, hnm,
          hmo, hom]
      · by_cases hxn : x = n
        · subst hxn
          simp [insert_LRU_list, l_insert_LRU_list, conc, setPage, Function.update_apply,
            nextOf_insertAfter hl ho hn, prevOf_insertAfter hl ho hn, hnn, hon, hno, hmn, hnm,
            hmo, hom]
        · by_cases hxm : x = m
          · subst hxm
            simp [insert_LRU_list, l_insert_LRU_list, conc, setPage, Function.update_apply,
              nextOf_insertAfter hl ho hn, prevOf_insertAfter hl ho hn, hnn, hon, hno, hmn, hnm,
              hmo, hom]
          · simp [insert_LRU_list, l_insert_LRU_list, conc, setPage, Function.update_apply,
              nextOf_insertAfter hl ho hn, prevOf_insertAfter hl ho hn, hnn, hon, hno, hmn, hnm,
              hmo, hom, hx, hxn, hxm, Ne.symm hxm]
    all_goals simp [insert_LRU_list, l_insert_LRU_list, conc, setPage, Function.update_apply,
      hnn, hon, hno, hmn, hnm, hmo, hom, head?_insertAfter]

theorem conc_prune_scan (l : LState) (fuel : Nat) (t : Option Nat) :
    prune_scan (conc l) fuel t = l_prune_scan l fuel t := by
  induction fuel generalizing t with
  | zero => rfl
  | succ k ih =>
    cases t with
    | none => rfl
    | some t =>
      simp only [prune_scan, l_prune_scan]
      have e1 : ((conc l).page_tbl t).isHIR_block = l.hirF t := rfl
      have e2 : ((conc l).page_tbl t).LIRS_prev = prevOf l.S t := rfl
      rw [e1, e2, ih]

end LIRS

/-! ## Closed forms of the two walks -/

namespace LIRS

theorem dec64_pos {n : Nat} (h : 0 < n) : dec64 n = n - 1 := by
  unfold dec64
  rw [if_neg (by omega)]

theorem exists_last_split {L : List Nat} {p : Nat → Prop} (h : ∃ x ∈ L, p x) :
    ∃ A d hs, L = A ++ d :: hs ∧ p d ∧ ∀ x ∈ hs, ¬ p x := by
  induction L with
  | nil => obtain ⟨x, hx, _⟩ := h; simp at hx
  | cons a t ih =>
    by_cases ht : ∃ x ∈ t, p x
    · obtain ⟨A, d, hs, e, hd, hh⟩ := ih ht
      exact ⟨a :: A, d, hs, by simp [e], hd, hh⟩
    · have ha : p a := by
        obtain ⟨x, hx, hpx⟩ := h
        rcases List.mem_cons.1 hx with e | e
        · exact e ▸ hpx
        · exact absurd ⟨x, e, hpx⟩ ht
      refine ⟨[], a, t, rfl, ha, ?_⟩
      intro x hx hpx
      exact ht ⟨x, hx, hpx⟩

theorem l_find_last_closed (fuel : Nat) (A : List Nat) (d : Nat) (hs : List Nat) :
    ∀ (R : List Nat) (l : LState), l.S = A ++ d :: hs ++ R → l.S.Nodup → l.cur = (d :: hs).getLast? →
      l.hirF d = false → (∀ x ∈ hs, l.hirF x = true) → hs.length ≤ l.slen →
      hs.length < fuel →
      l_find_last_LIR_LRU_loop fuel l =
        some { l with recF := fun x => if x ∈ hs then false else l.recF x,
                      slen := l.slen - hs.length, cur := some d } := by
  induction hs using List.reverseRecOn generalizing fuel with
  | nil =>
    intro R l _ _ hcur hd _ _ hf
    obtain ⟨k, rfl⟩ : ∃ k, fuel = k + 1 := ⟨fuel - 1, by simp at hf; omega⟩
    have hc : l.cur = some d := by simpa using hcur
    rw [l_find_last_LIR_LRU_loop_lir k l d hc (by simp [hd])]
    congr 1
    apply LState.ext <;> first | rfl | simp [hc]
  | append_singleton hs p ih =>
    intro R l hS hnd hcur hd hh hlen hf
    obtain ⟨k, rfl⟩ : ∃ k, fuel = k + 1 := ⟨fuel - 1, by simp at hf; omega⟩
    have hc : l.cur = some p := by
      rw [hcur]
      have := List.getLast?_append_cons (d :: hs) p []
      simpa using this
    have hp : l.hirF p = true := hh p (by simp)
    rw [l_find_last_LIR_LRU_loop_hir k l p hc hp]
    have hS2 : l.S = (A ++ d :: hs) ++ p :: R := by rw [hS]; simp
    have hprev : prevOf l.S p = (d :: hs).getLast? := by
      have := prevOf_append_mid (X := A ++ d :: hs) (B := R) (p := p) (hS2 ▸ hnd)
      rw [hS2, this]
      exact List.getLast?_append_cons A d hs
    simp only [List.length_append, List.length_singleton] at hlen hf
    have := ih k (p :: R) ({ l with recF := Function.update l.recF p S_STACK_OUT,
                                    slen := dec64 l.slen, cur := prevOf l.S p })
      (by simp [hS]) hnd hprev hd (fun x hx => hh x (by simp [hx]))
      (by simp only []; rw [dec64_pos (by omega)]; omega) (by omega)
    rw [this]
    congr 1
    apply LState.ext
    case recF =>
      funext x
      by_cases hxp : x = p
      · subst hxp; simp [S_STACK_OUT]
      · simp [Function.update_apply, hxp]
    case slen =>
      simp only [List.length_append, List.length_singleton]
      rw [dec64_pos (by omega)]; omega
    all_goals rfl

theorem countP_update_of_not_mem (L : List Nat) (b : Nat) (hb : b ∉ L) (f : Nat → Bool)
    (v : Bool) :
    L.countP (fun x => !(Function.update f b v) x) = L.countP (fun x => !f x) := by
  apply List.countP_congr
  intro x hx
  have : x ≠ b := fun e => hb (e ▸ hx)
  simp [Function.update_apply, this]

theorem countP_update_false (L : List Nat) (hL : L.Nodup) (b : Nat) (hb : b ∈ L)
    (f : Nat → Bool) (hf : f b = true) :
    L.countP (fun x => !(Function.update f b false) x) = L.countP (fun x => !f x) + 1 := by
  induction L with
  | nil => simp at hb
  | cons a t ih =>
    rw [List.nodup_cons] at hL
    by_cases hab : a = b
    · subst hab
      rw [List.countP_cons, List.countP_cons, countP_update_of_not_mem t a hL.1]
      simp [hf]
    · have hbt : b ∈ t := by
        rcases List.mem_cons.1 hb with e | e
        · exact absurd e.symm hab
        · exact e
      rw [List.countP_cons, List.countP_cons, ih hL.2 hbt]
      simp [Function.update_apply, hab]
      omega

theorem countP_update_true (L : List Nat) (hL : L.Nodup) (b : Nat) (hb : b ∈ L)
    (f : Nat → Bool) (hf : f b = false) :
    L.countP (fun x => !(Function.update f b true) x) + 1 = L.countP (fun x => !f x) := by
  induction L with
  | nil => simp at hb
  | cons a t ih =>
    rw [List.nodup_cons] at hL
    by_cases hab : a = b
    · subst hab
      rw [List.countP_cons, List.countP_cons, countP_update_of_not_mem t a hL.1]
      simp [hf]
    · have hbt : b ∈ t := by
        rcases List.mem_cons.1 hb with e | e
        · exact absurd e.symm hab
        · exact e
      rw [List.countP_cons, List.countP_cons, ← ih hL.2 hbt]
      simp [Function.update_apply, hab]
      omega

theorem exists_other_of_two_le_countP (L : List Nat) (hL : L.Nodup) (p : Nat → Bool)
    (h : 2 ≤ L.countP p) (b : Nat) : ∃ x ∈ L, x ≠ b ∧ p x = true := by
  by_contra hc
  push_neg at hc
  have h1 : L.countP p ≤ L.countP (fun x => x == b) := by
    apply List.countP_mono_left
    intro x hx hpx
    by_contra hxb
    have : x ≠ b := by simpa using hxb
    exact absurd hpx (hc x hx this)
  have h2 : L.count b ≤ 1 := List.nodup_iff_count_le_one.1 hL b
  rw [List.count_eq_countP] at h2
  omega

theorem length_le_countP_range (L : List Nat) (hL : L.Nodup) (n : Nat)
    (hr : ∀ x ∈ L, x < n) (p : Nat → Bool) (hp : ∀ x ∈ L, p x = true) :
    L.length ≤ (List.range n).countP p := by
  have h1 : L.countP p = L.length := List.countP_eq_length.2 hp
  have h3 := List.Subperm.countP_le p
    (List.subperm_of_subset hL (fun x hx => List.mem_range.2 (hr x hx)))
  omega

theorem l_prune_scan_closed (l : LState) (fuel : Nat) (X : List Nat) (t : Nat)
    (lirs : List Nat) :
    ∀ (R : List Nat) (c : Nat), l.S = X ++ t :: lirs ++ R → l.S.Nodup →
      some c = (t :: lirs).getLast? → l.hirF t = true → (∀ x ∈ lirs, l.hirF x = false) →
      lirs.length < fuel →
      l_prune_scan l fuel (some c) = some t := by
  induction lirs using List.reverseRecOn generalizing fuel with
  | nil =>
    intro R c _ _ hc ht _ hf
    obtain ⟨k, rfl⟩ : ∃ k, fuel = k + 1 := ⟨fuel - 1, by simp at hf; omega⟩
    have : c = t := by simpa using hc
    subst this
    simp [l_prune_scan, ht]
  | append_singleton lirs p ih =>
    intro R c hS hnd hc ht hl hf
    simp only [List.length_append, List.length_singleton] at hf
    obtain ⟨k, rfl⟩ : ∃ k, fuel = k + 1 := ⟨fuel - 1, by omega⟩
    have hcp : c = p := by
      have := List.getLast?_append_cons (t :: lirs) p []
      rw [List.cons_append] at this
      rw [this] at hc
      simpa using hc
    subst hcp
    have hp : l.hirF c = false := hl c (by simp)
    have hS2 : l.S = (X ++ t :: lirs) ++ c :: R := by rw [hS]; simp
    have hprev : prevOf l.S c = (t :: lirs).getLast? := by
      have := prevOf_append_mid (X := X ++ t :: lirs) (B := R) (p := c) (hS2 ▸ hnd)
      rw [hS2, this]
      exact List.getLast?_append_cons X t lirs
    rw [l_prune_scan, if_pos hp]
    cases hq : prevOf l.S c with
    | none =>
      rw [hq] at hprev
      have := List.getLast?_eq_none_iff.1 hprev.symm
      cases this
    | some q =>
      rw [hq] at hprev
      exact ih k (c :: R) q (by simp [hS]) hnd hprev ht (fun x hx => hl x (by simp [hx]))
        (by omega)

end LIRS

/-! ## Lines 214-238 on the list machine -/

namespace LIRS

theorem LInvCore.S_ne {P : Params} {l : LState} (h : LInvCore P l) {b : Nat}
    (hb : l.last ≠ some b) : l.S ≠ [b] := by
  intro e
  cases hl : l.last with
  | none => have := h.last_none hl; rw [e] at this; cases this
  | some y =>
    have := h.last_mem y hl
    rw [e] at this
    simp at this
    exact hb (by rw [hl, this])

theorem LInvCore.no_lir_of_S_nil {P : Params} {l : LState} (h : LInvCore P l) (hS : l.S = [])
    (x : Nat) : l.hirF x = true := by
  obtain ⟨top, below, e, _, hrec, _, _, _⟩ := h.split
  by_contra hx
  have hx' : l.hirF x = false := by simpa using hx
  have := (hrec x).1 (h.lir_rec x hx')
  rw [hS] at e
  have ht : top = [] := (List.append_eq_nil.1 e.symm).1
  rw [ht] at this
  cases this

theorem LInvCore.free_of_S_nil {P : Params} {l : LState} (h : LInvCore P l) (hS : l.S = []) :
    l.free = P.mem_size ∧ l.nlir = 0 := by
  have hQ : l.Q = [] := by
    cases hq : l.Q with
    | nil => rfl
    | cons a t =>
      have := h.Q_sub a (by simp [hq])
      rw [hS] at this
      cases this
  have hn : l.nlir = 0 := by
    rw [h.nlir_eq]
    apply List.countP_eq_zero.2
    intro x _
    simp [h.no_lir_of_S_nil hS x]
  have := h.frame
  rw [hQ, hn] at this
  simp at this
  exact ⟨this, hn⟩

theorem mid_hit_lir (P : Params) (l : LState) (b : Nat) (h : LInvCore P l)
    (hb : b ≤ P.vm_size) (hlast : l.last ≠ some b) (hh : l.hirF b = false) :
    l_miss_or_hit P { l with last := some b, nodup := l.nodup + 1 } b =
        some { l with last := some b, nodup := l.nodup + 1 } ∧
      MidInv P { l with last := some b, nodup := l.nodup + 1 } b := by
  have hres := h.lir_res b hh
  refine ⟨by simp [l_miss_or_hit, hres, hh], ?_⟩
  have hbQ : b ∉ l.Q := fun hq => by
    have := ((h.Q_iff b).1 hq).2
    rw [hh] at this; cases this
  constructor
  · exact h.S_nodup
  · exact h.Q_nodup
  · exact h.S_range
  · exact hb
  · exact h.Q_sub
  · exact hbQ
  · intro x _; exact h.Q_iff x
  · intro x _; exact h.lir_res x
  · intro x _; exact h.lir_rec x
  · exact h.split
  · intro _ hr
    have := h.lir_rec b hh
    simp only [] at hr
    rw [hr] at this; cases this
  · exact h.nlir_eq
  · simp only [hh]
    simpa using h.frame
  · intro hf
    exact ⟨(h.phaseA hf).1, (h.phaseA hf).2, hh⟩
  · exact h.phaseB
  · rfl
  · exact h.S_ne hlast
  · intro _; exact hh

theorem LInvCore.hir_of_not_res {P : Params} {l : LState} (h : LInvCore P l) {b : Nat}
    (hr : l.resF b = false) : l.hirF b = true := by
  by_contra hx
  have hx' : l.hirF b = false := by simpa using hx
  have := h.lir_res b hx'
  rw [hr] at this; cases this

theorem mid_hit_hir (P : Params) (l : LState) (b : Nat) (h : LInvCore P l)
    (hb : b ≤ P.vm_size) (hlast : l.last ≠ some b) (hr : l.resF b = true)
    (hh : l.hirF b = true) :
    l_miss_or_hit P { l with last := some b, nodup := l.nodup + 1 } b =
        some { l with last := some b, nodup := l.nodup + 1, Q := l.Q.erase b } ∧
      MidInv P { l with last := some b, nodup := l.nodup + 1, Q := l.Q.erase b } b := by
  refine ⟨by simp [l_miss_or_hit, l_remove_HIR_list, hr, hh], ?_⟩
  have hbQ : b ∈ l.Q := (h.Q_iff b).2 ⟨hr, hh⟩
  constructor
  · exact h.S_nodup
  · exact h.Q_nodup.erase b
  · exact h.S_range
  · exact hb
  · intro x hx; exact h.Q_sub x (List.mem_of_mem_erase hx)
  · intro hq; exact ((List.Nodup.mem_erase_iff h.Q_nodup).1 hq).1 rfl
  · intro x hx
    simp only []
    rw [List.Nodup.mem_erase_iff h.Q_nodup, ← h.Q_iff x]
    simp [hx]
  · intro x _; exact h.lir_res x
  · intro x _; exact h.lir_rec x
  · exact h.split
  · intro hc _
    simp only [] at hc
    rw [hh] at hc; cases hc
  · exact h.nlir_eq
  · simp only [hh, if_true]
    have := h.frame
    have h1 := List.length_erase_of_mem hbQ
    have h2 : 0 < l.Q.length := List.length_pos_of_mem hbQ
    omega
  · intro hf
    have := (h.phaseA hf).1
    rw [this] at hbQ; cases hbQ
  · exact h.phaseB
  · rfl
  · exact h.S_ne hlast
  · intro hS
    have := h.Q_sub b hbQ
    simp only [] at hS
    rw [hS] at this; cases this

theorem mid_miss_evict (P : Params) (hP : PWF P) (l : LState) (b : Nat) (h : LInvCore P l)
    (hb : b ≤ P.vm_size) (hlast : l.last ≠ some b) (hr : l.resF b = false)
    (hf : l.free = 0) :
    ∃ t, l.Q.getLast? = some t ∧ t ≠ b ∧
      l_miss_or_hit P { l with last := some b, nodup := l.nodup + 1 } b =
        some { l with last := some b, nodup := l.nodup + 1,
                      flt := if l.collect = true then l.flt + 1 else l.flt,
                      resF := Function.update l.resF t false, Q := l.Q.erase t } ∧
      MidInv P { l with last := some b, nodup := l.nodup + 1,
                        flt := if l.collect = true then l.flt + 1 else l.flt,
                        resF := Function.update l.resF t false, Q := l.Q.erase t } b := by
  have hh := h.hir_of_not_res hr
  have hB := h.phaseB (by omega)
  have hfr := h.frame
  have hQl : l.Q.length = P.HIR_block_portion_limit := by omega
  have hpos := hP.hir_pos
  cases hq : l.Q.getLast? with
  | none =>
    have := List.getLast?_eq_none_iff.1 hq
    rw [this] at hQl
    simp at hQl
    omega
  | some t =>
    have htQ : t ∈ l.Q := List.mem_of_getLast?_eq_some hq
    have ht := (h.Q_iff t).1 htQ
    have htb : t ≠ b := by
      intro e
      rw [e, hr] at ht
      cases ht.1
    refine ⟨t, rfl, htb, ?_, ?_⟩
    · by_cases hc : l.collect = true
      · simp [l_miss_or_hit, l_make_room, deref_some, deref_none, l_remove_HIR_list, hr, hf, hq, hc]
      · simp [l_miss_or_hit, l_make_room, deref_some, deref_none, l_remove_HIR_list, hr, hf, hq, hc]
    · have hbQ : b ∉ l.Q := fun hm => by
        have := ((h.Q_iff b).1 hm).1
        rw [hr] at this; cases this
      constructor
      · exact h.S_nodup
      · exact h.Q_nodup.erase t
      · exact h.S_range
      · exact hb
      · intro x hx; exact h.Q_sub x (List.mem_of_mem_erase hx)
      · intro hm; exact hbQ (List.mem_of_mem_erase hm)
      · intro x _
        simp only []
        rw [List.Nodup.mem_erase_iff h.Q_nodup]
        by_cases hxt : x = t
        · subst hxt; simp
        · rw [h.Q_iff x]; simp [Function.update_apply, hxt]
      · intro x _ hx
        simp only [] at hx ⊢
        have hxt : x ≠ t := by
          intro e
          rw [e, ht.2] at hx; cases hx
        simp [Function.update_apply, hxt, h.lir_res x hx]
      · intro x _; exact h.lir_rec x
      · exact h.split
      · intro hc _
        simp only [] at hc
        rw [hh] at hc; cases hc
      · exact h.nlir_eq
      · simp only [hh, if_true]
        have h1 := List.length_erase_of_mem htQ
        omega
      · intro hc
        simp only [] at hc
        omega
      · intro _; exact hB
      · rfl
      · exact h.S_ne hlast
      · intro hS
        have := h.Q_sub t htQ
        simp only [] at hS
        rw [hS] at this; cases this

theorem mid_miss_lir (P : Params) (l : LState) (b : Nat) (h : LInvCore P l)
    (hb : b ≤ P.vm_size) (hlast : l.last ≠ some b) (hr : l.resF b = false)
    (hf : P.HIR_block_portion_limit < l.free) :
    l_miss_or_hit P { l with last := some b, nodup := l.nodup + 1 } b =
        some { l with last := some b, nodup := l.nodup + 1,
                      flt := if l.collect = true then l.flt + 1 else l.flt,
                      hirF := Function.update l.hirF b false, nlir := l.nlir + 1,
                      free := l.free - 1 } ∧
      MidInv P { l with last := some b, nodup := l.nodup + 1,
                        flt := if l.collect = true then l.flt + 1 else l.flt,
                        hirF := Function.update l.hirF b false, nlir := l.nlir + 1,
                        free := l.free - 1 } b := by
  have hh := h.hir_of_not_res hr
  have hA := h.phaseA hf
  have hfr := h.frame
  have hbS : b ∉ l.S := fun hm => by
    have := hA.2 b hm
    rw [hh] at this; cases this
  have hf0 : l.free ≠ 0 := by omega
  refine ⟨?_, ?_⟩
  · by_cases hc : l.collect = true
    · simp [l_miss_or_hit, l_make_room, hr, hf0, hf, hc]
    · simp [l_miss_or_hit, l_make_room, hr, hf0, hf, hc]
  · have hbQ : b ∉ l.Q := fun hm => hbS (h.Q_sub b hm)
    constructor
    · exact h.S_nodup
    · exact h.Q_nodup
    · exact h.S_range
    · exact hb
    · exact h.Q_sub
    · exact hbQ
    · intro x hx
      simp only [Function.update_apply, hx, if_false]
      exact h.Q_iff x
    · intro x hx
      simp only [Function.update_apply, hx, if_false]
      exact h.lir_res x
    · intro x hx
      simp only [Function.update_apply, hx, if_false]
      exact h.lir_rec x
    · obtain ⟨top, below, e, hc, hrec, hlen, hcl, hnil⟩ := h.split
      refine ⟨top, below, e, hc, hrec, hlen, ?_, hnil⟩
      intro d hd
      have hdS : d ∈ l.S := by
        have hd2 : top.getLast? = some d := by rw [← hc]; exact hd
        rw [e]
        exact List.mem_append_left _ (List.mem_of_getLast?_eq_some hd2)
      have hdb : d ≠ b := fun e2 => hbS (e2 ▸ hdS)
      simp only [Function.update_apply, hdb, if_false]
      exact hcl d hd
    · intro _ _; exact hbS
    · simp only []
      rw [h.nlir_eq]
      exact (countP_update_false _ (List.nodup_range _) b
        (List.mem_range.2 (by omega)) l.hirF hh).symm
    · simp only [Function.update_same]
      rw [hA.1] at hfr ⊢
      simp at hfr ⊢
      omega
    · intro _
      refine ⟨hA.1, ?_, by simp⟩
      intro x hx
      have hxb : x ≠ b := fun e => hbS (e ▸ hx)
      simp only [Function.update_apply, hxb, if_false]
      exact hA.2 x hx
    · intro hc
      simp only [] at hc
      rw [hA.1] at hfr
      simp at hfr
      simp only []
      omega
    · rfl
    · exact h.S_ne hlast
    · intro _; simp

theorem mid_miss_hir (P : Params) (hP : PWF P) (l : LState) (b : Nat) (h : LInvCore P l)
    (hb : b ≤ P.vm_size) (hlast : l.last ≠ some b) (hr : l.resF b = false)
    (hf0 : l.free ≠ 0) (hf : l.free ≤ P.HIR_block_portion_limit) :
    l_miss_or_hit P { l with last := some b, nodup := l.nodup + 1 } b =
        some { l with last := some b, nodup := l.nodup + 1,
                      flt := if l.collect = true then l.flt + 1 else l.flt,
                      free := l.free - 1 } ∧
      MidInv P { l with last := some b, nodup := l.nodup + 1,
                        flt := if l.collect = true then l.flt + 1 else l.flt,
                        free := l.free - 1 } b := by
  have hh := h.hir_of_not_res hr
  have hfr := h.frame
  have hnf : ¬ P.HIR_block_portion_limit < l.free := by omega
  refine ⟨?_, ?_⟩
  · by_cases hc : l.collect = true
    · simp [l_miss_or_hit, l_make_room, hr, hf0, hnf, hc]
    · simp [l_miss_or_hit, l_make_room, hr, hf0, hnf, hc]
  · have hbQ : b ∉ l.Q := fun hm => by
      have := ((h.Q_iff b).1 hm).1
      rw [hr] at this; cases this
    constructor
    · exact h.S_nodup
    · exact h.Q_nodup
    · exact h.S_range
    · exact hb
    · exact h.Q_sub
    · exact hbQ
    · intro x _; exact h.Q_iff x
    · intro x _; exact h.lir_res x
    · intro x _; exact h.lir_rec x
    · exact h.split
    · intro hc _
      simp only [] at hc
      rw [hh] at hc; cases hc
    · exact h.nlir_eq
    · simp only [hh, if_true]
      omega
    · intro hc
      simp only [] at hc
      omega
    · intro _; exact h.phaseB hf
    · rfl
    · exact h.S_ne hlast
    · intro hS
      have := (h.free_of_S_nil hS).1
      have := hP.lir_two
      omega

end LIRS

/-! ## Lines 241-271 on the list machine -/

namespace LIRS

theorem l_remove_absent (P : Params) (l : LState) (b : Nat) (hb : b ∉ l.S) :
    l_remove_LIRS_list P l b = some l := by
  rw [l_remove_LIRS_list, if_pos ⟨prevOf_not_mem hb, nextOf_not_mem hb⟩]

theorem l_remove_noncursor (P : Params) (l : LState) (b : Nat) (hb : b ∈ l.S)
    (hne : l.S ≠ [b]) (hc : some b ≠ l.cur) :
    l_remove_LIRS_list P l b = some (l_unlink_LIRS l b) := by
  have h1 : ¬ (prevOf l.S b = none ∧ nextOf l.S b = none) := fun h =>
    hne (singleton_of_no_links hb h.1 h.2)
  rw [l_remove_LIRS_list, if_neg h1, if_neg hc]
  rfl

theorem l_add_head_cons (l : LState) (b a : Nat) (t : List Nat) (h : l.S = a :: t) :
    l_add_LRU_list_head l b = { l with S := b :: l.S } := by
  simp [l_add_LRU_list_head, h]

theorem l_add_head_nil (l : LState) (b : Nat) (h : l.S = []) :
    l_add_LRU_list_head l b = { l with S := [b], tailp := some b, cur := some b } := by
  simp [l_add_LRU_list_head, h]

theorem length_le_of_nodup_range {L : List Nat} (hL : L.Nodup) {n : Nat}
    (hr : ∀ x ∈ L, x ≤ n) : L.length ≤ n + 1 := by
  have := List.Subperm.length_le
    (List.subperm_of_subset hL (fun x hx => List.mem_range.2 (Nat.lt_succ_of_le (hr x hx))))
  simpa using this

theorem getLast?_erase_ne {L : List Nat} (hL : L.Nodup) {b : Nat} (hb : b ∈ L)
    (hne : L.getLast? ≠ some b) : (L.erase b).getLast? = L.getLast? := by
  rw [getLast?_erase hL hb]
  have : nextOf L b ≠ none := fun h => hne (getLast_of_nextOf_none hb h)
  rw [if_neg this]

theorem getLast?_cons_of_ne_nil (b : Nat) {X : List Nat} (h : X ≠ []) :
    (b :: X).getLast? = X.getLast? := by
  cases X with
  | nil => exact absurd rfl h
  | cons a t => rfl

theorem erase_ne_nil {L : List Nat} {b d : Nat} (hd : d ∈ L) (hdb : d ≠ b) : L.erase b ≠ [] := by
  intro h
  have : d ∈ L.erase b := (List.mem_erase_of_ne hdb).2 hd
  rw [h] at this; cases this

/-- Relinking a block that is not the cursor: the list level effect of lines 241-247. -/
theorem l_relink_noncursor (P : Params) (l : LState) (b : Nat) (hnd : l.S.Nodup)
    (hne : l.S ≠ [b]) (hnil : l.S ≠ []) (hc : some b ≠ l.cur) :
    ∃ tp, l_relink P l b =
      some { l with S := b :: l.S.erase b, tailp := tp,
                    resF := Function.update l.resF b true,
                    slen := if l.recF b = S_STACK_OUT then l.slen + 1 else l.slen } := by
  by_cases hb : b ∈ l.S
  · have hd : ∃ d, d ∈ l.S ∧ d ≠ b := by
      cases hS : l.S with
      | nil => exact absurd hS hnil
      | cons a t =>
        by_cases hab : a = b
        · cases t with
          | nil => rw [hS, hab] at hne; exact absurd rfl hne
          | cons c t' =>
            refine ⟨c, by simp, ?_⟩
            intro e
            rw [hS, hab, e] at hnd
            simp at hnd
        · exact ⟨a, by simp, hab⟩
    obtain ⟨d, hd, hdb⟩ := hd
    have hen := erase_ne_nil hd hdb
    obtain ⟨a, t, hat⟩ : ∃ a t, l.S.erase b = a :: t := by
      cases he : l.S.erase b with
      | nil => exact absurd he hen
      | cons a t => exact ⟨a, t, rfl⟩
    refine ⟨if nextOf l.S b = none then prevOf l.S b else l.tailp, ?_⟩
    rw [l_relink, l_remove_noncursor P l b hb hne hc]
    simp only [Option.bind_eq_bind, Option.some_bind]
    rw [l_add_head_cons (l_unlink_LIRS l b) b a t (by simpa [l_unlink_LIRS] using hat)]
    by_cases hr : l.recF b = S_STACK_OUT <;> simp [l_unlink_LIRS, hr]
  · obtain ⟨a, t, hat⟩ : ∃ a t, l.S = a :: t := by
      cases he : l.S with
      | nil => exact absurd he hnil
      | cons a t => exact ⟨a, t, rfl⟩
    refine ⟨l.tailp, ?_⟩
    rw [l_relink, l_remove_absent P l b hb]
    simp only [Option.bind_eq_bind, Option.some_bind]
    rw [l_add_head_cons l b a t hat, List.erase_of_not_mem hb]
    by_cases hr : l.recF b = S_STACK_OUT <;> simp [hr]

theorem l_relink_nil (P : Params) (l : LState) (b : Nat) (hnil : l.S = []) :
    l_relink P l b =
      some { l with S := [b], tailp := some b, cur := some b,
                    resF := Function.update l.resF b true,
                    slen := if l.recF b = S_STACK_OUT then l.slen + 1 else l.slen } := by
  have hb : b ∉ l.S := by rw [hnil]; simp
  rw [l_relink, l_remove_absent P l b hb]
  simp only [Option.bind_eq_bind, Option.some_bind]
  rw [l_add_head_nil l b hnil]
  by_cases hr : l.recF b = S_STACK_OUT <;> simp [hr]

theorem l_promote_or_queue_fresh (P : Params) (l : LState) (b : Nat)
    (hr : l.recF b = false) :
    l_promote_or_queue P l b =
      some { l with Q := if l.hirF b = true then b :: l.Q else l.Q } := by
  have h1 : ¬ (l.hirF b = true ∧ l.recF b = S_STACK_IN) := by
    rw [hr]; simp [S_STACK_IN]
  rw [l_promote_or_queue, if_neg h1]
  by_cases hh : l.hirF b = true
  · simp [hh, l_add_HIR_list_head]
  · simp [hh]

theorem post_fresh (P : Params) (l : LState) (b : Nat) (h : MidInv P l b)
    (hr : l.recF b = false) :
    ∃ l4, l_post P l b = some l4 ∧ LInvCore P l4 ∧ l4.slen = l.slen + 1 ∧
      PostFrame l l4 b ∧ l4.hirF = l.hirF ∧
      l4.Q = (if l.hirF b = true then b :: l.Q else l.Q) := by
  obtain ⟨top, below, hS, hcur, hrec, hlen, hcl, hnil⟩ := h.split
  have hbt : b ∉ top := fun hm => by
    have := (hrec b).2 hm
    rw [hr] at this; cases this
  have hnd2 : (b :: l.S.erase b).Nodup :=
    List.nodup_cons.2 ⟨fun hm => ((List.Nodup.mem_erase_iff h.S_nodup).1 hm).1 rfl,
      h.S_nodup.erase b⟩
  have hmem : ∀ x, x ∈ b :: l.S.erase b ↔ (x = b ∨ x ∈ l.S) := by
    intro x
    by_cases hxb : x = b
    · simp [hxb]
    · simp [hxb, List.mem_erase_of_ne hxb]
  have hQ' : ∀ x, x ∈ (if l.hirF b = true then b :: l.Q else l.Q) ↔
      ((x = b ∧ l.hirF b = true) ∨ x ∈ l.Q) := by
    intro x
    by_cases hh : l.hirF b = true <;> simp [hh]
  -- the state reached, whatever the stale tail pointer is
  have key : ∀ tp cu, cu = (b :: top).getLast? →
      LInvCore P { l with S := b :: l.S.erase b, tailp := tp, cur := cu,
                          resF := Function.update l.resF b true, slen := l.slen + 1,
                          Q := if l.hirF b = true then b :: l.Q else l.Q,
                          recF := Function.update l.recF b S_STACK_IN } := by
    intro tp cu hcu
    constructor
    · exact hnd2
    · show (if l.hirF b = true then b :: l.Q else l.Q).Nodup
      by_cases hh : l.hirF b = true
      · rw [if_pos hh]; exact List.nodup_cons.2 ⟨h.b_notin_Q, h.Q_nodup⟩
      · rw [if_neg hh]; exact h.Q_nodup
    · intro x hx
      rcases (hmem x).1 hx with e | e
      · rw [e]; exact h.b_range
      · exact h.S_range x e
    · intro x hx
      show x ∈ b :: l.S.erase b
      rw [hmem]
      rcases (hQ' x).1 hx with e | e
      · exact Or.inl e.1
      · exact Or.inr (h.Q_sub x e)
    · intro x
      show x ∈ (if l.hirF b = true then b :: l.Q else l.Q) ↔
        (Function.update l.resF b true x = true ∧ l.hirF x = true)
      rw [hQ']
      by_cases hxb : x = b
      · subst hxb
        simp [h.b_notin_Q]
      · simp [hxb, Function.update_apply, h.Q_iff x hxb]
    · intro x hx
      show Function.update l.resF b true x = true
      by_cases hxb : x = b
      · rw [hxb, Function.update_same]
      · simp [Function.update_apply, hxb, h.lir_res x hxb hx]
    · intro x hx
      show Function.update l.recF b S_STACK_IN x = true
      by_cases hxb : x = b
      · rw [hxb, Function.update_same]; rfl
      · simp [Function.update_apply, hxb, h.lir_rec x hxb hx]
    · refine ⟨b :: top, below.erase b, ?_, hcu, ?_, ?_, ?_, by simp⟩
      · show b :: l.S.erase b = b :: top ++ below.erase b
        rw [hS, List.erase_append_right _ hbt]
        rfl
      · intro x
        show Function.update l.recF b S_STACK_IN x = true ↔ x ∈ b :: top
        by_cases hxb : x = b
        · rw [hxb, Function.update_same]; simp [S_STACK_IN]
        · simp [Function.update_apply, hxb, hrec x]
      · show l.slen + 1 = (b :: top).length
        simp [hlen]
      · intro d hd
        show l.hirF d = false
        have hd2 : (b :: top).getLast? = some d := by rw [← hcu]; exact hd
        cases htop : top with
        | nil =>
          rw [htop] at hd2
          simp at hd2
          subst hd2
          have hbel := hnil htop
          exact h.S_empty (by rw [hS, htop, hbel]; rfl)
        | cons a t =>
          rw [htop, List.getLast?_cons_cons, ← htop, ← hcur] at hd2
          exact hcl d hd2
    · exact h.nlir_eq
    · show l.nlir + (if l.hirF b = true then b :: l.Q else l.Q).length + l.free = P.mem_size
      have := h.frame
      by_cases hh : l.hirF b = true
      · rw [if_pos hh] at this
        rw [if_pos hh, List.length_cons]
        omega
      · rw [if_neg hh] at this
        rw [if_neg hh]
        omega
    · intro hf
      obtain ⟨hq, hall, hb⟩ := h.phaseA hf
      refine ⟨?_, ?_⟩
      · show (if l.hirF b = true then b :: l.Q else l.Q) = []
        simp [hb, hq]
      · intro x hx
        rcases (hmem x).1 hx with e | e
        · rw [e]; exact hb
        · exact hall x e
    · exact h.phaseB
    · intro y hy
      have : y = b := by
        have := h.last_eq
        simp only [] at hy
        rw [this] at hy
        exact (Option.some.inj hy).symm
      rw [this]
      exact List.mem_cons_self _ _
    · intro hn
      have := h.last_eq
      simp only [] at hn
      rw [this] at hn; cases hn
  by_cases hSn : l.S = []
  · have htop : top = [] := by
      rw [hSn] at hS
      exact (List.append_eq_nil.1 hS.symm).1
    refine ⟨_, ?_, key (some b) (some b) (by rw [htop]; rfl), rfl, ?_, rfl, rfl⟩
    · rw [l_post, l_relink_nil P l b hSn]
      simp only [Option.bind_eq_bind, Option.some_bind, hr, S_STACK_OUT, if_true]
      rw [l_promote_or_queue_fresh]
      · simp [hSn]
      · exact hr
    · constructor <;> first | rfl | exact hmem
  · obtain ⟨tp, htp⟩ := l_relink_noncursor P l b h.S_nodup h.S_ne hSn (by
      intro e
      rw [hcur] at e
      exact hbt (List.mem_of_getLast?_eq_some e.symm))
    have htop : top ≠ [] := by
      intro e
      rw [e, hnil e] at hS
      exact hSn hS
    refine ⟨_, ?_, key tp l.cur (by rw [getLast?_cons_of_ne_nil b htop]; exact hcur), rfl, ?_,
      rfl, rfl⟩
    · rw [l_post, htp]
      simp only [Option.bind_eq_bind, Option.some_bind, hr, S_STACK_OUT, if_true]
      rw [l_promote_or_queue_fresh]
      · rfl
      · exact hr
    · constructor <;> first | rfl | exact hmem

end LIRS

namespace LIRS

theorem l_promote_or_queue_lir (P : Params) (l : LState) (b : Nat)
    (hh : l.hirF b = false) : l_promote_or_queue P l b = some l := by
  have h1 : ¬ (l.hirF b = true ∧ l.recF b = S_STACK_IN) := by
    rw [hh]; simp
  have h2 : ¬ l.hirF b = true := by rw [hh]; simp
  rw [l_promote_or_queue, if_neg h1, if_neg h2]

theorem post_lir_noncursor (P : Params) (l : LState) (b : Nat) (h : MidInv P l b)
    (hh : l.hirF b = false) (hr : l.recF b = true) (hc : some b ≠ l.cur) :
    ∃ l4, l_post P l b = some l4 ∧ LInvCore P l4 ∧ l4.slen = l.slen ∧
      PostFrame l l4 b ∧ l4.hirF = l.hirF ∧ l4.Q = l.Q := by
  obtain ⟨top, below, hS, hcur, hrec, hlen, hcl, hnil⟩ := h.split
  have hbt : b ∈ top := (hrec b).1 hr
  have hSn : l.S ≠ [] := by
    rw [hS]; intro e
    have := (List.append_eq_nil.1 e).1
    rw [this] at hbt; cases hbt
  have hndt : top.Nodup := by
    have := h.S_nodup
    rw [hS] at this
    exact (List.nodup_append.1 this).1
  have hlast : top.getLast? ≠ some b := by
    rw [← hcur]; exact fun e => hc e.symm
  obtain ⟨d, hd⟩ : ∃ d, top.getLast? = some d := by
    cases hg : top.getLast? with
    | none =>
      have := List.getLast?_eq_none_iff.1 hg
      rw [this] at hbt; cases hbt
    | some d => exact ⟨d, rfl⟩
  have hdb : d ≠ b := fun e => hlast (by rw [hd, e])
  have hdt : d ∈ top := List.mem_of_getLast?_eq_some hd
  have hen : top.erase b ≠ [] := erase_ne_nil hdt hdb
  have hnd2 : (b :: l.S.erase b).Nodup :=
    List.nodup_cons.2 ⟨fun hm => ((List.Nodup.mem_erase_iff h.S_nodup).1 hm).1 rfl,
      h.S_nodup.erase b⟩
  have hmem : ∀ x, x ∈ b :: l.S.erase b ↔ (x = b ∨ x ∈ l.S) := by
    intro x
    by_cases hxb : x = b
    · simp [hxb]
    · simp [hxb, List.mem_erase_of_ne hxb]
  have hbS : b ∈ l.S := by rw [hS]; exact List.mem_append_left _ hbt
  have key : ∀ tp,
      LInvCore P { l with S := b :: l.S.erase b, tailp := tp,
                          resF := Function.update l.resF b true,
                          recF := Function.update l.recF b S_STACK_IN } := by
    intro tp
    constructor
    · exact hnd2
    · exact h.Q_nodup
    · intro x hx
      rcases (hmem x).1 hx with e | e
      · rw [e]; exact h.b_range
      · exact h.S_range x e
    · intro x hx
      show x ∈ b :: l.S.erase b
      rw [hmem]
      exact Or.inr (h.Q_sub x hx)
    · intro x
      show x ∈ l.Q ↔ (Function.update l.resF b true x = true ∧ l.hirF x = true)
      by_cases hxb : x = b
      · rw [hxb, Function.update_same]
        simp [h.b_notin_Q, hh]
      · simp [hxb, Function.update_apply, h.Q_iff x hxb]
    · intro x hx
      show Function.update l.resF b true x = true
      by_cases hxb : x = b
      · rw [hxb, Function.update_same]
      · simp [Function.update_apply, hxb, h.lir_res x hxb hx]
    · intro x hx
      show Function.update l.recF b S_STACK_IN x = true
      by_cases hxb : x = b
      · rw [hxb, Function.update_same]; rfl
      · simp [Function.update_apply, hxb, h.lir_rec x hxb hx]
    · refine ⟨b :: top.erase b, below, ?_, ?_, ?_, ?_, ?_, by simp⟩
      · show b :: l.S.erase b = b :: top.erase b ++ below
        rw [hS, List.erase_append_left _ hbt]
        rfl
      · show l.cur = (b :: top.erase b).getLast?
        rw [getLast?_cons_of_ne_nil b hen, getLast?_erase_ne hndt hbt hlast]
        exact hcur
      · intro x
        show Function.update l.recF b S_STACK_IN x = true ↔ x ∈ b :: top.erase b
        by_cases hxb : x = b
        · rw [hxb, Function.update_same]; simp [S_STACK_IN]
        · simp [Function.update_apply, hxb, hrec x, List.mem_erase_of_ne hxb]
      · show l.slen = (b :: top.erase b).length
        rw [List.length_cons, List.length_erase_of_mem hbt, hlen]
        have := List.length_pos_of_mem hbt
        omega
      · exact hcl
    · exact h.nlir_eq
    · show l.nlir + l.Q.length + l.free = P.mem_size
      have := h.frame
      have hne : ¬ l.hirF b = true := by rw [hh]; simp
      rw [if_neg hne] at this
      omega
    · intro hf
      obtain ⟨hq, hall, hb⟩ := h.phaseA hf
      refine ⟨hq, ?_⟩
      intro x hx
      rcases (hmem x).1 hx with e | e
      · rw [e]; exact hb
      · exact hall x e
    · exact h.phaseB
    · intro y hy
      have : y = b := by
        have := h.last_eq
        simp only [] at hy
        rw [this] at hy
        exact (Option.some.inj hy).symm
      rw [this]
      exact List.mem_cons_self _ _
    · intro hn
      have := h.last_eq
      simp only [] at hn
      rw [this] at hn; cases hn
  obtain ⟨tp, htp⟩ := l_relink_noncursor P l b h.S_nodup h.S_ne hSn hc
  refine ⟨_, ?_, key tp, rfl, ?_, rfl, rfl⟩
  · rw [l_post, htp]
    have hro : ¬ (l.recF b = S_STACK_OUT) := by rw [hr]; simp [S_STACK_OUT]
    simp only [Option.bind_eq_bind, Option.some_bind, if_neg hro]
    rw [l_promote_or_queue_lir]
    · rfl
    · exact hh
  · constructor <;> first | rfl | exact hmem

end LIRS

namespace LIRS

theorem l_find_last_LIR_LRU_closed (P : Params) (A : List Nat) (d : Nat) (hs R : List Nat)
    (l : LState) (hS : l.S = A ++ d :: hs ++ R) (hnd : l.S.Nodup)
    (hr : ∀ x ∈ l.S, x ≤ P.vm_size) (hcur : l.cur = (d :: hs).getLast?)
    (hd : l.hirF d = false) (hh : ∀ x ∈ hs, l.hirF x = true) (hlen : hs.length ≤ l.slen) :
    l_find_last_LIR_LRU P l =
      some { l with recF := fun x => if x ∈ hs then false else l.recF x,
                    slen := l.slen - hs.length, cur := some d } := by
  have hfuel : hs.length < walkFuel P := by
    have h1 := length_le_of_nodup_range hnd hr
    rw [hS] at h1
    simp only [List.length_append, List.length_cons] at h1
    unfold walkFuel
    omega
  obtain ⟨c, hc⟩ : ∃ c, l.cur = some c := by
    rw [hcur]
    cases hg : (d :: hs).getLast? with
    | none => have := List.getLast?_eq_none_iff.1 hg; cases this
    | some c => exact ⟨c, rfl⟩
  simp only [l_find_last_LIR_LRU, hc]
  exact l_find_last_closed (walkFuel P) A d hs R l hS hnd hcur hd hh hlen hfuel

theorem erase_mid {X B : List Nat} {b : Nat} (hb : b ∉ X) :
    (X ++ b :: B).erase b = X ++ B := by
  rw [List.erase_append_right _ hb, List.erase_cons_head]

theorem post_lir_cursor (P : Params) (hP : PWF P) (l : LState) (b : Nat) (h : MidInv P l b)
    (hh : l.hirF b = false) (hr : l.recF b = true) (hc : l.cur = some b) :
    ∃ l4, l_post P l b = some l4 ∧ LInvCore P l4 ∧ l4.slen ≤ l.slen ∧
      PostFrame l l4 b ∧ l4.hirF = l.hirF ∧ l4.Q = l.Q := by
  obtain ⟨top, below, hS, hcur, hrec, hlen, hcl, hnil⟩ := h.split
  have hbt : b ∈ top := (hrec b).1 hr
  obtain ⟨top1, htop⟩ : ∃ ys, top = ys ++ [b] :=
    List.getLast?_eq_some_iff.1 (by rw [← hcur]; exact hc)
  have hnd := h.S_nodup
  have hS1 : l.S = top1 ++ b :: below := by rw [hS, htop]; simp
  have hb1 : b ∉ top1 := by
    intro hm
    rw [hS1] at hnd
    have := (List.nodup_append.1 hnd).2.2
    exact this hm (List.mem_cons_self _ _)
  have hbbel : b ∉ below := by
    intro hm
    rw [hS1] at hnd
    have := (List.nodup_append.1 hnd).2.1
    exact (List.nodup_cons.1 this).1 hm
  -- an LIR block above the cursor
  have hex : ∃ x ∈ top1, l.hirF x = false := by
    by_cases hf : P.HIR_block_portion_limit < l.free
    · obtain ⟨_, hall, _⟩ := h.phaseA hf
      have hbel : below = [] := by
        cases hb : below with
        | nil => rfl
        | cons y t =>
          exfalso
          have hyS : y ∈ l.S := by rw [hS, hb]; simp
          have hyb : y ≠ b := fun e => hbbel (by rw [hb, ← e]; simp)
          have hyt : y ∈ top := (hrec y).1 (h.lir_rec y hyb (hall y hyS))
          rw [hS, hb] at hnd
          exact (List.nodup_append.1 hnd).2.2 hyt (List.mem_cons_self _ _)
      cases ht1 : top1 with
      | nil =>
        exfalso
        apply h.S_ne
        rw [hS1, ht1, hbel]; rfl
      | cons x t =>
        refine ⟨x, List.mem_cons_self _ _, hall x ?_⟩
        rw [hS1, ht1]; simp
    · have hB := h.phaseB (by omega)
      have h2 : 2 ≤ (List.range (P.vm_size + 1)).countP (fun x => !l.hirF x) := by
        rw [← h.nlir_eq]
        have := hP.lir_two
        omega
      obtain ⟨x, _, hxb, hx⟩ := exists_other_of_two_le_countP _ (List.nodup_range _) _ h2 b
      have hx' : l.hirF x = false := by simpa using hx
      have hxt : x ∈ top := (hrec x).1 (h.lir_rec x hxb hx')
      rw [htop] at hxt
      rcases List.mem_append.1 hxt with e | e
      · exact ⟨x, e, hx'⟩
      · simp at e; exact absurd e hxb
  obtain ⟨A, d, hs, hdec, hd, hhs⟩ :=
    exists_last_split (p := fun x => l.hirF x = false) hex
  have hhs' : ∀ x ∈ hs, l.hirF x = true := fun x hx => by simpa using hhs x hx
  have hS2 : l.S = A ++ d :: hs ++ (b :: below) := by rw [hS1, hdec]
  have hprev : prevOf l.S b = (d :: hs).getLast? := by
    have h1 : l.S = (A ++ d :: hs) ++ b :: below := by rw [hS2]
    have := prevOf_append_mid (X := A ++ d :: hs) (B := below) (p := b) (h1 ▸ hnd)
    rw [h1, this]
    exact List.getLast?_append_cons A d hs
  have hbS : b ∈ l.S := by rw [hS1]; simp
  have hdS : d ∈ l.S := by rw [hS2]; simp
  have hdb : d ≠ b := by
    intro e
    apply hb1
    rw [hdec, ← e]; simp
  have hbhs : b ∉ hs := by
    intro hm
    apply hb1
    rw [hdec]; simp [hm]
  have hslen : hs.length ≤ l.slen := by
    rw [hlen, htop, hdec]
    simp only [List.length_append, List.length_cons]
    omega
  have hfl := l_find_last_LIR_LRU_closed P A d hs (b :: below) ({ l with cur := prevOf l.S b })
    hS2 hnd h.S_range hprev hd hhs' hslen
  have herase : l.S.erase b = A ++ d :: hs ++ below := by
    rw [hS1, erase_mid hb1, hdec]
  have hnd2 : (b :: l.S.erase b).Nodup :=
    List.nodup_cons.2 ⟨fun hm => ((List.Nodup.mem_erase_iff h.S_nodup).1 hm).1 rfl,
      h.S_nodup.erase b⟩
  have hmem : ∀ x, x ∈ b :: l.S.erase b ↔ (x = b ∨ x ∈ l.S) := by
    intro x
    by_cases hxb : x = b
    · simp [hxb]
    · simp [hxb, List.mem_erase_of_ne hxb]
  have hne1 : ¬ (prevOf l.S b = none ∧ nextOf l.S b = none) := fun hc2 =>
    h.S_ne (singleton_of_no_links hbS hc2.1 hc2.2)
  obtain ⟨a, t, hat⟩ : ∃ a t, l.S.erase b = a :: t := by
    cases he : l.S.erase b with
    | nil => exact absurd he (erase_ne_nil hdS hdb)
    | cons a t => exact ⟨a, t, rfl⟩
  have hrecd : ∀ x, (if x ∈ hs then false else l.recF x) = true ↔ x ∈ A ++ d :: [b] := by
    intro x
    by_cases hx : x ∈ hs
    · have hxA : x ∉ A ∧ x ≠ d ∧ x ≠ b := by
        rw [hS2] at hnd
        have h1 := List.nodup_append.1 hnd
        have h2 := List.nodup_append.1 h1.1
        refine ⟨fun hm => h2.2.2 hm (List.mem_cons_of_mem _ hx), ?_, ?_⟩
        · intro e
          have := (List.nodup_cons.1 h2.2.1).1
          exact this (e ▸ hx)
        · intro e; exact hbhs (e ▸ hx)
      simp [hx, hxA.1, hxA.2.1, hxA.2.2]
    · rw [if_neg hx, hrec x, htop, hdec]
      simp [hx]
  refine ⟨{ l with cur := some d,
                   recF := Function.update (fun x => if x ∈ hs then false else l.recF x) b
                     S_STACK_IN,
                   slen := l.slen - hs.length, S := b :: l.S.erase b,
                   tailp := if nextOf l.S b = none then prevOf l.S b else l.tailp,
                   resF := Function.update l.resF b true }, ?_, ?_, ?_, ?_, rfl, rfl⟩
  · rw [l_post, l_relink, l_remove_LIRS_list, if_neg hne1, if_pos hc.symm, hfl]
    simp only [Option.bind_eq_bind, Option.some_bind]
    rw [l_add_head_cons _ b a t (by simpa [l_unlink_LIRS] using hat)]
    have hro : ¬ ((if b ∈ hs then false else l.recF b) = S_STACK_OUT) := by
      rw [if_neg hbhs, hr]; simp [S_STACK_OUT]
    simp only [l_unlink_LIRS, if_neg hro]
    rw [l_promote_or_queue_lir]
    · rfl
    · exact hh
  · constructor
    · exact hnd2
    · exact h.Q_nodup
    · intro x hx
      rcases (hmem x).1 hx with e | e
      · rw [e]; exact h.b_range
      · exact h.S_range x e
    · intro x hx
      show x ∈ b :: l.S.erase b
      rw [hmem]
      exact Or.inr (h.Q_sub x hx)
    · intro x
      show x ∈ l.Q ↔ (Function.update l.resF b true x = true ∧ l.hirF x = true)
      by_cases hxb : x = b
      · rw [hxb, Function.update_same]
        simp [h.b_notin_Q, hh]
      · simp [hxb, Function.update_apply, h.Q_iff x hxb]
    · intro x hx
      show Function.update l.resF b true x = true
      by_cases hxb : x = b
      · rw [hxb, Function.update_same]
      · simp [Function.update_apply, hxb, h.lir_res x hxb hx]
    · intro x hx
      show Function.update (fun x => if x ∈ hs then false else l.recF x) b S_STACK_IN x = true
      by_cases hxb : x = b
      · rw [hxb, Function.update_same]; rfl
      · have hxh : x ∉ hs := fun hm => by
          have := hhs' x hm
          simp only [] at hx
          rw [hx] at this; cases this
        simp [Function.update_apply, hxb, hxh, h.lir_rec x hxb hx]
    · refine ⟨b :: A ++ [d], hs ++ below, ?_, ?_, ?_, ?_, ?_, by simp⟩
      · show b :: l.S.erase b = b :: A ++ [d] ++ (hs ++ below)
        rw [herase]; simp
      · show some d = (b :: A ++ [d]).getLast?
        rw [List.getLast?_append_cons]; rfl
      · intro x
        show Function.update (fun x => if x ∈ hs then false else l.recF x) b S_STACK_IN x = true ↔
          x ∈ b :: A ++ [d]
        by_cases hxb : x = b
        · rw [hxb, Function.update_same]; simp [S_STACK_IN]
        · rw [Function.update_noteq hxb, hrecd x]
          simp [hxb]
      · show l.slen - hs.length = (b :: A ++ [d]).length
        rw [hlen, htop, hdec]
        simp only [List.length_append, List.length_cons, List.length_nil]
        omega
      · intro e he
        have : e = d := (Option.some.inj he).symm
        rw [this]; exact hd
    · exact h.nlir_eq
    · show l.nlir + l.Q.length + l.free = P.mem_size
      have := h.frame
      have hne : ¬ l.hirF b = true := by rw [hh]; simp
      rw [if_neg hne] at this
      omega
    · intro hf
      obtain ⟨hq, hall, hb⟩ := h.phaseA hf
      refine ⟨hq, ?_⟩
      intro x hx
      rcases (hmem x).1 hx with e | e
      · rw [e]; exact hb
      · exact hall x e
    · exact h.phaseB
    · intro y hy
      have : y = b := by
        have := h.last_eq
        simp only [] at hy
        rw [this] at hy
        exact (Option.some.inj hy).symm
      rw [this]
      exact List.mem_cons_self _ _
    · intro hn
      have := h.last_eq
      simp only [] at hn
      rw [this] at hn; cases hn
  · show l.slen - hs.length ≤ l.slen
    omega
  · constructor <;> first | rfl | exact hmem

end LIRS

namespace LIRS

theorem usub64_of_le {a b : Nat} (h : b ≤ a) : usub64 a b = a - b := by
  unfold usub64
  rw [if_pos h]

theorem post_promote (P : Params) (hP : PWF P) (l : LState) (b : Nat) (h : MidInv P l b)
    (hh : l.hirF b = true) (hr : l.recF b = true) :
    ∃ l4 d0, l.cur = some d0 ∧ d0 ≠ b ∧ l.hirF d0 = false ∧
      l_post P l b = some l4 ∧ LInvCore P l4 ∧ l4.slen ≤ l.slen ∧
      PostFrame l l4 b ∧
      l4.hirF = Function.update (Function.update l.hirF b false) d0 true ∧
      l4.Q = d0 :: l.Q ∧ l4.recF d0 = false := by
  obtain ⟨top, below, hS, hcur, hrec, hlen, hcl, hnil⟩ := h.split
  have hbt : b ∈ top := (hrec b).1 hr
  have hnd := h.S_nodup
  obtain ⟨d0, hd0⟩ : ∃ d, top.getLast? = some d := by
    cases hg : top.getLast? with
    | none =>
      have := List.getLast?_eq_none_iff.1 hg
      rw [this] at hbt; cases hbt
    | some d => exact ⟨d, rfl⟩
  have hc : l.cur = some d0 := by rw [hcur, hd0]
  have hd0l : l.hirF d0 = false := hcl d0 hc
  have hd0b : d0 ≠ b := by
    intro e
    rw [e, hh] at hd0l; cases hd0l
  have hbd0 : b ≠ d0 := Ne.symm hd0b
  obtain ⟨T0, htop⟩ : ∃ ys, top = ys ++ [d0] := List.getLast?_eq_some_iff.1 hd0
  have hbT0 : b ∈ T0 := by
    rw [htop] at hbt
    rcases List.mem_append.1 hbt with e | e
    · exact e
    · simp at e; exact absurd e hbd0
  have hS1 : l.S = T0 ++ d0 :: below := by rw [hS, htop]; simp
  have hbS : b ∈ l.S := by rw [hS1]; exact List.mem_append_left _ hbT0
  have hd0S : d0 ∈ l.S := by rw [hS1]; simp
  have hSn : l.S ≠ [] := fun e => by rw [e] at hbS; cases hbS
  have hfree : l.free ≤ P.HIR_block_portion_limit := by
    by_contra hf
    have := (h.phaseA (by omega)).2.2
    rw [hh] at this; cases this
  have hB := h.phaseB hfree
  have hle : P.HIR_block_portion_limit ≤ P.mem_size := by have := hP.lir_two; omega
  -- the stack after relinking
  have herase : l.S.erase b = T0.erase b ++ d0 :: below := by
    rw [hS1, List.erase_append_left _ hbT0]
  have hnd2 : (b :: l.S.erase b).Nodup :=
    List.nodup_cons.2 ⟨fun hm => ((List.Nodup.mem_erase_iff h.S_nodup).1 hm).1 rfl,
      h.S_nodup.erase b⟩
  have hmem : ∀ x, x ∈ b :: l.S.erase b ↔ (x = b ∨ x ∈ l.S) := by
    intro x
    by_cases hxb : x = b
    · simp [hxb]
    · simp [hxb, List.mem_erase_of_ne hxb]
  -- the flags after the status switch
  have hF : ∀ x, Function.update (Function.update l.hirF b false) d0 true x =
      if x = d0 then true else if x = b then false else l.hirF x := by
    intro x
    simp [Function.update_apply]
  have hexT : ∃ x ∈ b :: T0.erase b,
      Function.update (Function.update l.hirF b false) d0 true x = false :=
    ⟨b, List.mem_cons_self _ _, by rw [hF]; simp [hbd0]⟩
  obtain ⟨A, e, hs, hdec, he, hhs⟩ := exists_last_split
    (p := fun x => Function.update (Function.update l.hirF b false) d0 true x = false) hexT
  have hhs' : ∀ x ∈ hs ++ [d0],
      Function.update (Function.update l.hirF b false) d0 true x = true := by
    intro x hx
    rcases List.mem_append.1 hx with e1 | e1
    · simpa using hhs x e1
    · simp at e1; rw [e1, hF]; simp
  have hS2 : b :: l.S.erase b = A ++ e :: (hs ++ [d0]) ++ below := by
    rw [herase, ← List.cons_append, hdec]; simp
  have hTlen : (b :: T0.erase b).length = T0.length := by
    rw [List.length_cons, List.length_erase_of_mem hbT0]
    have := List.length_pos_of_mem hbT0
    omega
  have hslen : (hs ++ [d0]).length ≤ l.slen := by
    rw [hlen, htop]
    have := congrArg List.length hdec
    rw [hTlen] at this
    simp only [List.length_append, List.length_cons, List.length_nil] at this ⊢
    omega
  have hrange2 : ∀ x ∈ b :: l.S.erase b, x ≤ P.vm_size := by
    intro x hx
    rcases (hmem x).1 hx with e1 | e1
    · rw [e1]; exact h.b_range
    · exact h.S_range x e1
  obtain ⟨tp, htp⟩ := l_relink_noncursor P l b h.S_nodup h.S_ne hSn (by
    rw [hc]; intro e1; exact hbd0 (Option.some.inj e1))
  have hcurL : some d0 = (e :: (hs ++ [d0])).getLast? := by
    have := List.getLast?_append_cons (e :: hs) d0 []
    rw [List.cons_append] at this
    rw [this]; rfl
  have hfl := l_find_last_LIR_LRU_closed P A e (hs ++ [d0]) below
    ({ l with S := b :: l.S.erase b, tailp := tp,
              resF := Function.update l.resF b true,
              hirF := Function.update (Function.update l.hirF b false) d0 true,
              nlir := l.nlir + 1 - 1, Q := d0 :: l.Q,
              recF := Function.update l.recF d0 S_STACK_OUT, cur := some d0 })
    hS2 hnd2 hrange2 hcurL he hhs' hslen
  have hd0Q : d0 ∉ l.Q := fun hm => by
    have := ((h.Q_iff d0 hd0b).1 hm).2
    rw [hd0l] at this; cases this
  have hbhs : b ∉ hs := fun hm => by
    have := hhs b hm
    apply this
    show Function.update (Function.update l.hirF b false) d0 true b = false
    rw [hF]; simp [hbd0]
  have hndT : (A ++ e :: (hs ++ [d0]) ++ below).Nodup := hS2 ▸ hnd2
  have hdisj : ∀ x, x ∈ hs ++ [d0] → x ∉ A ++ [e] := by
    intro x hx hx2
    have h1 := List.nodup_append.1 hndT
    have h2 := List.nodup_append.1 h1.1
    rcases List.mem_append.1 hx2 with e1 | e1
    · exact h2.2.2 e1 (List.mem_cons_of_mem _ hx)
    · simp at e1
      have := (List.nodup_cons.1 h2.2.1).1
      exact this (e1 ▸ hx)
  have hbA : b ∈ A ++ [e] := by
    have : b ∈ A ++ e :: hs := by rw [← hdec]; exact List.mem_cons_self _ _
    rcases List.mem_append.1 this with e1 | e1
    · exact List.mem_append_left _ e1
    · rcases List.mem_cons.1 e1 with e2 | e2
      · rw [e2]; simp
      · exact absurd e2 hbhs
  have hTmem : ∀ x, x ≠ b → x ≠ d0 → (l.recF x = true ↔ x ∈ A ++ e :: hs) := by
    intro x hxb hxd
    rw [hrec x, htop, ← hdec]
    simp [hxb, hxd, List.mem_erase_of_ne hxb]
  refine ⟨{ l with S := b :: l.S.erase b, tailp := tp,
                   resF := Function.update l.resF b true,
                   hirF := Function.update (Function.update l.hirF b false) d0 true,
                   nlir := l.nlir + 1 - 1, Q := d0 :: l.Q,
                   recF := Function.update
                     (fun x => if x ∈ hs ++ [d0] then false
                       else Function.update l.recF d0 S_STACK_OUT x) b S_STACK_IN,
                   slen := l.slen - (hs ++ [d0]).length, cur := some e },
    d0, hc, hd0b, hd0l, ?_, ?_, ?_, ?_, rfl, rfl, ?_⟩
  · rw [l_post, htp]
    have hro : ¬ (l.recF b = S_STACK_OUT) := by rw [hr]; simp [S_STACK_OUT]
    simp only [Option.bind_eq_bind, Option.some_bind, if_neg hro]
    have hcond : l.hirF b = true ∧ l.recF b = S_STACK_IN := ⟨hh, by rw [hr]; rfl⟩
    have hgt : l.nlir + 1 > usub64 P.mem_size P.HIR_block_portion_limit := by
      rw [usub64_of_le hle]; omega
    rw [l_promote_or_queue, if_pos hcond]
    simp only [if_pos hgt, l_demote, deref_some, deref_none, hc, l_add_HIR_list_head, List.head?_cons]
    rw [hfl]
    rfl
  · constructor
    · exact hnd2
    · exact List.nodup_cons.2 ⟨hd0Q, h.Q_nodup⟩
    · exact hrange2
    · intro x hx
      show x ∈ b :: l.S.erase b
      rw [hmem]
      rcases List.mem_cons.1 hx with e1 | e1
      · rw [e1]; exact Or.inr hd0S
      · exact Or.inr (h.Q_sub x e1)
    · intro x
      show x ∈ d0 :: l.Q ↔ (Function.update l.resF b true x = true ∧
        Function.update (Function.update l.hirF b false) d0 true x = true)
      rw [hF]
      by_cases hxb : x = b
      · rw [hxb, Function.update_same]
        simp [h.b_notin_Q, hbd0]
      · by_cases hxd : x = d0
        · rw [hxd]
          simp [Function.update_apply, hd0b, h.lir_res d0 hd0b hd0l]
        · simp [hxb, hxd, Function.update_apply, h.Q_iff x hxb]
    · intro x hx
      show Function.update l.resF b true x = true
      have hx' : Function.update (Function.update l.hirF b false) d0 true x = false := hx
      rw [hF] at hx'
      by_cases hxb : x = b
      · rw [hxb, Function.update_same]
      · by_cases hxd : x = d0
        · simp [hxd] at hx'
        · simp only [hxd, hxb, if_false] at hx'
          simp [Function.update_apply, hxb, h.lir_res x hxb hx']
    · intro x hx
      show Function.update (fun x => if x ∈ hs ++ [d0] then false
        else Function.update l.recF d0 S_STACK_OUT x) b S_STACK_IN x = true
      have hx' : Function.update (Function.update l.hirF b false) d0 true x = false := hx
      by_cases hxb : x = b
      · rw [hxb, Function.update_same]; rfl
      · have hxh : x ∉ hs ++ [d0] := fun hm => by
          have := hhs' x hm
          rw [hx'] at this; cases this
        have hxd : x ≠ d0 := fun e1 => hxh (by rw [e1]; simp)
        rw [hF] at hx'
        simp only [hxd, hxb, if_false] at hx'
        rw [Function.update_noteq hxb]
        simp only [if_neg hxh, Function.update_noteq hxd]
        exact h.lir_rec x hxb hx'
    · refine ⟨A ++ [e], hs ++ d0 :: below, ?_, ?_, ?_, ?_, ?_, by simp⟩
      · show b :: l.S.erase b = A ++ [e] ++ (hs ++ d0 :: below)
        rw [hS2]; simp
      · show some e = (A ++ [e]).getLast?
        rw [List.getLast?_append_cons]; rfl
      · intro x
        show Function.update (fun x => if x ∈ hs ++ [d0] then false
          else Function.update l.recF d0 S_STACK_OUT x) b S_STACK_IN x = true ↔ x ∈ A ++ [e]
        by_cases hxb : x = b
        · rw [hxb, Function.update_same]; simp only [S_STACK_IN, true_iff]; exact hbA
        · rw [Function.update_noteq hxb]
          by_cases hxh : x ∈ hs ++ [d0]
          · simp only [if_pos hxh]
            constructor
            · intro hf; cases hf
            · intro hx2; exact absurd hx2 (hdisj x hxh)
          · have hxd : x ≠ d0 := fun e1 => hxh (by rw [e1]; simp)
            simp only [if_neg hxh, Function.update_noteq hxd]
            rw [hTmem x hxb hxd]
            have hxhs : x ∉ hs := fun hm => hxh (List.mem_append_left _ hm)
            simp [hxhs]
      · show l.slen - (hs ++ [d0]).length = (A ++ [e]).length
        rw [hlen, htop]
        have := congrArg List.length hdec
        rw [hTlen] at this
        simp only [List.length_append, List.length_cons, List.length_nil] at this ⊢
        omega
      · intro x hx
        have : x = e := (Option.some.inj hx).symm
        rw [this]; exact he
    · show l.nlir + 1 - 1 =
        (List.range (P.vm_size + 1)).countP
          (fun x => !(Function.update (Function.update l.hirF b false) d0 true) x)
      have h1 := countP_update_false _ (List.nodup_range (P.vm_size + 1)) b
        (List.mem_range.2 (Nat.lt_succ_of_le h.b_range)) l.hirF hh
      have h2 := countP_update_true _ (List.nodup_range (P.vm_size + 1)) d0
        (List.mem_range.2 (Nat.lt_succ_of_le (h.S_range d0 hd0S)))
        (Function.update l.hirF b false) (by rw [Function.update_noteq hd0b]; exact hd0l)
      have h3 := h.nlir_eq
      omega
    · show l.nlir + 1 - 1 + (d0 :: l.Q).length + l.free = P.mem_size
      have := h.frame
      rw [if_pos hh] at this
      rw [List.length_cons]
      omega
    · intro hf
      have : P.HIR_block_portion_limit < l.free := hf
      omega
    · intro _
      show l.nlir + 1 - 1 + P.HIR_block_portion_limit = P.mem_size
      omega
    · intro y hy
      have : y = b := by
        have := h.last_eq
        simp only [] at hy
        rw [this] at hy
        exact (Option.some.inj hy).symm
      rw [this]
      exact List.mem_cons_self _ _
    · intro hn
      have := h.last_eq
      simp only [] at hn
      rw [this] at hn; cases hn
  · show l.slen - (hs ++ [d0]).length ≤ l.slen
    omega
  · constructor <;> first | rfl | exact hmem
  · show Function.update (fun x => if x ∈ hs ++ [d0] then false
      else Function.update l.recF d0 S_STACK_OUT x) b S_STACK_IN d0 = false
    rw [Function.update_noteq hd0b]
    simp

end LIRS

/-! ## One reference on the list machine -/

namespace LIRS

theorem post_step (P : Params) (hP : PWF P) (l : LState) (b : Nat) (h : MidInv P l b) :
    ∃ l4, l_post P l b = some l4 ∧ LInvCore P l4 ∧ l4.slen ≤ l.slen + 1 ∧
      PostFrame l l4 b := by
  by_cases hr : l.recF b = true
  · by_cases hh : l.hirF b = true
    · obtain ⟨l4, d0, _, _, _, h1, h2, h3, h4, _⟩ := post_promote P hP l b h hh hr
      exact ⟨l4, h1, h2, by omega, h4⟩
    · have hh' : l.hirF b = false := by simpa using hh
      by_cases hc : l.cur = some b
      · obtain ⟨l4, h1, h2, h3, h4, _⟩ := post_lir_cursor P hP l b h hh' hr hc
        exact ⟨l4, h1, h2, by omega, h4⟩
      · obtain ⟨l4, h1, h2, h3, h4, _⟩ :=
          post_lir_noncursor P l b h hh' hr (fun e => hc e.symm)
        exact ⟨l4, h1, h2, by omega, h4⟩
  · have hr' : l.recF b = false := by simpa using hr
    obtain ⟨l4, h1, h2, h3, h4, _⟩ := post_fresh P l b h hr'
    exact ⟨l4, h1, h2, by omega, h4⟩

theorem insertAfter_append {Y B : List Nat} {d t : Nat} (hd : d ∉ Y) :
    insertAfter d t (Y ++ d :: B) = Y ++ d :: t :: B := by
  induction Y with
  | nil => simp [insertAfter]
  | cons a Y ih =>
    simp only [List.mem_cons, not_or] at hd
    simp [insertAfter, Ne.symm hd.1, ih hd.2]

/-- What `prune_LIRS_stack` leaves alone. -/
theorem prune_step (P : Params) (hP : PWF P) (l : LState) (h : LInvCore P l)
    (hs : l.slen ≤ P.MAX_S_LEN + 1) :
    ∃ l5, l_prune_LIRS_stack P l = some l5 ∧ LInv P l5 ∧
      l5.resF = l.resF ∧ l5.hirF = l.hirF ∧ l5.Q = l.Q ∧ l5.free = l.free ∧
      l5.flt = l.flt ∧ l5.nlir = l.nlir ∧ l5.total = l.total ∧ l5.warm = l.warm ∧
      l5.nodup = l.nodup ∧ l5.collect = l.collect ∧ l5.last = l.last ∧ l5.cur = l.cur ∧
      (∀ x, x ∈ l5.S ↔ x ∈ l.S) ∧ (∀ x, l5.recF x = true → l.recF x = true) ∧
      (l.slen ≤ P.MAX_S_LEN → l5 = l) := by
  by_cases hle : l.slen ≤ P.MAX_S_LEN
  · refine ⟨l, ?_, ⟨h, hle⟩, rfl, rfl, rfl, rfl, rfl, rfl, rfl, rfl, rfl, rfl, rfl, rfl,
      fun _ => Iff.rfl, fun _ hx => hx, fun _ => rfl⟩
    rw [l_prune_LIRS_stack, if_pos hle]
  · obtain ⟨top, below, hS, hcur, hrec, hlen, hcl, hnil⟩ := h.split
    have hnd := h.S_nodup
    have hndt : top.Nodup := by
      rw [hS] at hnd; exact (List.nodup_append.1 hnd).1
    have hex : ∃ x ∈ top, l.hirF x = true := by
      by_contra hc
      push_neg at hc
      have h1 := length_le_countP_range top hndt (P.vm_size + 1)
        (fun x hx => Nat.lt_succ_of_le (h.S_range x (by rw [hS]; exact List.mem_append_left _ hx)))
        (fun x => !l.hirF x) (fun x hx => by simpa using hc x hx)
      have h2 := h.nlir_eq
      have h3 := h.frame
      have h4 := hP.max_s
      omega
    obtain ⟨X, t, lirs, hdec, ht, hlirs⟩ := exists_last_split (p := fun x => l.hirF x = true) hex
    have hlirs' : ∀ x ∈ lirs, l.hirF x = false := fun x hx => by simpa using hlirs x hx
    obtain ⟨d, hd⟩ : ∃ d, top.getLast? = some d := by
      cases hg : top.getLast? with
      | none =>
        have := List.getLast?_eq_none_iff.1 hg
        rw [this] at hdec
        have := congrArg List.length hdec
        simp at this
        omega
      | some d => exact ⟨d, rfl⟩
    have hc : l.cur = some d := by rw [hcur, hd]
    have hdl : l.hirF d = false := hcl d hc
    have hdt : d ≠ t := by
      intro e; rw [e, ht] at hdl; cases hdl
    obtain ⟨lirs0, hl0⟩ : ∃ ys, lirs = ys ++ [d] := by
      have h1 : (t :: lirs).getLast? = some d := by
        rw [← List.getLast?_append_cons X t lirs, ← hdec]; exact hd
      cases hl : lirs with
      | nil => rw [hl] at h1; simp at h1; exact absurd h1.symm hdt
      | cons a r =>
        rw [hl, List.getLast?_cons_cons] at h1
        exact List.getLast?_eq_some_iff.1 h1
    have hS2 : l.S = X ++ t :: lirs ++ below := by rw [hS, hdec]
    have hscan : l_prune_scan l (walkFuel P) l.cur = some t := by
      rw [hc]
      apply l_prune_scan_closed l (walkFuel P) X t lirs below d hS2 hnd _ ht hlirs'
      · have h1 := length_le_of_nodup_range hnd h.S_range
        rw [hS2] at h1
        simp only [List.length_append, List.length_cons] at h1
        unfold walkFuel
        omega
      · rw [← List.getLast?_append_cons X t lirs, ← hdec]; exact hd.symm
    have htS : t ∈ l.S := by rw [hS2]; simp
    have hdS : d ∈ l.S := by rw [hS2, hl0]; simp
    have hSne : l.S ≠ [t] := by
      intro e
      rw [e] at hdS
      simp at hdS
      exact hdt hdS
    have htX : t ∉ X := by
      intro hm
      rw [hS2] at hnd
      have h1 := List.nodup_append.1 hnd
      have h2 := List.nodup_append.1 h1.1
      exact h2.2.2 hm (List.mem_cons_self _ _)
    have herase : l.S.erase t = X ++ lirs0 ++ d :: below := by
      rw [hS2, List.append_assoc, List.cons_append, erase_mid htX, hl0]; simp
    have hndE : (l.S.erase t).Nodup := hnd.erase t
    have htE : t ∉ l.S.erase t := fun hm => ((List.Nodup.mem_erase_iff hnd).1 hm).1 rfl
    have hdY : d ∉ X ++ lirs0 := by
      intro hm
      rw [herase] at hndE
      have h1 := List.nodup_append.1 hndE
      exact h1.2.2 hm (List.mem_cons_self _ _)
    have hins : insertAfter d t (l.S.erase t) = X ++ lirs0 ++ d :: t :: below := by
      rw [herase, insertAfter_append hdY]
    have hdE : d ∈ l.S.erase t := (List.mem_erase_of_ne hdt).2 hdS
    have hmem : ∀ x, x ∈ insertAfter d t (l.S.erase t) ↔ x ∈ l.S := by
      intro x
      rw [mem_insertAfter hdE]
      by_cases hxt : x = t
      · simp [hxt, htS]
      · simp [hxt, List.mem_erase_of_ne hxt]
    have hpos : 0 < l.slen := by omega
    refine ⟨{ l with recF := Function.update l.recF t S_STACK_OUT,
                     S := insertAfter d t (l.S.erase t),
                     tailp := if nextOf l.S t = none then prevOf l.S t else l.tailp,
                     slen := l.slen - 1 }, ?_, ⟨?_, ?_⟩, rfl, rfl, rfl, rfl, rfl, rfl, rfl, rfl,
      rfl, rfl, rfl, rfl, hmem, ?_, fun hc2 => absurd hc2 hle⟩
    · rw [l_prune_LIRS_stack, if_neg hle, hscan, deref_some]
      simp only []
      have hrm := l_remove_noncursor P
        ({ l with recF := Function.update l.recF t S_STACK_OUT }) t htS hSne (by
          show some t ≠ l.cur
          rw [hc]; intro e; exact hdt (Option.some.inj e).symm)
      rw [hrm]
      simp only [Option.bind_eq_bind, Option.some_bind, l_unlink_LIRS, hc, l_insert_LRU_list,
        deref_some]
      rw [dec64_pos hpos]
    · constructor
      · exact nodup_insertAfter hndE htE
      · exact h.Q_nodup
      · intro x hx
        exact h.S_range x ((hmem x).1 hx)
      · intro x hx
        exact (hmem x).2 (h.Q_sub x hx)
      · exact h.Q_iff
      · exact h.lir_res
      · intro x hx
        show Function.update l.recF t S_STACK_OUT x = true
        have hxt : x ≠ t := by
          intro e
          have hx' : l.hirF x = false := hx
          rw [e, ht] at hx'; cases hx'
        rw [Function.update_noteq hxt]
        exact h.lir_rec x hx
      · refine ⟨X ++ lirs, t :: below, ?_, ?_, ?_, ?_, hcl, ?_⟩
        · show insertAfter d t (l.S.erase t) = X ++ lirs ++ t :: below
          rw [hins, hl0]; simp
        · show l.cur = (X ++ lirs).getLast?
          rw [hc, hl0, ← List.append_assoc, List.getLast?_append_cons]; rfl
        · intro x
          show Function.update l.recF t S_STACK_OUT x = true ↔ x ∈ X ++ lirs
          by_cases hxt : x = t
          · rw [hxt, Function.update_same]
            have : t ∉ X ++ lirs := by
              intro hm
              rcases List.mem_append.1 hm with e | e
              · exact htX e
              · have := hlirs' t e
                rw [ht] at this; cases this
            simp [S_STACK_OUT, this]
          · rw [Function.update_noteq hxt, hrec x, hdec]
            simp [hxt]
        · show l.slen - 1 = (X ++ lirs).length
          rw [hlen, hdec]
          simp only [List.length_append, List.length_cons]
          omega
        · intro e
          rw [hl0] at e
          simp at e
      · exact h.nlir_eq
      · exact h.frame
      · intro hf
        refine ⟨(h.phaseA hf).1, ?_⟩
        intro x hx
        exact (h.phaseA hf).2 x ((hmem x).1 hx)
      · exact h.phaseB
      · intro y hy
        exact (hmem y).2 (h.last_mem y hy)
      · intro hn
        have := h.last_none hn
        rw [this] at htS; cases htS
    · show l.slen - 1 ≤ P.MAX_S_LEN
      omega
    · intro x hx
      have hx' : Function.update l.recF t S_STACK_OUT x = true := hx
      by_cases hxt : x = t
      · rw [hxt, Function.update_same] at hx'; cases hx'
      · rw [Function.update_noteq hxt] at hx'; exact hx'

end LIRS

/-! ## The table machine follows the list machine -/

namespace LIRS

theorem conc_make_room (P : Params) (l : LState) (b : Nat) (hq : l.Q.Nodup) :
    make_room P (conc l) b = (l_make_room P l b).map conc := by
  by_cases hf : l.free = 0
  · have hf2 : (conc l).free_mem_size = 0 := hf
    rw [make_room, l_make_room, if_pos hf, if_pos hf2]
    cases hg : l.Q.getLast? with
    | none =>
      have hg2 : (conc l).HIR_list_tail = none := hg
      rw [deref_eq_none hg2, deref_none]; rfl
    | some t =>
      have hg2 : (conc l).HIR_list_tail = some t := hg
      have ht : t ∈ l.Q := List.mem_of_getLast?_eq_some hg
      rw [deref_eq_some hg2, deref_some]
      simp only []
      rw [conc_set_isResident,
        conc_remove_HIR_list ({ l with resF := Function.update l.resF t false }) t hq ht]
      rfl
  · have hf2 : ¬ (conc l).free_mem_size = 0 := hf
    rw [make_room, l_make_room, if_neg hf, if_neg hf2]
    by_cases hh : l.free > P.HIR_block_portion_limit
    · have hh2 : (conc l).free_mem_size > P.HIR_block_portion_limit := hh
      rw [if_pos hh, if_pos hh2, conc_set_isHIR_block]
      rfl
    · have hh2 : ¬ (conc l).free_mem_size > P.HIR_block_portion_limit := hh
      rw [if_neg hh, if_neg hh2]
      rfl

theorem conc_miss_or_hit (P : Params) (l : LState) (b : Nat) (hq : l.Q.Nodup)
    (hb : l.resF b = true → l.hirF b = true → b ∈ l.Q) :
    miss_or_hit P (conc l) b = (l_miss_or_hit P l b).map conc := by
  by_cases hr : l.resF b = false
  · have hr2 : ((conc l).page_tbl b).isResident = false := hr
    rw [miss_or_hit, l_miss_or_hit, if_pos hr, if_pos hr2]
    have e : (if (conc l).collect_stat = true then
          { conc l with num_pg_flt := (conc l).num_pg_flt + 1 } else conc l) =
        conc (if l.collect = true then { l with flt := l.flt + 1 } else l) := by
      by_cases hc : l.collect = true
      · have hc2 : (conc l).collect_stat = true := hc
        rw [if_pos hc, if_pos hc2]; rfl
      · have hc2 : ¬ (conc l).collect_stat = true := hc
        rw [if_neg hc, if_neg hc2]
    simp only []
    rw [e, conc_make_room]
    · cases l_make_room P (if l.collect = true then { l with flt := l.flt + 1 } else l) b with
      | none => rfl
      | some l2 => rfl
    · by_cases hc : l.collect = true
      · rw [if_pos hc]; exact hq
      · rw [if_neg hc]; exact hq
  · have hr2 : ¬ ((conc l).page_tbl b).isResident = false := hr
    have hr3 : l.resF b = true := by simpa using hr
    rw [miss_or_hit, l_miss_or_hit, if_neg hr, if_neg hr2]
    by_cases hh : l.hirF b = true
    · have hh2 : ((conc l).page_tbl b).isHIR_block = true := hh
      rw [if_pos hh, if_pos hh2, conc_remove_HIR_list l b hq (hb hr3 hh)]
      rfl
    · have hh2 : ¬ ((conc l).page_tbl b).isHIR_block = true := hh
      rw [if_neg hh, if_neg hh2]
      rfl

theorem l_remove_LIRS_list_S (P : Params) (l l1 : LState) (b : Nat)
    (h : l_remove_LIRS_list P l b = some l1) (hne : l.S ≠ [b]) :
    l1.S = l.S.erase b ∧ l1.Q = l.Q ∧ l1.hirF = l.hirF ∧ l1.resF = l.resF := by
  by_cases hc : prevOf l.S b = none ∧ nextOf l.S b = none
  · rw [l_remove_LIRS_list, if_pos hc] at h
    cases h
    have hb : b ∉ l.S := fun hm => hne (singleton_of_no_links hm hc.1 hc.2)
    exact ⟨(List.erase_of_not_mem hb).symm, rfl, rfl, rfl⟩
  · rw [l_remove_LIRS_list, if_neg hc] at h
    by_cases hcur : some b = l.cur
    · rw [if_pos hcur] at h
      cases hf : l_find_last_LIR_LRU P { l with cur := prevOf l.S b } with
      | none => rw [hf] at h; cases h
      | some l' =>
        rw [hf] at h
        have hS := l_find_last_LIR_LRU_S P _ _ hf
        simp only [Option.bind_eq_bind, Option.some_bind, Option.some.injEq] at h
        subst h
        simp only [l_unlink_LIRS]
        exact ⟨by rw [hS.1], hS.2.1, hS.2.2.1, hS.2.2.2.1⟩
    · rw [if_neg hcur] at h
      simp only [Option.bind_eq_bind, Option.some_bind, Option.some.injEq] at h
      subst h
      exact ⟨rfl, rfl, rfl, rfl⟩

theorem conc_relink (P : Params) (l : LState) (b : Nat) (hnd : l.S.Nodup) (hne : l.S ≠ [b]) :
    relink P (conc l) b = (l_relink P l b).map conc := by
  rw [relink, l_relink, conc_remove_LIRS_list P l b hnd]
  cases hrm : l_remove_LIRS_list P l b with
  | none => rfl
  | some l1 =>
    have hS := (l_remove_LIRS_list_S P l l1 b hrm hne).1
    have hb : b ∉ l1.S := by
      rw [hS]; intro hm
      exact ((List.Nodup.mem_erase_iff hnd).1 hm).1 rfl
    simp only [Option.map_some', Option.bind_eq_bind, Option.some_bind]
    rw [conc_add_LRU_list_head l1 b hb, conc_set_isResident]
    by_cases hr : (l_add_LRU_list_head l1 b).recF b = S_STACK_OUT
    · have hr2 : ((conc { l_add_LRU_list_head l1 b with
          resF := Function.update (l_add_LRU_list_head l1 b).resF b true }).page_tbl b).recency =
          S_STACK_OUT := hr
      rw [if_pos hr2, if_pos hr]; rfl
    · have hr2 : ¬ ((conc { l_add_LRU_list_head l1 b with
          resF := Function.update (l_add_LRU_list_head l1 b).resF b true }).page_tbl b).recency =
          S_STACK_OUT := hr
      rw [if_neg hr2, if_neg hr]

theorem conc_demote (P : Params) (l : LState) (hd : ∀ d, l.cur = some d → d ∉ l.Q) :
    demote P (conc l) = (l_demote P l).map conc := by
  cases hc : l.cur with
  | none =>
    have hc2 : (conc l).LIR_LRU_block_ptr = none := hc
    rw [demote, l_demote, deref_eq_none hc2, deref_eq_none hc]; rfl
  | some d =>
    have hc2 : (conc l).LIR_LRU_block_ptr = some d := hc
    have hh : (l_add_HIR_list_head l d).Q.head? = some d := rfl
    have hh2 : (conc (l_add_HIR_list_head l d)).HIR_list_head = some d := rfl
    rw [demote, l_demote, deref_eq_some hc2, deref_eq_some hc]
    simp only []
    rw [conc_add_HIR_list_head l d (hd d hc), deref_eq_some hh2, deref_eq_some hh,
      conc_set_isHIR_block, conc_set_recency]
    exact conc_find_last_LIR_LRU P
      ({ l with Q := d :: l.Q, hirF := Function.update l.hirF d true,
                recF := Function.update l.recF d S_STACK_OUT, nlir := l.nlir - 1 })

theorem conc_promote_or_queue (P : Params) (l : LState) (b : Nat) (hb : b ∉ l.Q)
    (hd : ∀ d, l.cur = some d → d ∉ l.Q) :
    promote_or_queue P (conc l) b = (l_promote_or_queue P l b).map conc := by
  by_cases h1 : l.hirF b = true ∧ l.recF b = S_STACK_IN
  · have h2 : ((conc l).page_tbl b).isHIR_block = true ∧
        ((conc l).page_tbl b).recency = S_STACK_IN := h1
    rw [promote_or_queue, l_promote_or_queue, if_pos h1, if_pos h2]
    simp only []
    rw [conc_set_isHIR_block]
    by_cases h3 : l.nlir + 1 > usub64 P.mem_size P.HIR_block_portion_limit
    · have h4 : (conc l).num_LIR_pgs + 1 > usub64 P.mem_size P.HIR_block_portion_limit := h3
      rw [if_pos h3, if_pos h4]
      exact conc_demote P
        ({ l with hirF := Function.update l.hirF b false, nlir := l.nlir + 1 }) hd
    · have h4 : ¬ (conc l).num_LIR_pgs + 1 > usub64 P.mem_size P.HIR_block_portion_limit := h3
      rw [if_neg h3, if_neg h4]
      rfl
  · have h2 : ¬ (((conc l).page_tbl b).isHIR_block = true ∧
        ((conc l).page_tbl b).recency = S_STACK_IN) := h1
    rw [promote_or_queue, l_promote_or_queue, if_neg h1, if_neg h2]
    by_cases hh : l.hirF b = true
    · have hh2 : ((conc l).page_tbl b).isHIR_block = true := hh
      rw [if_pos hh, if_pos hh2, conc_add_HIR_list_head l b hb]
      rfl
    · have hh2 : ¬ ((conc l).page_tbl b).isHIR_block = true := hh
      rw [if_neg hh, if_neg hh2]
      rfl

theorem l_find_last_LIR_LRU_loop_cur (k : Nat) (l l1 : LState)
    (h : l_find_last_LIR_LRU_loop k l = some l1) :
    ∃ d, l1.cur = some d ∧ l1.hirF d = false := by
  induction k generalizing l with
  | zero => simp [l_find_last_LIR_LRU_loop] at h
  | succ k ih =>
    cases hc : l.cur with
    | none => simp [l_find_last_LIR_LRU_loop, hc] at h
    | some p =>
      by_cases hh : l.hirF p = true
      · rw [l_find_last_LIR_LRU_loop_hir k _ p hc hh] at h
        exact ih _ h
      · rw [l_find_last_LIR_LRU_loop_lir k _ p hc hh] at h
        cases h
        exact ⟨p, hc, by simpa using hh⟩

theorem l_relink_cur (P : Params) (l l2 : LState) (b : Nat) (h : l_relink P l b = some l2)
    (hne : l.S ≠ [b]) (hcl : ∀ d, l.cur = some d → l.hirF d = false) :
    l2.Q = l.Q ∧ ∀ d, l2.cur = some d → (d = b ∨ l.hirF d = false) := by
  rw [l_relink] at h
  cases hrm : l_remove_LIRS_list P l b with
  | none => rw [hrm] at h; cases h
  | some l1 =>
    rw [hrm] at h
    simp only [Option.some_bind, Option.some.injEq] at h
    have hS := l_remove_LIRS_list_S P l l1 b hrm hne
    have hcur1 : ∀ d, l1.cur = some d → l.hirF d = false := by
      by_cases hc : prevOf l.S b = none ∧ nextOf l.S b = none
      · rw [l_remove_LIRS_list, if_pos hc] at hrm
        cases hrm; exact hcl
      · rw [l_remove_LIRS_list, if_neg hc] at hrm
        by_cases hcur : some b = l.cur
        · rw [if_pos hcur] at hrm
          cases hf : l_find_last_LIR_LRU P { l with cur := prevOf l.S b } with
          | none => rw [hf] at hrm; cases hrm
          | some l' =>
            rw [hf] at hrm
            simp only [Option.bind_eq_bind, Option.some_bind, Option.some.injEq] at hrm
            have hfr := l_find_last_LIR_LRU_S P _ _ hf
            have hcu : ∃ d, l'.cur = some d ∧ l'.hirF d = false := by
              cases hp : prevOf l.S b with
              | none => simp [l_find_last_LIR_LRU, hp] at hf
              | some p =>
                simp only [l_find_last_LIR_LRU, hp] at hf
                exact l_find_last_LIR_LRU_loop_cur _ _ _ hf
            obtain ⟨d', hd1, hd2⟩ := hcu
            intro d hd
            rw [← hrm] at hd
            simp only [l_unlink_LIRS] at hd
            rw [hd1] at hd
            cases hd
            rw [hfr.2.2.1] at hd2
            exact hd2
        · rw [if_neg hcur] at hrm
          simp only [Option.bind_eq_bind, Option.some_bind, Option.some.injEq] at hrm
          rw [← hrm]
          exact hcl
    have key : (l_add_LRU_list_head l1 b).Q = l1.Q ∧
        ∀ d, (l_add_LRU_list_head l1 b).cur = some d → (d = b ∨ l1.cur = some d) := by
      cases hh : l1.S.head? with
      | none =>
        simp only [l_add_LRU_list_head, hh]
        refine ⟨trivial, ?_⟩
        intro d hd
        exact Or.inl (Option.some.inj hd).symm
      | some a =>
        simp only [l_add_LRU_list_head, hh]
        exact ⟨trivial, fun d hd => Or.inr hd⟩
    by_cases hr : (l_add_LRU_list_head l1 b).recF b = S_STACK_OUT
    · simp only [hr, if_true] at h
      rw [← h]
      refine ⟨by simp only []; rw [key.1, hS.2.1], ?_⟩
      intro d hd
      rcases key.2 d hd with e | e
      · exact Or.inl e
      · exact Or.inr (hcur1 d e)
    · simp only [hr, if_false] at h
      rw [← h]
      refine ⟨by simp only []; rw [key.1, hS.2.1], ?_⟩
      intro d hd
      rcases key.2 d hd with e | e
      · exact Or.inl e
      · exact Or.inr (hcur1 d e)

theorem conc_post (P : Params) (l : LState) (b : Nat) (h : MidInv P l b) :
    post P (conc l) b = (l_post P l b).map conc := by
  rw [post, l_post, conc_relink P l b h.S_nodup h.S_ne]
  cases hrl : l_relink P l b with
  | none => rfl
  | some l2 =>
    obtain ⟨_, _, _, _, _, _, hcl, _⟩ := h.split
    have hc := l_relink_cur P l l2 b hrl h.S_ne hcl
    have hbQ : b ∉ l2.Q := by rw [hc.1]; exact h.b_notin_Q
    have hdQ : ∀ d, l2.cur = some d → d ∉ l2.Q := by
      intro d hd
      rw [hc.1]
      rcases hc.2 d hd with e | e
      · rw [e]; exact h.b_notin_Q
      · by_cases hdb : d = b
        · rw [hdb]; exact h.b_notin_Q
        · intro hm
          have := ((h.Q_iff d hdb).1 hm).2
          rw [e] at this; cases this
    simp only [Option.map_some', Option.some_bind]
    rw [conc_promote_or_queue P l2 b hbQ hdQ]
    cases hpq : l_promote_or_queue P l2 b with
    | none => rfl
    | some l3 =>
      simp only [Option.map_some', Option.some_bind]
      rw [conc_set_recency]

theorem l_prune_scan_some (l : LState) (k : Nat) (c : Option Nat) (t : Nat)
    (h : l_prune_scan l k c = some t) :
    l.hirF t = true ∧ (c = some t ∨ t ∈ l.S) := by
  induction k generalizing c with
  | zero => simp [l_prune_scan] at h
  | succ k ih =>
    cases c with
    | none => simp [l_prune_scan] at h
    | some c =>
      rw [l_prune_scan] at h
      by_cases hc : l.hirF c = false
      · rw [if_pos hc] at h
        obtain ⟨h1, h2⟩ := ih _ h
        refine ⟨h1, Or.inr ?_⟩
        rcases h2 with e | e
        · exact (prevOf_mem e).2
        · exact e
      · rw [if_neg hc] at h
        cases h
        exact ⟨by simpa using hc, Or.inl rfl⟩

theorem LInvCore.cur_mem {P : Params} {l : LState} (h : LInvCore P l) {d : Nat}
    (hd : l.cur = some d) : d ∈ l.S ∧ l.hirF d = false := by
  obtain ⟨top, below, hS, hcur, _, _, hcl, _⟩ := h.split
  refine ⟨?_, hcl d hd⟩
  rw [hS]
  exact List.mem_append_left _ (List.mem_of_getLast?_eq_some (by rw [← hcur]; exact hd))

theorem conc_prune_LIRS_stack (P : Params) (l : LState) (h : LInvCore P l) :
    prune_LIRS_stack P (conc l) = (l_prune_LIRS_stack P l).map conc := by
  by_cases hle : l.slen ≤ P.MAX_S_LEN
  · have hle2 : (conc l).cur_lir_S_len ≤ P.MAX_S_LEN := hle
    rw [prune_LIRS_stack, l_prune_LIRS_stack, if_pos hle, if_pos hle2]
    rfl
  · have hle2 : ¬ (conc l).cur_lir_S_len ≤ P.MAX_S_LEN := hle
    rw [prune_LIRS_stack, l_prune_LIRS_stack, if_neg hle, if_neg hle2, conc_prune_scan]
    have e0 : (conc l).LIR_LRU_block_ptr = l.cur := rfl
    rw [e0]
    cases hsc : l_prune_scan l (walkFuel P) l.cur with
    | none => rw [deref_none, deref_none]; rfl
    | some t =>
      obtain ⟨ht, hmem⟩ := l_prune_scan_some l _ _ t hsc
      obtain ⟨d, hc⟩ : ∃ d, l.cur = some d := by
        cases hc : l.cur with
        | none => rw [hc] at hsc; simp [l_prune_scan, walkFuel] at hsc
        | some d => exact ⟨d, rfl⟩
      obtain ⟨hdS, hdl⟩ := h.cur_mem hc
      have hdt : d ≠ t := by
        intro e; rw [e, ht] at hdl; cases hdl
      have htS : t ∈ l.S := by
        rcases hmem with e | e
        · rw [hc] at e; exact absurd (Option.some.inj e) hdt
        · exact e
      have hSne : l.S ≠ [t] := by
        intro e
        rw [e] at hdS
        simp at hdS
        exact hdt hdS
      have hrm := l_remove_noncursor P
        ({ l with recF := Function.update l.recF t S_STACK_OUT }) t htS hSne (by
          show some t ≠ l.cur
          rw [hc]; intro e; exact hdt (Option.some.inj e).symm)
      rw [deref_some, deref_some]
      simp only []
      rw [conc_set_recency,
        conc_remove_LIRS_list P ({ l with recF := Function.update l.recF t S_STACK_OUT }) t
          h.S_nodup, hrm]
      simp only [Option.map_some', Option.some_bind]
      have hc1 : (l_unlink_LIRS ({ l with recF := Function.update l.recF t S_STACK_OUT })
          t).cur = some d := hc
      have hc2 : (conc (l_unlink_LIRS ({ l with recF := Function.update l.recF t S_STACK_OUT })
          t)).LIR_LRU_block_ptr = some d := hc
      rw [deref_eq_some hc1, deref_eq_some hc2]
      rw [conc_insert_LRU_list _ t d (h.S_nodup.erase t)
        (fun hm => ((List.Nodup.mem_erase_iff h.S_nodup).1 hm).1 rfl)
        ((List.mem_erase_of_ne hdt).2 hdS)]
      rfl

end LIRS

/-! ## The invariant along a run -/

namespace LIRS

theorem mid_step (P : Params) (hP : PWF P) (l : LState) (b : Nat) (h : LInvCore P l)
    (hb : b ≤ P.vm_size) (hlast : l.last ≠ some b) :
    ∃ l1, l_miss_or_hit P { l with last := some b, nodup := l.nodup + 1 } b = some l1 ∧
      MidInv P l1 b ∧ l1.slen = l.slen := by
  by_cases hr : l.resF b = false
  · by_cases hf : l.free = 0
    · obtain ⟨t, _, _, h1, h2⟩ := mid_miss_evict P hP l b h hb hlast hr hf
      exact ⟨_, h1, h2, rfl⟩
    · by_cases hf2 : P.HIR_block_portion_limit < l.free
      · obtain ⟨h1, h2⟩ := mid_miss_lir P l b h hb hlast hr hf2
        exact ⟨_, h1, h2, rfl⟩
      · obtain ⟨h1, h2⟩ := mid_miss_hir P hP l b h hb hlast hr hf (by omega)
        exact ⟨_, h1, h2, rfl⟩
  · have hr' : l.resF b = true := by simpa using hr
    by_cases hh : l.hirF b = true
    · obtain ⟨h1, h2⟩ := mid_hit_hir P l b h hb hlast hr' hh
      exact ⟨_, h1, h2, rfl⟩
    · obtain ⟨h1, h2⟩ := mid_hit_lir P l b h hb hlast (by simpa using hh)
      exact ⟨_, h1, h2, rfl⟩

theorem l_access_step (P : Params) (hP : PWF P) (l : LState) (b : Nat) (h : LInv P l)
    (hb : b ≤ P.vm_size) (hlast : l.last ≠ some b) :
    ∃ l5, l_access P l b = some l5 ∧ LInv P l5 ∧
      LIRS_access P (conc l) b = some (conc l5) := by
  obtain ⟨l1, h1, hm, hs1⟩ := mid_step P hP l b h.core hb hlast
  obtain ⟨l4, h4, hi4, hs4, _⟩ := post_step P hP l1 b hm
  obtain ⟨l5, h5, hi5, _⟩ := prune_step P hP l4 hi4 (by have := h.slen_le; omega)
  refine ⟨l5, ?_, hi5, ?_⟩
  · simp only [l_access, l_access_core, h1, h4, h5, Option.some_bind]
  · have hq : ({ l with last := some b, nodup := l.nodup + 1 } : LState).Q.Nodup := h.core.Q_nodup
    have e0 : ({ conc l with last_ref_pg := some b, no_dup_refs := (conc l).no_dup_refs + 1 } :
        State) = conc { l with last := some b, nodup := l.nodup + 1 } := rfl
    rw [LIRS_access]
    show ((miss_or_hit P
      ({ conc l with last_ref_pg := some b, no_dup_refs := (conc l).no_dup_refs + 1 }) b).bind
        fun s1 => (post P s1 b).bind fun s4 => prune_LIRS_stack P s4) = some (conc l5)
    rw [e0, conc_miss_or_hit P _ b hq (fun hr hh => (h.core.Q_iff b).2 ⟨hr, hh⟩), h1]
    simp only [Option.map_some', Option.some_bind]
    rw [conc_post P l1 b hm, h4]
    simp only [Option.map_some', Option.some_bind]
    rw [conc_prune_LIRS_stack P l4 hi4, h5]
    rfl

theorem LInv_count (P : Params) (l : LState) (h : LInv P l) : LInv P (l_count P l) := by
  unfold l_count
  by_cases hc : l.total + 1 > P.STAT_START_POINT
  · simp only [hc, if_true]
    exact ⟨⟨h.core.S_nodup, h.core.Q_nodup, h.core.S_range, h.core.Q_sub, h.core.Q_iff,
      h.core.lir_res, h.core.lir_rec, h.core.split, h.core.nlir_eq, h.core.frame,
      h.core.phaseA, h.core.phaseB, h.core.last_mem, h.core.last_none⟩, h.slen_le⟩
  · simp only [hc, if_false]
    exact ⟨⟨h.core.S_nodup, h.core.Q_nodup, h.core.S_range, h.core.Q_sub, h.core.Q_iff,
      h.core.lir_res, h.core.lir_rec, h.core.split, h.core.nlir_eq, h.core.frame,
      h.core.phaseA, h.core.phaseB, h.core.last_mem, h.core.last_none⟩, h.slen_le⟩

theorem iter_conc (P : Params) (l : LState) (b : Nat) (hb : ¬ b > P.vm_size) :
    LIRS_Repl_iter P (conc l) b =
      if some b = (l_count P l).last then Step.next (conc (l_count P l))
      else match LIRS_access P (conc (l_count P l)) b with
        | some s3 => Step.next s3
        | none => Step.abort := by
  unfold LIRS_Repl_iter l_count
  by_cases hc : l.total + 1 > P.STAT_START_POINT
  · have hc2 : ({ conc l with total_pg_refs := (conc l).total_pg_refs + 1 } :
        State).total_pg_refs > P.STAT_START_POINT := hc
    simp only [hc, hc2, if_true, if_neg hb]
    rfl
  · have hc2 : ¬ ({ conc l with total_pg_refs := (conc l).total_pg_refs + 1 } :
        State).total_pg_refs > P.STAT_START_POINT := hc
    simp only [hc, hc2, if_false, if_neg hb]
    rfl

theorem l_iter_step (P : Params) (hP : PWF P) (l : LState) (b : Nat) (h : LInv P l)
    (hb : b ≤ P.vm_size) :
    ∃ l1, l_iter P l b = some l1 ∧ LInv P l1 ∧
      LIRS_Repl_iter P (conc l) b = Step.next (conc l1) := by
  have hc := LInv_count P l h
  have hnb : ¬ b > P.vm_size := by omega
  have e := iter_conc P l b hnb
  by_cases hd : some b = (l_count P l).last
  · refine ⟨l_count P l, by rw [l_iter, if_pos hd], hc, ?_⟩
    rw [e, if_pos hd]
  · obtain ⟨l5, h5, hi5, hc5⟩ := l_access_step P hP (l_count P l) b hc hb
      (fun e2 => hd e2.symm)
    refine ⟨l5, by rw [l_iter, if_neg hd, h5], hi5, ?_⟩
    rw [e, if_neg hd, hc5]

theorem l_run_step (P : Params) (hP : PWF P) (t : List Nat) :
    ∀ l, LInv P l → (∀ x ∈ t, x ≤ P.vm_size) →
      ∃ l1, l_run P l t = some l1 ∧ LInv P l1 ∧
        LIRS_Repl_loop P (conc l) t = Step.next (conc l1) := by
  induction t with
  | nil => intro l h _; exact ⟨l, rfl, h, rfl⟩
  | cons r rest ih =>
    intro l h hr
    obtain ⟨l1, h1, hi1, hc1⟩ := l_iter_step P hP l r h (hr r (List.mem_cons_self _ _))
    obtain ⟨l2, h2, hi2, hc2⟩ := ih l1 hi1 (fun x hx => hr x (List.mem_cons_of_mem _ hx))
    refine ⟨l2, ?_, hi2, ?_⟩
    · simp only [l_run, h1, Option.some_bind, h2]
    · simp only [LIRS_Repl_loop, hc1, hc2]

theorem LInv_init (P : Params) (hP : PWF P) : LInv P (l_init P) := by
  refine ⟨⟨List.nodup_nil, List.nodup_nil, by simp [l_init], by simp [l_init], ?_, ?_, ?_, ?_,
    ?_, ?_, ?_, ?_, ?_, ?_⟩, ?_⟩
  · intro x; simp [l_init]
  · intro x hx; simp [l_init] at hx
  · intro x hx; simp [l_init] at hx
  · exact ⟨[], [], rfl, rfl, by intro x; simp [l_init, S_STACK_OUT], rfl,
      by intro d hd; simp [l_init] at hd, fun _ => rfl⟩
  · simp [l_init]
  · simp [l_init]
  · intro _; simp [l_init]
  · intro hf
    have h1 : P.mem_size ≤ P.HIR_block_portion_limit := hf
    have h2 := hP.lir_two
    omega
  · intro y hy; simp [l_init] at hy
  · intro _; rfl
  · simp [l_init]

/-- Every trace of references in range is processed to its end, and the state reached is
the layout of a list state that satisfies the invariant. -/
theorem reach (P : Params) (hP : PWF P) (t : List Nat) (ht : ∀ x ∈ t, x ≤ P.vm_size) :
    ∃ l, l_run P (l_init P) t = some l ∧ LInv P l ∧ runState P t = some (conc l) := by
  obtain ⟨l, h1, h2, h3⟩ := l_run_step P hP t (l_init P) (LInv_init P hP) ht
  refine ⟨l, h1, h2, ?_⟩
  unfold runState LIRS_Repl
  rw [← conc_init, h3]

theorem walk_nextOf (L : List Nat) :
    ∀ (fuel : Nat) (f : Nat → Option Nat), L.Nodup → L.length ≤ fuel →
      (∀ x ∈ L, f x = nextOf L x) → walk f fuel L.head? = L := by
  induction L with
  | nil =>
    intro fuel f _ _ _
    cases fuel <;> rfl
  | cons a t ih =>
    intro fuel f hnd hlen hf
    rw [List.nodup_cons] at hnd
    obtain ⟨k, rfl⟩ : ∃ k, fuel = k + 1 := ⟨fuel - 1, by simp at hlen; omega⟩
    have h1 : f a = t.head? := by
      rw [hf a (List.mem_cons_self _ _)]
      simp [nextOf]
    simp only [List.head?_cons, walk, h1]
    rw [ih k f hnd.2 (by simp at hlen; omega)]
    intro x hx
    rw [hf x (List.mem_cons_of_mem _ hx)]
    have : a ≠ x := fun e => hnd.1 (e ▸ hx)
    simp [nextOf, this]

theorem Q_list_conc (P : Params) (l : LState) (h : LInv P l) : Q_list P (conc l) = l.Q := by
  unfold Q_list
  apply walk_nextOf l.Q _ _ h.core.Q_nodup
  · exact length_le_of_nodup_range h.core.Q_nodup
      (fun x hx => h.core.S_range x (h.core.Q_sub x hx))
  · intro x _; rfl

theorem S_list_conc (P : Params) (l : LState) (h : LInv P l) : S_list P (conc l) = l.S := by
  unfold S_list
  apply walk_nextOf l.S _ _ h.core.S_nodup
  · exact length_le_of_nodup_range h.core.S_nodup h.core.S_range
  · intro x _; rfl

theorem count_LIR_conc (P : Params) (l : LState) (h : LInv P l) :
    count_LIR P (conc l) = l.nlir := by
  rw [h.core.nlir_eq]; rfl

end LIRS

/-! ## The invariants of the specification -/

namespace LIRS

theorem PWF_main (vm c maxS start : Nat) (hc : 10 ≤ c) (hm : c ≤ maxS) :
    PWF (mainParams vm c maxS start) := by
  constructor
  · show 1 ≤ HIR_limit_of c
    unfold HIR_limit_of HIR_RATE LOWEST_HG_NUM
    split_ifs <;> omega
  · show HIR_limit_of c + 2 ≤ c
    unfold HIR_limit_of HIR_RATE LOWEST_HG_NUM
    split_ifs <;> omega
  · exact hm

theorem LInv.Q_len_le {P : Params} {l : LState} (h : LInv P l) :
    l.Q.length ≤ P.HIR_block_portion_limit ∧
      l.nlir + P.HIR_block_portion_limit ≤ P.mem_size := by
  have hf := h.core.frame
  by_cases hA : P.HIR_block_portion_limit < l.free
  · have := (h.core.phaseA hA).1
    rw [this] at hf ⊢
    simp at hf ⊢
    omega
  · have := h.core.phaseB (by omega)
    omega

theorem nodup_split_unique {A B A1 B1 : List Nat} {d : Nat}
    (hnd : (A ++ d :: B).Nodup) (h : A ++ d :: B = A1 ++ d :: B1) : A = A1 ∧ B = B1 := by
  induction A generalizing A1 with
  | nil =>
    cases A1 with
    | nil => simp at h; exact ⟨rfl, h⟩
    | cons a t =>
      exfalso
      simp only [List.nil_append, List.cons_append, List.cons.injEq] at h
      obtain ⟨e, h2⟩ := h
      subst e
      rw [List.nil_append, List.nodup_cons] at hnd
      apply hnd.1
      rw [h2]; simp
  | cons a t ih =>
    cases A1 with
    | nil =>
      exfalso
      simp only [List.nil_append, List.cons_append, List.cons.injEq] at h
      obtain ⟨e, h2⟩ := h
      subst e
      rw [List.cons_append, List.nodup_cons] at hnd
      apply hnd.1
      simp
    | cons a1 t1 =>
      simp only [List.cons_append, List.cons.injEq] at h
      obtain ⟨e, h2⟩ := h
      subst e
      rw [List.cons_append, List.nodup_cons] at hnd
      obtain ⟨h3, h4⟩ := ih hnd.2 h2
      exact ⟨by rw [h3], h4⟩

/-- C1. Frame conservation: after every reference of a trace of in-range block numbers,
for a cache of `c ≥ 10` frames, the counter `num_LIR_pgs` is the number of LIR blocks in
the table, and `num_LIR_pgs` plus the length of queue Q plus `free_mem_size` is `c`. -/
theorem C1_frame_conservation (vm c maxS start : Nat) (trace : List Nat) (hc : 10 ≤ c)
    (hm : c ≤ maxS) (ht : ∀ x ∈ trace, x ≤ vm) :
    ∃ s, runState (mainParams vm c maxS start) trace = some s ∧
      s.num_LIR_pgs = count_LIR (mainParams vm c maxS start) s ∧
      s.num_LIR_pgs + (Q_list (mainParams vm c maxS start) s).length + s.free_mem_size = c := by
  obtain ⟨l, _, hi, hr⟩ := reach (mainParams vm c maxS start) (PWF_main vm c maxS start hc hm) trace ht
  refine ⟨conc l, hr, ?_, ?_⟩
  · rw [count_LIR_conc _ l hi]; rfl
  · rw [Q_list_conc _ l hi]
    exact hi.core.frame

/-- Instance of C1: cache of 10 frames, a trace that fills the cache and re-references. -/
theorem C1_frame_conservation_witness :
    10 ≤ 10 ∧ 10 ≤ 20 ∧ (∀ x ∈ [0, 1, 2, 3, 4, 5, 6, 7, 8, 9, 10, 8, 0], x ≤ 12) ∧
    ∃ s, runState (mainParams 12 10 20 0) [0, 1, 2, 3, 4, 5, 6, 7, 8, 9, 10, 8, 0] = some s ∧
      s.num_LIR_pgs = count_LIR (mainParams 12 10 20 0) s ∧
      s.num_LIR_pgs + (Q_list (mainParams 12 10 20 0) s).length + s.free_mem_size = 10 :=
  ⟨by decide, by decide, by decide,
    C1_frame_conservation 12 10 20 0 [0, 1, 2, 3, 4, 5, 6, 7, 8, 9, 10, 8, 0]
      (by decide) (by decide) (by decide)⟩

/-- C2. Queue Q holds exactly the resident HIR blocks: after every reference the chain
from `HIR_list_head` along `HIR_rsd_next` has no repetition, ends at `HIR_list_tail` with a
null link, and a block is on it if and only if it is resident and HIR. -/
theorem C2_queue_resident_HIR (vm c maxS start : Nat) (trace : List Nat) (hc : 10 ≤ c)
    (hm : c ≤ maxS) (ht : ∀ x ∈ trace, x ≤ vm) :
    ∃ s, runState (mainParams vm c maxS start) trace = some s ∧
      (Q_list (mainParams vm c maxS start) s).Nodup ∧
      (Q_list (mainParams vm c maxS start) s).getLast? = s.HIR_list_tail ∧
      (∀ x, s.HIR_list_tail = some x → (s.page_tbl x).HIR_rsd_next = none) ∧
      (∀ x, x ∈ Q_list (mainParams vm c maxS start) s ↔
        ((s.page_tbl x).isResident = true ∧ (s.page_tbl x).isHIR_block = true)) ∧
      (∀ x, (s.page_tbl x).isResident = false → x ∉ Q_list (mainParams vm c maxS start) s) := by
  obtain ⟨l, _, hi, hr⟩ := reach (mainParams vm c maxS start) (PWF_main vm c maxS start hc hm) trace ht
  refine ⟨conc l, hr, ?_, ?_, ?_, ?_, ?_⟩
  · rw [Q_list_conc _ l hi]; exact hi.core.Q_nodup
  · rw [Q_list_conc _ l hi]; rfl
  · intro x hx
    exact nextOf_getLast hi.core.Q_nodup hx
  · intro x
    rw [Q_list_conc _ l hi]
    exact hi.core.Q_iff x
  · intro x hx
    rw [Q_list_conc _ l hi]
    intro hm2
    have := ((hi.core.Q_iff x).1 hm2).1
    have hx2 : l.resF x = false := hx
    rw [hx2] at this; cases this

/-- Instance of C2. -/
theorem C2_queue_resident_HIR_witness :
    10 ≤ 10 ∧ 10 ≤ 20 ∧ (∀ x ∈ [0, 1, 2, 3, 4, 5, 6, 7, 8, 9, 10, 8, 0], x ≤ 12) ∧
    ∃ s, runState (mainParams 12 10 20 0) [0, 1, 2, 3, 4, 5, 6, 7, 8, 9, 10, 8, 0] = some s ∧
      (Q_list (mainParams 12 10 20 0) s).Nodup ∧
      (Q_list (mainParams 12 10 20 0) s).getLast? = s.HIR_list_tail ∧
      (∀ x, s.HIR_list_tail = some x → (s.page_tbl x).HIR_rsd_next = none) ∧
      (∀ x, x ∈ Q_list (mainParams 12 10 20 0) s ↔
        ((s.page_tbl x).isResident = true ∧ (s.page_tbl x).isHIR_block = true)) ∧
      (∀ x, (s.page_tbl x).isResident = false → x ∉ Q_list (mainParams 12 10 20 0) s) :=
  ⟨by decide, by decide, by decide,
    C2_queue_resident_HIR 12 10 20 0 [0, 1, 2, 3, 4, 5, 6, 7, 8, 9, 10, 8, 0]
      (by decide) (by decide) (by decide)⟩

/-- C3. Every LIR block is resident, has `recency == S_STACK_IN` and occurs exactly once
on the chain of stack S (which ends with a null link); every block whose recency is
`S_STACK_OUT` is HIR. -/
theorem C3_LIR_resident_in_S (vm c maxS start : Nat) (trace : List Nat) (hc : 10 ≤ c)
    (hm : c ≤ maxS) (ht : ∀ x ∈ trace, x ≤ vm) :
    ∃ s, runState (mainParams vm c maxS start) trace = some s ∧
      (∀ x, (s.page_tbl x).isHIR_block = false →
        (s.page_tbl x).isResident = true ∧ (s.page_tbl x).recency = S_STACK_IN ∧
        (S_list (mainParams vm c maxS start) s).count x = 1) ∧
      (∀ x, (S_list (mainParams vm c maxS start) s).getLast? = some x →
        (s.page_tbl x).LIRS_next = none) ∧
      (∀ x, (s.page_tbl x).recency = S_STACK_OUT → (s.page_tbl x).isHIR_block = true) := by
  obtain ⟨l, _, hi, hr⟩ := reach (mainParams vm c maxS start) (PWF_main vm c maxS start hc hm) trace ht
  refine ⟨conc l, hr, ?_, ?_, ?_⟩
  · intro x hx
    have hx2 : l.hirF x = false := hx
    refine ⟨hi.core.lir_res x hx2, hi.core.lir_rec x hx2, ?_⟩
    rw [S_list_conc _ l hi]
    obtain ⟨top, below, hS, _, hrec, _⟩ := hi.core.split
    have hxS : x ∈ l.S := by
      rw [hS]
      exact List.mem_append_left _ ((hrec x).1 (hi.core.lir_rec x hx2))
    exact List.count_eq_one_of_mem hi.core.S_nodup hxS
  · intro x hx
    rw [S_list_conc _ l hi] at hx
    exact nextOf_getLast hi.core.S_nodup hx
  · intro x hx
    have hx2 : l.recF x = false := hx
    show l.hirF x = true
    by_contra hh
    have := hi.core.lir_rec x (by simpa using hh)
    rw [hx2] at this; cases this

/-- Instance of C3. -/
theorem C3_LIR_resident_in_S_witness :
    10 ≤ 10 ∧ 10 ≤ 20 ∧ (∀ x ∈ [0, 1, 2, 3, 4, 5, 6, 7, 8, 9, 10, 8, 0], x ≤ 12) ∧
    ∃ s, runState (mainParams 12 10 20 0) [0, 1, 2, 3, 4, 5, 6, 7, 8, 9, 10, 8, 0] = some s ∧
      (∀ x, (s.page_tbl x).isHIR_block = false →
        (s.page_tbl x).isResident = true ∧ (s.page_tbl x).recency = S_STACK_IN ∧
        (S_list (mainParams 12 10 20 0) s).count x = 1) ∧
      (∀ x, (S_list (mainParams 12 10 20 0) s).getLast? = some x →
        (s.page_tbl x).LIRS_next = none) ∧
      (∀ x, (s.page_tbl x).recency = S_STACK_OUT → (s.page_tbl x).isHIR_block = true) :=
  ⟨by decide, by decide, by decide,
    C3_LIR_resident_in_S 12 10 20 0 [0, 1, 2, 3, 4, 5, 6, 7, 8, 9, 10, 8, 0]
      (by decide) (by decide) (by decide)⟩

/-- C4. Capacity split: after every reference the number of LIR blocks is at most
`c - HIR_block_portion_limit` and the number of blocks in Q is at most
`HIR_block_portion_limit`. -/
theorem C4_capacity_split (vm c maxS start : Nat) (trace : List Nat) (hc : 10 ≤ c)
    (hm : c ≤ maxS) (ht : ∀ x ∈ trace, x ≤ vm) :
    ∃ s, runState (mainParams vm c maxS start) trace = some s ∧
      count_LIR (mainParams vm c maxS start) s ≤ c - HIR_limit_of c ∧
      s.num_LIR_pgs ≤ c - HIR_limit_of c ∧
      (Q_list (mainParams vm c maxS start) s).length ≤ HIR_limit_of c := by
  obtain ⟨l, _, hi, hr⟩ := reach (mainParams vm c maxS start) (PWF_main vm c maxS start hc hm) trace ht
  have h1 := hi.Q_len_le
  have h2 : l.nlir + HIR_limit_of c ≤ c := h1.2
  refine ⟨conc l, hr, ?_, ?_, ?_⟩
  · rw [count_LIR_conc _ l hi]; omega
  · show l.nlir ≤ c - HIR_limit_of c; omega
  · rw [Q_list_conc _ l hi]; exact h1.1

/-- Instance of C4. -/
theorem C4_capacity_split_witness :
    10 ≤ 10 ∧ 10 ≤ 20 ∧ (∀ x ∈ [0, 1, 2, 3, 4, 5, 6, 7, 8, 9, 10, 8, 0], x ≤ 12) ∧
    ∃ s, runState (mainParams 12 10 20 0) [0, 1, 2, 3, 4, 5, 6, 7, 8, 9, 10, 8, 0] = some s ∧
      count_LIR (mainParams 12 10 20 0) s ≤ 10 - HIR_limit_of 10 ∧
      s.num_LIR_pgs ≤ 10 - HIR_limit_of 10 ∧
      (Q_list (mainParams 12 10 20 0) s).length ≤ HIR_limit_of 10 :=
  ⟨by decide, by decide, by decide,
    C4_capacity_split 12 10 20 0 [0, 1, 2, 3, 4, 5, 6, 7, 8, 9, 10, 8, 0]
      (by decide) (by decide) (by decide)⟩

/-- C5. Cursor invariant: after every reference `LIR_LRU_block_ptr` is null exactly when
no block is LIR; otherwise it points to an LIR block on the chain of S, and every block
linked below it (in the `LIRS_next` direction) is HIR. -/
theorem C5_cursor_deepest_LIR (vm c maxS start : Nat) (trace : List Nat) (hc : 10 ≤ c)
    (hm : c ≤ maxS) (ht : ∀ x ∈ trace, x ≤ vm) :
    ∃ s, runState (mainParams vm c maxS start) trace = some s ∧
      (s.LIR_LRU_block_ptr = none ↔ ∀ x, (s.page_tbl x).isHIR_block = true) ∧
      (∀ d, s.LIR_LRU_block_ptr = some d →
        (s.page_tbl d).isHIR_block = false ∧
        d ∈ S_list (mainParams vm c maxS start) s ∧
        ∀ A B, S_list (mainParams vm c maxS start) s = A ++ d :: B →
          ∀ x ∈ B, (s.page_tbl x).isHIR_block = true) := by
  obtain ⟨l, _, hi, hr⟩ := reach (mainParams vm c maxS start) (PWF_main vm c maxS start hc hm) trace ht
  obtain ⟨top, below, hS, hcur, hrec, _, hcl, _⟩ := hi.core.split
  refine ⟨conc l, hr, ?_, ?_⟩
  · show l.cur = none ↔ ∀ x, l.hirF x = true
    constructor
    · intro hn x
      rw [hcur] at hn
      have ht0 : top = [] := List.getLast?_eq_none_iff.1 hn
      by_contra hh
      have := (hrec x).1 (hi.core.lir_rec x (by simpa using hh))
      rw [ht0] at this; cases this
    · intro hall
      cases hcd : l.cur with
      | none => rfl
      | some d =>
        have := hcl d hcd
        rw [hall d] at this; cases this
  · intro d hd
    have hd2 : l.cur = some d := hd
    rw [S_list_conc _ l hi]
    refine ⟨hcl d hd2, (hi.core.cur_mem hd2).1, ?_⟩
    intro A B hAB x hx
    obtain ⟨T, hT⟩ : ∃ ys, top = ys ++ [d] :=
      List.getLast?_eq_some_iff.1 (by rw [← hcur]; exact hd2)
    have hS2 : l.S = T ++ d :: below := by rw [hS, hT]; simp
    have hnd := hi.core.S_nodup
    rw [hAB] at hnd
    have hu := nodup_split_unique hnd (hAB.symm.trans hS2)
    have hxb : x ∈ below := hu.2 ▸ hx
    show l.hirF x = true
    by_contra hh
    have hxt := (hrec x).1 (hi.core.lir_rec x (by simpa using hh))
    have hnd2 := hi.core.S_nodup
    rw [hS] at hnd2
    exact (List.nodup_append.1 hnd2).2.2 hxt hxb

/-- Instance of C5. -/
theorem C5_cursor_deepest_LIR_witness :
    10 ≤ 10 ∧ 10 ≤ 20 ∧ (∀ x ∈ [0, 1, 2, 3, 4, 5, 6, 7, 8, 9, 10, 8, 0], x ≤ 12) ∧
    ∃ s, runState (mainParams 12 10 20 0) [0, 1, 2, 3, 4, 5, 6, 7, 8, 9, 10, 8, 0] = some s ∧
      (s.LIR_LRU_block_ptr = none ↔ ∀ x, (s.page_tbl x).isHIR_block = true) ∧
      (∀ d, s.LIR_LRU_block_ptr = some d →
        (s.page_tbl d).isHIR_block = false ∧
        d ∈ S_list (mainParams 12 10 20 0) s ∧
        ∀ A B, S_list (mainParams 12 10 20 0) s = A ++ d :: B →
          ∀ x ∈ B, (s.page_tbl x).isHIR_block = true) :=
  ⟨by decide, by decide, by decide,
    C5_cursor_deepest_LIR 12 10 20 0 [0, 1, 2, 3, 4, 5, 6, 7, 8, 9, 10, 8, 0]
      (by decide) (by decide) (by decide)⟩

end LIRS

namespace LIRS

theorem exists_of_check {o : Option State} {p : State → Prop} [DecidablePred p]
    (h : (match o with
      | some s => decide (p s)
      | none => false) = true) : ∃ s, o = some s ∧ p s := by
  cases o with
  | none => simp at h
  | some s => exact ⟨s, rfl, by simpa using h⟩

/-- C6, as stated, fails: with a cache of 10 frames, after the trace 0, 1, ..., 9, 8 stack S
is not empty, its bottom entry (the entry without `LIRS_next`, also `LRU_list_tail`) is
block 0, and block 0 is an HIR block: it was demoted when block 8 changed status and only
lost its recency flag. -/
theorem C6_counterexample :
    ∃ s, runState (mainParams 10 10 20 0) [0, 1, 2, 3, 4, 5, 6, 7, 8, 9, 8] = some s ∧
      ((S_list (mainParams 10 10 20 0) s).getLast? = some 0 ∧
       s.LRU_list_tail = some 0 ∧ (s.page_tbl 0).LIRS_next = none ∧
       (s.page_tbl 0).isHIR_block = true ∧ (s.page_tbl 0).recency = S_STACK_OUT ∧
       s.LIR_LRU_block_ptr = some 1) :=
  exists_of_check (by decide)

/-- C6 (amended). After every reference, if the chain of S is not empty then the cursor
`LIR_LRU_block_ptr` is not null, the block it points to is LIR with recency `S_STACK_IN`,
every entry of the chain above it has recency `S_STACK_IN`, and every entry still linked
below it has recency `S_STACK_OUT` and is HIR: the bottom of the part of the chain that
counts as stack S is an LIR block, and the entries that `find_last_LIR_LRU` skipped keep
their links. -/
theorem C6_logical_bottom_is_LIR (vm c maxS start : Nat) (trace : List Nat) (hc : 10 ≤ c)
    (hm : c ≤ maxS) (ht : ∀ x ∈ trace, x ≤ vm) :
    ∃ s, runState (mainParams vm c maxS start) trace = some s ∧
      (S_list (mainParams vm c maxS start) s ≠ [] → ∃ d, s.LIR_LRU_block_ptr = some d) ∧
      (∀ d, s.LIR_LRU_block_ptr = some d →
        (s.page_tbl d).isHIR_block = false ∧ (s.page_tbl d).recency = S_STACK_IN ∧
        ∀ A B, S_list (mainParams vm c maxS start) s = A ++ d :: B →
          (∀ x ∈ A, (s.page_tbl x).recency = S_STACK_IN) ∧
          (∀ x ∈ B, (s.page_tbl x).recency = S_STACK_OUT ∧
            (s.page_tbl x).isHIR_block = true)) := by
  obtain ⟨l, _, hi, hr⟩ := reach (mainParams vm c maxS start) (PWF_main vm c maxS start hc hm) trace ht
  obtain ⟨top, below, hS, hcur, hrec, _, hcl, hnil⟩ := hi.core.split
  refine ⟨conc l, hr, ?_, ?_⟩
  · rw [S_list_conc _ l hi]
    intro hne
    show ∃ d, l.cur = some d
    cases hcd : l.cur with
    | some d => exact ⟨d, rfl⟩
    | none =>
      exfalso
      rw [hcur] at hcd
      have ht0 : top = [] := List.getLast?_eq_none_iff.1 hcd
      apply hne
      rw [hS, ht0, hnil ht0]; rfl
  · intro d hd
    have hd2 : l.cur = some d := hd
    rw [S_list_conc _ l hi]
    refine ⟨hcl d hd2, hi.core.lir_rec d (hcl d hd2), ?_⟩
    intro A B hAB
    obtain ⟨T, hT⟩ : ∃ ys, top = ys ++ [d] :=
      List.getLast?_eq_some_iff.1 (by rw [← hcur]; exact hd2)
    have hS2 : l.S = T ++ d :: below := by rw [hS, hT]; simp
    have hnd := hi.core.S_nodup
    rw [hAB] at hnd
    have hu := nodup_split_unique hnd (hAB.symm.trans hS2)
    have hnd2 := hi.core.S_nodup
    rw [hS] at hnd2
    constructor
    · intro x hx
      show l.recF x = true
      rw [hrec x, hT, ← hu.1]
      exact List.mem_append_left _ hx
    · intro x hx
      have hxb : x ∈ below := hu.2 ▸ hx
      have hxr : l.recF x = false := by
        by_contra hh
        have hxt := (hrec x).1 (by simpa using hh)
        exact (List.nodup_append.1 hnd2).2.2 hxt hxb
      refine ⟨hxr, ?_⟩
      show l.hirF x = true
      by_contra hh
      have := hi.core.lir_rec x (by simpa using hh)
      rw [hxr] at this; cases this

/-- Instance of the amended C6 on the trace of the counterexample. -/
theorem C6_logical_bottom_is_LIR_witness :
    10 ≤ 10 ∧ 10 ≤ 20 ∧ (∀ x ∈ [0, 1, 2, 3, 4, 5, 6, 7, 8, 9, 8], x ≤ 10) ∧
    ∃ s, runState (mainParams 10 10 20 0) [0, 1, 2, 3, 4, 5, 6, 7, 8, 9, 8] = some s ∧
      (S_list (mainParams 10 10 20 0) s ≠ [] → ∃ d, s.LIR_LRU_block_ptr = some d) ∧
      (∀ d, s.LIR_LRU_block_ptr = some d →
        (s.page_tbl d).isHIR_block = false ∧ (s.page_tbl d).recency = S_STACK_IN ∧
        ∀ A B, S_list (mainParams 10 10 20 0) s = A ++ d :: B →
          (∀ x ∈ A, (s.page_tbl x).recency = S_STACK_IN) ∧
          (∀ x ∈ B, (s.page_tbl x).recency = S_STACK_OUT ∧
            (s.page_tbl x).isHIR_block = true)) :=
  ⟨by decide, by decide, by decide,
    C6_logical_bottom_is_LIR 10 10 20 0 [0, 1, 2, 3, 4, 5, 6, 7, 8, 9, 8]
      (by decide) (by decide) (by decide)⟩

/-! ## One more reference after a run -/

theorem LIRS_Repl_loop_append (P : Params) (t1 t2 : List Nat) :
    ∀ s, LIRS_Repl_loop P s (t1 ++ t2) =
      match LIRS_Repl_loop P s t1 with
      | Step.next s1 => LIRS_Repl_loop P s1 t2
      | Step.returnFALSE s1 => Step.returnFALSE s1
      | Step.abort => Step.abort := by
  induction t1 with
  | nil => intro s; rfl
  | cons r rest ih =>
    intro s
    simp only [List.cons_append, LIRS_Repl_loop]
    cases LIRS_Repl_iter P s r with
    | next s1 => exact ih s1
    | returnFALSE s1 => rfl
    | abort => rfl

theorem runState_snoc (P : Params) (t : List Nat) (b : Nat) (s s1 : State)
    (h : runState P t = some s) (h1 : LIRS_Repl_iter P s b = Step.next s1) :
    runState P (t ++ [b]) = some s1 := by
  unfold runState LIRS_Repl at h ⊢
  rw [LIRS_Repl_loop_append]
  cases hl : LIRS_Repl_loop P (init_state P) t with
  | next s0 =>
    rw [hl] at h
    simp only [Option.some.injEq] at h
    subst h
    simp only [LIRS_Repl_loop, h1]
  | returnFALSE s0 => rw [hl] at h; cases h
  | abort => rw [hl] at h; cases h

/-- The list state behind the state a run reaches. -/
theorem reach_state (P : Params) (hP : PWF P) (t : List Nat) (ht : ∀ x ∈ t, x ≤ P.vm_size)
    (s : State) (hs : runState P t = some s) : ∃ l, LInv P l ∧ s = conc l := by
  obtain ⟨l, _, hi, hr⟩ := reach P hP t ht
  rw [hs] at hr
  exact ⟨l, hi, Option.some.inj hr⟩

theorem l_count_fields (P : Params) (l : LState) :
    (l_count P l).last = l.last ∧ (l_count P l).resF = l.resF ∧
      (l_count P l).hirF = l.hirF ∧ (l_count P l).recF = l.recF ∧
      (l_count P l).cur = l.cur ∧ (l_count P l).nlir = l.nlir ∧
      (l_count P l).Q = l.Q ∧ (l_count P l).S = l.S ∧ (l_count P l).free = l.free ∧
      (l_count P l).slen = l.slen ∧ (l_count P l).flt = l.flt := by
  unfold l_count
  by_cases hc : l.total + 1 > P.STAT_START_POINT
  · simp [hc]
  · simp [hc]

/-- A reference that is in range and does not repeat the previous one, at the level of
lists. -/
theorem iter_access (P : Params) (l l5 : LState) (b : Nat) (hb : b ≤ P.vm_size)
    (hlast : l.last ≠ some b)
    (h5 : LIRS_access P (conc (l_count P l)) b = some (conc l5)) :
    LIRS_Repl_iter P (conc l) b = Step.next (conc l5) := by
  have hl : (l_count P l).last = l.last := (l_count_fields P l).1
  rw [iter_conc P l b (by omega), if_neg (by rw [hl]; exact fun e => hlast e.symm), h5]

end LIRS

/-! ## Promotion and eviction -/

namespace LIRS

/-- Lines 214-238 for an HIR block that is in stack S: status, recency and cursor are left
alone. -/
theorem mid_keep (P : Params) (hP : PWF P) (l : LState) (b : Nat) (h : LInvCore P l)
    (hb : b ≤ P.vm_size) (hlast : l.last ≠ some b) (hh : l.hirF b = true)
    (hr : l.recF b = true) :
    ∃ l1, l_miss_or_hit P { l with last := some b, nodup := l.nodup + 1 } b = some l1 ∧
      MidInv P l1 b ∧ l1.hirF = l.hirF ∧ l1.recF = l.recF ∧ l1.cur = l.cur ∧
      l1.nlir = l.nlir ∧ l1.slen = l.slen := by
  by_cases hres : l.resF b = false
  · by_cases hf : l.free = 0
    · obtain ⟨t, _, _, h1, h2⟩ := mid_miss_evict P hP l b h hb hlast hres hf
      exact ⟨_, h1, h2, rfl, rfl, rfl, rfl, rfl⟩
    · by_cases hf2 : P.HIR_block_portion_limit < l.free
      · exfalso
        obtain ⟨top, below, hS, _, hrec, _⟩ := h.split
        have hbS : b ∈ l.S := by
          rw [hS]; exact List.mem_append_left _ ((hrec b).1 hr)
        have := (h.phaseA hf2).2 b hbS
        rw [hh] at this; cases this
      · obtain ⟨h1, h2⟩ := mid_miss_hir P hP l b h hb hlast hres hf (by omega)
        exact ⟨_, h1, h2, rfl, rfl, rfl, rfl, rfl⟩
  · have hres2 : l.resF b = true := by simpa using hres
    obtain ⟨h1, h2⟩ := mid_hit_hir P l b h hb hlast hres2 hh
    exact ⟨_, h1, h2, rfl, rfl, rfl, rfl, rfl⟩

/-- A reference to an HIR block that is in stack S, on lists. -/
theorem access_promote (P : Params) (hP : PWF P) (l : LState) (b : Nat) (h : LInv P l)
    (hb : b ≤ P.vm_size) (hlast : l.last ≠ some b) (hh : l.hirF b = true)
    (hr : l.recF b = true) :
    ∃ l5 d0, l.cur = some d0 ∧ d0 ≠ b ∧ l.hirF d0 = false ∧
      LIRS_access P (conc l) b = some (conc l5) ∧ LInv P l5 ∧
      l5.hirF = Function.update (Function.update l.hirF b false) d0 true ∧
      l5.resF b = true ∧ l5.recF b = true ∧ l5.S.head? = some b ∧
      l5.Q.head? = some d0 ∧ l5.recF d0 = false ∧ l5.nlir = l.nlir := by
  obtain ⟨l1, h1, hm, e1, e2, e3, e4, e5⟩ := mid_keep P hP l b h.core hb hlast hh hr
  obtain ⟨l4, d0, hc, hne, hd, h4, hi4, hs4, hf, eh, eq, er⟩ :=
    post_promote P hP l1 b hm (by rw [e1]; exact hh) (by rw [e2]; exact hr)
  obtain ⟨l5, h5, hi5, _, _, _, _, _, _, _, _, _, _, _, _, _, _, hid⟩ :=
    prune_step P hP l4 hi4 (by have := h.slen_le; omega)
  have e45 : l5 = l4 := hid (by have := h.slen_le; omega)
  subst e45
  obtain ⟨l6, h6, _, hc6⟩ := l_access_step P hP l b h hb hlast
  have hl5 : l_access P l b = some l5 := by
    simp only [l_access, l_access_core, h1, h4, h5, Option.some_bind]
  rw [hl5] at h6
  have e56 : l5 = l6 := Option.some.inj h6
  subst e56
  refine ⟨l5, d0, by rw [← e3]; exact hc, hne, by rw [← e1]; exact hd, hc6, hi5,
    by rw [eh, e1], ?_, ?_, hf.head_eq, by rw [eq]; rfl, er, by rw [hf.nlir_eq, e4]⟩
  · rw [hf.resF_eq]; simp
  · have hl : l5.hirF b = false := by
      rw [eh]; simp [Function.update_apply, hne.symm]
    exact hi5.core.lir_rec b hl

/-- C7. Promotion rule: in a state reached by a run (cache of `c ≥ 10` frames), a reference
that does not repeat the previous one, to a block `b` that is HIR with
`recency == S_STACK_IN`, is processed; afterwards `b` is a resident LIR block at the head of
S, the block `d` that `LIR_LRU_block_ptr` pointed to before (an LIR block other than `b`)
is HIR, has `recency == S_STACK_OUT`, is resident and is at the head of Q, no other block
changes status, and the number of LIR blocks is what it was. -/
theorem C7_promotion_rule (vm c maxS start : Nat) (trace : List Nat) (b : Nat) (s : State)
    (hc : 10 ≤ c) (hm : c ≤ maxS) (ht : ∀ x ∈ trace, x ≤ vm) (hb : b ≤ vm)
    (hs : runState (mainParams vm c maxS start) trace = some s)
    (hd : s.last_ref_pg ≠ some b)
    (hh : (s.page_tbl b).isHIR_block = true) (hr : (s.page_tbl b).recency = S_STACK_IN) :
    ∃ s1 d, s.LIR_LRU_block_ptr = some d ∧ d ≠ b ∧ (s.page_tbl d).isHIR_block = false ∧
      runState (mainParams vm c maxS start) (trace ++ [b]) = some s1 ∧
      (s1.page_tbl b).isHIR_block = false ∧ (s1.page_tbl b).isResident = true ∧
      (s1.page_tbl b).recency = S_STACK_IN ∧ s1.LRU_list_head = some b ∧
      (s1.page_tbl d).isHIR_block = true ∧ (s1.page_tbl d).recency = S_STACK_OUT ∧
      (s1.page_tbl d).isResident = true ∧ s1.HIR_list_head = some d ∧
      (∀ x, x ≠ b → x ≠ d → (s1.page_tbl x).isHIR_block = (s.page_tbl x).isHIR_block) ∧
      s1.num_LIR_pgs = s.num_LIR_pgs ∧
      count_LIR (mainParams vm c maxS start) s1 = count_LIR (mainParams vm c maxS start) s := by
  have hP := PWF_main vm c maxS start hc hm
  obtain ⟨l, hi, rfl⟩ := reach_state _ hP trace ht s hs
  have hf := l_count_fields (mainParams vm c maxS start) l
  have hi2 := LInv_count _ l hi
  obtain ⟨l5, d0, h1, h2, h3, h4, h5, h6, h7, h8, h9, h10, h11, h12⟩ :=
    access_promote _ hP (l_count (mainParams vm c maxS start) l) b hi2 hb
      (by rw [hf.1]; exact hd) (by rw [hf.2.2.1]; exact hh) (by rw [hf.2.2.2.1]; exact hr)
  have hit := iter_access (mainParams vm c maxS start) l l5 b hb hd h4
  rw [hf.2.2.2.2.1] at h1
  rw [hf.2.2.1] at h3 h6
  rw [hf.2.2.2.2.2.1] at h12
  refine ⟨conc l5, d0, h1, h2, h3,
    runState_snoc _ trace b _ _ hs hit, ?_, h7, h8, h9, ?_, h11, ?_, h10, ?_, ?_, ?_⟩
  · show l5.hirF b = false
    rw [h6]; simp [Function.update_apply, h2.symm]
  · show l5.hirF d0 = true
    rw [h6]; simp
  · have hq : d0 ∈ l5.Q := by
      cases hQ : l5.Q with
      | nil => rw [hQ] at h10; cases h10
      | cons a t =>
        rw [hQ] at h10
        simp only [List.head?_cons, Option.some.injEq] at h10
        rw [h10]; exact List.mem_cons_self _ _
    exact ((h5.core.Q_iff d0).1 hq).1
  · intro x hxb hxd
    show l5.hirF x = l.hirF x
    rw [h6]; simp [Function.update_apply, hxb, hxd]
  · exact h12
  · rw [count_LIR_conc _ l5 h5, count_LIR_conc _ l hi, h12]

/-- Instance of C7: after 0, 1, ..., 9 in a cache of 10 frames, block 8 is a resident HIR
block in S; the reference to it promotes it and demotes block 0. -/
theorem C7_promotion_rule_witness :
    10 ≤ 10 ∧ 10 ≤ 20 ∧ (∀ x ∈ [0, 1, 2, 3, 4, 5, 6, 7, 8, 9], x ≤ 10) ∧ 8 ≤ 10 ∧
    ∃ s, runState (mainParams 10 10 20 0) [0, 1, 2, 3, 4, 5, 6, 7, 8, 9] = some s ∧
      s.last_ref_pg ≠ some 8 ∧ (s.page_tbl 8).isHIR_block = true ∧
      (s.page_tbl 8).recency = S_STACK_IN ∧
      ∃ s1 d, s.LIR_LRU_block_ptr = some d ∧ d ≠ 8 ∧ (s.page_tbl d).isHIR_block = false ∧
        runState (mainParams 10 10 20 0) ([0, 1, 2, 3, 4, 5, 6, 7, 8, 9] ++ [8]) = some s1 ∧
        (s1.page_tbl 8).isHIR_block = false ∧ (s1.page_tbl 8).isResident = true ∧
        (s1.page_tbl 8).recency = S_STACK_IN ∧ s1.LRU_list_head = some 8 ∧
        (s1.page_tbl d).isHIR_block = true ∧ (s1.page_tbl d).recency = S_STACK_OUT ∧
        (s1.page_tbl d).isResident = true ∧ s1.HIR_list_head = some d ∧
        (∀ x, x ≠ 8 → x ≠ d → (s1.page_tbl x).isHIR_block = (s.page_tbl x).isHIR_block) ∧
        s1.num_LIR_pgs = s.num_LIR_pgs ∧
        count_LIR (mainParams 10 10 20 0) s1 = count_LIR (mainParams 10 10 20 0) s :=
  ⟨by decide, by decide, by decide, by decide,
    (runState (mainParams 10 10 20 0) [0, 1, 2, 3, 4, 5, 6, 7, 8, 9]).getD
      (init_state (mainParams 10 10 20 0)),
    rfl, by decide, by decide, by decide,
    C7_promotion_rule 10 10 20 0 [0, 1, 2, 3, 4, 5, 6, 7, 8, 9] 8
      ((runState (mainParams 10 10 20 0) [0, 1, 2, 3, 4, 5, 6, 7, 8, 9]).getD
        (init_state (mainParams 10 10 20 0)))
      (by decide) (by decide) (by decide) (by decide) rfl (by decide) (by decide)
      (by decide)⟩

end LIRS

namespace LIRS

theorem Q_links_only_refl (s : State) : Q_links_only s s :=
  ⟨fun _ => ⟨rfl, rfl, rfl, rfl, rfl⟩, rfl, rfl, rfl, rfl⟩

theorem Q_links_only_trans {s t u : State} (h1 : Q_links_only s t) (h2 : Q_links_only t u) :
    Q_links_only s u := by
  obtain ⟨a1, a2, a3, a4, a5⟩ := h1
  obtain ⟨b1, b2, b3, b4, b5⟩ := h2
  refine ⟨fun x => ?_, b2.trans a2, b3.trans a3, b4.trans a4, b5.trans a5⟩
  obtain ⟨c1, c2, c3, c4, c5⟩ := a1 x
  obtain ⟨d1, d2, d3, d4, d5⟩ := b1 x
  exact ⟨d1.trans c1, d2.trans c2, d3.trans c3, d4.trans c4, d5.trans c5⟩

theorem Q_links_only_setPage (s : State) (i : Nat) (p : page_struct)
    (h1 : p.recency = (s.page_tbl i).recency) (h2 : p.LIRS_next = (s.page_tbl i).LIRS_next)
    (h3 : p.LIRS_prev = (s.page_tbl i).LIRS_prev)
    (h4 : p.isHIR_block = (s.page_tbl i).isHIR_block)
    (h5 : p.isResident = (s.page_tbl i).isResident) : Q_links_only s (setPage s i p) := by
  refine ⟨fun x => ?_, rfl, rfl, rfl, rfl⟩
  by_cases hx : x = i
  · subst hx
    simp only [setPage, Function.update_same]
    exact ⟨h1, h2, h3, h4, h5⟩
  · simp [setPage, Function.update_noteq hx]

theorem remove_HIR_list_prev_frame (s : State) (h : Nat) :
    Q_links_only s (match (s.page_tbl h).HIR_rsd_prev with
      | none => { s with HIR_list_head := (s.page_tbl h).HIR_rsd_next }
      | some p =>
        setPage s p { s.page_tbl p with HIR_rsd_next := (s.page_tbl h).HIR_rsd_next }) := by
  split
  · exact ⟨fun _ => ⟨rfl, rfl, rfl, rfl, rfl⟩, rfl, rfl, rfl, rfl⟩
  · exact Q_links_only_setPage _ _ _ rfl rfl rfl rfl rfl

theorem remove_HIR_list_next_frame (s : State) (h : Nat) :
    Q_links_only s (match (s.page_tbl h).HIR_rsd_next with
      | none => { s with HIR_list_tail := (s.page_tbl h).HIR_rsd_prev }
      | some n =>
        setPage s n { s.page_tbl n with HIR_rsd_prev := (s.page_tbl h).HIR_rsd_prev }) := by
  split
  · exact ⟨fun _ => ⟨rfl, rfl, rfl, rfl, rfl⟩, rfl, rfl, rfl, rfl⟩
  · exact Q_links_only_setPage _ _ _ rfl rfl rfl rfl rfl

theorem remove_HIR_list_frame (s : State) (h : Nat) :
    Q_links_only s (remove_HIR_list s h) := by
  unfold remove_HIR_list
  exact Q_links_only_trans
    (Q_links_only_trans (remove_HIR_list_prev_frame s h) (remove_HIR_list_next_frame _ h))
    (Q_links_only_setPage _ _ _ rfl rfl rfl rfl rfl)

/-- The eviction of lines 218-224 clears the residency of the tail of Q and otherwise
touches the links of Q and the frame counter only. -/
theorem make_room_evict_frame (P : Params) (s0 : State) (b v : Nat)
    (hf : s0.free_mem_size = 0) (ht : s0.HIR_list_tail = some v) :
    ∃ s1, make_room P s0 b = some s1 ∧ (s1.page_tbl v).isResident = false ∧
      (∀ x, (s1.page_tbl x).recency = (s0.page_tbl x).recency ∧
        (s1.page_tbl x).LIRS_next = (s0.page_tbl x).LIRS_next ∧
        (s1.page_tbl x).LIRS_prev = (s0.page_tbl x).LIRS_prev ∧
        (s1.page_tbl x).isHIR_block = (s0.page_tbl x).isHIR_block ∧
        (x ≠ v → (s1.page_tbl x).isResident = (s0.page_tbl x).isResident)) ∧
      s1.LRU_list_head = s0.LRU_list_head ∧ s1.LRU_list_tail = s0.LRU_list_tail ∧
      s1.LIR_LRU_block_ptr = s0.LIR_LRU_block_ptr ∧
      s1.cur_lir_S_len = s0.cur_lir_S_len := by
  unfold make_room
  rw [if_pos hf, ht, deref_some]
  obtain ⟨a1, a2, a3, a4, a5⟩ := remove_HIR_list_frame
    (setPage s0 v { s0.page_tbl v with isResident := false }) v
  refine ⟨_, rfl, ?_, ?_, a2, a3, a4, a5⟩
  · show ((remove_HIR_list (setPage s0 v { s0.page_tbl v with isResident := false })
      v).page_tbl v).isResident = false
    rw [(a1 v).2.2.2.2]
    simp [setPage]
  · intro x
    show ((remove_HIR_list (setPage s0 v { s0.page_tbl v with isResident := false })
      v).page_tbl x).recency = _ ∧ ((remove_HIR_list (setPage s0 v
        { s0.page_tbl v with isResident := false }) v).page_tbl x).LIRS_next = _ ∧
      ((remove_HIR_list (setPage s0 v { s0.page_tbl v with isResident := false })
        v).page_tbl x).LIRS_prev = _ ∧
      ((remove_HIR_list (setPage s0 v { s0.page_tbl v with isResident := false })
        v).page_tbl x).isHIR_block = _ ∧
      (x ≠ v → ((remove_HIR_list (setPage s0 v { s0.page_tbl v with isResident := false })
        v).page_tbl x).isResident = _)
    obtain ⟨c1, c2, c3, c4, c5⟩ := a1 x
    rw [c1, c2, c3, c4, c5]
    by_cases hx : x = v
    · subst hx
      simp [setPage]
    · simp [setPage, Function.update_noteq hx]

/-- A miss on a full cache, on lists: the tail of Q loses its frame to the referenced
block. -/
theorem access_evict (P : Params) (hP : PWF P) (l : LState) (b : Nat) (h : LInv P l)
    (hb : b ≤ P.vm_size) (hlast : l.last ≠ some b) (hr : l.resF b = false)
    (hf : l.free = 0) :
    ∃ l5 t, l.Q.getLast? = some t ∧ t ≠ b ∧
      LIRS_access P (conc l) b = some (conc l5) ∧ LInv P l5 ∧
      l5.resF = Function.update (Function.update l.resF t false) b true ∧ l5.free = 0 := by
  obtain ⟨t, ht, htb, h1, hm⟩ := mid_miss_evict P hP l b h.core hb hlast hr hf
  obtain ⟨l4, h4, hi4, hs4, hpf⟩ := post_step P hP _ b hm
  obtain ⟨l5, h5, hi5, er, _, _, ef, _⟩ :=
    prune_step P hP l4 hi4 (by
      have := h.slen_le
      have e : ({ l with last := some b, nodup := l.nodup + 1,
                         flt := if l.collect = true then l.flt + 1 else l.flt,
                         resF := Function.update l.resF t false,
                         Q := l.Q.erase t } : LState).slen = l.slen := rfl
      omega)
  obtain ⟨l6, h6, _, hc6⟩ := l_access_step P hP l b h hb hlast
  have hl5 : l_access P l b = some l5 := by
    simp only [l_access, l_access_core, h1, h4, h5, Option.some_bind]
  rw [hl5] at h6
  have e56 : l5 = l6 := Option.some.inj h6
  subst e56
  refine ⟨l5, t, ht, htb, hc6, hi5, ?_, ?_⟩
  · rw [er, hpf.resF_eq]
  · rw [ef, hpf.free_eq]
    exact hf

/-- C8. Eviction on a full cache: in a state reached by a run (cache of `c ≥ 10` frames)
with `free_mem_size == 0`, a reference that does not repeat the previous one, to a block
`b` that is not resident, is processed; there is a block `v` at the tail of Q (other than
`b`), after the reference `v` is not resident and not in Q, every other block that was
resident is still resident, `b` is resident and `free_mem_size` is 0 again. The eviction
itself (lines 218-224, `make_room` on any state with a full cache and `v` at the tail of
Q) leaves the recency flag, the status and the links `LIRS_next`, `LIRS_prev` of every
block, `v` included, and the head, tail, cursor and length of S as they are. -/
theorem C8_eviction_full_cache (vm c maxS start : Nat) (trace : List Nat) (b : Nat)
    (s : State) (hc : 10 ≤ c) (hm : c ≤ maxS) (ht : ∀ x ∈ trace, x ≤ vm) (hb : b ≤ vm)
    (hs : runState (mainParams vm c maxS start) trace = some s)
    (hd : s.last_ref_pg ≠ some b) (hf : s.free_mem_size = 0)
    (hr : (s.page_tbl b).isResident = false) :
    ∃ s1 v, s.HIR_list_tail = some v ∧ v ≠ b ∧ (s.page_tbl v).isResident = true ∧
      v ∈ Q_list (mainParams vm c maxS start) s ∧
      runState (mainParams vm c maxS start) (trace ++ [b]) = some s1 ∧
      (s1.page_tbl v).isResident = false ∧ v ∉ Q_list (mainParams vm c maxS start) s1 ∧
      (∀ x, x ≠ v → (s.page_tbl x).isResident = true → (s1.page_tbl x).isResident = true) ∧
      (s1.page_tbl b).isResident = true ∧ s1.free_mem_size = 0 ∧
      (∀ s0 : State, s0.free_mem_size = 0 → s0.HIR_list_tail = some v →
        ∃ s2, make_room (mainParams vm c maxS start) s0 b = some s2 ∧
          (s2.page_tbl v).isResident = false ∧
          (∀ x, (s2.page_tbl x).recency = (s0.page_tbl x).recency ∧
            (s2.page_tbl x).LIRS_next = (s0.page_tbl x).LIRS_next ∧
            (s2.page_tbl x).LIRS_prev = (s0.page_tbl x).LIRS_prev ∧
            (s2.page_tbl x).isHIR_block = (s0.page_tbl x).isHIR_block ∧
            (x ≠ v → (s2.page_tbl x).isResident = (s0.page_tbl x).isResident)) ∧
          s2.LRU_list_head = s0.LRU_list_head ∧ s2.LRU_list_tail = s0.LRU_list_tail ∧
          s2.LIR_LRU_block_ptr = s0.LIR_LRU_block_ptr ∧
          s2.cur_lir_S_len = s0.cur_lir_S_len) := by
  have hP := PWF_main vm c maxS start hc hm
  obtain ⟨l, hi, rfl⟩ := reach_state _ hP trace ht s hs
  have hfl := l_count_fields (mainParams vm c maxS start) l
  have hi2 := LInv_count _ l hi
  obtain ⟨l5, t, h1, h2, h3, h4, h5, h6⟩ :=
    access_evict _ hP (l_count (mainParams vm c maxS start) l) b hi2 hb
      (by rw [hfl.1]; exact hd) (by rw [hfl.2.1]; exact hr) (by rw [hfl.2.2.2.2.2.2.2.2.1]; exact hf)
  rw [hfl.2.2.2.2.2.2.1] at h1
  rw [hfl.2.1] at h5
  have hit := iter_access (mainParams vm c maxS start) l l5 b hb hd h3
  have htQ : t ∈ l.Q := List.mem_of_getLast?_eq_some h1
  have hres5 : l5.resF t = false := by
    rw [h5]; simp [Function.update_apply, h2]
  refine ⟨conc l5, t, h1, h2, ((hi.core.Q_iff t).1 htQ).1, ?_,
    runState_snoc _ trace b _ _ hs hit, hres5, ?_, ?_, ?_, h6, ?_⟩
  · rw [Q_list_conc _ l hi]; exact htQ
  · rw [Q_list_conc _ l5 h4]
    intro hq
    have := ((h4.core.Q_iff t).1 hq).1
    rw [hres5] at this; cases this
  · intro x hxt hx
    show l5.resF x = true
    have hx2 : l.resF x = true := hx
    rw [h5]
    by_cases hxb : x = b
    · rw [hxb]; simp
    · simp [Function.update_apply, hxb, hxt, hx2]
  · show l5.resF b = true
    rw [h5]; simp
  · intro s0 hf0 ht0
    exact make_room_evict_frame _ s0 b t hf0 ht0

/-- Instance of C8: after 0, 1, ..., 9 the cache of 10 frames is full with blocks 9 and 8
in Q; the reference to block 10 evicts block 8. -/
theorem C8_eviction_full_cache_witness :
    10 ≤ 10 ∧ 10 ≤ 20 ∧ (∀ x ∈ [0, 1, 2, 3, 4, 5, 6, 7, 8, 9], x ≤ 12) ∧ 10 ≤ 12 ∧
    ∃ s, runState (mainParams 12 10 20 0) [0, 1, 2, 3, 4, 5, 6, 7, 8, 9] = some s ∧
      s.last_ref_pg ≠ some 10 ∧ s.free_mem_size = 0 ∧
      (s.page_tbl 10).isResident = false ∧
      ∃ s1 v, s.HIR_list_tail = some v ∧ v ≠ 10 ∧ (s.page_tbl v).isResident = true ∧
        v ∈ Q_list (mainParams 12 10 20 0) s ∧
        runState (mainParams 12 10 20 0) ([0, 1, 2, 3, 4, 5, 6, 7, 8, 9] ++ [10]) = some s1 ∧
        (s1.page_tbl v).isResident = false ∧ v ∉ Q_list (mainParams 12 10 20 0) s1 ∧
        (∀ x, x ≠ v → (s.page_tbl x).isResident = true →
          (s1.page_tbl x).isResident = true) ∧
        (s1.page_tbl 10).isResident = true ∧ s1.free_mem_size = 0 ∧
        (∀ s0 : State, s0.free_mem_size = 0 → s0.HIR_list_tail = some v →
          ∃ s2, make_room (mainParams 12 10 20 0) s0 10 = some s2 ∧
            (s2.page_tbl v).isResident = false ∧
            (∀ x, (s2.page_tbl x).recency = (s0.page_tbl x).recency ∧
              (s2.page_tbl x).LIRS_next = (s0.page_tbl x).LIRS_next ∧
              (s2.page_tbl x).LIRS_prev = (s0.page_tbl x).LIRS_prev ∧
              (s2.page_tbl x).isHIR_block = (s0.page_tbl x).isHIR_block ∧
              (x ≠ v → (s2.page_tbl x).isResident = (s0.page_tbl x).isResident)) ∧
            s2.LRU_list_head = s0.LRU_list_head ∧ s2.LRU_list_tail = s0.LRU_list_tail ∧
            s2.LIR_LRU_block_ptr = s0.LIR_LRU_block_ptr ∧
            s2.cur_lir_S_len = s0.cur_lir_S_len) :=
  ⟨by decide, by decide, by decide, by decide,
    (runState (mainParams 12 10 20 0) [0, 1, 2, 3, 4, 5, 6, 7, 8, 9]).getD
      (init_state (mainParams 12 10 20 0)),
    rfl, by decide, by decide, by decide,
    C8_eviction_full_cache 12 10 20 0 [0, 1, 2, 3, 4, 5, 6, 7, 8, 9] 10
      ((runState (mainParams 12 10 20 0) [0, 1, 2, 3, 4, 5, 6, 7, 8, 9]).getD
        (init_state (mainParams 12 10 20 0)))
      (by decide) (by decide) (by decide) (by decide) rfl (by decide) (by decide)
      (by decide)⟩

end LIRS

/-! ## Repeated references -/

namespace LIRS

theorem deref_inv {σ : Type} {p : Option Nat} {k : Nat → Option σ} {r : σ}
    (h : deref p k = some r) : ∃ t, p = some t ∧ k t = some r := by
  cases p with
  | none => cases h
  | some t => exact ⟨t, rfl, h⟩

theorem remove_HIR_list_last (s : State) (h : Nat) :
    (remove_HIR_list s h).last_ref_pg = s.last_ref_pg := by
  unfold remove_HIR_list setPage
  dsimp only
  split <;> split <;> rfl

theorem add_HIR_list_head_last (s : State) (n : Nat) :
    (add_HIR_list_head s n).last_ref_pg = s.last_ref_pg := by
  unfold add_HIR_list_head setPage
  dsimp only
  split <;> rfl

theorem find_last_LIR_LRU_loop_last (fuel : Nat) :
    ∀ s t, find_last_LIR_LRU_loop fuel s = some t → t.last_ref_pg = s.last_ref_pg := by
  induction fuel with
  | zero => intro s t h; simp [find_last_LIR_LRU_loop] at h
  | succ k ih =>
    intro s t h
    unfold find_last_LIR_LRU_loop at h
    split at h
    · cases h
    · split at h
      · have := ih _ _ h
        exact this
      · cases h; rfl

theorem find_last_LIR_LRU_last (P : Params) (s t : State)
    (h : find_last_LIR_LRU P s = some t) : t.last_ref_pg = s.last_ref_pg := by
  unfold find_last_LIR_LRU at h
  split at h
  · cases h
  · exact find_last_LIR_LRU_loop_last _ _ _ h

theorem unlink_LIRS_last (s : State) (x : Nat) :
    (unlink_LIRS s x).last_ref_pg = s.last_ref_pg := by
  unfold unlink_LIRS setPage
  dsimp only
  split <;> split <;> rfl

theorem remove_LIRS_list_last (P : Params) (s t : State) (x : Nat)
    (h : remove_LIRS_list P s x = some t) : t.last_ref_pg = s.last_ref_pg := by
  unfold remove_LIRS_list at h
  by_cases hc : (s.page_tbl x).LIRS_prev = none ∧ (s.page_tbl x).LIRS_next = none
  · rw [if_pos hc] at h
    cases h; rfl
  · rw [if_neg hc] at h
    by_cases hx : some x = s.LIR_LRU_block_ptr
    · simp only [hx, if_true, bind, Option.bind_eq_some] at h
      obtain ⟨s1, h1, h2⟩ := h
      simp only [Option.some.injEq] at h2
      subst h2
      rw [unlink_LIRS_last]
      have := find_last_LIR_LRU_last P _ _ h1
      exact this
    · simp only [hx, if_false, bind, Option.bind_eq_some] at h
      obtain ⟨s1, h1, h2⟩ := h
      simp only [Option.some.injEq] at h1 h2
      subst h1
      subst h2
      rw [unlink_LIRS_last]

theorem add_LRU_list_head_last (s : State) (n : Nat) :
    (add_LRU_list_head s n).last_ref_pg = s.last_ref_pg := by
  unfold add_LRU_list_head setPage
  dsimp only
  split <;> rfl

theorem insert_LRU_list_last (s : State) (o n : Nat) :
    (insert_LRU_list s o n).last_ref_pg = s.last_ref_pg := by
  unfold insert_LRU_list setPage
  dsimp only
  split <;> rfl

theorem prune_LIRS_stack_last (P : Params) (s t : State)
    (h : prune_LIRS_stack P s = some t) : t.last_ref_pg = s.last_ref_pg := by
  unfold prune_LIRS_stack at h
  by_cases hc : s.cur_lir_S_len ≤ P.MAX_S_LEN
  · rw [if_pos hc] at h
    cases h; rfl
  · rw [if_neg hc] at h
    obtain ⟨v, _, h1⟩ := deref_inv h
    simp only [Option.bind_eq_some] at h1
    obtain ⟨s2, h2, h3⟩ := h1
    obtain ⟨w, _, h4⟩ := deref_inv h3
    simp only [Option.some.injEq] at h4
    subst h4
    show (insert_LRU_list s2 v w).last_ref_pg = _
    rw [insert_LRU_list_last, remove_LIRS_list_last P _ _ _ h2]
    rfl

theorem make_room_last (P : Params) (s t : State) (b : Nat)
    (h : make_room P s b = some t) : t.last_ref_pg = s.last_ref_pg := by
  unfold make_room at h
  by_cases hf : s.free_mem_size = 0
  · rw [if_pos hf] at h
    obtain ⟨v, _, h1⟩ := deref_inv h
    simp only [Option.some.injEq] at h1
    subst h1
    show (remove_HIR_list _ v).last_ref_pg = _
    rw [remove_HIR_list_last]
    rfl
  · rw [if_neg hf] at h
    by_cases hf2 : s.free_mem_size > P.HIR_block_portion_limit
    · rw [if_pos hf2] at h
      cases h; rfl
    · rw [if_neg hf2] at h
      cases h; rfl

theorem miss_or_hit_last (P : Params) (s t : State) (b : Nat)
    (h : miss_or_hit P s b = some t) : t.last_ref_pg = s.last_ref_pg := by
  unfold miss_or_hit at h
  by_cases hr : (s.page_tbl b).isResident = false
  · rw [if_pos hr] at h
    simp only [Option.bind_eq_some] at h
    obtain ⟨s2, h2, h3⟩ := h
    simp only [Option.some.injEq] at h3
    subst h3
    show s2.last_ref_pg = _
    rw [make_room_last P _ _ _ h2]
    by_cases hc : s.collect_stat = true
    · rw [if_pos hc]
    · rw [if_neg hc]
  · rw [if_neg hr] at h
    by_cases hh : (s.page_tbl b).isHIR_block = true
    · rw [if_pos hh] at h
      cases h
      exact remove_HIR_list_last s b
    · rw [if_neg hh] at h
      cases h; rfl

theorem relink_last (P : Params) (s t : State) (b : Nat)
    (h : relink P s b = some t) : t.last_ref_pg = s.last_ref_pg := by
  unfold relink at h
  simp only [Option.bind_eq_some] at h
  obtain ⟨s1, h1, h2⟩ := h
  simp only [Option.some.injEq] at h2
  subst h2
  have e := remove_LIRS_list_last P _ _ _ h1
  have e2 := add_LRU_list_head_last s1 b
  split
  · show (add_LRU_list_head s1 b).last_ref_pg = _
    rw [e2, e]
  · show (add_LRU_list_head s1 b).last_ref_pg = _
    rw [e2, e]

theorem demote_last (P : Params) (s t : State)
    (h : demote P s = some t) : t.last_ref_pg = s.last_ref_pg := by
  unfold demote at h
  obtain ⟨v, _, h1⟩ := deref_inv h
  obtain ⟨w, _, h2⟩ := deref_inv h1
  rw [find_last_LIR_LRU_last P _ _ h2]
  exact add_HIR_list_head_last s v

theorem promote_or_queue_last (P : Params) (s t : State) (b : Nat)
    (h : promote_or_queue P s b = some t) : t.last_ref_pg = s.last_ref_pg := by
  unfold promote_or_queue at h
  by_cases hc : (s.page_tbl b).isHIR_block = true ∧ (s.page_tbl b).recency = S_STACK_IN
  · rw [if_pos hc] at h
    dsimp only at h
    split at h
    · rw [demote_last P _ _ h]; rfl
    · cases h; rfl
  · rw [if_neg hc] at h
    by_cases hh : (s.page_tbl b).isHIR_block = true
    · rw [if_pos hh] at h
      cases h
      exact add_HIR_list_head_last s b
    · rw [if_neg hh] at h
      cases h; rfl

theorem post_last (P : Params) (s t : State) (b : Nat)
    (h : post P s b = some t) : t.last_ref_pg = s.last_ref_pg := by
  unfold post at h
  simp only [Option.bind_eq_some] at h
  obtain ⟨s2, h2, s3, h3, h4⟩ := h
  simp only [Option.some.injEq] at h4
  subst h4
  show s3.last_ref_pg = _
  rw [promote_or_queue_last P _ _ _ h3, relink_last P _ _ _ h2]

/-- The work done for a reference records it as the last reference. -/
theorem LIRS_access_last (P : Params) (s t : State) (b : Nat)
    (h : LIRS_access P s b = some t) : t.last_ref_pg = some b := by
  unfold LIRS_access at h
  simp only [Option.bind_eq_some] at h
  obtain ⟨s1, h1, s4, h4, h5⟩ := h
  rw [prune_LIRS_stack_last P _ _ h5, post_last P _ _ _ h4, miss_or_hit_last P _ _ _ h1]

/-- An iteration that goes on to the next reference was given a block number in range and
leaves it in `last_ref_pg`. -/
theorem iter_next_inv (P : Params) (s s1 : State) (x : Nat)
    (h : LIRS_Repl_iter P s x = Step.next s1) :
    ¬ x > P.vm_size ∧ s1.last_ref_pg = some x := by
  unfold LIRS_Repl_iter at h
  dsimp only at h
  by_cases hv : x > P.vm_size
  · rw [if_pos hv] at h; cases h
  · rw [if_neg hv] at h
    refine ⟨hv, ?_⟩
    by_cases hc : s.total_pg_refs + 1 > P.STAT_START_POINT
    · simp only [hc, if_true] at h
      by_cases hd : some x = s.last_ref_pg
      · simp only [hd, if_true] at h
        cases h
        exact hd.symm
      · simp only [hd, if_false] at h
        split at h
        · rename_i s3 h3
          cases h
          exact LIRS_access_last P _ _ _ h3
        · cases h
    · simp only [hc, if_false] at h
      by_cases hd : some x = s.last_ref_pg
      · simp only [hd, if_true] at h
        cases h
        exact hd.symm
      · simp only [hd, if_false] at h
        split at h
        · rename_i s3 h3
          cases h
          exact LIRS_access_last P _ _ _ h3
        · cases h

/-- An iteration for the block of the previous reference only counts the reference. -/
theorem iter_dup (P : Params) (s : State) (x : Nat) (hv : ¬ x > P.vm_size)
    (hl : s.last_ref_pg = some x) :
    LIRS_Repl_iter P s x = Step.next
      (if s.total_pg_refs + 1 > P.STAT_START_POINT then
        { s with total_pg_refs := s.total_pg_refs + 1, collect_stat := true,
                 warm_pg_refs := s.warm_pg_refs + 1 }
       else { s with total_pg_refs := s.total_pg_refs + 1 }) := by
  unfold LIRS_Repl_iter
  dsimp only
  rw [if_neg hv]
  by_cases hc : s.total_pg_refs + 1 > P.STAT_START_POINT
  · simp only [hc, if_true, hl]
  · simp only [hc, if_false, hl, if_true]

/-- C9. Duplicate idempotence: for every trace `t` and block number `x`, if `LIRS_Repl`
processes `t` followed by `x` to the end, it also processes `t` followed by `x, x`, and
the two final states have the same table (flags and links of every block), the same heads
and tails of S and Q, the same cursor, `free_mem_size`, `num_LIR_pgs`, `cur_lir_S_len`,
`no_dup_refs`, `last_ref_pg` and the same miss count `num_pg_flt`; `total_pg_refs` is
larger by one, and `warm_pg_refs` is larger by one when the count of references has passed
`STAT_START_POINT` (always when it is 0). A run that stops at a block number out of range,
or at a null pointer, stops in the same way with the repeated reference. -/
theorem C9_duplicate_idempotence (P : Params) (t : List Nat) (x : Nat) :
    match LIRS_Repl P (t ++ [x]) with
    | Step.next s1 =>
      ∃ s2, LIRS_Repl P (t ++ [x, x]) = Step.next s2 ∧
        s2.page_tbl = s1.page_tbl ∧
        s2.LRU_list_head = s1.LRU_list_head ∧ s2.LRU_list_tail = s1.LRU_list_tail ∧
        s2.HIR_list_head = s1.HIR_list_head ∧ s2.HIR_list_tail = s1.HIR_list_tail ∧
        S_list P s2 = S_list P s1 ∧ Q_list P s2 = Q_list P s1 ∧
        s2.LIR_LRU_block_ptr = s1.LIR_LRU_block_ptr ∧
        s2.free_mem_size = s1.free_mem_size ∧ s2.num_LIR_pgs = s1.num_LIR_pgs ∧
        count_LIR P s2 = count_LIR P s1 ∧
        s2.cur_lir_S_len = s1.cur_lir_S_len ∧ s2.no_dup_refs = s1.no_dup_refs ∧
        s2.last_ref_pg = s1.last_ref_pg ∧ s2.num_pg_flt = s1.num_pg_flt ∧
        s2.total_pg_refs = s1.total_pg_refs + 1 ∧
        s2.warm_pg_refs =
          (if s1.total_pg_refs + 1 > P.STAT_START_POINT then s1.warm_pg_refs + 1
           else s1.warm_pg_refs)
    | Step.returnFALSE s1 => LIRS_Repl P (t ++ [x, x]) = Step.returnFALSE s1
    | Step.abort => LIRS_Repl P (t ++ [x, x]) = Step.abort := by
  have e : t ++ [x, x] = (t ++ [x]) ++ [x] := by simp
  have h2 : LIRS_Repl P (t ++ [x, x]) =
      match LIRS_Repl P (t ++ [x]) with
      | Step.next s1 => LIRS_Repl_loop P s1 [x]
      | Step.returnFALSE s1 => Step.returnFALSE s1
      | Step.abort => Step.abort := by
    unfold LIRS_Repl
    rw [e]
    refine (LIRS_Repl_loop_append P (t ++ [x]) [x] _).trans ?_
    cases LIRS_Repl_loop P (init_state P) (t ++ [x]) <;> rfl
  have h1 : LIRS_Repl P (t ++ [x]) =
      match LIRS_Repl_loop P (init_state P) t with
      | Step.next s0 => LIRS_Repl_loop P s0 [x]
      | Step.returnFALSE s0 => Step.returnFALSE s0
      | Step.abort => Step.abort := by
    unfold LIRS_Repl
    refine (LIRS_Repl_loop_append P t [x] _).trans ?_
    cases LIRS_Repl_loop P (init_state P) t <;> rfl
  rw [h2]
  cases hr : LIRS_Repl P (t ++ [x]) with
  | returnFALSE s1 => rfl
  | abort => rfl
  | next s1 =>
    have hx : ¬ x > P.vm_size ∧ s1.last_ref_pg = some x := by
      rw [hr] at h1
      cases h0 : LIRS_Repl_loop P (init_state P) t with
      | returnFALSE s0 => rw [h0] at h1; cases h1
      | abort => rw [h0] at h1; cases h1
      | next s0 =>
        rw [h0] at h1
        simp only [LIRS_Repl_loop] at h1
        cases hi : LIRS_Repl_iter P s0 x with
        | returnFALSE s3 => rw [hi] at h1; cases h1
        | abort => rw [hi] at h1; cases h1
        | next s3 =>
          rw [hi] at h1
          simp only [Step.next.injEq] at h1
          subst h1
          exact iter_next_inv P s0 _ x hi
    simp only [LIRS_Repl_loop, iter_dup P s1 x hx.1 hx.2]
    by_cases hc : s1.total_pg_refs + 1 > P.STAT_START_POINT
    · simp only [hc, if_true]
      exact ⟨_, rfl, rfl, rfl, rfl, rfl, rfl, rfl, rfl, rfl, rfl, rfl, rfl, rfl, rfl, rfl, rfl,
        rfl, rfl⟩
    · simp only [hc, if_false]
      exact ⟨_, rfl, rfl, rfl, rfl, rfl, rfl, rfl, rfl, rfl, rfl, rfl, rfl, rfl, rfl, rfl, rfl,
        rfl, rfl⟩

/-- Instance of C9: the run on 0, 1, 2, 1 and the run on 0, 1, 2, 1, 1 in a cache of 10
frames end with the same table and the same miss count, 3. -/
theorem C9_duplicate_idempotence_witness :
    ∃ s1 s2, LIRS_Repl (mainParams 5 10 20 0) ([0, 1, 2] ++ [1]) = Step.next s1 ∧
      LIRS_Repl (mainParams 5 10 20 0) ([0, 1, 2] ++ [1, 1]) = Step.next s2 ∧
      s2.page_tbl = s1.page_tbl ∧ s2.num_pg_flt = s1.num_pg_flt ∧ s1.num_pg_flt = 3 ∧
      s2.total_pg_refs = s1.total_pg_refs + 1 ∧ s2.warm_pg_refs = s1.warm_pg_refs + 1 := by
  have h := C9_duplicate_idempotence (mainParams 5 10 20 0) [0, 1, 2] 1
  have hr : LIRS_Repl (mainParams 5 10 20 0) ([0, 1, 2] ++ [1]) =
      Step.next ((runState (mainParams 5 10 20 0) [0, 1, 2, 1]).getD
        (init_state (mainParams 5 10 20 0))) := rfl
  rw [hr] at h
  obtain ⟨s2, h2, h3, _, _, _, _, _, _, _, _, _, _, _, _, _, h4, h5, h6⟩ := h
  exact ⟨_, s2, hr, h2, h3, h4, by decide, h5, by rw [h6]; rfl⟩

end LIRS

/-! ## Monotone capacity: lists -/

namespace LIRS

theorem indexOf_erase {V : List Nat} {x y : Nat} (hxy : y ≠ x) (hy : y ∈ V) :
    (V.erase x).indexOf y =
      if V.indexOf x < V.indexOf y then V.indexOf y - 1 else V.indexOf y := by
  induction V with
  | nil => cases hy
  | cons a t ih =>
    by_cases hax : a = x
    · subst hax
      rw [List.erase_cons_head, List.indexOf_cons_self, List.indexOf_cons_ne _ (Ne.symm hxy)]
      simp
    · rw [List.erase_cons_tail (by simpa using hax)]
      by_cases hay : a = y
      · subst hay
        simp [List.indexOf_cons_self]
      · have hyt : y ∈ t := by
          rcases List.mem_cons.1 hy with e | e
          · exact absurd e.symm hay
          · exact e
        rw [List.indexOf_cons_ne _ hay, List.indexOf_cons_ne _ hay, List.indexOf_cons_ne _ hax,
          ih hyt]
        split_ifs <;> omega

theorem indexOf_ne_of_ne {V : List Nat} {x y : Nat} (hxy : y ≠ x) (hy : y ∈ V) :
    V.indexOf x ≠ V.indexOf y := by
  intro e
  by_cases hx : x ∈ V
  · exact hxy ((List.indexOf_inj hx hy).1 e).symm
  · rw [List.indexOf_of_not_mem hx] at e
    have := List.indexOf_lt_length.2 hy
    omega

/-- Taking `x` out of two lists keeps the order of positions between them. -/
theorem indexOf_erase_le {V1 V2 : List Nat} {x : Nat}
    (hsub : ∀ y ∈ V2, y ∈ V1) (hx : x ∈ V1 → x ∈ V2)
    (hle : ∀ y ∈ V2, V2.indexOf y ≤ V1.indexOf y) (y : Nat) (hy : y ∈ V2) (hyx : y ≠ x) :
    (V2.erase x).indexOf y ≤ (V1.erase x).indexOf y := by
  have hy1 := hsub y hy
  rw [indexOf_erase hyx hy, indexOf_erase hyx hy1]
  have e1 := indexOf_ne_of_ne hyx hy
  have e2 := indexOf_ne_of_ne hyx hy1
  have h1 := hle y hy
  by_cases hx1 : x ∈ V1
  · have h2 := hle x (hx hx1)
    split_ifs <;> omega
  · have hx2 : x ∉ V2 := fun h => hx1 (hsub x h)
    rw [List.indexOf_of_not_mem hx1, List.indexOf_of_not_mem hx2]
    have a1 := List.indexOf_lt_length.2 hy
    have a2 := List.indexOf_lt_length.2 hy1
    split_ifs <;> omega

/-- Move to front in both lists: `x` leaves, `p2` and `p1` enter at the front. -/
theorem indexOf_front_le {V1 V2 : List Nat} {x p1 p2 : Nat} (hn2 : V2.Nodup)
    (hsub : ∀ y ∈ V2, y ∈ V1) (hx : x ∈ V1 → x ∈ V2)
    (hle : ∀ y ∈ V2, V2.indexOf y ≤ V1.indexOf y)
    (hp : ∀ y ∈ V2, y ≠ x → y ≠ p1) (y : Nat) (hy : y ∈ p2 :: V2.erase x) :
    (p2 :: V2.erase x).indexOf y ≤ (p1 :: V1.erase x).indexOf y := by
  by_cases hyp : p2 = y
  · subst hyp
    simp [List.indexOf_cons_self]
  · have hy2 : y ∈ V2.erase x := by
      rcases List.mem_cons.1 hy with e | e
      · exact absurd e.symm hyp
      · exact e
    obtain ⟨hyx, hyV⟩ := (List.Nodup.mem_erase_iff hn2).1 hy2
    have := hp y hyV hyx
    rw [List.indexOf_cons_ne _ hyp, List.indexOf_cons_ne _ (Ne.symm this)]
    have := indexOf_erase_le hsub hx hle y hyV hyx
    omega

/-- Only the first list changes: positions in it do not decrease. -/
theorem indexOf_front_ge {V1 : List Nat} {x p1 y : Nat} (hy : y ∈ V1) (hyx : y ≠ x)
    (hyp : y ≠ p1) : V1.indexOf y ≤ (p1 :: V1.erase x).indexOf y := by
  rw [List.indexOf_cons_ne _ (Ne.symm hyp), indexOf_erase hyx hy]
  split_ifs <;> omega

theorem erase_getLast_append {Q : List Nat} {t : Nat} (hn : Q.Nodup)
    (ht : Q.getLast? = some t) : Q = Q.erase t ++ [t] := by
  obtain ⟨Y, rfl⟩ := List.getLast?_eq_some_iff.1 ht
  have htY : t ∉ Y := by
    intro hm
    have := (List.nodup_append.1 hn).2.2 hm (List.mem_singleton_self t)
    exact this
  rw [List.erase_append_right _ htY]
  simp

end LIRS

/-! ## Monotone capacity: one run with the history of Q -/

namespace LIRS

theorem l_relink_S (P : Params) (l l2 : LState) (b : Nat) (h : l_relink P l b = some l2)
    (hne : l.S ≠ [b]) : l2.S = b :: l.S.erase b := by
  rw [l_relink] at h
  cases hrm : l_remove_LIRS_list P l b with
  | none => rw [hrm] at h; cases h
  | some l1 =>
    rw [hrm] at h
    simp only [Option.some_bind, Option.some.injEq] at h
    have hS := (l_remove_LIRS_list_S P l l1 b hrm hne).1
    have key : (l_add_LRU_list_head l1 b).S = b :: l1.S := by
      cases hh : l1.S.head? with
      | none => simp only [l_add_LRU_list_head, hh]
      | some a => simp only [l_add_LRU_list_head, hh]
    by_cases hr : (l_add_LRU_list_head l1 b).recF b = S_STACK_OUT
    · simp only [hr, if_true] at h
      rw [← h]
      simp only []
      rw [key, hS]
    · simp only [hr, if_false] at h
      rw [← h]
      simp only []
      rw [key, hS]

theorem l_demote_S (P : Params) (l l3 : LState) (h : l_demote P l = some l3) :
    l3.S = l.S := by
  unfold l_demote at h
  obtain ⟨d, _, h1⟩ := deref_inv h
  obtain ⟨w, _, h2⟩ := deref_inv h1
  rw [(l_find_last_LIR_LRU_S P _ _ h2).1]
  rfl

theorem l_promote_or_queue_S (P : Params) (l l3 : LState) (b : Nat)
    (h : l_promote_or_queue P l b = some l3) : l3.S = l.S := by
  unfold l_promote_or_queue at h
  by_cases h1 : l.hirF b = true ∧ l.recF b = S_STACK_IN
  · rw [if_pos h1] at h
    dsimp only at h
    split at h
    · rw [l_demote_S P _ _ h]
    · cases h; rfl
  · rw [if_neg h1] at h
    by_cases hh : l.hirF b = true
    · rw [if_pos hh] at h
      cases h; rfl
    · rw [if_neg hh] at h
      cases h; rfl

/-- Lines 241-271 move the referenced block to the head of the list of S and leave the
order of the other entries alone. -/
theorem l_post_S (P : Params) (l l4 : LState) (b : Nat) (h : l_post P l b = some l4)
    (hne : l.S ≠ [b]) : l4.S = b :: l.S.erase b := by
  unfold l_post at h
  simp only [Option.bind_eq_some] at h
  obtain ⟨l2, h2, l3, h3, h4⟩ := h
  simp only [Option.some.injEq] at h4
  subst h4
  show l3.S = _
  rw [l_promote_or_queue_S P _ _ _ h3, l_relink_S P _ _ _ h2 hne]

theorem LInvCore.slen_le_vm {P : Params} {l : LState} (h : LInvCore P l) :
    l.slen ≤ P.vm_size + 1 := by
  obtain ⟨top, below, hS, _, _, hlen, _⟩ := h.split
  have h1 : l.S.length ≤ P.vm_size + 1 := length_le_of_nodup_range h.S_nodup h.S_range
  rw [hS, List.length_append] at h1
  omega

/-- With a bound `MAX_S_LEN` above the table size `prune_LIRS_stack` does nothing. -/
theorem access_noprune (P : Params) (hbig : P.vm_size + 1 ≤ P.MAX_S_LEN) (l l1 l4 : LState)
    (b : Nat)
    (h1 : l_miss_or_hit P { l with last := some b, nodup := l.nodup + 1 } b = some l1)
    (h4 : l_post P l1 b = some l4) (hi : LInvCore P l4) :
    l_access P l b = some l4 ∧ LInv P l4 := by
  have hs := hi.slen_le_vm
  have hle : l4.slen ≤ P.MAX_S_LEN := by omega
  refine ⟨?_, ⟨hi, hle⟩⟩
  simp only [l_access, l_access_core, h1, h4, Option.some_bind]
  rw [l_prune_LIRS_stack, if_pos hle]

/-- Lines 214-238 for an HIR block that is not admitted as LIR: the state after them, with
the history of Q without the block. -/
theorem mid_hir (P : Params) (hP : PWF P) (l : LState) (b : Nat) (V : List Nat)
    (h : LInvCore P l) (hv : VInv l V) (hb : b ≤ P.vm_size) (hlast : l.last ≠ some b)
    (hh : l.hirF b = true)
    (hn : ¬ (l.resF b = false ∧ P.HIR_block_portion_limit < l.free)) :
    ∃ l1, l_miss_or_hit P { l with last := some b, nodup := l.nodup + 1 } b = some l1 ∧
      MidInv P l1 b ∧ l1.S = l.S ∧ l1.hirF = l.hirF ∧ l1.recF = l.recF ∧ l1.cur = l.cur ∧
      l1.nlir = l.nlir ∧ l1.slen = l.slen ∧ l1.last = some b ∧ l1.collect = l.collect ∧
      l1.total = l.total ∧
      l1.flt = (if l.resF b = false ∧ l.collect = true then l.flt + 1 else l.flt) ∧
      (∃ W, V.erase b = l1.Q ++ W) ∧ (0 < l1.free → V.erase b = l1.Q) := by
  obtain ⟨W, hW⟩ := hv.pre
  by_cases hres : l.resF b = false
  · have hbQ : b ∉ l.Q := fun hm => by
      have := ((h.Q_iff b).1 hm).1
      rw [hres] at this; cases this
    have hfl : (if l.collect = true then l.flt + 1 else l.flt) =
        (if l.resF b = false ∧ l.collect = true then l.flt + 1 else l.flt) := by
      by_cases hc : l.collect = true
      · rw [if_pos hc, if_pos ⟨hres, hc⟩]
      · rw [if_neg hc, if_neg (fun x => hc x.2)]
    by_cases hf : l.free = 0
    · obtain ⟨t, ht, _, h1, h2⟩ := mid_miss_evict P hP l b h hb hlast hres hf
      refine ⟨_, h1, h2, rfl, rfl, rfl, rfl, rfl, rfl, rfl, rfl, rfl, hfl, ?_, ?_⟩
      · refine ⟨[t] ++ W.erase b, ?_⟩
        show V.erase b = l.Q.erase t ++ ([t] ++ W.erase b)
        rw [hW, List.erase_append_right _ hbQ, ← List.append_assoc,
          ← erase_getLast_append h.Q_nodup ht]
      · intro hpos
        have : l.free = 0 := hf
        have h0 : (0 : Nat) < l.free := hpos
        omega
    · have hf2 : l.free ≤ P.HIR_block_portion_limit := by
        by_contra hc
        exact hn ⟨hres, by omega⟩
      obtain ⟨h1, h2⟩ := mid_miss_hir P hP l b h hb hlast hres hf hf2
      have hVQ : V = l.Q := hv.full (by omega)
      have hbV : b ∉ V := by rw [hVQ]; exact hbQ
      refine ⟨_, h1, h2, rfl, rfl, rfl, rfl, rfl, rfl, rfl, rfl, rfl, hfl, ?_, ?_⟩
      · exact ⟨[], by rw [List.erase_of_not_mem hbV, hVQ]; simp⟩
      · intro _
        rw [List.erase_of_not_mem hbV, hVQ]
  · have hres2 : l.resF b = true := by simpa using hres
    obtain ⟨h1, h2⟩ := mid_hit_hir P l b h hb hlast hres2 hh
    have hbQ : b ∈ l.Q := (h.Q_iff b).2 ⟨hres2, hh⟩
    refine ⟨_, h1, h2, rfl, rfl, rfl, rfl, rfl, rfl, rfl, rfl, rfl, ?_, ?_, ?_⟩
    · rw [if_neg (fun x => hres x.1)]
    · exact ⟨W, by rw [hW, List.erase_append_left _ hbQ]⟩
    · intro hpos
      have hVQ : V = l.Q := hv.full hpos
      rw [hVQ]

theorem mem_cons_erase {S : List Nat} {b y : Nat} (hb : b ∈ S) :
    y ∈ b :: S.erase b ↔ y ∈ S := by
  by_cases hyb : y = b
  · subst hyb; simp [hb]
  · rw [List.mem_cons, List.mem_erase_of_ne hyb]
    simp [hyb]

/-- A reference to an HIR block in stack S: the block and the block at the cursor change
status, and the latter enters the history of Q at the front. -/
theorem stepB (P : Params) (hP : PWF P) (hbig : P.vm_size + 1 ≤ P.MAX_S_LEN) (l : LState)
    (b : Nat) (V : List Nat) (h : LInv P l) (hv : VInv l V) (hb : b ≤ P.vm_size)
    (hlast : l.last ≠ some b) (hh : l.hirF b = true) (hr : l.recF b = true) :
    ∃ l5 d, l.cur = some d ∧ l.hirF d = false ∧ d ≠ b ∧ l_access P l b = some l5 ∧
      LInv P l5 ∧ StepCommon l l5 b ∧
      l5.hirF = Function.update (Function.update l.hirF b false) d true ∧
      l5.nlir = l.nlir ∧ VInv l5 (d :: V.erase b) := by
  obtain ⟨top, below, hS, _, hrec, _⟩ := h.core.split
  have hbS : b ∈ l.S := by
    rw [hS]; exact List.mem_append_left _ ((hrec b).1 hr)
  have hn : ¬ (l.resF b = false ∧ P.HIR_block_portion_limit < l.free) := by
    intro hc
    have := (h.core.phaseA hc.2).2 b hbS
    rw [hh] at this; cases this
  obtain ⟨l1, h1, hm, e1, e2, e3, e4, e5, e6, e7, e8, e9, e10, ⟨W, hW⟩, hfull⟩ :=
    mid_hir P hP l b V h.core hv hb hlast hh hn
  obtain ⟨l4, d, hc, hne, hd, h4, hi4, _, hf, eh, eq, _⟩ :=
    post_promote P hP l1 b hm (by rw [e2]; exact hh) (by rw [e3]; exact hr)
  obtain ⟨ha, hi⟩ := access_noprune P hbig l l1 l4 b h1 h4 hi4
  have hS4 : l4.S = b :: l.S.erase b := by
    rw [l_post_S P l1 l4 b h4 hm.S_ne, e1]
  rw [e4] at hc
  rw [e2] at hd eh
  have hdS : d ∈ l.S := (h.core.cur_mem hc).1
  have hdV : d ∉ V := fun hm2 => by
    have := ((hv.mem d).1 hm2).2
    rw [hd] at this; cases this
  refine ⟨l4, d, hc, hd, hne, ha, hi, ⟨hS4, by rw [hf.last_eq, e7], by rw [hf.collect_eq, e8],
    by rw [hf.total_eq, e9], by rw [hf.flt_eq, e10]⟩, eh, by rw [hf.nlir_eq, e5], ?_⟩
  constructor
  · exact List.nodup_cons.2 ⟨fun hm2 => hdV (List.mem_of_mem_erase hm2), hv.nodup.erase b⟩
  · intro y
    rw [hS4, mem_cons_erase hbS, eh]
    by_cases hyd : y = d
    · subst hyd
      simp [hdS]
    · by_cases hyb : y = b
      · subst hyb
        simp only [List.mem_cons, hyd, false_or, Function.update_noteq hyd,
          Function.update_same]
        constructor
        · intro hm2
          exact absurd rfl ((List.Nodup.mem_erase_iff hv.nodup).1 hm2).1
        · intro hm2; cases hm2.2
      · simp only [List.mem_cons, hyd, false_or, Function.update_noteq hyd,
          Function.update_noteq hyb]
        rw [List.mem_erase_of_ne hyb]
        exact hv.mem y
  · exact ⟨W, by rw [eq, hW]; rfl⟩
  · intro hpos
    rw [hf.free_eq] at hpos
    rw [eq, hfull hpos]

/-- A reference to an HIR block that is not in stack S and is queued: it enters the history
of Q at the front. -/
theorem stepC (P : Params) (hP : PWF P) (hbig : P.vm_size + 1 ≤ P.MAX_S_LEN) (l : LState)
    (b : Nat) (V : List Nat) (h : LInv P l) (hv : VInv l V) (hb : b ≤ P.vm_size)
    (hlast : l.last ≠ some b) (hh : l.hirF b = true) (hr : l.recF b = false)
    (hn : ¬ (l.resF b = false ∧ P.HIR_block_portion_limit < l.free)) :
    ∃ l5, l_access P l b = some l5 ∧ LInv P l5 ∧ StepCommon l l5 b ∧
      l5.hirF = l.hirF ∧ l5.nlir = l.nlir ∧ VInv l5 (b :: V.erase b) := by
  obtain ⟨l1, h1, hm, e1, e2, e3, e4, e5, e6, e7, e8, e9, e10, ⟨W, hW⟩, hfull⟩ :=
    mid_hir P hP l b V h.core hv hb hlast hh hn
  obtain ⟨l4, h4, hi4, _, hf, eh, eq⟩ := post_fresh P l1 b hm (by rw [e3]; exact hr)
  obtain ⟨ha, hi⟩ := access_noprune P hbig l l1 l4 b h1 h4 hi4
  have hS4 : l4.S = b :: l.S.erase b := by
    rw [l_post_S P l1 l4 b h4 hm.S_ne, e1]
  rw [e2] at eh eq
  rw [if_pos hh] at eq
  refine ⟨l4, ha, hi, ⟨hS4, by rw [hf.last_eq, e7], by rw [hf.collect_eq, e8],
    by rw [hf.total_eq, e9], by rw [hf.flt_eq, e10]⟩, eh, by rw [hf.nlir_eq, e5], ?_⟩
  constructor
  · exact List.nodup_cons.2
      ⟨fun hm2 => absurd rfl ((List.Nodup.mem_erase_iff hv.nodup).1 hm2).1, hv.nodup.erase b⟩
  · intro y
    rw [hS4, eh]
    by_cases hyb : y = b
    · subst hyb
      simp [hh]
    · simp only [List.mem_cons, hyb, false_or]
      rw [List.mem_erase_of_ne hyb, List.mem_erase_of_ne hyb]
      exact hv.mem y
  · exact ⟨W, by rw [eq, hW]; rfl⟩
  · intro hpos
    rw [hf.free_eq] at hpos
    rw [eq, hfull hpos]

/-- A reference to an LIR block: no status changes, the history of Q is as before. -/
theorem stepA (P : Params) (hP : PWF P) (hbig : P.vm_size + 1 ≤ P.MAX_S_LEN) (l : LState)
    (b : Nat) (V : List Nat) (h : LInv P l) (hv : VInv l V) (hb : b ≤ P.vm_size)
    (hlast : l.last ≠ some b) (hh : l.hirF b = false) :
    ∃ l5, l_access P l b = some l5 ∧ LInv P l5 ∧ StepCommon l l5 b ∧
      l5.hirF = l.hirF ∧ l5.nlir = l.nlir ∧ VInv l5 V := by
  obtain ⟨h1, hm⟩ := mid_hit_lir P l b h.core hb hlast hh
  have hr : l.recF b = true := h.core.lir_rec b hh
  have hres : l.resF b = true := h.core.lir_res b hh
  obtain ⟨top, below, hS, _, hrec, _⟩ := h.core.split
  have hbS : b ∈ l.S := by
    rw [hS]; exact List.mem_append_left _ ((hrec b).1 hr)
  have key : ∃ l4, l_post P { l with last := some b, nodup := l.nodup + 1 } b = some l4 ∧
      LInvCore P l4 ∧ PostFrame { l with last := some b, nodup := l.nodup + 1 } l4 b ∧
      l4.hirF = l.hirF ∧ l4.Q = l.Q := by
    by_cases hc : l.cur = some b
    · obtain ⟨l4, a1, a2, _, a4, a5, a6⟩ := post_lir_cursor P hP _ b hm hh hr hc
      exact ⟨l4, a1, a2, a4, a5, a6⟩
    · obtain ⟨l4, a1, a2, _, a4, a5, a6⟩ :=
        post_lir_noncursor P _ b hm hh hr (fun e => hc e.symm)
      exact ⟨l4, a1, a2, a4, a5, a6⟩
  obtain ⟨l4, h4, hi4, hf, eh, eq⟩ := key
  obtain ⟨ha, hi⟩ := access_noprune P hbig l _ l4 b h1 h4 hi4
  have hS4' := l_post_S P _ l4 b h4 hm.S_ne
  have hS4 : l4.S = b :: l.S.erase b := hS4'
  refine ⟨l4, ha, hi, ⟨hS4, hf.last_eq, hf.collect_eq, hf.total_eq, ?_⟩, eh, hf.nlir_eq, ?_⟩
  · rw [hf.flt_eq, if_neg (fun x => by rw [hres] at x; cases x.1)]
  · constructor
    · exact hv.nodup
    · intro y
      rw [hS4, mem_cons_erase hbS, eh]
      exact hv.mem y
    · rw [eq]; exact hv.pre
    · intro hpos
      rw [hf.free_eq] at hpos
      rw [eq]; exact hv.full hpos

/-- A miss while more than `HIR_block_portion_limit` frames are free: the block is new to
S and becomes LIR; the history of Q is still empty. -/
theorem stepD (P : Params) (hbig : P.vm_size + 1 ≤ P.MAX_S_LEN) (l : LState)
    (b : Nat) (V : List Nat) (h : LInv P l) (hv : VInv l V) (hb : b ≤ P.vm_size)
    (hlast : l.last ≠ some b) (hres : l.resF b = false)
    (hfr : P.HIR_block_portion_limit < l.free) :
    ∃ l5, l_access P l b = some l5 ∧ LInv P l5 ∧ StepCommon l l5 b ∧
      l5.hirF = Function.update l.hirF b false ∧ l5.nlir = l.nlir + 1 ∧ VInv l5 V ∧
      b ∉ l.S ∧ V = [] := by
  obtain ⟨h1, hm⟩ := mid_miss_lir P l b h.core hb hlast hres hfr
  have hA := h.core.phaseA hfr
  have hbS : b ∉ l.S := fun hm2 => by
    have h2 := h.core.lir_res b (hA.2 b hm2)
    rw [hres] at h2; cases h2
  have hr : l.recF b = false := by
    by_contra hc
    obtain ⟨top, below, hS, _, hrec, _⟩ := h.core.split
    apply hbS
    rw [hS]; exact List.mem_append_left _ ((hrec b).1 (by simpa using hc))
  obtain ⟨l4, h4, hi4, _, hf, eh, eq⟩ := post_fresh P _ b hm hr
  obtain ⟨ha, hi⟩ := access_noprune P hbig l _ l4 b h1 h4 hi4
  have hS4' := l_post_S P _ l4 b h4 hm.S_ne
  have hS4 : l4.S = b :: l.S.erase b := hS4'
  have eh2 : l4.hirF = Function.update l.hirF b false := eh
  have hV : V = [] := by
    have hpos : 0 < l.free := by omega
    rw [hv.full hpos, hA.1]
  have eq2 : l4.Q = l.Q := by
    rw [eq]
    simp
  have hfl : l4.flt = if l.resF b = false ∧ l.collect = true then l.flt + 1 else l.flt := by
    rw [hf.flt_eq]
    by_cases hc : l.collect = true
    · simp [hc, hres]
    · simp [hc, hres]
  refine ⟨l4, ha, hi, ⟨hS4, hf.last_eq, hf.collect_eq, hf.total_eq, hfl⟩, eh2, hf.nlir_eq, ?_,
    hbS, hV⟩
  constructor
  · exact hv.nodup
  · intro y
    rw [hS4, eh2, hV, List.erase_of_not_mem hbS]
    constructor
    · intro hm2; cases hm2
    · intro hm2
      by_cases hyb : y = b
      · subst hyb
        simp at hm2
      · rw [Function.update_noteq hyb] at hm2
        rcases List.mem_cons.1 hm2.1 with e | e
        · exact absurd e hyb
        · have := hA.2 y e
          rw [this] at hm2; cases hm2.2
  · rw [eq2]; exact hv.pre
  · intro _
    rw [eq2, hV, hA.1]

end LIRS

/-! ## Monotone capacity: two runs on one trace -/

namespace LIRS

/-- Every reference in range that is not a repetition is processed in one of four ways. -/
theorem step_any (P : Params) (hP : PWF P) (hbig : P.vm_size + 1 ≤ P.MAX_S_LEN) (l : LState)
    (b : Nat) (V : List Nat) (h : LInv P l) (hv : VInv l V) (hb : b ≤ P.vm_size)
    (hlast : l.last ≠ some b) :
    ∃ l5 V5, l_access P l b = some l5 ∧ LInv P l5 ∧ StepCommon l l5 b ∧ VInv l5 V5 ∧
      StepCase P l l5 b V V5 := by
  by_cases hh : l.hirF b = false
  · obtain ⟨l5, a1, a2, a3, a4, a5, a6⟩ := stepA P hP hbig l b V h hv hb hlast hh
    exact ⟨l5, V, a1, a2, a3, a6, Or.inl ⟨hh, a4, a5, rfl⟩⟩
  · have hh2 : l.hirF b = true := by simpa using hh
    by_cases hD : l.resF b = false ∧ P.HIR_block_portion_limit < l.free
    · obtain ⟨l5, a1, a2, a3, a4, a5, a6, a7, a8⟩ :=
        stepD P hbig l b V h hv hb hlast hD.1 hD.2
      exact ⟨l5, V, a1, a2, a3, a6,
        Or.inr (Or.inr (Or.inr ⟨hh2, hD.1, hD.2, a7, a8, a4, a5, rfl⟩))⟩
    · by_cases hr : l.recF b = true
      · obtain ⟨l5, d, a1, a2, a3, a4, a5, a6, a7, a8, a9⟩ :=
          stepB P hP hbig l b V h hv hb hlast hh2 hr
        exact ⟨l5, _, a4, a5, a6, a9, Or.inr (Or.inl ⟨hh2, hr, d, a1, a2, a3, a7, a8, rfl⟩)⟩
      · have hr2 : l.recF b = false := by simpa using hr
        obtain ⟨l5, a1, a2, a3, a4, a5, a6⟩ :=
          stepC P hP hbig l b V h hv hb hlast hh2 hr2 hD
        exact ⟨l5, _, a1, a2, a3, a6, Or.inr (Or.inr (Or.inl ⟨hh2, hr2, hD, a4, a5, rfl⟩))⟩

theorem LInvCore.res_mem_S {P : Params} {l : LState} (h : LInvCore P l) {y : Nat}
    (hy : l.resF y = true) : y ∈ l.S := by
  by_cases hh : l.hirF y = true
  · exact h.Q_sub y ((h.Q_iff y).2 ⟨hy, hh⟩)
  · obtain ⟨top, below, hS, _, hrec, _⟩ := h.split
    rw [hS]
    exact List.mem_append_left _ ((hrec y).1 (h.lir_rec y (by simpa using hh)))

theorem LInvCore.rec_mem_S {P : Params} {l : LState} (h : LInvCore P l) {y : Nat}
    (hy : l.recF y = true) : y ∈ l.S := by
  obtain ⟨top, below, hS, _, hrec, _⟩ := h.split
  rw [hS]
  exact List.mem_append_left _ ((hrec y).1 hy)

/-- The part of the list of S that counts as the stack is, in the run with fewer LIR
blocks, a front part of that in the other run. -/
theorem rec_mono {P1 P2 : Params} {l1 l2 : LState} (h1 : LInvCore P1 l1)
    (h2 : LInvCore P2 l2) (hS : l1.S = l2.S)
    (hl : ∀ y, l1.hirF y = false → l2.hirF y = false) (y : Nat)
    (hy : l1.recF y = true) : l2.recF y = true := by
  obtain ⟨top1, below1, hS1, hcur1, hrec1, _, hcl1, _⟩ := h1.split
  obtain ⟨top2, below2, hS2, _, hrec2, _⟩ := h2.split
  have hy1 : y ∈ top1 := (hrec1 y).1 hy
  obtain ⟨d1, hd1⟩ : ∃ d, top1.getLast? = some d := by
    cases hg : top1.getLast? with
    | none =>
      rw [List.getLast?_eq_none_iff.1 hg] at hy1; cases hy1
    | some d => exact ⟨d, rfl⟩
  obtain ⟨T, hT⟩ := List.getLast?_eq_some_iff.1 hd1
  have hc1 : l1.cur = some d1 := by rw [hcur1, hd1]
  have hd2 : d1 ∈ top2 := (hrec2 d1).1 (h2.lir_rec d1 (hl d1 (hcl1 d1 hc1)))
  obtain ⟨A, B, hAB⟩ := List.append_of_mem hd2
  have e1 : l1.S = T ++ d1 :: below1 := by rw [hS1, hT]; simp
  have e2 : l1.S = A ++ d1 :: (B ++ below2) := by rw [hS, hS2, hAB]; simp
  have hnd := h1.S_nodup
  rw [e1] at hnd
  have hu := nodup_split_unique hnd (e1.symm.trans e2)
  rw [hrec2 y, hAB, ← hu.1]
  rw [hT] at hy1
  rcases List.mem_append.1 hy1 with e | e
  · exact List.mem_append_left _ e
  · rw [List.mem_singleton.1 e]
    exact List.mem_append_right _ (List.mem_cons_self _ _)

/-- If the block at the cursor of the second run is LIR in the first run, it is at the
cursor there too. -/
theorem cur_eq_of_lir {P1 P2 : Params} {l1 l2 : LState} (h1 : LInvCore P1 l1)
    (h2 : LInvCore P2 l2) (hS : l1.S = l2.S)
    (hl : ∀ y, l1.hirF y = false → l2.hirF y = false) {d2 : Nat}
    (hc2 : l2.cur = some d2) (hd : l1.hirF d2 = false) : l1.cur = some d2 := by
  obtain ⟨top1, below1, hS1, hcur1, hrec1, _, hcl1, _⟩ := h1.split
  obtain ⟨top2, below2, hS2, hcur2, hrec2, _⟩ := h2.split
  have hy1 : d2 ∈ top1 := (hrec1 d2).1 (h1.lir_rec d2 hd)
  obtain ⟨d1, hd1⟩ : ∃ d, top1.getLast? = some d := by
    cases hg : top1.getLast? with
    | none =>
      rw [List.getLast?_eq_none_iff.1 hg] at hy1; cases hy1
    | some d => exact ⟨d, rfl⟩
  obtain ⟨T, hT⟩ := List.getLast?_eq_some_iff.1 hd1
  have hc1 : l1.cur = some d1 := by rw [hcur1, hd1]
  rw [hc1]
  by_contra hne
  have hne2 : d2 ≠ d1 := fun e => hne (by rw [e])
  have hdT : d2 ∈ T := by
    rw [hT] at hy1
    rcases List.mem_append.1 hy1 with e | e
    · exact e
    · exact absurd (List.mem_singleton.1 e) hne2
  obtain ⟨T1, T2, hTT⟩ := List.append_of_mem hdT
  obtain ⟨A, hA⟩ := List.getLast?_eq_some_iff.1 (by rw [← hcur2]; exact hc2)
  have e1 : l1.S = T1 ++ d2 :: (T2 ++ d1 :: below1) := by rw [hS1, hT, hTT]; simp
  have e2 : l1.S = A ++ d2 :: below2 := by rw [hS, hS2, hA]; simp
  have hnd := h1.S_nodup
  rw [e1] at hnd
  have hu := nodup_split_unique hnd (e1.symm.trans e2)
  have hdb : d1 ∈ below2 := by
    rw [← hu.2]
    exact List.mem_append_right _ (List.mem_cons_self _ _)
  have hdt : d1 ∈ top2 := (hrec2 d1).1 (h2.lir_rec d1 (hl d1 (hcl1 d1 hc1)))
  have hnd2 := h2.S_nodup
  rw [hS2] at hnd2
  exact (List.nodup_append.1 hnd2).2.2 hdt hdb

/-- With the same block at the cursor, the two runs count the same entries as stack S. -/
theorem rec_of_cur_eq {P1 P2 : Params} {l1 l2 : LState} (h1 : LInvCore P1 l1)
    (h2 : LInvCore P2 l2) (hS : l1.S = l2.S) {d : Nat} (hc1 : l1.cur = some d)
    (hc2 : l2.cur = some d) (y : Nat) (hy : l2.recF y = true) : l1.recF y = true := by
  obtain ⟨top1, below1, hS1, hcur1, hrec1, _⟩ := h1.split
  obtain ⟨top2, below2, hS2, hcur2, hrec2, _⟩ := h2.split
  obtain ⟨T, hT⟩ := List.getLast?_eq_some_iff.1 (by rw [← hcur1]; exact hc1)
  obtain ⟨A, hA⟩ := List.getLast?_eq_some_iff.1 (by rw [← hcur2]; exact hc2)
  have e1 : l1.S = T ++ d :: below1 := by rw [hS1, hT]; simp
  have e2 : l1.S = A ++ d :: below2 := by rw [hS, hS2, hA]; simp
  have hnd := h1.S_nodup
  rw [e1] at hnd
  have hu := nodup_split_unique hnd (e1.symm.trans e2)
  rw [hrec1 y, hT, hu.1, ← hA]
  exact (hrec2 y).1 hy

theorem Coup.hir_of_hir {P1 P2 : Params} {l1 l2 : LState} {V1 V2 : List Nat}
    (hc : Coup P1 P2 l1 V1 l2 V2) {y : Nat} (hy : l2.hirF y = true) : l1.hirF y = true := by
  by_contra hh
  have := hc.lir y (by simpa using hh)
  rw [hy] at this; cases this

theorem Coup.sub {P1 P2 : Params} {l1 l2 : LState} {V1 V2 : List Nat}
    (hc : Coup P1 P2 l1 V1 l2 V2) (hv1 : VInv l1 V1) (hv2 : VInv l2 V2) (y : Nat)
    (hy : y ∈ V2) : y ∈ V1 := by
  have h2 := (hv2.mem y).1 hy
  exact (hv1.mem y).2 ⟨by rw [hc.S_eq]; exact h2.1, hc.hir_of_hir h2.2⟩

/-- Inclusion: every block resident in the run with the smaller cache is resident in the
run with the larger cache. -/
theorem res_le {P1 P2 : Params} (hrel : PRel P1 P2) {l1 l2 : LState} {V1 V2 : List Nat}
    (h1 : LInv P1 l1) (h2 : LInv P2 l2) (hv1 : VInv l1 V1) (hv2 : VInv l2 V2)
    (hc : Coup P1 P2 l1 V1 l2 V2) (y : Nat) (hy : l1.resF y = true) :
    l2.resF y = true := by
  by_cases hh2 : l2.hirF y = false
  · exact h2.core.lir_res y hh2
  · have hh2' : l2.hirF y = true := by simpa using hh2
    have hh1 : l1.hirF y = true := hc.hir_of_hir hh2'
    have hyQ1 : y ∈ l1.Q := (h1.core.Q_iff y).2 ⟨hy, hh1⟩
    have hyS : y ∈ l2.S := by rw [← hc.S_eq]; exact h1.core.Q_sub y hyQ1
    have hyV2 : y ∈ V2 := (hv2.mem y).2 ⟨hyS, hh2'⟩
    have hidx := hc.idx y hyV2
    obtain ⟨W1, hW1⟩ := hv1.pre
    have hi1 : V1.indexOf y < l1.Q.length := by
      rw [hW1, List.indexOf_append_of_mem hyQ1]
      exact List.indexOf_lt_length.2 hyQ1
    have hq1 := h1.Q_len_le.1
    have hhl := hrel.hir_le
    have hyQ2 : y ∈ l2.Q := by
      by_cases hf : l2.free = 0
      · have hfr := h2.core.frame
        have hB := h2.core.phaseB (by omega)
        obtain ⟨W2, hW2⟩ := hv2.pre
        by_contra hn
        rw [hW2, List.indexOf_append_of_not_mem hn] at hidx
        omega
      · have := hv2.full (by omega)
        rw [← this]; exact hyV2
    exact ((h2.core.Q_iff y).1 hyQ2).1

theorem flt_step_le {l1 l2 l1' l2' : LState} {b : Nat} (hs1 : StepCommon l1 l1' b)
    (hs2 : StepCommon l2 l2' b) (hcol : l1.collect = l2.collect) (hf : l2.flt ≤ l1.flt)
    (hres : l1.resF b = true → l2.resF b = true) : l2'.flt ≤ l1'.flt := by
  rw [hs1.flt_eq, hs2.flt_eq, ← hcol]
  by_cases hc : l1.collect = true
  · by_cases hr2 : l2.resF b = false
    · have hr1 : l1.resF b = false := by
        by_contra hx
        have := hres (by simpa using hx)
        rw [hr2] at this; cases this
      rw [if_pos ⟨hr2, hc⟩, if_pos ⟨hr1, hc⟩]
      omega
    · rw [if_neg (fun x => hr2 x.1)]
      split_ifs <;> omega
  · rw [if_neg (fun x => hc x.2), if_neg (fun x => hc x.2)]
    exact hf

end LIRS

/-! ## Monotone capacity: the coupling is kept by every reference -/

namespace LIRS

/-- While the run with the smaller cache still admits every miss as LIR, so does the run
with the larger cache. -/
theorem phaseA_transfer {P1 P2 : Params} (hP2 : PWF P2) {l1 l2 : LState}
    {V1 V2 : List Nat} (h1 : LInv P1 l1) (h2 : LInv P2 l2)
    (hc : Coup P1 P2 l1 V1 l2 V2) {b : Nat} (hf : P1.HIR_block_portion_limit < l1.free)
    (hbS : b ∉ l1.S) :
    l2.resF b = false ∧ P2.HIR_block_portion_limit < l2.free := by
  have hA := h1.core.phaseA hf
  constructor
  · by_contra hx
    apply hbS
    rw [hc.S_eq]
    exact h2.core.res_mem_S (by simpa using hx)
  · have hQ2 : l2.Q = [] := by
      rw [List.eq_nil_iff_forall_not_mem]
      intro y hy
      have hyS : y ∈ l1.S := by rw [hc.S_eq]; exact h2.core.Q_sub y hy
      have := hc.lir y (hA.2 y hyS)
      rw [((h2.core.Q_iff y).1 hy).2] at this
      cases this
    have f1 := h1.core.frame
    have f2 := h2.core.frame
    rw [hA.1] at f1
    rw [hQ2] at f2
    simp only [List.length_nil, Nat.add_zero] at f1 f2
    have hr := hc.room
    have := hP2.lir_two
    omega

theorem VInv.hir {l : LState} {V : List Nat} (hv : VInv l V) {y : Nat} (hy : y ∈ V) :
    l.hirF y = true := ((hv.mem y).1 hy).2

/-- One reference in range that is not a repetition keeps the coupling of the two runs. -/
theorem coup_access {P1 P2 : Params} (hP1 : PWF P1) (hP2 : PWF P2) (hrel : PRel P1 P2)
    {l1 l2 : LState} {V1 V2 : List Nat} (h1 : LInv P1 l1) (h2 : LInv P2 l2)
    (hv1 : VInv l1 V1) (hv2 : VInv l2 V2) (hc : Coup P1 P2 l1 V1 l2 V2) (b : Nat)
    (hb : b ≤ P1.vm_size) (hlast : l1.last ≠ some b) :
    ∃ l1' V1' l2' V2', l_access P1 l1 b = some l1' ∧ l_access P2 l2 b = some l2' ∧
      LInv P1 l1' ∧ LInv P2 l2' ∧ VInv l1' V1' ∧ VInv l2' V2' ∧
      Coup P1 P2 l1' V1' l2' V2' := by
  obtain ⟨l1', V1', a1, i1, s1, v1, c1⟩ := step_any P1 hP1 hrel.big1 l1 b V1 h1 hv1 hb hlast
  obtain ⟨l2', V2', a2, i2, s2, v2, c2⟩ := step_any P2 hP2 hrel.big2 l2 b V2 h2 hv2
    (by rw [← hrel.vm_eq]; exact hb) (by rw [← hc.last_eq]; exact hlast)
  have hres := res_le hrel h1 h2 hv1 hv2 hc
  have hrec := rec_mono h1.core h2.core hc.S_eq hc.lir
  have hsub := hc.sub hv1 hv2
  suffices key : (∀ y, l1'.hirF y = false → l2'.hirF y = false) ∧
      (∀ y ∈ V2', V2'.indexOf y ≤ V1'.indexOf y) ∧
      l2'.nlir + (P1.mem_size - P1.HIR_block_portion_limit) ≤
        l1'.nlir + (P2.mem_size - P2.HIR_block_portion_limit) from
    ⟨l1', V1', l2', V2', a1, a2, i1, i2, v1, v2,
      { S_eq := by rw [s1.S_eq, s2.S_eq, hc.S_eq]
        lir := key.1
        idx := key.2.1
        last_eq := by rw [s1.last_eq, s2.last_eq]
        collect_eq := by rw [s1.collect_eq, s2.collect_eq, hc.collect_eq]
        total_eq := by rw [s1.total_eq, s2.total_eq, hc.total_eq]
        flt_le := flt_step_le s1 s2 hc.collect_eq hc.flt_le (hres b)
        room := key.2.2 }⟩
  rcases c1 with ⟨x1, x2, x3, x4⟩ | ⟨x1, x2, d1, x3, x4, x5, x6, x7, x8⟩ |
    ⟨x1, x2, x3, x4, x5, x6⟩ | ⟨x1, x2, x3, x4, x5, x6, x7, x8⟩
  · -- the block is LIR in the first run, hence in the second
    have hb2 := hc.lir b x1
    rcases c2 with ⟨y1, y2, y3, y4⟩ | ⟨y1, _⟩ | ⟨y1, _⟩ | ⟨y1, _⟩
    · refine ⟨by rw [x2, y2]; exact hc.lir, by rw [x4, y4]; exact hc.idx, ?_⟩
      rw [x3, y3]; exact hc.room
    · rw [hb2] at y1; cases y1
    · rw [hb2] at y1; cases y1
    · rw [hb2] at y1; cases y1
  · -- status change in the first run
    have hbS1 : b ∈ l1.S := h1.core.rec_mem_S x2
    rcases c2 with ⟨y1, y2, y3, y4⟩ | ⟨y1, y2, d2, y3, y4, y5, y6, y7, y8⟩ |
      ⟨y1, y2, _⟩ | ⟨y1, y2, y3, y4, _⟩
    · refine ⟨?_, ?_, by rw [x7, y3]; exact hc.room⟩
      · intro y hy
        rw [y2]
        rw [x6] at hy
        by_cases hyd : y = d1
        · rw [hyd, Function.update_same] at hy; cases hy
        · rw [Function.update_noteq hyd] at hy
          by_cases hyb : y = b
          · rw [hyb]; exact y1
          · rw [Function.update_noteq hyb] at hy
            exact hc.lir y hy
      · rw [x8, y4]
        intro y hy
        refine (hc.idx y hy).trans (indexOf_front_ge (hsub y hy) ?_ ?_)
        · intro e
          have := hv2.hir hy
          rw [e, y1] at this; cases this
        · intro e
          have := hc.hir_of_hir (hv2.hir hy)
          rw [e, x4] at this; cases this
    · refine ⟨?_, ?_, by rw [x7, y7]; exact hc.room⟩
      · intro y hy
        rw [y6]
        rw [x6] at hy
        by_cases hyd : y = d1
        · rw [hyd, Function.update_same] at hy; cases hy
        · rw [Function.update_noteq hyd] at hy
          by_cases hyb : y = b
          · rw [hyb, Function.update_noteq (Ne.symm y5), Function.update_same]
          · rw [Function.update_noteq hyb] at hy
            have hyd2 : y ≠ d2 := by
              intro e
              rw [e] at hy hyd
              have := cur_eq_of_lir h1.core h2.core hc.S_eq hc.lir y3 hy
              rw [x3] at this
              exact hyd (Option.some.inj this).symm
            rw [Function.update_noteq hyd2, Function.update_noteq hyb]
            exact hc.lir y hy
      · rw [x8, y8]
        refine indexOf_front_le hv2.nodup hsub ?_ hc.idx ?_
        · intro _
          exact (hv2.mem b).2 ⟨by rw [← hc.S_eq]; exact hbS1, y1⟩
        · intro y hy _ e
          have := hc.hir_of_hir (hv2.hir hy)
          rw [e, x4] at this; cases this
    · have := hrec b x2
      rw [y2] at this; cases this
    · exact absurd (by rw [← hc.S_eq]; exact hbS1) y4
  · -- the block is queued in the first run
    rcases c2 with ⟨y1, y2, y3, y4⟩ | ⟨y1, y2, d2, y3, y4, y5, y6, y7, y8⟩ |
      ⟨y1, y2, y3, y4, y5, y6⟩ | ⟨y1, y2, y3, y4, y5, y6, y7, y8⟩
    · refine ⟨by rw [x4, y2]; exact hc.lir, ?_, by rw [x5, y3]; exact hc.room⟩
      rw [x6, y4]
      intro y hy
      have hyb : y ≠ b := by
        intro e
        have := hv2.hir hy
        rw [e, y1] at this; cases this
      exact (hc.idx y hy).trans (indexOf_front_ge (hsub y hy) hyb hyb)
    · refine ⟨?_, ?_, by rw [x5, y7]; exact hc.room⟩
      · intro y hy
        rw [x4] at hy
        rw [y6]
        have hyb : y ≠ b := by
          intro e
          rw [e, x1] at hy; cases hy
        have hyd2 : y ≠ d2 := by
          intro e
          rw [e] at hy
          have hcur := cur_eq_of_lir h1.core h2.core hc.S_eq hc.lir y3 hy
          have := rec_of_cur_eq h1.core h2.core hc.S_eq hcur y3 b y2
          rw [x2] at this; cases this
        rw [Function.update_noteq hyd2, Function.update_noteq hyb]
        exact hc.lir y hy
      · rw [x6, y8]
        refine indexOf_front_le hv2.nodup hsub ?_ hc.idx ?_
        · intro _
          exact (hv2.mem b).2 ⟨h2.core.rec_mem_S y2, y1⟩
        · intro y _ hyb
          exact hyb
    · refine ⟨by rw [x4, y4]; exact hc.lir, ?_, by rw [x5, y5]; exact hc.room⟩
      rw [x6, y6]
      refine indexOf_front_le hv2.nodup hsub ?_ hc.idx ?_
      · intro hb1
        exact (hv2.mem b).2 ⟨by rw [← hc.S_eq]; exact ((hv1.mem b).1 hb1).1, y1⟩
      · intro y _ hyb
        exact hyb
    · refine ⟨?_, ?_, ?_⟩
      · intro y hy
        rw [x4] at hy
        rw [y6]
        by_cases hyb : y = b
        · rw [hyb, Function.update_same]
        · rw [Function.update_noteq hyb]
          exact hc.lir y hy
      · rw [y8, y5]
        intro y hy
        cases hy
      · rw [x5, y7]
        have hr1 : l1.resF b = false := by
          by_contra hx
          have := hres b (by simpa using hx)
          rw [y2] at this; cases this
        have hf1 : l1.free ≤ P1.HIR_block_portion_limit := by
          by_contra hx
          exact x3 ⟨hr1, by omega⟩
        have hB := h1.core.phaseB hf1
        have f2 := h2.core.frame
        have := hP2.lir_two
        omega
  · -- miss admitted as LIR in the first run
    obtain ⟨t1, t2⟩ := phaseA_transfer hP2 h1 h2 hc x3 x4
    rcases c2 with ⟨y1, y2, y3, y4⟩ | ⟨y1, y2, _⟩ |
      ⟨y1, y2, y3, _⟩ | ⟨y1, y2, y3, y4, y5, y6, y7, y8⟩
    · have := h2.core.lir_res b y1
      rw [t1] at this; cases this
    · exact absurd (by rw [hc.S_eq]; exact h2.core.rec_mem_S y2) x4
    · exact absurd ⟨t1, t2⟩ y3
    · refine ⟨?_, by rw [x8, y8]; exact hc.idx, ?_⟩
      · intro y hy
        rw [x6] at hy
        rw [y6]
        by_cases hyb : y = b
        · rw [hyb, Function.update_same]
        · rw [Function.update_noteq hyb] at hy ⊢
          exact hc.lir y hy
      · rw [x7, y7]
        have := hc.room
        omega

end LIRS

/-! ## Monotone capacity: along a run -/

namespace LIRS

theorem VInv_count (P : Params) (l : LState) (V : List Nat) (hv : VInv l V) :
    VInv (l_count P l) V := by
  have hf := l_count_fields P l
  obtain ⟨_, _, f3, _, _, _, f7, f8, f9, _⟩ := hf
  constructor
  · exact hv.nodup
  · intro y; rw [f8, f3]; exact hv.mem y
  · rw [f7]; exact hv.pre
  · rw [f9, f7]; exact hv.full

theorem Coup_count {P1 P2 : Params} (hrel : PRel P1 P2) {l1 l2 : LState}
    {V1 V2 : List Nat} (hc : Coup P1 P2 l1 V1 l2 V2) :
    Coup P1 P2 (l_count P1 l1) V1 (l_count P2 l2) V2 := by
  have f1 := l_count_fields P1 l1
  have f2 := l_count_fields P2 l2
  obtain ⟨a1, _, a3, _, _, a6, _, a8, _, _, a11⟩ := f1
  obtain ⟨b1, _, b3, _, _, b6, _, b8, _, _, b11⟩ := f2
  have hct : (l_count P1 l1).collect = (l_count P2 l2).collect ∧
      (l_count P1 l1).total = (l_count P2 l2).total := by
    unfold l_count
    rw [← hrel.start_eq, ← hc.total_eq]
    by_cases hx : l1.total + 1 > P1.STAT_START_POINT
    · simp [hx]
    · simp [hx, hc.collect_eq]
  exact
    { S_eq := by rw [a8, b8]; exact hc.S_eq
      lir := by rw [a3, b3]; exact hc.lir
      idx := hc.idx
      last_eq := by rw [a1, b1]; exact hc.last_eq
      collect_eq := hct.1
      total_eq := hct.2
      flt_le := by rw [a11, b11]; exact hc.flt_le
      room := by rw [a6, b6]; exact hc.room }

/-- One iteration of the loop, for a block number in range, keeps the coupling. -/
theorem coup_iter {P1 P2 : Params} (hP1 : PWF P1) (hP2 : PWF P2) (hrel : PRel P1 P2)
    {l1 l2 : LState} {V1 V2 : List Nat} (h1 : LInv P1 l1) (h2 : LInv P2 l2)
    (hv1 : VInv l1 V1) (hv2 : VInv l2 V2) (hc : Coup P1 P2 l1 V1 l2 V2) (b : Nat)
    (hb : b ≤ P1.vm_size) :
    ∃ l1' V1' l2' V2', l_iter P1 l1 b = some l1' ∧ l_iter P2 l2 b = some l2' ∧
      LInv P1 l1' ∧ LInv P2 l2' ∧ VInv l1' V1' ∧ VInv l2' V2' ∧
      Coup P1 P2 l1' V1' l2' V2' := by
  have g1 := LInv_count P1 l1 h1
  have g2 := LInv_count P2 l2 h2
  have w1 := VInv_count P1 l1 V1 hv1
  have w2 := VInv_count P2 l2 V2 hv2
  have hc2 := Coup_count hrel hc
  by_cases hd : some b = (l_count P1 l1).last
  · have hd2 : some b = (l_count P2 l2).last := by rw [← hc2.last_eq]; exact hd
    exact ⟨_, V1, _, V2, by rw [l_iter, if_pos hd], by rw [l_iter, if_pos hd2], g1, g2, w1, w2,
      hc2⟩
  · have hd2 : ¬ some b = (l_count P2 l2).last := by rw [← hc2.last_eq]; exact hd
    obtain ⟨l1', V1', l2', V2', a1, a2, rest⟩ :=
      coup_access hP1 hP2 hrel g1 g2 w1 w2 hc2 b hb (fun e => hd e.symm)
    exact ⟨l1', V1', l2', V2', by rw [l_iter, if_neg hd, a1], by rw [l_iter, if_neg hd2, a2],
      rest⟩

theorem coup_run {P1 P2 : Params} (hP1 : PWF P1) (hP2 : PWF P2) (hrel : PRel P1 P2)
    (t : List Nat) :
    ∀ (l1 l2 : LState) (V1 V2 : List Nat), LInv P1 l1 → LInv P2 l2 → VInv l1 V1 →
      VInv l2 V2 → Coup P1 P2 l1 V1 l2 V2 → (∀ x ∈ t, x ≤ P1.vm_size) →
      ∃ l1' V1' l2' V2', l_run P1 l1 t = some l1' ∧ l_run P2 l2 t = some l2' ∧
        LInv P1 l1' ∧ LInv P2 l2' ∧ VInv l1' V1' ∧ VInv l2' V2' ∧
        Coup P1 P2 l1' V1' l2' V2' := by
  induction t with
  | nil =>
    intro l1 l2 V1 V2 h1 h2 hv1 hv2 hc _
    exact ⟨l1, V1, l2, V2, rfl, rfl, h1, h2, hv1, hv2, hc⟩
  | cons r rest ih =>
    intro l1 l2 V1 V2 h1 h2 hv1 hv2 hc ht
    obtain ⟨m1, W1, m2, W2, a1, a2, g1, g2, w1, w2, hc2⟩ :=
      coup_iter hP1 hP2 hrel h1 h2 hv1 hv2 hc r (ht r (List.mem_cons_self _ _))
    obtain ⟨n1, X1, n2, X2, b1, b2, rest2⟩ :=
      ih m1 m2 W1 W2 g1 g2 w1 w2 hc2 (fun x hx => ht x (List.mem_cons_of_mem _ hx))
    exact ⟨n1, X1, n2, X2, by simp only [l_run, a1, Option.some_bind, b1],
      by simp only [l_run, a2, Option.some_bind, b2], rest2⟩

theorem VInv_init (P : Params) : VInv (l_init P) [] := by
  constructor
  · exact List.nodup_nil
  · intro y; simp [l_init]
  · exact ⟨[], rfl⟩
  · intro _; rfl

theorem Coup_init {P1 P2 : Params} (hrel : PRel P1 P2) :
    Coup P1 P2 (l_init P1) [] (l_init P2) [] := by
  refine
    { S_eq := rfl
      lir := ?_
      idx := ?_
      last_eq := rfl
      collect_eq := ?_
      total_eq := rfl
      flt_le := Nat.le_refl _
      room := ?_ }
  · intro y hy; simp [l_init] at hy
  · intro y hy; cases hy
  · simp [l_init, hrel.start_eq]
  · simp only [l_init]
    have := hrel.lir_le
    omega

theorem PRel_main (vm c1 c2 maxS1 maxS2 start : Nat) (h12 : c1 ≤ c2)
    (hv1 : vm + 1 ≤ maxS1) (hv2 : vm + 1 ≤ maxS2) :
    PRel (mainParams vm c1 maxS1 start) (mainParams vm c2 maxS2 start) := by
  refine
    { vm_eq := rfl
      start_eq := rfl
      hir_le := ?_
      lir_le := ?_
      big1 := hv1
      big2 := hv2 }
  · show HIR_limit_of c1 ≤ HIR_limit_of c2
    unfold HIR_limit_of HIR_RATE LOWEST_HG_NUM
    split_ifs <;> omega
  · show c1 - HIR_limit_of c1 ≤ c2 - HIR_limit_of c2
    unfold HIR_limit_of HIR_RATE LOWEST_HG_NUM
    split_ifs <;> omega

/-- C10, as stated, fails when `prune_LIRS_stack` is at work: with `MAX_S_LEN = 13`, table
size 16 and `STAT_START_POINT = 0`, the trace below has 18 misses in a cache of 10 frames
and 19 misses in a cache of 11 frames. -/
theorem C10_counterexample :
    ∃ s1 s2,
      runState (mainParams 15 10 13 0)
        [11, 8, 15, 0, 10, 14, 7, 5, 8, 12, 4, 13, 3, 6, 2, 13, 4, 3, 11, 3, 3, 4] = some s1 ∧
      runState (mainParams 15 11 13 0)
        [11, 8, 15, 0, 10, 14, 7, 5, 8, 12, 4, 13, 3, 6, 2, 13, 4, 3, 11, 3, 3, 4] = some s2 ∧
      s1.num_pg_flt = 18 ∧ s2.num_pg_flt = 19 ∧ ¬ s2.num_pg_flt ≤ s1.num_pg_flt := by
  obtain ⟨s1, h1, f1⟩ := (exists_of_check (by decide) :
    ∃ s, runState (mainParams 15 10 13 0)
        [11, 8, 15, 0, 10, 14, 7, 5, 8, 12, 4, 13, 3, 6, 2, 13, 4, 3, 11, 3, 3, 4] = some s ∧
      s.num_pg_flt = 18)
  obtain ⟨s2, h2, f2⟩ := (exists_of_check (by decide) :
    ∃ s, runState (mainParams 15 11 13 0)
        [11, 8, 15, 0, 10, 14, 7, 5, 8, 12, 4, 13, 3, 6, 2, 13, 4, 3, 11, 3, 3, 4] = some s ∧
      s.num_pg_flt = 19)
  exact ⟨s1, s2, h1, h2, f1, f2, by omega⟩

/-- The same failure with a bound proportional to the cache size, `MAX_S_LEN = 2 * c`:
34 misses in a cache of 11 frames (`MAX_S_LEN = 22`) and 35 misses in a cache of 13 frames
(`MAX_S_LEN = 26`). -/
theorem monotone_capacity_fails_proportional_bound :
    ∃ s1 s2,
      runState (mainParams 32 11 22 0)
        [24, 24, 30, 7, 30, 7, 24, 7, 7, 32, 13, 32, 5, 8, 5, 8, 5, 5, 12, 5, 8, 17,
         17, 28, 2, 5, 5, 5, 8, 12, 8, 26, 21, 23, 7, 19, 6, 7, 29, 14, 26, 19, 30,
         15, 18, 26, 1, 15, 32, 26, 11, 4, 13, 13, 31, 3, 16, 12, 26, 21, 32, 25, 11,
         16, 16, 26, 11, 16, 17] = some s1 ∧
      runState (mainParams 32 13 26 0)
        [24, 24, 30, 7, 30, 7, 24, 7, 7, 32, 13, 32, 5, 8, 5, 8, 5, 5, 12, 5, 8, 17,
         17, 28, 2, 5, 5, 5, 8, 12, 8, 26, 21, 23, 7, 19, 6, 7, 29, 14, 26, 19, 30,
         15, 18, 26, 1, 15, 32, 26, 11, 4, 13, 13, 31, 3, 16, 12, 26, 21, 32, 25, 11,
         16, 16, 26, 11, 16, 17] = some s2 ∧
      s1.num_pg_flt = 34 ∧ s2.num_pg_flt = 35 := by
  obtain ⟨s1, h1, f1⟩ := (exists_of_check (by set_option maxRecDepth 100000 in decide) :
    ∃ s, runState (mainParams 32 11 22 0)
        [24, 24, 30, 7, 30, 7, 24, 7, 7, 32, 13, 32, 5, 8, 5, 8, 5, 5, 12, 5, 8, 17,
         17, 28, 2, 5, 5, 5, 8, 12, 8, 26, 21, 23, 7, 19, 6, 7, 29, 14, 26, 19, 30,
         15, 18, 26, 1, 15, 32, 26, 11, 4, 13, 13, 31, 3, 16, 12, 26, 21, 32, 25, 11,
         16, 16, 26, 11, 16, 17] = some s ∧
      s.num_pg_flt = 34)
  obtain ⟨s2, h2, f2⟩ := (exists_of_check (by set_option maxRecDepth 100000 in decide) :
    ∃ s, runState (mainParams 32 13 26 0)
        [24, 24, 30, 7, 30, 7, 24, 7, 7, 32, 13, 32, 5, 8, 5, 8, 5, 5, 12, 5, 8, 17,
         17, 28, 2, 5, 5, 5, 8, 12, 8, 26, 21, 23, 7, 19, 6, 7, 29, 14, 26, 19, 30,
         15, 18, 26, 1, 15, 32, 26, 11, 4, 13, 13, 31, 3, 16, 12, 26, 21, 32, 25, 11,
         16, 16, 26, 11, 16, 17] = some s ∧
      s.num_pg_flt = 35)
  exact ⟨s1, s2, h1, h2, f1, f2⟩

/-- C10 (amended). Monotone capacity without pruning: for every trace of block numbers in
range and cache sizes `10 ≤ c1 ≤ c2` (each with its own `HIR_block_portion_limit`, the same
`STAT_START_POINT`), when `MAX_S_LEN` is at least the cache size and larger than the
largest block number, so that `prune_LIRS_stack` never takes an entry out of stack S, both
runs reach the end of the trace, every block resident at the end of the run with `c1`
frames is resident at the end of the run with `c2` frames, and the miss count `num_pg_flt`
of the run with `c2` frames is at most that of the run with `c1` frames. -/
theorem C10_monotone_capacity_unpruned (vm c1 c2 maxS1 maxS2 start : Nat)
    (trace : List Nat) (h10 : 10 ≤ c1) (h12 : c1 ≤ c2) (hm1 : c1 ≤ maxS1) (hm2 : c2 ≤ maxS2)
    (hv1 : vm + 1 ≤ maxS1) (hv2 : vm + 1 ≤ maxS2) (ht : ∀ x ∈ trace, x ≤ vm) :
    ∃ s1 s2, runState (mainParams vm c1 maxS1 start) trace = some s1 ∧
      runState (mainParams vm c2 maxS2 start) trace = some s2 ∧
      s2.num_pg_flt ≤ s1.num_pg_flt ∧
      (∀ x, (s1.page_tbl x).isResident = true → (s2.page_tbl x).isResident = true) := by
  have hP1 := PWF_main vm c1 maxS1 start h10 hm1
  have hP2 := PWF_main vm c2 maxS2 start (by omega) hm2
  have hrel := PRel_main vm c1 c2 maxS1 maxS2 start h12 hv1 hv2
  obtain ⟨l1, V1, l2, V2, a1, a2, g1, g2, w1, w2, hc⟩ :=
    coup_run hP1 hP2 hrel trace _ _ [] [] (LInv_init _ hP1) (LInv_init _ hP2)
      (VInv_init _) (VInv_init _) (Coup_init hrel) ht
  obtain ⟨m1, b1, _, r1⟩ := reach _ hP1 trace ht
  obtain ⟨m2, b2, _, r2⟩ := reach _ hP2 trace ht
  rw [a1] at b1
  rw [a2] at b2
  have e1 : l1 = m1 := Option.some.inj b1
  have e2 : l2 = m2 := Option.some.inj b2
  subst e1
  subst e2
  exact ⟨conc l1, conc l2, r1, r2, hc.flt_le, res_le hrel g1 g2 w1 w2 hc⟩

/-- Instance of the amended C10: the trace of the counterexample with `MAX_S_LEN = 16`. -/
theorem C10_monotone_capacity_unpruned_witness :
    10 ≤ 10 ∧ 10 ≤ 11 ∧ 10 ≤ 16 ∧ 11 ≤ 16 ∧ 15 + 1 ≤ 16 ∧ 15 + 1 ≤ 16 ∧
    (∀ x ∈ [11, 8, 15, 0, 10, 14, 7, 5, 8, 12, 4, 13, 3, 6, 2, 13, 4, 3, 11, 3, 3, 4],
      x ≤ 15) ∧
    ∃ s1 s2,
      runState (mainParams 15 10 16 0)
        [11, 8, 15, 0, 10, 14, 7, 5, 8, 12, 4, 13, 3, 6, 2, 13, 4, 3, 11, 3, 3, 4] = some s1 ∧
      runState (mainParams 15 11 16 0)
        [11, 8, 15, 0, 10, 14, 7, 5, 8, 12, 4, 13, 3, 6, 2, 13, 4, 3, 11, 3, 3, 4] = some s2 ∧
      s2.num_pg_flt ≤ s1.num_pg_flt ∧
      (∀ x, (s1.page_tbl x).isResident = true → (s2.page_tbl x).isResident = true) :=
  ⟨by decide, by decide, by decide, by decide, by decide, by decide, by decide,
    C10_monotone_capacity_unpruned 15 10 11 16 16 0
      [11, 8, 15, 0, 10, 14, 7, 5, 8, 12, 4, 13, 3, 6, 2, 13, 4, 3, 11, 3, 3, 4]
      (by decide) (by decide) (by decide) (by decide) (by decide) (by decide) (by decide)⟩

end LIRS

/-! ## The HIR share in `double` arithmetic -/

namespace LIRS

theorem drop53_le (fuel : Nat) : ∀ n k, n < 2 ^ (53 + k) → drop53 fuel n ≤ k := by
  induction fuel with
  | zero => intro n k _; exact Nat.zero_le _
  | succ f ih =>
    intro n k h
    unfold drop53
    by_cases hn : n < 2 ^ 53
    · rw [if_pos hn]; exact Nat.zero_le _
    · rw [if_neg hn]
      cases k with
      | zero => exact absurd h hn
      | succ j =>
        have e : 2 ^ (53 + (j + 1)) = 2 * 2 ^ (53 + j) := by
          rw [← Nat.add_assoc, Nat.pow_succ, Nat.mul_comm]
        rw [e] at h
        have h2 : n / 2 < 2 ^ (53 + j) := by omega
        have := ih (n / 2) j h2
        omega

/-- A number that fits in 53 binary digits is a `double`. -/
theorem round53_id (n : Nat) (h : n < 2 ^ 53) : round53 n = n := by
  have e : drop53 128 n = 0 := by
    show (if n < 2 ^ 53 then 0 else drop53 127 (n / 2) + 1) = 0
    rw [if_pos h]
  unfold round53
  simp only [e, Nat.pow_zero, Nat.div_one, Nat.mod_one, Nat.mul_one]
  simp

/-- Rounding does not go below a number of the same grid that is below `n`. -/
theorem round53_lower (n m : Nat) (h : m * 2 ^ drop53 128 n ≤ n) :
    m * 2 ^ drop53 128 n ≤ round53 n := by
  unfold round53
  dsimp only
  generalize drop53 128 n = sh at h ⊢
  have hp : 0 < 2 ^ sh := Nat.two_pow_pos sh
  have hq : m ≤ n / 2 ^ sh := (Nat.le_div_iff_mul_le hp).2 h
  have h1 : m * 2 ^ sh ≤ n / 2 ^ sh * 2 ^ sh := Nat.mul_le_mul_right _ hq
  split_ifs
  · rw [Nat.add_mul]; omega
  · exact h1

/-- Rounding goes up by at most half a unit of the last digit kept. -/
theorem round53_upper (n : Nat) : 2 * round53 n ≤ 2 * n + 2 ^ drop53 128 n := by
  unfold round53
  dsimp only
  generalize drop53 128 n = sh
  have hdm := Nat.div_add_mod n (2 ^ sh)
  rw [Nat.mul_comm] at hdm
  split_ifs with hc
  · rw [Nat.add_mul, Nat.one_mul]
    rcases hc with hc | hc
    · omega
    · omega
  · omega

theorem two_pow_53 : (2 : Nat) ^ 53 = 9007199254740992 := by norm_num

theorem two_pow_59 : (2 : Nat) ^ 59 = 576460752303423488 := by norm_num

/-- Below `2 ^ 53` the rounded product, truncated, is the integer quotient. -/
theorem HIR_product_floor (c : Nat) (hc : c < 2 ^ 53) :
    round53 (HIR_frac_double * c) / 2 ^ 59 = c / 100 := by
  rw [two_pow_53] at hc
  have hsh : drop53 128 (HIR_frac_double * c) ≤ 53 := by
    apply drop53_le
    have e : (2 : Nat) ^ (53 + 53) = 81129638414606681695789005144064 := by norm_num
    rw [e]
    unfold HIR_frac_double
    omega
  have hup := round53_upper (HIR_frac_double * c)
  have hpow : 2 ^ drop53 128 (HIR_frac_double * c) ≤ 2 ^ 53 :=
    Nat.pow_le_pow_right (by decide) hsh
  have hsplit : (2 : Nat) ^ 59 =
      2 ^ (59 - drop53 128 (HIR_frac_double * c)) * 2 ^ drop53 128 (HIR_frac_double * c) := by
    rw [← Nat.pow_add]
    congr 1
    omega
  have hlow := round53_lower (HIR_frac_double * c)
    (c / 100 * 2 ^ (59 - drop53 128 (HIR_frac_double * c)))
  rw [Nat.mul_assoc, ← hsplit] at hlow
  rw [two_pow_53] at hpow
  rw [two_pow_59] at hlow ⊢
  have hlow2 := hlow (by unfold HIR_frac_double; omega)
  unfold HIR_frac_double at hup hpow hlow2 ⊢
  omega

/-- For cache sizes below `2 ^ 53` the limit computed in `double` arithmetic is the limit
computed with the exact quotient. -/
theorem HIR_limit_double_eq (c : Nat) (hc : c < 2 ^ 53) :
    HIR_limit_double c = HIR_limit_of c := by
  unfold HIR_limit_double HIR_limit_of
  rw [round53_id c hc, HIR_product_floor c hc]
  unfold HIR_RATE
  rw [Nat.one_mul]

/-- From `2 ^ 53` on the conversion of `mem_size` to `double` rounds, and the two limits
can differ: for `mem_size = 2 ^ 53 + 7` the `double` computation gives one more. -/
theorem HIR_limit_double_large :
    HIR_limit_double 9007199254740999 = 90071992547410 ∧
    HIR_limit_of 9007199254740999 = 90071992547409 ∧
    ¬ (9007199254740999 < 2 ^ 53) := by
  decide

/-- The `double` of `HIR_RATE/100.0`: `HIR_frac_double / 2 ^ 59` has a significand of 53
digits and is within half a unit of its last digit of 1/100. -/
theorem HIR_frac_double_nearest :
    2 ^ 52 ≤ HIR_frac_double ∧ HIR_frac_double < 2 ^ 53 ∧
    2 * (100 * HIR_frac_double - 2 ^ 59) ≤ 100 ∧ 2 ^ 59 ≤ 100 * HIR_frac_double := by
  decide

end LIRS

/-! ## Capacity of the HIR share, bookkeeping of the stack length, completion of runs -/

namespace LIRS

/-- C11, as stated, fails: for `c = 250` the limit that `main` computes is 2, in `double`
arithmetic and with the exact quotient alike, where the formula with the ceiling gives
3. -/
theorem C11_counterexample :
    HIR_limit_double 250 = 2 ∧ (mainParams 0 250 0 0).HIR_block_portion_limit = 2 ∧
      HIR_limit_of 250 = 2 ∧ HIR_cap_spec 250 = 3 ∧
      HIR_limit_double 250 ≠ HIR_cap_spec 250 ∧ HIR_limit_of 250 ≠ HIR_cap_spec 250 := by
  decide

/-- C11 (amended). For every cache size `c < 2 ^ 53` (the sizes a `double` holds exactly)
the limit that lines 140-142 compute in `double` arithmetic is
`max(floor(HIR_RATE * c / 100), LOWEST_HG_NUM)`: the cast to `unsigned long` truncates.
It is the `HIR_block_portion_limit` of the parameters `main` hands to `LIRS_Repl`, and it
is the value of the formula with the ceiling exactly when `c ≤ 200` or `c` is a multiple
of 100. -/
theorem C11_HIR_limit_floor (vm c maxS start : Nat) (hc : c < 2 ^ 53) :
    HIR_limit_double c = max (HIR_RATE * c / 100) LOWEST_HG_NUM ∧
      HIR_limit_double c = max (c / 100) 2 ∧
      (mainParams vm c maxS start).HIR_block_portion_limit = HIR_limit_double c ∧
      (HIR_limit_double c = HIR_cap_spec c ↔ (c ≤ 200 ∨ c % 100 = 0)) := by
  have e : (mainParams vm c maxS start).HIR_block_portion_limit = HIR_limit_of c := rfl
  rw [e, HIR_limit_double_eq c hc]
  unfold HIR_limit_of HIR_cap_spec HIR_RATE LOWEST_HG_NUM
  refine ⟨?_, ?_, rfl, ?_⟩
  · split_ifs <;> omega
  · split_ifs <;> omega
  · split_ifs <;> constructor <;> intro h <;> omega

/-- Instance of C11 (amended): `c = 1234`, limit 12. -/
theorem C11_HIR_limit_floor_witness :
    1234 < 2 ^ 53 ∧
    HIR_limit_double 1234 = max (HIR_RATE * 1234 / 100) LOWEST_HG_NUM ∧
      HIR_limit_double 1234 = max (1234 / 100) 2 ∧
      (mainParams 0 1234 0 0).HIR_block_portion_limit = HIR_limit_double 1234 ∧
      (HIR_limit_double 1234 = HIR_cap_spec 1234 ↔ (1234 ≤ 200 ∨ 1234 % 100 = 0)) :=
  ⟨by decide, C11_HIR_limit_floor 0 1234 0 0 (by decide)⟩

theorem runState_eq_some {P : Params} {t : List Nat} {s : State} :
    runState P t = some s ↔ LIRS_Repl P t = Step.next s := by
  unfold runState
  cases h : LIRS_Repl P t with
  | next s1 => simp
  | returnFALSE s1 => simp
  | abort => simp

theorem countP_range_of_mem_iff (top : List Nat) (n : Nat) (p : Nat → Bool)
    (hnd : top.Nodup) (hr : ∀ x ∈ top, x < n) (hp : ∀ x, p x = true ↔ x ∈ top) :
    (List.range n).countP p = top.length := by
  rw [List.countP_eq_length_filter]
  apply List.Perm.length_eq
  rw [List.perm_ext_iff_of_nodup ((List.nodup_range n).filter p) hnd]
  intro a
  rw [List.mem_filter, List.mem_range, hp a]
  exact ⟨fun h => h.2, fun h => ⟨hr a h, h⟩⟩

/-- C20. Stack-length bookkeeping: after every reference `cur_lir_S_len` is the number of
blocks whose recency is `S_STACK_IN`; these blocks are the entries of the list of S from
`LRU_list_head` down to `LIR_LRU_block_ptr` inclusive, each once, and every entry linked
below the cursor has recency `S_STACK_OUT`. -/
theorem C20_stack_length (vm c maxS start : Nat) (trace : List Nat) (hc : 10 ≤ c)
    (hm : c ≤ maxS) (ht : ∀ x ∈ trace, x ≤ vm) :
    ∃ s, runState (mainParams vm c maxS start) trace = some s ∧
      s.cur_lir_S_len =
        (List.range (vm + 1)).countP (fun x => (s.page_tbl x).recency) ∧
      (∀ x, (s.page_tbl x).recency = S_STACK_IN → x ≤ vm) ∧
      ∃ top below, S_list (mainParams vm c maxS start) s = top ++ below ∧
        s.LIR_LRU_block_ptr = top.getLast? ∧ top.Nodup ∧
        (∀ x, (s.page_tbl x).recency = S_STACK_IN ↔ x ∈ top) ∧
        s.cur_lir_S_len = top.length ∧
        (∀ x ∈ below, (s.page_tbl x).recency = S_STACK_OUT) := by
  obtain ⟨l, _, hi, hr⟩ := reach (mainParams vm c maxS start) (PWF_main vm c maxS start hc hm) trace ht
  obtain ⟨top, below, hS, hcur, hrec, hlen, _, _⟩ := hi.core.split
  have hnd := hi.core.S_nodup
  rw [hS] at hnd
  have hndt : top.Nodup := (List.nodup_append.1 hnd).1
  have hrange : ∀ x ∈ top, x < vm + 1 := fun x hx =>
    Nat.lt_succ_of_le (hi.core.S_range x (by rw [hS]; exact List.mem_append_left _ hx))
  refine ⟨conc l, hr, ?_, ?_, top, below, ?_, hcur, hndt, hrec, hlen, ?_⟩
  · show l.slen = (List.range (vm + 1)).countP (fun x => l.recF x)
    rw [hlen, countP_range_of_mem_iff top (vm + 1) (fun x => l.recF x) hndt hrange hrec]
  · intro x hx
    exact Nat.le_of_lt_succ (hrange x ((hrec x).1 hx))
  · rw [S_list_conc _ l hi]; exact hS
  · intro x hx
    show l.recF x = false
    by_contra hh
    have hxt := (hrec x).1 (by simpa using hh)
    exact (List.nodup_append.1 hnd).2.2 hxt hx

/-- Instance of C20. -/
theorem C20_stack_length_witness :
    10 ≤ 10 ∧ 10 ≤ 20 ∧ (∀ x ∈ [0, 1, 2, 3, 4, 5, 6, 7, 8, 9, 10, 8, 0], x ≤ 12) ∧
    ∃ s, runState (mainParams 12 10 20 0) [0, 1, 2, 3, 4, 5, 6, 7, 8, 9, 10, 8, 0] = some s ∧
      s.cur_lir_S_len =
        (List.range (12 + 1)).countP (fun x => (s.page_tbl x).recency) ∧
      (∀ x, (s.page_tbl x).recency = S_STACK_IN → x ≤ 12) ∧
      ∃ top below, S_list (mainParams 12 10 20 0) s = top ++ below ∧
        s.LIR_LRU_block_ptr = top.getLast? ∧ top.Nodup ∧
        (∀ x, (s.page_tbl x).recency = S_STACK_IN ↔ x ∈ top) ∧
        s.cur_lir_S_len = top.length ∧
        (∀ x ∈ below, (s.page_tbl x).recency = S_STACK_OUT) :=
  ⟨by decide, by decide, by decide,
    C20_stack_length 12 10 20 0 [0, 1, 2, 3, 4, 5, 6, 7, 8, 9, 10, 8, 0]
      (by decide) (by decide) (by decide)⟩

end LIRS

/-! ## The steps of one reference -/

namespace LIRS

theorem LIRS_access_eq (P : Params) (s : State) (b : Nat) :
    LIRS_access P s b = (access_core P s b).bind fun s4 => prune_LIRS_stack P s4 := by
  unfold LIRS_access access_core
  dsimp only
  rw [Option.bind_assoc]

theorem LIRS_Repl_iter_eq (P : Params) (s : State) (b : Nat) :
    LIRS_Repl_iter P s b =
      if b > P.vm_size then Step.returnFALSE (count_refs P s)
      else if some b = (count_refs P s).last_ref_pg then Step.next (count_refs P s)
      else match LIRS_access P (count_refs P s) b with
        | some s3 => Step.next s3
        | none => Step.abort := by
  unfold LIRS_Repl_iter count_refs
  rfl

theorem count_refs_conc (P : Params) (l : LState) :
    count_refs P (conc l) = conc (l_count P l) := by
  unfold count_refs l_count
  by_cases hc : l.total + 1 > P.STAT_START_POINT
  · have hc2 : ({ conc l with total_pg_refs := (conc l).total_pg_refs + 1 } :
        State).total_pg_refs > P.STAT_START_POINT := hc
    simp only [hc, hc2, if_true]
    rfl
  · have hc2 : ¬ ({ conc l with total_pg_refs := (conc l).total_pg_refs + 1 } :
        State).total_pg_refs > P.STAT_START_POINT := hc
    simp only [hc, hc2, if_false]
    rfl

/-- Lines 210-271 on a state that satisfies the invariant: both halves succeed, and the
state before `prune_LIRS_stack` satisfies the invariant but for the bound on the stack
length. -/
theorem access_core_conc (P : Params) (hP : PWF P) (l : LState) (b : Nat) (h : LInv P l)
    (hb : b ≤ P.vm_size) (hlast : l.last ≠ some b) :
    ∃ l1 l4,
      miss_or_hit P { conc l with last_ref_pg := some b,
                                  no_dup_refs := (conc l).no_dup_refs + 1 } b =
        some (conc l1) ∧
      MidInv P l1 b ∧ l1.slen = l.slen ∧ post P (conc l1) b = some (conc l4) ∧
      LInvCore P l4 ∧ l4.slen ≤ l.slen + 1 ∧ PostFrame l1 l4 b ∧
      access_core P (conc l) b = some (conc l4) ∧ l_access_core P l b = some l4 := by
  obtain ⟨l1, h1, hm, hs1⟩ := mid_step P hP l b h.core hb hlast
  obtain ⟨l4, h4, hi4, hs4, hpf⟩ := post_step P hP l1 b hm
  have hq : ({ l with last := some b, nodup := l.nodup + 1 } : LState).Q.Nodup := h.core.Q_nodup
  have e0 : ({ conc l with last_ref_pg := some b, no_dup_refs := (conc l).no_dup_refs + 1 } :
      State) = conc { l with last := some b, nodup := l.nodup + 1 } := rfl
  have c1 : miss_or_hit P { conc l with last_ref_pg := some b,
                                        no_dup_refs := (conc l).no_dup_refs + 1 } b =
      some (conc l1) := by
    rw [e0, conc_miss_or_hit P _ b hq (fun hr hh => (h.core.Q_iff b).2 ⟨hr, hh⟩), h1]
    rfl
  have c4 : post P (conc l1) b = some (conc l4) := by
    rw [conc_post P l1 b hm, h4]
    rfl
  refine ⟨l1, l4, c1, hm, hs1, c4, hi4, by omega, hpf, ?_, ?_⟩
  · unfold access_core
    rw [c1]
    exact c4
  · simp only [l_access_core, h1, Option.some_bind, h4]

/-- What `prune_LIRS_stack` does when the stack is too long: the HIR entry `t` closest
above the cursor `d` loses its recency flag and is linked again right below `d`. -/
theorem prune_fire (P : Params) (hP : PWF P) (l : LState) (h : LInvCore P l)
    (hle : ¬ l.slen ≤ P.MAX_S_LEN) :
    ∃ X t lirs d below, l.S = X ++ t :: lirs ++ d :: below ∧ l.cur = some d ∧
      l.hirF t = true ∧ l.recF t = true ∧ (∀ x ∈ lirs, l.hirF x = false) ∧ t ≠ d ∧
      (∀ x ∈ X ++ t :: lirs ++ [d], l.recF x = true) ∧
      l_prune_scan l (walkFuel P) l.cur = some t ∧
      l_prune_LIRS_stack P l =
        some { l with recF := Function.update l.recF t S_STACK_OUT,
                      S := X ++ lirs ++ d :: t :: below,
                      tailp := if nextOf l.S t = none then prevOf l.S t else l.tailp,
                      slen := l.slen - 1 } := by
  obtain ⟨top, below, hS, hcur, hrec, hlen, hcl, hnil⟩ := h.split
  have hnd := h.S_nodup
  have hndt : top.Nodup := by
    rw [hS] at hnd; exact (List.nodup_append.1 hnd).1
  have hex : ∃ x ∈ top, l.hirF x = true := by
    by_contra hc
    push_neg at hc
    have h1 := length_le_countP_range top hndt (P.vm_size + 1)
      (fun x hx => Nat.lt_succ_of_le (h.S_range x (by rw [hS]; exact List.mem_append_left _ hx)))
      (fun x => !l.hirF x) (fun x hx => by simpa using hc x hx)
    have h2 := h.nlir_eq
    have h3 := h.frame
    have h4 := hP.max_s
    omega
  obtain ⟨X, t, lirs, hdec, ht, hlirs⟩ := exists_last_split (p := fun x => l.hirF x = true) hex
  have hlirs' : ∀ x ∈ lirs, l.hirF x = false := fun x hx => by simpa using hlirs x hx
  obtain ⟨d, hd⟩ : ∃ d, top.getLast? = some d := by
    cases hg : top.getLast? with
    | none =>
      have := List.getLast?_eq_none_iff.1 hg
      rw [this] at hdec
      have := congrArg List.length hdec
      simp at this
      omega
    | some d => exact ⟨d, rfl⟩
  have hc : l.cur = some d := by rw [hcur, hd]
  have hdl : l.hirF d = false := hcl d hc
  have hdt : d ≠ t := by
    intro e; rw [e, ht] at hdl; cases hdl
  obtain ⟨lirs0, hl0⟩ : ∃ ys, lirs = ys ++ [d] := by
    have h1 : (t :: lirs).getLast? = some d := by
      rw [← List.getLast?_append_cons X t lirs, ← hdec]; exact hd
    cases hl : lirs with
    | nil => rw [hl] at h1; simp at h1; exact absurd h1.symm hdt
    | cons a r =>
      rw [hl, List.getLast?_cons_cons] at h1
      exact List.getLast?_eq_some_iff.1 h1
  have hS2 : l.S = X ++ t :: lirs ++ below := by rw [hS, hdec]
  have hscan : l_prune_scan l (walkFuel P) l.cur = some t := by
    rw [hc]
    apply l_prune_scan_closed l (walkFuel P) X t lirs below d hS2 hnd _ ht hlirs'
    · have h1 := length_le_of_nodup_range hnd h.S_range
      rw [hS2] at h1
      simp only [List.length_append, List.length_cons] at h1
      unfold walkFuel
      omega
    · rw [← List.getLast?_append_cons X t lirs, ← hdec]; exact hd.symm
  have htS : t ∈ l.S := by rw [hS2]; simp
  have hdS : d ∈ l.S := by rw [hS2, hl0]; simp
  have hSne : l.S ≠ [t] := by
    intro e
    rw [e] at hdS
    simp at hdS
    exact hdt hdS
  have htX : t ∉ X := by
    intro hm
    rw [hS2] at hnd
    have h1 := List.nodup_append.1 hnd
    have h2 := List.nodup_append.1 h1.1
    exact h2.2.2 hm (List.mem_cons_self _ _)
  have herase : l.S.erase t = X ++ lirs0 ++ d :: below := by
    rw [hS2, List.append_assoc, List.cons_append, erase_mid htX, hl0]; simp
  have hndE : (l.S.erase t).Nodup := hnd.erase t
  have hdY : d ∉ X ++ lirs0 := by
    intro hm
    rw [herase] at hndE
    have h1 := List.nodup_append.1 hndE
    exact h1.2.2 hm (List.mem_cons_self _ _)
  have hins : insertAfter d t (l.S.erase t) = X ++ lirs0 ++ d :: t :: below := by
    rw [herase, insertAfter_append hdY]
  have hpos : 0 < l.slen := by omega
  refine ⟨X, t, lirs0, d, below, by rw [hS2, hl0]; simp, hc, ht,
    (hrec t).2 (by rw [hdec]; simp), fun x hx => hlirs' x (by rw [hl0]; simp [hx]),
    Ne.symm hdt, ?_, hscan, ?_⟩
  · intro x hx
    rw [hrec x, hdec, hl0]
    simpa using hx
  · rw [l_prune_LIRS_stack, if_neg hle, hscan, deref_some]
    simp only []
    have hrm := l_remove_noncursor P
      ({ l with recF := Function.update l.recF t S_STACK_OUT }) t htS hSne (by
        show some t ≠ l.cur
        rw [hc]; intro e; exact hdt (Option.some.inj e).symm)
    rw [hrm]
    simp only [Option.bind_eq_bind, Option.some_bind, l_unlink_LIRS, hc, l_insert_LRU_list,
      deref_some]
    rw [dec64_pos hpos, hins]

end LIRS

/-! ## Bounded stack, completion and the shape of the list of S -/

namespace LIRS

theorem S_list_conc_core (P : Params) (l : LState) (hnd : l.S.Nodup)
    (hr : ∀ x ∈ l.S, x ≤ P.vm_size) : S_list P (conc l) = l.S := by
  unfold S_list
  apply walk_nextOf l.S _ _ hnd
  · exact length_le_of_nodup_range hnd hr
  · intro x _; rfl

theorem S_wellformed_conc (P : Params) (l : LState) (hnd : l.S.Nodup)
    (hr : ∀ x ∈ l.S, x ≤ P.vm_size) : S_wellformed P (conc l) := by
  unfold S_wellformed
  rw [S_list_conc_core P l hnd hr]
  refine ⟨hnd, rfl, ?_, ?_, ?_, ?_, ?_⟩
  · intro x hx
    exact prevOf_head hnd hx
  · intro x hx
    exact nextOf_getLast hnd hx
  · intro x y
    exact next_iff_prev hnd
  · intro x y hxy
    exact nextOf_mem hxy
  · intro x hx
    exact ⟨nextOf_not_mem hx, prevOf_not_mem hx⟩

/-- One reference in range that is not a repetition, step by step, from a state that
satisfies the invariant. -/
theorem iter_decompose (P : Params) (hP : PWF P) (l : LState) (b : Nat) (h : LInv P l)
    (hb : b ≤ P.vm_size) (hlast : l.last ≠ some b) :
    ∃ l1 l4 l5,
      miss_or_hit P { count_refs P (conc l) with
                        last_ref_pg := some b,
                        no_dup_refs := (count_refs P (conc l)).no_dup_refs + 1 } b =
        some (conc l1) ∧
      MidInv P l1 b ∧ post P (conc l1) b = some (conc l4) ∧ LInvCore P l4 ∧
      l4.slen ≤ P.MAX_S_LEN + 1 ∧ PostFrame l1 l4 b ∧
      access_core P (count_refs P (conc l)) b = some (conc l4) ∧
      l_prune_LIRS_stack P l4 = some l5 ∧ LInv P l5 ∧
      prune_LIRS_stack P (conc l4) = some (conc l5) ∧
      LIRS_Repl_iter P (conc l) b = Step.next (conc l5) ∧
      (l4.slen ≤ P.MAX_S_LEN → l5 = l4) := by
  have hf := l_count_fields P l
  have hi2 := LInv_count P l h
  have hlast2 : (l_count P l).last ≠ some b := by rw [hf.1]; exact hlast
  obtain ⟨l1, l4, c1, hm, hs1, c4, hi4, hs4, hpf, hac, _⟩ :=
    access_core_conc P hP (l_count P l) b hi2 hb hlast2
  have hsl : l4.slen ≤ P.MAX_S_LEN + 1 := by
    have := hi2.slen_le
    omega
  obtain ⟨l5, h5, hi5, _, _, _, _, _, _, _, _, _, _, _, _, _, _, hid⟩ :=
    prune_step P hP l4 hi4 hsl
  have c5 : prune_LIRS_stack P (conc l4) = some (conc l5) := by
    rw [conc_prune_LIRS_stack P l4 hi4, h5]
    rfl
  rw [count_refs_conc]
  refine ⟨l1, l4, l5, c1, hm, c4, hi4, hsl, hpf, hac, h5, hi5, c5, ?_, hid⟩
  have hne : ¬ some b = (conc (l_count P l)).last_ref_pg := fun e => hlast2 (Eq.symm e)
  rw [LIRS_Repl_iter_eq, if_neg (by omega), count_refs_conc, if_neg hne, LIRS_access_eq, hac]
  simp only [Option.some_bind]
  rw [c5]

end LIRS

namespace LIRS

/-- C17. Bounded stack S: in a state reached by a run (cache of `c ≥ 10` frames,
`MAX_S_LEN ≥ c`) `cur_lir_S_len ≤ MAX_S_LEN`, and so it is after one more reference that
is not a repetition. If at the call of `prune_LIRS_stack` the length is within the bound,
nothing changes. If it exceeds the bound, there is one HIR entry `t` with recency
`S_STACK_IN` above the cursor `d` with only LIR entries in between; `t` gets recency
`S_STACK_OUT`, no other flag changes, `cur_lir_S_len` goes down by one to `MAX_S_LEN`, the
cursor stays, and `t` is linked again right below the cursor. -/
theorem C17_bounded_stack (vm c maxS start : Nat) (trace : List Nat) (b : Nat) (s : State)
    (hc : 10 ≤ c) (hm : c ≤ maxS) (ht : ∀ x ∈ trace, x ≤ vm) (hb : b ≤ vm)
    (hs : runState (mainParams vm c maxS start) trace = some s)
    (hd : s.last_ref_pg ≠ some b) :
    s.cur_lir_S_len ≤ maxS ∧
    ∃ s4 s5, access_core (mainParams vm c maxS start)
        (count_refs (mainParams vm c maxS start) s) b = some s4 ∧
      prune_LIRS_stack (mainParams vm c maxS start) s4 = some s5 ∧
      runState (mainParams vm c maxS start) (trace ++ [b]) = some s5 ∧
      s5.cur_lir_S_len ≤ maxS ∧
      (s4.cur_lir_S_len ≤ maxS → s5 = s4) ∧
      (maxS < s4.cur_lir_S_len →
        ∃ X t lirs d below,
          S_list (mainParams vm c maxS start) s4 = X ++ t :: lirs ++ d :: below ∧
          s4.LIR_LRU_block_ptr = some d ∧
          (s4.page_tbl t).isHIR_block = true ∧ (s4.page_tbl t).recency = S_STACK_IN ∧
          (∀ x ∈ lirs, (s4.page_tbl x).isHIR_block = false) ∧
          (s4.page_tbl d).isHIR_block = false ∧
          (s5.page_tbl t).recency = S_STACK_OUT ∧
          (∀ x, x ≠ t → (s5.page_tbl x).recency = (s4.page_tbl x).recency) ∧
          (∀ x, (s5.page_tbl x).isHIR_block = (s4.page_tbl x).isHIR_block ∧
            (s5.page_tbl x).isResident = (s4.page_tbl x).isResident) ∧
          s5.cur_lir_S_len + 1 = s4.cur_lir_S_len ∧ s5.cur_lir_S_len = maxS ∧
          s5.LIR_LRU_block_ptr = some d ∧
          S_list (mainParams vm c maxS start) s5 = X ++ lirs ++ d :: t :: below) := by
  have hP := PWF_main vm c maxS start hc hm
  obtain ⟨l, hi, rfl⟩ := reach_state _ hP trace ht s hs
  obtain ⟨l1, l4, l5, _, _, _, hi4, hsl, _, hac, h5, hi5, c5, hit, hid⟩ :=
    iter_decompose _ hP l b hi hb hd
  refine ⟨hi.slen_le, conc l4, conc l5, hac, c5, runState_snoc _ trace b _ _ hs hit,
    hi5.slen_le, ?_, ?_⟩
  · intro hle
    rw [hid hle]
  · intro hgt
    have hgt2 : ¬ l4.slen ≤ (mainParams vm c maxS start).MAX_S_LEN := by
      have : maxS < l4.slen := hgt
      exact Nat.not_le.2 this
    obtain ⟨X, t, lirs, d, below, e1, e2, e3, e4, e5, e6, _, _, e9⟩ :=
      prune_fire _ hP l4 hi4 hgt2
    rw [h5] at e9
    have e10 := Option.some.inj e9
    have hS4 : S_list (mainParams vm c maxS start) (conc l4) = l4.S :=
      S_list_conc_core _ l4 hi4.S_nodup hi4.S_range
    have hS5 : S_list (mainParams vm c maxS start) (conc l5) = l5.S := S_list_conc _ l5 hi5
    have hsl2 : l4.slen ≤ maxS + 1 := hsl
    have hgt3 : maxS < l4.slen := hgt
    refine ⟨X, t, lirs, d, below, by rw [hS4, e1], e2, e3, e4, e5, ?_, ?_, ?_, ?_, ?_, ?_, ?_,
      ?_⟩
    · exact (hi4.cur_mem e2).2
    · show l5.recF t = S_STACK_OUT
      rw [e10]; simp
    · intro x hx
      show l5.recF x = l4.recF x
      rw [e10]; simp [Function.update_noteq hx]
    · intro x
      rw [e10]
      exact ⟨rfl, rfl⟩
    · show l5.slen + 1 = l4.slen
      rw [e10]
      show l4.slen - 1 + 1 = l4.slen
      omega
    · show l5.slen = maxS
      rw [e10]
      show l4.slen - 1 = maxS
      omega
    · show l5.cur = some d
      rw [e10]; exact e2
    · rw [hS5, e10]

/-- Instance of C17 with `MAX_S_LEN = c = 10`: after 0, 1, ..., 9 the stack has length 10,
and the reference to block 10 makes `prune_LIRS_stack` take block 8 out. -/
theorem C17_bounded_stack_witness :
    10 ≤ 10 ∧ 10 ≤ 10 ∧ (∀ x ∈ [0, 1, 2, 3, 4, 5, 6, 7, 8, 9], x ≤ 12) ∧ 10 ≤ 12 ∧
    ∃ s, runState (mainParams 12 10 10 0) [0, 1, 2, 3, 4, 5, 6, 7, 8, 9] = some s ∧
      s.last_ref_pg ≠ some 10 ∧
      s.cur_lir_S_len ≤ 10 ∧
      ∃ s4 s5, access_core (mainParams 12 10 10 0)
          (count_refs (mainParams 12 10 10 0) s) 10 = some s4 ∧
        prune_LIRS_stack (mainParams 12 10 10 0) s4 = some s5 ∧
        runState (mainParams 12 10 10 0) ([0, 1, 2, 3, 4, 5, 6, 7, 8, 9] ++ [10]) = some s5 ∧
        s5.cur_lir_S_len ≤ 10 ∧
        (s4.cur_lir_S_len ≤ 10 → s5 = s4) ∧
        (10 < s4.cur_lir_S_len →
          ∃ X t lirs d below,
            S_list (mainParams 12 10 10 0) s4 = X ++ t :: lirs ++ d :: below ∧
            s4.LIR_LRU_block_ptr = some d ∧
            (s4.page_tbl t).isHIR_block = true ∧ (s4.page_tbl t).recency = S_STACK_IN ∧
            (∀ x ∈ lirs, (s4.page_tbl x).isHIR_block = false) ∧
            (s4.page_tbl d).isHIR_block = false ∧
            (s5.page_tbl t).recency = S_STACK_OUT ∧
            (∀ x, x ≠ t → (s5.page_tbl x).recency = (s4.page_tbl x).recency) ∧
            (∀ x, (s5.page_tbl x).isHIR_block = (s4.page_tbl x).isHIR_block ∧
              (s5.page_tbl x).isResident = (s4.page_tbl x).isResident) ∧
            s5.cur_lir_S_len + 1 = s4.cur_lir_S_len ∧ s5.cur_lir_S_len = 10 ∧
            s5.LIR_LRU_block_ptr = some d ∧
            S_list (mainParams 12 10 10 0) s5 = X ++ lirs ++ d :: t :: below) :=
  ⟨by decide, by decide, by decide, by decide,
    (runState (mainParams 12 10 10 0) [0, 1, 2, 3, 4, 5, 6, 7, 8, 9]).getD
      (init_state (mainParams 12 10 10 0)),
    rfl, by decide,
    C17_bounded_stack 12 10 10 0 [0, 1, 2, 3, 4, 5, 6, 7, 8, 9] 10
      ((runState (mainParams 12 10 10 0) [0, 1, 2, 3, 4, 5, 6, 7, 8, 9]).getD
        (init_state (mainParams 12 10 10 0)))
      (by decide) (by decide) (by decide) (by decide) rfl (by decide)⟩

/-- The reference of the instance above does exceed the bound: before
`prune_LIRS_stack` the stack has length 11, afterwards block 8 has recency `S_STACK_OUT`
and is linked below the cursor, block 0. -/
theorem prune_fires_example :
    ∃ s, runState (mainParams 12 10 10 0) [0, 1, 2, 3, 4, 5, 6, 7, 8, 9, 10] = some s ∧
      (s.cur_lir_S_len = 10 ∧ (s.page_tbl 8).recency = S_STACK_OUT ∧
        (s.page_tbl 8).isHIR_block = true ∧ s.LIR_LRU_block_ptr = some 0 ∧
        S_list (mainParams 12 10 10 0) s = [10, 9, 7, 6, 5, 4, 3, 2, 1, 0, 8]) :=
  exists_of_check (by decide)

end LIRS

namespace LIRS

/-- C18. No run on block numbers in range stops early: for a cache of `c ≥ 10` frames
(`HIR_block_portion_limit ≥ 2`, at least two frames for LIR blocks) and `MAX_S_LEN ≥ c`,
`LIRS_Repl` reaches the end of the trace. In the state reached, Q is not empty whenever no
frame is free (`HIR_list_tail` points to a resident HIR block), and every further
reference in range is processed to completion: lines 210-271 succeed (in particular
`find_last_LIR_LRU` is not entered with a null cursor and its walk ends at an LIR entry,
which is the cursor afterwards), and when the stack is too long the scan of
`prune_LIRS_stack` finds an HIR entry and `prune_LIRS_stack` succeeds. -/
theorem C18_runs_complete (vm c maxS start : Nat) (trace : List Nat) (hc : 10 ≤ c)
    (hm : c ≤ maxS) (ht : ∀ x ∈ trace, x ≤ vm) :
    2 ≤ (mainParams vm c maxS start).HIR_block_portion_limit ∧
    (mainParams vm c maxS start).HIR_block_portion_limit + 2 ≤ c ∧
    ∃ s, LIRS_Repl (mainParams vm c maxS start) trace = Step.next s ∧
      (s.free_mem_size = 0 → ∃ v, s.HIR_list_tail = some v ∧
        (s.page_tbl v).isResident = true ∧ (s.page_tbl v).isHIR_block = true) ∧
      (∀ b, b ≤ vm → ∃ s1, LIRS_Repl_iter (mainParams vm c maxS start) s b = Step.next s1) ∧
      (∀ b, b ≤ vm → s.last_ref_pg ≠ some b →
        ∃ s4 s5, access_core (mainParams vm c maxS start)
            (count_refs (mainParams vm c maxS start) s) b = some s4 ∧
          (∃ d, s4.LIR_LRU_block_ptr = some d ∧ (s4.page_tbl d).isHIR_block = false) ∧
          (maxS < s4.cur_lir_S_len →
            ∃ t, prune_scan s4 (walkFuel (mainParams vm c maxS start))
                s4.LIR_LRU_block_ptr = some t ∧ (s4.page_tbl t).isHIR_block = true) ∧
          prune_LIRS_stack (mainParams vm c maxS start) s4 = some s5 ∧
          LIRS_Repl_iter (mainParams vm c maxS start) s b = Step.next s5) := by
  have hP := PWF_main vm c maxS start hc hm
  obtain ⟨l, _, hi, hr⟩ := reach _ hP trace ht
  refine ⟨?_, hP.lir_two, conc l, runState_eq_some.1 hr, ?_, ?_, ?_⟩
  · show 2 ≤ HIR_limit_of c
    unfold HIR_limit_of HIR_RATE LOWEST_HG_NUM
    split_ifs <;> omega
  · intro hf
    have hf2 : l.free = 0 := hf
    have hfr := hi.core.frame
    have hB := hi.core.phaseB (by omega)
    have hpos := hP.hir_pos
    cases hq : l.Q.getLast? with
    | none =>
      have := List.getLast?_eq_none_iff.1 hq
      rw [this] at hfr
      simp at hfr
      omega
    | some v =>
      have hv := (hi.core.Q_iff v).1 (List.mem_of_getLast?_eq_some hq)
      exact ⟨v, hq, hv.1, hv.2⟩
  · intro b hb
    obtain ⟨l1, _, _, h1⟩ := l_iter_step _ hP l b hi hb
    exact ⟨conc l1, h1⟩
  · intro b hb hd
    obtain ⟨l1, l4, l5, _, _, _, hi4, _, hpf, hac, _, _, c5, hit, _⟩ :=
      iter_decompose _ hP l b hi hb hd
    refine ⟨conc l4, conc l5, hac, ?_, ?_, c5, hit⟩
    · obtain ⟨top, below, hS, hcur, _, _, hcl, hnil⟩ := hi4.split
      cases hcd : l4.cur with
      | some d => exact ⟨d, hcd, hcl d hcd⟩
      | none =>
        exfalso
        rw [hcur] at hcd
        have ht0 : top = [] := List.getLast?_eq_none_iff.1 hcd
        have hh := hpf.head_eq
        rw [hS, ht0, hnil ht0] at hh
        cases hh
    · intro hgt
      have hgt2 : ¬ l4.slen ≤ (mainParams vm c maxS start).MAX_S_LEN := by
        have : maxS < l4.slen := hgt
        exact Nat.not_le.2 this
      obtain ⟨X, t, lirs, d, below, _, _, e3, _, _, _, _, e8, _⟩ := prune_fire _ hP l4 hi4 hgt2
      exact ⟨t, by rw [conc_prune_scan]; exact e8, e3⟩

/-- Instance of C18. -/
theorem C18_runs_complete_witness :
    10 ≤ 10 ∧ 10 ≤ 10 ∧ (∀ x ∈ [0, 1, 2, 3, 4, 5, 6, 7, 8, 9, 10, 8, 0], x ≤ 12) ∧
    2 ≤ (mainParams 12 10 10 0).HIR_block_portion_limit ∧
    (mainParams 12 10 10 0).HIR_block_portion_limit + 2 ≤ 10 ∧
    ∃ s, LIRS_Repl (mainParams 12 10 10 0) [0, 1, 2, 3, 4, 5, 6, 7, 8, 9, 10, 8, 0] =
        Step.next s ∧
      (s.free_mem_size = 0 → ∃ v, s.HIR_list_tail = some v ∧
        (s.page_tbl v).isResident = true ∧ (s.page_tbl v).isHIR_block = true) ∧
      (∀ b, b ≤ 12 → ∃ s1, LIRS_Repl_iter (mainParams 12 10 10 0) s b = Step.next s1) ∧
      (∀ b, b ≤ 12 → s.last_ref_pg ≠ some b →
        ∃ s4 s5, access_core (mainParams 12 10 10 0)
            (count_refs (mainParams 12 10 10 0) s) b = some s4 ∧
          (∃ d, s4.LIR_LRU_block_ptr = some d ∧ (s4.page_tbl d).isHIR_block = false) ∧
          (10 < s4.cur_lir_S_len →
            ∃ t, prune_scan s4 (walkFuel (mainParams 12 10 10 0))
                s4.LIR_LRU_block_ptr = some t ∧ (s4.page_tbl t).isHIR_block = true) ∧
          prune_LIRS_stack (mainParams 12 10 10 0) s4 = some s5 ∧
          LIRS_Repl_iter (mainParams 12 10 10 0) s b = Step.next s5) :=
  ⟨by decide, by decide, by decide,
    C18_runs_complete 12 10 10 0 [0, 1, 2, 3, 4, 5, 6, 7, 8, 9, 10, 8, 0]
      (by decide) (by decide) (by decide)⟩

/-- C19. The list of S stays a well-formed doubly-linked list: in a state reached by a run
(cache of `c ≥ 10` frames) the chain from `LRU_list_head` along `LIRS_next` has no
repetition and ends with a null link, and `LIRS_prev` is the inverse of `LIRS_next`; so it
is after one more reference that is not a repetition. At the call of `remove_LIRS_list`
for the referenced block the list is not that block alone, after lines 241-271 the block
is at the head of the list and is not linked to itself, and it is still at the head
after `prune_LIRS_stack` when the stack was within its bound. -/
theorem C19_S_list_wellformed (vm c maxS start : Nat) (trace : List Nat) (b : Nat)
    (s : State) (hc : 10 ≤ c) (hm : c ≤ maxS) (ht : ∀ x ∈ trace, x ≤ vm) (hb : b ≤ vm)
    (hs : runState (mainParams vm c maxS start) trace = some s)
    (hd : s.last_ref_pg ≠ some b) :
    S_wellformed (mainParams vm c maxS start) s ∧
    ∃ s1 s4 s5,
      miss_or_hit (mainParams vm c maxS start)
        { count_refs (mainParams vm c maxS start) s with
            last_ref_pg := some b,
            no_dup_refs := (count_refs (mainParams vm c maxS start) s).no_dup_refs + 1 } b =
        some s1 ∧
      S_list (mainParams vm c maxS start) s1 ≠ [b] ∧
      post (mainParams vm c maxS start) s1 b = some s4 ∧
      S_wellformed (mainParams vm c maxS start) s4 ∧
      s4.LRU_list_head = some b ∧ (s4.page_tbl b).LIRS_next ≠ some b ∧
      (s4.page_tbl b).LIRS_prev = none ∧
      prune_LIRS_stack (mainParams vm c maxS start) s4 = some s5 ∧
      runState (mainParams vm c maxS start) (trace ++ [b]) = some s5 ∧
      (s4.cur_lir_S_len ≤ maxS → s5.LRU_list_head = some b) ∧
      S_wellformed (mainParams vm c maxS start) s5 := by
  have hP := PWF_main vm c maxS start hc hm
  obtain ⟨l, hi, rfl⟩ := reach_state _ hP trace ht s hs
  obtain ⟨l1, l4, l5, c1, hmid, c4, hi4, _, hpf, _, _, hi5, c5, hit, hid⟩ :=
    iter_decompose _ hP l b hi hb hd
  refine ⟨S_wellformed_conc _ l hi.core.S_nodup hi.core.S_range, conc l1, conc l4, conc l5, c1,
    ?_, c4, S_wellformed_conc _ l4 hi4.S_nodup hi4.S_range, hpf.head_eq, ?_, ?_, c5,
    runState_snoc _ trace b _ _ hs hit, ?_,
    S_wellformed_conc _ l5 hi5.core.S_nodup hi5.core.S_range⟩
  · rw [S_list_conc_core _ l1 hmid.S_nodup hmid.S_range]
    exact hmid.S_ne
  · intro e
    have e2 : nextOf l4.S b = some b := e
    exact nextOf_ne hi4.S_nodup e2 rfl
  · exact prevOf_head hi4.S_nodup hpf.head_eq
  · intro hle
    have hle2 : l4.slen ≤ (mainParams vm c maxS start).MAX_S_LEN := hle
    rw [hid hle2]
    exact hpf.head_eq

/-- Instance of C19. -/
theorem C19_S_list_wellformed_witness :
    10 ≤ 10 ∧ 10 ≤ 20 ∧ (∀ x ∈ [0, 1, 2, 3, 4, 5, 6, 7, 8, 9], x ≤ 12) ∧ 8 ≤ 12 ∧
    ∃ s, runState (mainParams 12 10 20 0) [0, 1, 2, 3, 4, 5, 6, 7, 8, 9] = some s ∧
      s.last_ref_pg ≠ some 8 ∧
      S_wellformed (mainParams 12 10 20 0) s ∧
      ∃ s1 s4 s5,
        miss_or_hit (mainParams 12 10 20 0)
          { count_refs (mainParams 12 10 20 0) s with
              last_ref_pg := some 8,
              no_dup_refs := (count_refs (mainParams 12 10 20 0) s).no_dup_refs + 1 } 8 =
          some s1 ∧
        S_list (mainParams 12 10 20 0) s1 ≠ [8] ∧
        post (mainParams 12 10 20 0) s1 8 = some s4 ∧
        S_wellformed (mainParams 12 10 20 0) s4 ∧
        s4.LRU_list_head = some 8 ∧ (s4.page_tbl 8).LIRS_next ≠ some 8 ∧
        (s4.page_tbl 8).LIRS_prev = none ∧
        prune_LIRS_stack (mainParams 12 10 20 0) s4 = some s5 ∧
        runState (mainParams 12 10 20 0) ([0, 1, 2, 3, 4, 5, 6, 7, 8, 9] ++ [8]) = some s5 ∧
        (s4.cur_lir_S_len ≤ 20 → s5.LRU_list_head = some 8) ∧
        S_wellformed (mainParams 12 10 20 0) s5 :=
  ⟨by decide, by decide, by decide, by decide,
    (runState (mainParams 12 10 20 0) [0, 1, 2, 3, 4, 5, 6, 7, 8, 9]).getD
      (init_state (mainParams 12 10 20 0)),
    rfl, by decide,
    C19_S_list_wellformed 12 10 20 0 [0, 1, 2, 3, 4, 5, 6, 7, 8, 9] 8
      ((runState (mainParams 12 10 20 0) [0, 1, 2, 3, 4, 5, 6, 7, 8, 9]).getD
        (init_state (mainParams 12 10 20 0)))
      (by decide) (by decide) (by decide) (by decide) rfl (by decide)⟩

end LIRS

namespace LIRS

/-! ### The statistics do not steer the replacement -/

theorem setStat_self (s : State) :
    setStat s s.num_pg_flt s.warm_pg_refs s.total_pg_refs s.collect_stat = s := rfl

theorem remove_HIR_list_stat (s : State) (h : Nat) (f w t : Nat) (c : Bool) :
    remove_HIR_list (setStat s f w t c) h = setStat (remove_HIR_list s h) f w t c := by
  cases s
  unfold remove_HIR_list setPage setStat
  dsimp only
  rename_i pt _ _ _ _ _ _ _ _ _ _ _ _ _ _
  cases h1 : (pt h).HIR_rsd_prev <;> simp only [h1] <;> split <;> rfl

theorem add_HIR_list_head_stat (s : State) (n : Nat) (f w t : Nat) (c : Bool) :
    add_HIR_list_head (setStat s f w t c) n = setStat (add_HIR_list_head s n) f w t c := by
  cases s
  unfold add_HIR_list_head setPage setStat
  dsimp only
  split <;> rfl

theorem find_last_LIR_LRU_loop_stat (f w t : Nat) (c : Bool) (fuel : Nat) :
    ∀ s, find_last_LIR_LRU_loop fuel (setStat s f w t c) =
      (find_last_LIR_LRU_loop fuel s).map fun r => setStat r f w t c := by
  induction fuel with
  | zero => intro s; rfl
  | succ k ih =>
    intro s
    unfold find_last_LIR_LRU_loop
    cases hp : s.LIR_LRU_block_ptr with
    | none =>
      have hp2 : (setStat s f w t c).LIR_LRU_block_ptr = none := hp
      simp only [hp2, Option.map_none']
    | some p =>
      have hp2 : (setStat s f w t c).LIR_LRU_block_ptr = some p := hp
      simp only [hp2]
      by_cases hh : (s.page_tbl p).isHIR_block = true
      · have hh2 : ((setStat s f w t c).page_tbl p).isHIR_block = true := hh
        rw [if_pos hh, if_pos hh2]
        have e := ih { setPage s p { s.page_tbl p with recency := S_STACK_OUT } with
          cur_lir_S_len := dec64 s.cur_lir_S_len,
          LIR_LRU_block_ptr := (s.page_tbl p).LIRS_prev }
        exact e
      · have hh2 : ¬ ((setStat s f w t c).page_tbl p).isHIR_block = true := hh
        rw [if_neg hh, if_neg hh2]
        rfl

theorem find_last_LIR_LRU_stat (P : Params) (s : State) (f w t : Nat) (c : Bool) :
    find_last_LIR_LRU P (setStat s f w t c) =
      (find_last_LIR_LRU P s).map fun r => setStat r f w t c := by
  unfold find_last_LIR_LRU
  cases hp : s.LIR_LRU_block_ptr with
  | none =>
    have hp2 : (setStat s f w t c).LIR_LRU_block_ptr = none := hp
    simp only [hp2, Option.map_none']
  | some p =>
    have hp2 : (setStat s f w t c).LIR_LRU_block_ptr = some p := hp
    simp only [hp2]
    exact find_last_LIR_LRU_loop_stat f w t c _ s

theorem unlink_LIRS_stat (s : State) (x : Nat) (f w t : Nat) (c : Bool) :
    unlink_LIRS (setStat s f w t c) x = setStat (unlink_LIRS s x) f w t c := by
  cases s
  unfold unlink_LIRS setPage setStat
  dsimp only
  rename_i pt _ _ _ _ _ _ _ _ _ _ _ _ _ _
  cases h1 : (pt x).LIRS_prev <;> simp only [h1] <;> split <;> rfl

theorem remove_LIRS_list_stat (P : Params) (s : State) (x : Nat) (f w t : Nat) (c : Bool) :
    remove_LIRS_list P (setStat s f w t c) x =
      (remove_LIRS_list P s x).map fun r => setStat r f w t c := by
  unfold remove_LIRS_list
  by_cases hc : (s.page_tbl x).LIRS_prev = none ∧ (s.page_tbl x).LIRS_next = none
  · have hc2 : ((setStat s f w t c).page_tbl x).LIRS_prev = none ∧
        ((setStat s f w t c).page_tbl x).LIRS_next = none := hc
    rw [if_pos hc, if_pos hc2]
    rfl
  · have hc2 : ¬ (((setStat s f w t c).page_tbl x).LIRS_prev = none ∧
        ((setStat s f w t c).page_tbl x).LIRS_next = none) := hc
    rw [if_neg hc, if_neg hc2]
    show (if some x = s.LIR_LRU_block_ptr then
          (find_last_LIR_LRU P (setStat { s with LIR_LRU_block_ptr := (s.page_tbl x).LIRS_prev }
            f w t c)).bind fun s1 => some (unlink_LIRS s1 x)
        else (some (setStat s f w t c)).bind fun s1 => some (unlink_LIRS s1 x)) =
      Option.map (fun r => setStat r f w t c)
        (if some x = s.LIR_LRU_block_ptr then
          (find_last_LIR_LRU P { s with LIR_LRU_block_ptr := (s.page_tbl x).LIRS_prev }).bind
            fun s1 => some (unlink_LIRS s1 x)
        else (some s).bind fun s1 => some (unlink_LIRS s1 x))
    by_cases hx : some x = s.LIR_LRU_block_ptr
    · rw [if_pos hx, if_pos hx, find_last_LIR_LRU_stat]
      cases find_last_LIR_LRU P { s with LIR_LRU_block_ptr := (s.page_tbl x).LIRS_prev } with
      | none => rfl
      | some s1 => exact congrArg some (unlink_LIRS_stat s1 x f w t c)
    · rw [if_neg hx, if_neg hx]
      exact congrArg some (unlink_LIRS_stat s x f w t c)

theorem add_LRU_list_head_stat (s : State) (n : Nat) (f w t : Nat) (c : Bool) :
    add_LRU_list_head (setStat s f w t c) n = setStat (add_LRU_list_head s n) f w t c := by
  cases s
  unfold add_LRU_list_head setPage setStat
  dsimp only
  split <;> rfl

theorem insert_LRU_list_stat (s : State) (o n : Nat) (f w t : Nat) (c : Bool) :
    insert_LRU_list (setStat s f w t c) o n = setStat (insert_LRU_list s o n) f w t c := by
  cases s
  unfold insert_LRU_list setPage setStat
  dsimp only
  split <;> rfl

theorem prune_scan_stat (s : State) (f w t : Nat) (c : Bool) (fuel : Nat) :
    ∀ p, prune_scan (setStat s f w t c) fuel p = prune_scan s fuel p := by
  induction fuel with
  | zero => intro p; rfl
  | succ k ih =>
    intro p
    cases p with
    | none => rfl
    | some x =>
      unfold prune_scan
      have e : ((setStat s f w t c).page_tbl x) = s.page_tbl x := rfl
      rw [e, ih]

theorem prune_LIRS_stack_stat (P : Params) (s : State) (f w t : Nat) (c : Bool) :
    prune_LIRS_stack P (setStat s f w t c) =
      (prune_LIRS_stack P s).map fun r => setStat r f w t c := by
  unfold prune_LIRS_stack
  by_cases hc : s.cur_lir_S_len ≤ P.MAX_S_LEN
  · have hc2 : (setStat s f w t c).cur_lir_S_len ≤ P.MAX_S_LEN := hc
    rw [if_pos hc, if_pos hc2]
    rfl
  · have hc2 : ¬ (setStat s f w t c).cur_lir_S_len ≤ P.MAX_S_LEN := hc
    rw [if_neg hc, if_neg hc2, prune_scan_stat]
    have e : (setStat s f w t c).LIR_LRU_block_ptr = s.LIR_LRU_block_ptr := rfl
    rw [e]
    cases prune_scan s (walkFuel P) s.LIR_LRU_block_ptr with
    | none => rfl
    | some v =>
      show (remove_LIRS_list P (setStat (setPage s v
          { s.page_tbl v with recency := S_STACK_OUT }) f w t c) v).bind _ =
        Option.map _ ((remove_LIRS_list P (setPage s v
          { s.page_tbl v with recency := S_STACK_OUT }) v).bind _)
      rw [remove_LIRS_list_stat]
      cases remove_LIRS_list P (setPage s v { s.page_tbl v with recency := S_STACK_OUT }) v with
      | none => rfl
      | some s2 =>
        show deref (setStat s2 f w t c).LIR_LRU_block_ptr _ = _
        have e2 : (setStat s2 f w t c).LIR_LRU_block_ptr = s2.LIR_LRU_block_ptr := rfl
        rw [e2]
        cases h3 : s2.LIR_LRU_block_ptr with
        | none => simp only [deref, Option.some_bind, h3, Option.map_none']
        | some d =>
          simp only [deref, Option.some_bind, h3, Option.map_some']
          rw [insert_LRU_list_stat]
          rfl

theorem make_room_stat (P : Params) (s : State) (b : Nat) (f w t : Nat) (c : Bool) :
    make_room P (setStat s f w t c) b = (make_room P s b).map fun r => setStat r f w t c := by
  unfold make_room
  by_cases hf : s.free_mem_size = 0
  · have hf2 : (setStat s f w t c).free_mem_size = 0 := hf
    rw [if_pos hf, if_pos hf2]
    have e : (setStat s f w t c).HIR_list_tail = s.HIR_list_tail := rfl
    rw [e]
    cases s.HIR_list_tail with
    | none => rfl
    | some v =>
      simp only [deref, Option.map_some']
      have e2 : setPage (setStat s f w t c) v
          { (setStat s f w t c).page_tbl v with isResident := false } =
          setStat (setPage s v { s.page_tbl v with isResident := false }) f w t c := rfl
      rw [e2, remove_HIR_list_stat]
      rfl
  · have hf2 : ¬ (setStat s f w t c).free_mem_size = 0 := hf
    rw [if_neg hf, if_neg hf2]
    by_cases hg : s.free_mem_size > P.HIR_block_portion_limit
    · have hg2 : (setStat s f w t c).free_mem_size > P.HIR_block_portion_limit := hg
      rw [if_pos hg, if_pos hg2]
      rfl
    · have hg2 : ¬ (setStat s f w t c).free_mem_size > P.HIR_block_portion_limit := hg
      rw [if_neg hg, if_neg hg2]
      rfl

/-- Lines 214-238 with other statistics: the same cache, and the fault counted when the
block is not resident and statistics are collected. -/
theorem miss_or_hit_stat (P : Params) (s : State) (b : Nat) (f w t : Nat) (c : Bool) :
    miss_or_hit P (setStat s f w t c) b =
      (miss_or_hit P s b).map fun r =>
        setStat r (if (s.page_tbl b).isResident = false ∧ c = true then f + 1 else f) w t c := by
  unfold miss_or_hit
  by_cases hr : (s.page_tbl b).isResident = false
  · have hr2 : ((setStat s f w t c).page_tbl b).isResident = false := hr
    rw [if_pos hr, if_pos hr2]
    have e1 : (if (setStat s f w t c).collect_stat = true then
        { setStat s f w t c with num_pg_flt := (setStat s f w t c).num_pg_flt + 1 }
        else setStat s f w t c) =
        setStat (if s.collect_stat = true then { s with num_pg_flt := s.num_pg_flt + 1 } else s)
          (if (s.page_tbl b).isResident = false ∧ c = true then f + 1 else f) w t c := by
      by_cases hc : c = true
      · have hc2 : (setStat s f w t c).collect_stat = true := hc
        rw [if_pos hc2,
          if_pos (⟨hr, hc⟩ : (s.page_tbl b).isResident = false ∧ c = true)]
        by_cases hs : s.collect_stat = true
        · rw [if_pos hs]; rfl
        · rw [if_neg hs]; rfl
      · have hc2 : ¬ (setStat s f w t c).collect_stat = true := hc
        rw [if_neg hc2,
          if_neg (fun x => hc x.2 : ¬ ((s.page_tbl b).isResident = false ∧ c = true))]
        by_cases hs : s.collect_stat = true
        · rw [if_pos hs]; rfl
        · rw [if_neg hs]
    dsimp only
    rw [e1, make_room_stat]
    cases make_room P (if s.collect_stat = true then
        { s with num_pg_flt := s.num_pg_flt + 1 } else s) b with
    | none => rfl
    | some s2 => rfl
  · have hr2 : ¬ ((setStat s f w t c).page_tbl b).isResident = false := hr
    rw [if_neg hr, if_neg hr2,
      if_neg (fun x => hr x.1 : ¬ ((s.page_tbl b).isResident = false ∧ c = true))]
    by_cases hh : (s.page_tbl b).isHIR_block = true
    · have hh2 : ((setStat s f w t c).page_tbl b).isHIR_block = true := hh
      rw [if_pos hh, if_pos hh2, remove_HIR_list_stat]
      rfl
    · have hh2 : ¬ ((setStat s f w t c).page_tbl b).isHIR_block = true := hh
      rw [if_neg hh, if_neg hh2]
      rfl

theorem relink_stat (P : Params) (s : State) (b : Nat) (f w t : Nat) (c : Bool) :
    relink P (setStat s f w t c) b = (relink P s b).map fun r => setStat r f w t c := by
  unfold relink
  rw [remove_LIRS_list_stat]
  cases remove_LIRS_list P s b with
  | none => rfl
  | some s1 =>
    simp only [Option.map_some', Option.some_bind, add_LRU_list_head_stat]
    have e : ∀ u : State, setPage (setStat u f w t c) b
        { (setStat u f w t c).page_tbl b with isResident := true } =
        setStat (setPage u b { u.page_tbl b with isResident := true }) f w t c := fun _ => rfl
    rw [e]
    generalize setPage (add_LRU_list_head s1 b) b
      { (add_LRU_list_head s1 b).page_tbl b with isResident := true } = s3
    by_cases hq : (s3.page_tbl b).recency = S_STACK_OUT
    · have hq2 : ((setStat s3 f w t c).page_tbl b).recency = S_STACK_OUT := hq
      rw [if_pos hq, if_pos hq2]
      rfl
    · have hq2 : ¬ ((setStat s3 f w t c).page_tbl b).recency = S_STACK_OUT := hq
      rw [if_neg hq, if_neg hq2]

theorem demote_stat (P : Params) (s : State) (f w t : Nat) (c : Bool) :
    demote P (setStat s f w t c) = (demote P s).map fun r => setStat r f w t c := by
  unfold demote
  have e : (setStat s f w t c).LIR_LRU_block_ptr = s.LIR_LRU_block_ptr := rfl
  rw [e]
  cases s.LIR_LRU_block_ptr with
  | none => rfl
  | some v =>
    simp only [deref, add_HIR_list_head_stat]
    have e2 : (setStat (add_HIR_list_head s v) f w t c).HIR_list_head =
        (add_HIR_list_head s v).HIR_list_head := rfl
    rw [e2]
    cases (add_HIR_list_head s v).HIR_list_head with
    | none => rfl
    | some h =>
      dsimp only
      have e3 := find_last_LIR_LRU_stat P
        { setPage (setPage (add_HIR_list_head s v) h
            { (add_HIR_list_head s v).page_tbl h with isHIR_block := true }) h
            { (setPage (add_HIR_list_head s v) h
                { (add_HIR_list_head s v).page_tbl h with isHIR_block := true }).page_tbl h with
              recency := S_STACK_OUT } with
          num_LIR_pgs := (add_HIR_list_head s v).num_LIR_pgs - 1 } f w t c
      exact e3

theorem promote_or_queue_stat (P : Params) (s : State) (b : Nat) (f w t : Nat) (c : Bool) :
    promote_or_queue P (setStat s f w t c) b =
      (promote_or_queue P s b).map fun r => setStat r f w t c := by
  unfold promote_or_queue
  by_cases hc : (s.page_tbl b).isHIR_block = true ∧ (s.page_tbl b).recency = S_STACK_IN
  · have hc2 : ((setStat s f w t c).page_tbl b).isHIR_block = true ∧
        ((setStat s f w t c).page_tbl b).recency = S_STACK_IN := hc
    rw [if_pos hc, if_pos hc2]
    dsimp only
    by_cases hn : s.num_LIR_pgs + 1 > usub64 P.mem_size P.HIR_block_portion_limit
    · have hn2 : (setStat s f w t c).num_LIR_pgs + 1 >
          usub64 P.mem_size P.HIR_block_portion_limit := hn
      rw [if_pos hn, if_pos hn2]
      have e3 := demote_stat P
        { setPage s b { s.page_tbl b with isHIR_block := false } with
          num_LIR_pgs := s.num_LIR_pgs + 1 } f w t c
      exact e3
    · have hn2 : ¬ (setStat s f w t c).num_LIR_pgs + 1 >
          usub64 P.mem_size P.HIR_block_portion_limit := hn
      rw [if_neg hn, if_neg hn2]
      rfl
  · have hc2 : ¬ (((setStat s f w t c).page_tbl b).isHIR_block = true ∧
        ((setStat s f w t c).page_tbl b).recency = S_STACK_IN) := hc
    rw [if_neg hc, if_neg hc2]
    by_cases hh : (s.page_tbl b).isHIR_block = true
    · have hh2 : ((setStat s f w t c).page_tbl b).isHIR_block = true := hh
      rw [if_pos hh, if_pos hh2, add_HIR_list_head_stat]
      rfl
    · have hh2 : ¬ ((setStat s f w t c).page_tbl b).isHIR_block = true := hh
      rw [if_neg hh, if_neg hh2]
      rfl

theorem post_stat (P : Params) (s : State) (b : Nat) (f w t : Nat) (c : Bool) :
    post P (setStat s f w t c) b = (post P s b).map fun r => setStat r f w t c := by
  unfold post
  rw [relink_stat]
  cases relink P s b with
  | none => rfl
  | some s2 =>
    simp only [Option.map_some', Option.some_bind, promote_or_queue_stat]
    cases promote_or_queue P s2 b with
    | none => rfl
    | some s3 => rfl

/-- The work done for a reference, started with other statistics: the same cache. -/
theorem LIRS_access_stat (P : Params) (s : State) (b : Nat) (f w t : Nat) (c : Bool) :
    LIRS_access P (setStat s f w t c) b =
      (LIRS_access P s b).map fun r =>
        setStat r (if (s.page_tbl b).isResident = false ∧ c = true then f + 1 else f) w t c := by
  unfold LIRS_access
  have e : ({ setStat s f w t c with
      last_ref_pg := some b,
      no_dup_refs := (setStat s f w t c).no_dup_refs + 1 } : State) =
      setStat { s with last_ref_pg := some b, no_dup_refs := s.no_dup_refs + 1 } f w t c := rfl
  dsimp only
  rw [e, miss_or_hit_stat]
  cases miss_or_hit P { s with last_ref_pg := some b, no_dup_refs := s.no_dup_refs + 1 } b with
  | none => rfl
  | some s1 =>
    simp only [Option.map_some', Option.some_bind, post_stat]
    cases post P s1 b with
    | none => rfl
    | some s4 =>
      simp only [Option.map_some', Option.some_bind, prune_LIRS_stack_stat]

end LIRS

namespace LIRS

theorem LIRS_access_withStart (P : Params) (x : Nat) (s : State) (b : Nat) :
    LIRS_access (withStart P x) s b = LIRS_access P s b := rfl

theorem access_stat_fields (P : Params) (s v : State) (b : Nat)
    (h : LIRS_access P s b = some v) :
    v.num_pg_flt = (if (s.page_tbl b).isResident = false ∧ s.collect_stat = true
        then s.num_pg_flt + 1 else s.num_pg_flt) ∧
      v.warm_pg_refs = s.warm_pg_refs ∧ v.total_pg_refs = s.total_pg_refs ∧
      v.collect_stat = s.collect_stat := by
  have e := LIRS_access_stat P s b s.num_pg_flt s.warm_pg_refs s.total_pg_refs s.collect_stat
  rw [setStat_self, h] at e
  simp only [Option.map_some', Option.some.injEq] at e
  refine ⟨?_, ?_, ?_, ?_⟩
  · have := congrArg State.num_pg_flt e
    exact this
  · have := congrArg State.warm_pg_refs e
    exact this
  · have := congrArg State.total_pg_refs e
    exact this
  · have := congrArg State.collect_stat e
    exact this

theorem count_refs_fields (P : Params) (s : State) :
    (count_refs P s).page_tbl = s.page_tbl ∧
    (count_refs P s).LRU_list_head = s.LRU_list_head ∧
    (count_refs P s).LRU_list_tail = s.LRU_list_tail ∧
    (count_refs P s).HIR_list_head = s.HIR_list_head ∧
    (count_refs P s).HIR_list_tail = s.HIR_list_tail ∧
    (count_refs P s).LIR_LRU_block_ptr = s.LIR_LRU_block_ptr ∧
    (count_refs P s).free_mem_size = s.free_mem_size ∧
    (count_refs P s).cur_lir_S_len = s.cur_lir_S_len ∧
    (count_refs P s).total_pg_refs = s.total_pg_refs + 1 ∧
    (count_refs P s).no_dup_refs = s.no_dup_refs ∧
    (count_refs P s).last_ref_pg = s.last_ref_pg ∧
    (count_refs P s).num_LIR_pgs = s.num_LIR_pgs ∧
    (count_refs P s).num_pg_flt = s.num_pg_flt := by
  unfold count_refs
  by_cases hc : s.total_pg_refs + 1 > P.STAT_START_POINT
  · simp [hc]
  · simp [hc]

theorem count_refs_pos (P : Params) (s : State)
    (hc : s.total_pg_refs + 1 > P.STAT_START_POINT) :
    count_refs P s = { s with total_pg_refs := s.total_pg_refs + 1, collect_stat := true,
                              warm_pg_refs := s.warm_pg_refs + 1 } := by
  unfold count_refs
  dsimp only
  rw [if_pos hc]

theorem count_refs_neg (P : Params) (s : State)
    (hc : ¬ s.total_pg_refs + 1 > P.STAT_START_POINT) :
    count_refs P s = { s with total_pg_refs := s.total_pg_refs + 1 } := by
  unfold count_refs
  dsimp only
  rw [if_neg hc]

theorem count_refs_stat (P : Params) (s : State) (h : stat_inv P s) :
    stat_inv P (count_refs P s) ∧
      ((count_refs P s).collect_stat = true ↔
        P.STAT_START_POINT < (count_refs P s).total_pg_refs) ∧
      ((count_refs P s).collect_stat = true →
        (count_refs P s).num_pg_flt + 1 ≤ (count_refs P s).warm_pg_refs) := by
  obtain ⟨h1, h2, h3⟩ := h
  by_cases hc : s.total_pg_refs + 1 > P.STAT_START_POINT
  · rw [count_refs_pos P s hc]
    refine ⟨⟨?_, ?_, ?_⟩, ?_, ?_⟩
    · show s.num_pg_flt ≤ s.warm_pg_refs + 1
      omega
    · show s.warm_pg_refs + 1 = s.total_pg_refs + 1 - P.STAT_START_POINT
      omega
    · exact ⟨fun _ => Or.inr hc, fun _ => rfl⟩
    · exact ⟨fun _ => hc, fun _ => rfl⟩
    · intro _
      show s.num_pg_flt + 1 ≤ s.warm_pg_refs + 1
      omega
  · rw [count_refs_neg P s hc]
    have hn : ¬ (P.STAT_START_POINT = 0 ∨ P.STAT_START_POINT < s.total_pg_refs) := by omega
    have hcs : ¬ s.collect_stat = true := fun x => hn (h3.1 x)
    refine ⟨⟨h1, ?_, ?_⟩, ?_, ?_⟩
    · show s.warm_pg_refs = s.total_pg_refs + 1 - P.STAT_START_POINT
      omega
    · constructor
      · intro x; exact absurd x hcs
      · intro x
        have x2 : P.STAT_START_POINT = 0 ∨ P.STAT_START_POINT < s.total_pg_refs + 1 := x
        omega
    · constructor
      · intro x; exact absurd x hcs
      · intro x
        have x2 : P.STAT_START_POINT < s.total_pg_refs + 1 := x
        omega
    · intro x; exact absurd x hcs

theorem stat_inv_init (P : Params) : stat_inv P (init_state P) := by
  refine ⟨Nat.le_refl _, ?_, ?_⟩
  · show 0 = 0 - P.STAT_START_POINT
    omega
  · show decide (P.STAT_START_POINT = 0) = true ↔ (P.STAT_START_POINT = 0 ∨ P.STAT_START_POINT < 0)
    simp

/-- One iteration: the statistics relations are kept, one more reference is counted, and
the fault count goes up by one exactly for a miss read after the first
`STAT_START_POINT` references. -/
theorem iter_stat (P : Params) (s : State) (r : Nat) (h : stat_inv P s) :
    match LIRS_Repl_iter P s r with
    | Step.next v => stat_inv P v ∧ v.total_pg_refs = s.total_pg_refs + 1 ∧
        v.num_pg_flt = s.num_pg_flt +
          (if P.STAT_START_POINT ≤ s.total_pg_refs ∧ is_miss s r = true then 1 else 0)
    | Step.returnFALSE v => stat_inv P v ∧ v.total_pg_refs = s.total_pg_refs + 1 ∧
        v.num_pg_flt = s.num_pg_flt
    | Step.abort => True := by
  obtain ⟨hi, hcol, hw⟩ := count_refs_stat P s h
  obtain ⟨ept, _, _, _, _, _, _, _, etot, _, elast, _, eflt⟩ := count_refs_fields P s
  rw [LIRS_Repl_iter_eq]
  by_cases hv : r > P.vm_size
  · rw [if_pos hv]
    exact ⟨hi, etot, eflt⟩
  · rw [if_neg hv]
    by_cases hd : some r = (count_refs P s).last_ref_pg
    · rw [if_pos hd]
      refine ⟨hi, etot, ?_⟩
      have hm : is_miss s r = false := by
        unfold is_miss
        rw [← elast, ← hd]
        simp
      rw [eflt, hm]
      simp
    · rw [if_neg hd]
      cases ha : LIRS_access P (count_refs P s) r with
      | none => trivial
      | some v =>
        obtain ⟨f1, f2, f3, f4⟩ := access_stat_fields P _ v r ha
        have hm : is_miss s r = !(s.page_tbl r).isResident := by
          unfold is_miss
          rw [← elast]
          simp [hd]
        obtain ⟨i1, i2, i3⟩ := hi
        refine ⟨⟨?_, ?_, ?_⟩, ?_, ?_⟩
        · rw [f1, f2]
          split_ifs with hx
          · exact hw hx.2
          · exact i1
        · rw [f2, f3]; exact i2
        · rw [f4, f3]; exact i3
        · rw [f3, etot]
        · rw [f1, eflt, ept, hm]
          rw [etot] at hcol
          by_cases hres : (s.page_tbl r).isResident = false
          · by_cases hcs : (count_refs P s).collect_stat = true
            · have : P.STAT_START_POINT ≤ s.total_pg_refs := by
                have := hcol.1 hcs
                omega
              rw [if_pos ⟨hres, hcs⟩, if_pos ⟨this, by rw [hres]; rfl⟩]
            · have : ¬ P.STAT_START_POINT ≤ s.total_pg_refs := fun x =>
                hcs (hcol.2 (by omega))
              rw [if_neg (fun x => hcs x.2), if_neg (fun x => this x.1)]
              rfl
          · have hres2 : (s.page_tbl r).isResident = true := by simpa using hres
            rw [if_neg (fun x => hres x.1), if_neg (fun x => by rw [hres2] at x; cases x.2)]
            rfl

end LIRS

namespace LIRS

theorem count_true_drop_cons (m : Bool) (fl : List Bool) (start total : Nat) :
    ((m :: fl).drop (start - total)).count true =
      (if start ≤ total ∧ m = true then 1 else 0) +
        (fl.drop (start - (total + 1))).count true := by
  by_cases hle : start ≤ total
  · have e1 : start - total = 0 := by omega
    have e2 : start - (total + 1) = 0 := by omega
    rw [e1, e2, List.drop_zero, List.drop_zero]
    cases m
    · simp
    · simp [hle]
      omega
  · obtain ⟨k, hk⟩ : ∃ k, start - total = k + 1 := ⟨start - total - 1, by omega⟩
    have e2 : start - (total + 1) = k := by omega
    rw [hk, e2, List.drop_succ_cons, if_neg (fun x => hle x.1)]
    omega

/-- The loop of `LIRS_Repl` from a state in which the statistics relations hold: they hold
at the end, every reference read is counted, and the faults counted are the misses among
the references read after the first `STAT_START_POINT` ones. -/
theorem loop_stat (P : Params) (t : List Nat) : ∀ s, stat_inv P s →
    match LIRS_Repl_loop P s t with
    | Step.next v => stat_inv P v ∧ v.total_pg_refs = s.total_pg_refs + t.length ∧
        (miss_flags P s t).length = t.length ∧
        v.num_pg_flt = s.num_pg_flt +
          ((miss_flags P s t).drop (P.STAT_START_POINT - s.total_pg_refs)).count true
    | Step.returnFALSE v => stat_inv P v ∧
        v.total_pg_refs = s.total_pg_refs + (miss_flags P s t).length + 1 ∧
        (miss_flags P s t).length < t.length ∧
        v.num_pg_flt = s.num_pg_flt +
          ((miss_flags P s t).drop (P.STAT_START_POINT - s.total_pg_refs)).count true
    | Step.abort => True := by
  induction t with
  | nil =>
    intro s h
    exact ⟨h, rfl, rfl, by simp [miss_flags]⟩
  | cons r rest ih =>
    intro s h
    have hi := iter_stat P s r h
    cases hit : LIRS_Repl_iter P s r with
    | abort => simp only [LIRS_Repl_loop, hit]
    | returnFALSE v =>
      rw [hit] at hi
      obtain ⟨i1, i2, i3⟩ := hi
      simp only [LIRS_Repl_loop, miss_flags, hit]
      exact ⟨i1, by simpa using i2, by simp, by simpa using i3⟩
    | next s1 =>
      rw [hit] at hi
      obtain ⟨i1, i2, i3⟩ := hi
      have ih1 := ih s1 i1
      simp only [LIRS_Repl_loop, miss_flags, hit]
      cases hl : LIRS_Repl_loop P s1 rest with
      | abort => trivial
      | returnFALSE v =>
        rw [hl] at ih1
        obtain ⟨j1, j2, j3, j4⟩ := ih1
        refine ⟨j1, ?_, ?_, ?_⟩
        · rw [j2, i2, List.length_cons]; omega
        · rw [List.length_cons, List.length_cons]; omega
        · rw [j4, i3, i2, count_true_drop_cons]; omega
      | next v =>
        rw [hl] at ih1
        obtain ⟨j1, j2, j3, j4⟩ := ih1
        refine ⟨j1, ?_, ?_, ?_⟩
        · rw [j2, i2, List.length_cons]; omega
        · rw [List.length_cons, List.length_cons, j3]
        · rw [j4, i3, i2, count_true_drop_cons]; omega

/-- C12. Counter ordering, for every cache size, every trace and every value of
`STAT_START_POINT`: whenever `LIRS_Repl` has processed the trace, or has returned `FALSE`
at a reference out of range, `num_pg_flt ≤ warm_pg_refs ≤ total_pg_refs`; moreover
`total_pg_refs` is the number of references read and `warm_pg_refs` is the number of
those read after the first `STAT_START_POINT` ones. (A trace is any list of references,
so the ordering holds after each reference of a run.) -/
theorem C12_counter_ordering (P : Params) (trace : List Nat) :
    match LIRS_Repl P trace with
    | Step.next s => s.num_pg_flt ≤ s.warm_pg_refs ∧ s.warm_pg_refs ≤ s.total_pg_refs ∧
        s.total_pg_refs = trace.length ∧
        s.warm_pg_refs = s.total_pg_refs - P.STAT_START_POINT
    | Step.returnFALSE s => s.num_pg_flt ≤ s.warm_pg_refs ∧
        s.warm_pg_refs ≤ s.total_pg_refs ∧ s.total_pg_refs ≤ trace.length ∧
        s.warm_pg_refs = s.total_pg_refs - P.STAT_START_POINT
    | Step.abort => True := by
  have h := loop_stat P trace (init_state P) (stat_inv_init P)
  unfold LIRS_Repl
  cases hl : LIRS_Repl_loop P (init_state P) trace with
  | abort => trivial
  | returnFALSE v =>
    rw [hl] at h
    obtain ⟨⟨j1, j2, _⟩, j3, j4, _⟩ := h
    have e0 : (init_state P).total_pg_refs = 0 := rfl
    rw [e0] at j3
    exact ⟨j1, by omega, by omega, j2⟩
  | next v =>
    rw [hl] at h
    obtain ⟨⟨j1, j2, _⟩, j3, _, _⟩ := h
    have e0 : (init_state P).total_pg_refs = 0 := rfl
    rw [e0] at j3
    exact ⟨j1, by omega, by omega, j2⟩

theorem same_cache_eq {s s1 : State} (h : same_cache s s1) :
    s1 = setStat s s1.num_pg_flt s1.warm_pg_refs s1.total_pg_refs s1.collect_stat := by
  obtain ⟨h1, h2, h3, h4, h5, h6, h7, h8, h9, h10, h11, h12⟩ := h
  apply State.ext
  · exact h1.symm
  · exact h2.symm
  · exact h3.symm
  · exact h4.symm
  · exact h5.symm
  · exact h6.symm
  · exact h7.symm
  · exact h8.symm
  · rfl
  · rfl
  · exact h10.symm
  · rfl
  · exact h11.symm
  · exact h12.symm
  · rfl

theorem same_cache_setStat (s : State) (f w : Nat) (c : Bool) :
    same_cache s (setStat s f w s.total_pg_refs c) :=
  ⟨rfl, rfl, rfl, rfl, rfl, rfl, rfl, rfl, rfl, rfl, rfl, rfl⟩

theorem same_cache_count (P : Params) (x : Nat) (s s1 : State) (h : same_cache s s1) :
    same_cache (count_refs P s) (count_refs (withStart P x) s1) := by
  obtain ⟨a1, a2, a3, a4, a5, a6, a7, a8, a9, a10, a11, a12, _⟩ := count_refs_fields P s
  obtain ⟨b1, b2, b3, b4, b5, b6, b7, b8, b9, b10, b11, b12, _⟩ :=
    count_refs_fields (withStart P x) s1
  obtain ⟨h1, h2, h3, h4, h5, h6, h7, h8, h9, h10, h11, h12⟩ := h
  refine ⟨?_, ?_, ?_, ?_, ?_, ?_, ?_, ?_, ?_, ?_, ?_, ?_⟩
  · rw [a1, b1, h1]
  · rw [a2, b2, h2]
  · rw [a3, b3, h3]
  · rw [a4, b4, h4]
  · rw [a5, b5, h5]
  · rw [a6, b6, h6]
  · rw [a7, b7, h7]
  · rw [a8, b8, h8]
  · rw [a9, b9, h9]
  · rw [a10, b10, h10]
  · rw [a11, b11, h11]
  · rw [a12, b12, h12]

/-- One iteration in two runs that differ in `STAT_START_POINT` only: from the same cache
both end the same way, with the same cache. -/
theorem iter_same_cache (P : Params) (x : Nat) (s s1 : State) (r : Nat)
    (h : same_cache s s1) :
    same_outcome (LIRS_Repl_iter P s r) (LIRS_Repl_iter (withStart P x) s1 r) := by
  have hc := same_cache_count P x s s1 h
  rw [LIRS_Repl_iter_eq, LIRS_Repl_iter_eq]
  have ev : (withStart P x).vm_size = P.vm_size := rfl
  rw [ev]
  by_cases hv : r > P.vm_size
  · rw [if_pos hv, if_pos hv]
    exact hc
  · rw [if_neg hv, if_neg hv]
    have el := hc.2.2.2.2.2.2.2.2.2.2.1
    rw [← el]
    by_cases hd : some r = (count_refs P s).last_ref_pg
    · rw [if_pos hd, if_pos hd]
      exact hc
    · rw [if_neg hd, if_neg hd, LIRS_access_withStart, same_cache_eq hc, LIRS_access_stat]
      cases ha : LIRS_access P (count_refs P s) r with
      | none => trivial
      | some v =>
        obtain ⟨_, _, f3, _⟩ := access_stat_fields P _ v r ha
        show same_cache v (setStat v _ _ _ _)
        rw [← hc.2.2.2.2.2.2.2.2.1, ← f3]
        exact same_cache_setStat v _ _ _

theorem is_miss_same_cache {s s1 : State} (h : same_cache s s1) (r : Nat) :
    is_miss s r = is_miss s1 r := by
  unfold is_miss
  rw [h.1, h.2.2.2.2.2.2.2.2.2.2.1]

/-- The loop in two runs that differ in `STAT_START_POINT` only: the same outcome, the
same cache and the same misses. -/
theorem loop_same_cache (P : Params) (x : Nat) (t : List Nat) : ∀ s s1, same_cache s s1 →
    same_outcome (LIRS_Repl_loop P s t) (LIRS_Repl_loop (withStart P x) s1 t) ∧
      miss_flags (withStart P x) s1 t = miss_flags P s t := by
  induction t with
  | nil => intro s s1 h; exact ⟨h, rfl⟩
  | cons r rest ih =>
    intro s s1 h
    have hi := iter_same_cache P x s s1 r h
    simp only [LIRS_Repl_loop, miss_flags]
    cases h1 : LIRS_Repl_iter P s r with
    | abort =>
      rw [h1] at hi
      cases h2 : LIRS_Repl_iter (withStart P x) s1 r with
      | abort => exact ⟨trivial, rfl⟩
      | returnFALSE v1 => rw [h2] at hi; exact hi.elim
      | next v1 => rw [h2] at hi; exact hi.elim
    | returnFALSE v =>
      rw [h1] at hi
      cases h2 : LIRS_Repl_iter (withStart P x) s1 r with
      | abort => rw [h2] at hi; exact hi.elim
      | returnFALSE v1 => rw [h2] at hi; exact ⟨hi, rfl⟩
      | next v1 => rw [h2] at hi; exact hi.elim
    | next v =>
      rw [h1] at hi
      cases h2 : LIRS_Repl_iter (withStart P x) s1 r with
      | abort => rw [h2] at hi; exact hi.elim
      | returnFALSE v1 => rw [h2] at hi; exact hi.elim
      | next v1 =>
        rw [h2] at hi
        obtain ⟨q1, q2⟩ := ih v v1 hi
        refine ⟨q1, ?_⟩
        show is_miss s1 r :: miss_flags (withStart P x) v1 rest =
          is_miss s r :: miss_flags P v rest
        rw [q2, is_miss_same_cache h]

/-- C13. Warmup neutrality, for every cache size, every trace and every value of
`STAT_START_POINT`. With another value of `STAT_START_POINT` the run ends the same way
and in the same cache state (table, S, Q, cursor, frame and stack counters), and the same
references are misses. The final `num_pg_flt` is the number of misses (references that
are not a repetition of the previous one and find their block non-resident) among the
references at 1-based positions greater than `STAT_START_POINT`: the flags of the first
`STAT_START_POINT` references are dropped before counting. -/
theorem C13_warmup_neutrality (P : Params) (start : Nat) (trace : List Nat) :
    same_outcome (LIRS_Repl P trace) (LIRS_Repl (withStart P start) trace) ∧
    miss_flags (withStart P start) (init_state (withStart P start)) trace =
      miss_flags P (init_state P) trace ∧
    match LIRS_Repl P trace with
    | Step.next s => (miss_flags P (init_state P) trace).length = trace.length ∧
        s.num_pg_flt =
          ((miss_flags P (init_state P) trace).drop P.STAT_START_POINT).count true
    | Step.returnFALSE s => (miss_flags P (init_state P) trace).length < trace.length ∧
        s.num_pg_flt =
          ((miss_flags P (init_state P) trace).drop P.STAT_START_POINT).count true
    | Step.abort => True := by
  have h0 : same_cache (init_state P) (init_state (withStart P start)) :=
    ⟨rfl, rfl, rfl, rfl, rfl, rfl, rfl, rfl, rfl, rfl, rfl, rfl⟩
  obtain ⟨q1, q2⟩ := loop_same_cache P start trace _ _ h0
  refine ⟨q1, q2, ?_⟩
  have h := loop_stat P trace (init_state P) (stat_inv_init P)
  unfold LIRS_Repl
  have e0 : P.STAT_START_POINT - (init_state P).total_pg_refs = P.STAT_START_POINT := rfl
  have e1 : (init_state P).num_pg_flt = 0 := rfl
  cases hl : LIRS_Repl_loop P (init_state P) trace with
  | abort => trivial
  | returnFALSE v =>
    rw [hl] at h
    obtain ⟨_, _, j3, j4⟩ := h
    rw [e0, e1, Nat.zero_add] at j4
    exact ⟨j3, j4⟩
  | next v =>
    rw [hl] at h
    obtain ⟨_, _, j3, j4⟩ := h
    rw [e0, e1, Nat.zero_add] at j4
    exact ⟨j3, j4⟩

end LIRS

namespace LIRS

/-- C14. Out-of-range reference (cache of `c ≥ 10` frames): when the references of `pre`
are in range and `x > vm_size` (the table has the entries `0 .. vm_size`), `LIRS_Repl`
processes `pre`, reaching a state `s`, and at `x` returns `FALSE`, whatever follows `x`
in the trace. The state it leaves is `s` with the reference counted (lines 192-198):
table, S, Q, the cursor, `free_mem_size`, the stack length, `num_pg_flt` and
`last_ref_pg` are those of `s`, and `total_pg_refs` includes the reference out of range.
Every block number `b ≤ vm_size` is accepted in the state `s`. -/
theorem C14_out_of_range (vm c maxS start : Nat) (pre rest : List Nat) (x : Nat)
    (hc : 10 ≤ c) (hm : c ≤ maxS) (hpre : ∀ y ∈ pre, y ≤ vm) (hx : vm < x) :
    ∃ s, LIRS_Repl (mainParams vm c maxS start) pre = Step.next s ∧
      LIRS_Repl (mainParams vm c maxS start) (pre ++ x :: rest) =
        Step.returnFALSE (count_refs (mainParams vm c maxS start) s) ∧
      (count_refs (mainParams vm c maxS start) s).page_tbl = s.page_tbl ∧
      S_list (mainParams vm c maxS start) (count_refs (mainParams vm c maxS start) s) =
        S_list (mainParams vm c maxS start) s ∧
      Q_list (mainParams vm c maxS start) (count_refs (mainParams vm c maxS start) s) =
        Q_list (mainParams vm c maxS start) s ∧
      (count_refs (mainParams vm c maxS start) s).LRU_list_head = s.LRU_list_head ∧
      (count_refs (mainParams vm c maxS start) s).LRU_list_tail = s.LRU_list_tail ∧
      (count_refs (mainParams vm c maxS start) s).HIR_list_head = s.HIR_list_head ∧
      (count_refs (mainParams vm c maxS start) s).HIR_list_tail = s.HIR_list_tail ∧
      (count_refs (mainParams vm c maxS start) s).LIR_LRU_block_ptr = s.LIR_LRU_block_ptr ∧
      (count_refs (mainParams vm c maxS start) s).free_mem_size = s.free_mem_size ∧
      (count_refs (mainParams vm c maxS start) s).cur_lir_S_len = s.cur_lir_S_len ∧
      (count_refs (mainParams vm c maxS start) s).num_pg_flt = s.num_pg_flt ∧
      (count_refs (mainParams vm c maxS start) s).last_ref_pg = s.last_ref_pg ∧
      (count_refs (mainParams vm c maxS start) s).total_pg_refs = pre.length + 1 ∧
      ∀ b, b ≤ vm → ∃ s1, LIRS_Repl_iter (mainParams vm c maxS start) s b = Step.next s1 := by
  have hP := PWF_main vm c maxS start hc hm
  obtain ⟨l, _, hi, hr⟩ := reach _ hP pre hpre
  have hn := runState_eq_some.1 hr
  obtain ⟨a1, a2, a3, a4, a5, a6, a7, a8, a9, _, a11, _, a13⟩ :=
    count_refs_fields (mainParams vm c maxS start) (conc l)
  have ht := loop_stat (mainParams vm c maxS start) pre _ (stat_inv_init _)
  have hn2 : LIRS_Repl_loop (mainParams vm c maxS start) (init_state _) pre =
      Step.next (conc l) := hn
  rw [hn2] at ht
  have htot : (conc l).total_pg_refs = pre.length := by
    have := ht.2.1
    have e0 : (init_state (mainParams vm c maxS start)).total_pg_refs = 0 := rfl
    rw [e0] at this
    omega
  refine ⟨conc l, hn, ?_, a1, ?_, ?_, a2, a3, a4, a5, a6, a7, a8, a13, a11, ?_, ?_⟩
  · unfold LIRS_Repl
    refine (LIRS_Repl_loop_append _ pre (x :: rest) _).trans ?_
    rw [hn2]
    show (match LIRS_Repl_iter (mainParams vm c maxS start) (conc l) x with
      | Step.next s1 => LIRS_Repl_loop (mainParams vm c maxS start) s1 rest
      | Step.returnFALSE s1 => Step.returnFALSE s1
      | Step.abort => Step.abort) = _
    have hgt : x > (mainParams vm c maxS start).vm_size := hx
    rw [LIRS_Repl_iter_eq, if_pos hgt]
  · unfold S_list
    rw [a1, a2]
  · unfold Q_list
    rw [a1, a4]
  · rw [a9, htot]
  · intro b hb
    obtain ⟨l1, _, _, h1⟩ := l_iter_step _ hP l b hi hb
    exact ⟨conc l1, h1⟩

/-- Instance of C14. -/
theorem C14_out_of_range_witness :
    10 ≤ 10 ∧ 10 ≤ 20 ∧ (∀ y ∈ [0, 1, 2, 12, 3, 1], y ≤ 12) ∧ 12 < 13 ∧
    ∃ s, LIRS_Repl (mainParams 12 10 20 0) [0, 1, 2, 12, 3, 1] = Step.next s ∧
      LIRS_Repl (mainParams 12 10 20 0) ([0, 1, 2, 12, 3, 1] ++ 13 :: [4, 5]) =
        Step.returnFALSE (count_refs (mainParams 12 10 20 0) s) ∧
      (count_refs (mainParams 12 10 20 0) s).page_tbl = s.page_tbl ∧
      S_list (mainParams 12 10 20 0) (count_refs (mainParams 12 10 20 0) s) =
        S_list (mainParams 12 10 20 0) s ∧
      Q_list (mainParams 12 10 20 0) (count_refs (mainParams 12 10 20 0) s) =
        Q_list (mainParams 12 10 20 0) s ∧
      (count_refs (mainParams 12 10 20 0) s).LRU_list_head = s.LRU_list_head ∧
      (count_refs (mainParams 12 10 20 0) s).LRU_list_tail = s.LRU_list_tail ∧
      (count_refs (mainParams 12 10 20 0) s).HIR_list_head = s.HIR_list_head ∧
      (count_refs (mainParams 12 10 20 0) s).HIR_list_tail = s.HIR_list_tail ∧
      (count_refs (mainParams 12 10 20 0) s).LIR_LRU_block_ptr = s.LIR_LRU_block_ptr ∧
      (count_refs (mainParams 12 10 20 0) s).free_mem_size = s.free_mem_size ∧
      (count_refs (mainParams 12 10 20 0) s).cur_lir_S_len = s.cur_lir_S_len ∧
      (count_refs (mainParams 12 10 20 0) s).num_pg_flt = s.num_pg_flt ∧
      (count_refs (mainParams 12 10 20 0) s).last_ref_pg = s.last_ref_pg ∧
      (count_refs (mainParams 12 10 20 0) s).total_pg_refs = [0, 1, 2, 12, 3, 1].length + 1 ∧
      ∀ b, b ≤ 12 → ∃ s1, LIRS_Repl_iter (mainParams 12 10 20 0) s b = Step.next s1 :=
  ⟨by decide, by decide, by decide, by decide,
    C14_out_of_range 12 10 20 0 [0, 1, 2, 12, 3, 1] [4, 5] 13
      (by decide) (by decide) (by decide) (by decide)⟩

end LIRS

namespace LIRS

/-! ### The loop trace: blocks admitted as LIR are retained -/

theorem mid_fresh (P : Params) (hP : PWF P) (l : LState) (b : Nat) (h : LInvCore P l)
    (hb : b ≤ P.vm_size) (hlast : l.last ≠ some b) (hr : l.resF b = false) :
    ∃ l1, l_miss_or_hit P { l with last := some b, nodup := l.nodup + 1 } b = some l1 ∧
      MidInv P l1 b ∧ l1.slen = l.slen ∧ l1.recF = l.recF ∧ l1.S = l.S ∧
      (∀ x, l.hirF x = false → l1.hirF x = false) ∧
      (P.HIR_block_portion_limit < l.free → l1.hirF b = false ∧ l1.free + 1 = l.free) := by
  by_cases hf : l.free = 0
  · obtain ⟨t, _, _, h1, h2⟩ := mid_miss_evict P hP l b h hb hlast hr hf
    exact ⟨_, h1, h2, rfl, rfl, rfl, fun x hx => hx, fun hlt => by omega⟩
  · by_cases hf2 : P.HIR_block_portion_limit < l.free
    · obtain ⟨h1, h2⟩ := mid_miss_lir P l b h hb hlast hr hf2
      refine ⟨_, h1, h2, rfl, rfl, rfl, ?_, ?_⟩
      · intro x hx
        show Function.update l.hirF b false x = false
        by_cases hxb : x = b
        · rw [hxb, Function.update_same]
        · rw [Function.update_noteq hxb]; exact hx
      · intro _
        refine ⟨?_, ?_⟩
        · show Function.update l.hirF b false b = false
          rw [Function.update_same]
        · show l.free - 1 + 1 = l.free
          omega
    · obtain ⟨h1, h2⟩ := mid_miss_hir P hP l b h hb hlast hr hf (by omega)
      exact ⟨_, h1, h2, rfl, rfl, rfl, fun x hx => hx, fun hlt => absurd hlt hf2⟩

/-- A reference to a block that is not in the list of S: it is a miss, no LIR block changes
status, the block joins the list, and it is admitted as LIR while more than
`HIR_block_portion_limit` frames are free. -/
theorem fresh_access (P : Params) (hP : PWF P) (l : LState) (b : Nat) (h : LInv P l)
    (hb : b ≤ P.vm_size) (hS : b ∉ l.S) :
    ∃ l5, l_access P l b = some l5 ∧ LInv P l5 ∧ l.resF b = false ∧ l.last ≠ some b ∧
      (∀ x, l.hirF x = false → l5.hirF x = false) ∧
      (∀ x, x ∈ l5.S ↔ (x = b ∨ x ∈ l.S)) ∧ l5.last = some b ∧
      (P.HIR_block_portion_limit < l.free → l5.hirF b = false ∧ l5.free + 1 = l.free) := by
  have hres : l.resF b = false := by
    by_contra hx
    exact hS (h.core.res_mem_S (by simpa using hx))
  have hrec : l.recF b = false := by
    by_contra hx
    exact hS (h.core.rec_mem_S (by simpa using hx))
  have hlast : l.last ≠ some b := fun e => hS (h.core.last_mem b e)
  obtain ⟨l1, h1, hm, hs1, er, eS, eh, efree⟩ := mid_fresh P hP l b h.core hb hlast hres
  obtain ⟨l4, h4, hi4, hs4, hf, eh4, _⟩ := post_fresh P l1 b hm (by rw [er]; exact hrec)
  have hle := h.slen_le
  obtain ⟨l5, h5, hi5, _, r2, _, rfree, _, _, _, _, _, _, rlast, _, rS, _⟩ :=
    prune_step P hP l4 hi4 (by omega)
  refine ⟨l5, ?_, hi5, hres, hlast, ?_, ?_, ?_, ?_⟩
  · simp only [l_access, l_access_core, h1, h4, h5, Option.some_bind]
  · intro x hx
    rw [r2, eh4]
    exact eh x hx
  · intro x
    rw [rS, hf.mem_S, eS]
  · rw [rlast, hf.last_eq]
    exact hm.last_eq
  · intro hlt
    obtain ⟨e1, e2⟩ := efree hlt
    refine ⟨?_, ?_⟩
    · rw [r2, eh4]; exact e1
    · rw [rfree, hf.free_eq]; exact e2

/-- A reference to an LIR block: it is a hit and no block changes status. -/
theorem lir_access (P : Params) (hP : PWF P) (l : LState) (b : Nat) (h : LInv P l)
    (hb : b ≤ P.vm_size) (hlast : l.last ≠ some b) (hh : l.hirF b = false) :
    ∃ l5, l_access P l b = some l5 ∧ LInv P l5 ∧ l.resF b = true ∧
      l5.hirF = l.hirF ∧ l5.last = some b := by
  obtain ⟨h1, hm⟩ := mid_hit_lir P l b h.core hb hlast hh
  have hr : l.recF b = true := h.core.lir_rec b hh
  have hle := h.slen_le
  have key : ∃ l4, l_post P { l with last := some b, nodup := l.nodup + 1 } b = some l4 ∧
      LInvCore P l4 ∧ l4.slen ≤ l.slen ∧
      PostFrame { l with last := some b, nodup := l.nodup + 1 } l4 b ∧
      l4.hirF = l.hirF := by
    by_cases hc : l.cur = some b
    · obtain ⟨l4, a1, a2, a3, a4, a5, _⟩ := post_lir_cursor P hP _ b hm hh hr hc
      exact ⟨l4, a1, a2, a3, a4, a5⟩
    · obtain ⟨l4, a1, a2, a3, a4, a5, _⟩ :=
        post_lir_noncursor P _ b hm hh hr (fun e => hc e.symm)
      exact ⟨l4, a1, a2, Nat.le_of_eq a3, a4, a5⟩
  obtain ⟨l4, h4, hi4, hs4, hf, eh4⟩ := key
  obtain ⟨l5, h5, hi5, _, r2, _, _, _, _, _, _, _, _, rlast, _⟩ :=
    prune_step P hP l4 hi4 (by omega)
  refine ⟨l5, ?_, hi5, h.core.lir_res b hh, ?_, ?_⟩
  · simp only [l_access, l_access_core, h1, h4, h5, Option.some_bind]
  · rw [r2, eh4]
  · rw [rlast, hf.last_eq]

theorem iter_of_access (P : Params) (hP : PWF P) (l l5 : LState) (b : Nat) (h : LInv P l)
    (hb : b ≤ P.vm_size) (hlast : l.last ≠ some b)
    (ha : l_access P (l_count P l) b = some l5) :
    LIRS_Repl_iter P (conc l) b = Step.next (conc l5) := by
  obtain ⟨l1, h1, _, h2⟩ := l_iter_step P hP l b h hb
  have hd : ¬ some b = (l_count P l).last := by
    rw [(l_count_fields P l).1]
    exact fun e => hlast e.symm
  rw [l_iter, if_neg hd, ha] at h1
  cases h1
  exact h2

theorem is_miss_conc (l : LState) (b : Nat) :
    is_miss (conc l) b = (decide (some b ≠ l.last) && !(l.resF b)) := rfl

/-- One iteration on a block that is not in the list of S. -/
theorem fresh_iter (P : Params) (hP : PWF P) (l : LState) (b : Nat) (h : LInv P l)
    (hb : b ≤ P.vm_size) (hS : b ∉ l.S) :
    ∃ l5, LIRS_Repl_iter P (conc l) b = Step.next (conc l5) ∧ LInv P l5 ∧
      is_miss (conc l) b = true ∧
      (∀ x, l.hirF x = false → l5.hirF x = false) ∧
      (∀ x, x ∈ l5.S ↔ (x = b ∨ x ∈ l.S)) ∧ l5.last = some b ∧
      (P.HIR_block_portion_limit < l.free → l5.hirF b = false ∧ l5.free + 1 = l.free) := by
  obtain ⟨c1, c2, c3, _, _, _, _, c8, c9, _, _⟩ := l_count_fields P l
  have hS2 : b ∉ (l_count P l).S := by rw [c8]; exact hS
  obtain ⟨l5, a1, a2, a3, a4, a5, a6, a7, a8⟩ :=
    fresh_access P hP (l_count P l) b (LInv_count P l h) hb hS2
  rw [c2] at a3
  rw [c1] at a4
  rw [c3] at a5
  rw [c8] at a6
  rw [c9] at a8
  refine ⟨l5, iter_of_access P hP l l5 b h hb a4 a1, a2, ?_, a5, a6, a7, a8⟩
  rw [is_miss_conc, a3]
  simp
  exact fun e => a4 e.symm

/-- One iteration on an LIR block. -/
theorem lir_iter (P : Params) (hP : PWF P) (l : LState) (b : Nat) (h : LInv P l)
    (hb : b ≤ P.vm_size) (hlast : l.last ≠ some b) (hh : l.hirF b = false) :
    ∃ l5, LIRS_Repl_iter P (conc l) b = Step.next (conc l5) ∧ LInv P l5 ∧
      is_miss (conc l) b = false ∧ l5.hirF = l.hirF ∧ l5.last = some b := by
  obtain ⟨c1, c2, c3, _⟩ := l_count_fields P l
  obtain ⟨l5, a1, a2, a3, a4, a5⟩ :=
    lir_access P hP (l_count P l) b (LInv_count P l h) hb (by rw [c1]; exact hlast)
      (by rw [c3]; exact hh)
  rw [c2] at a3
  rw [c3] at a4
  refine ⟨l5, iter_of_access P hP l l5 b h hb hlast a1, a2, ?_, a4, a5⟩
  rw [is_miss_conc, a3]
  simp

end LIRS

namespace LIRS

theorem loop_append_next (P : Params) (t1 t2 : List Nat) (s s1 : State)
    (h : LIRS_Repl_loop P s t1 = Step.next s1) :
    LIRS_Repl_loop P s (t1 ++ t2) = LIRS_Repl_loop P s1 t2 := by
  refine (LIRS_Repl_loop_append P t1 t2 s).trans ?_
  rw [h]

theorem loop_cons_next (P : Params) (r : Nat) (rest : List Nat) (s s1 : State)
    (h : LIRS_Repl_iter P s r = Step.next s1) :
    LIRS_Repl_loop P s (r :: rest) = LIRS_Repl_loop P s1 rest ∧
      miss_flags P s (r :: rest) = is_miss s r :: miss_flags P s1 rest := by
  constructor
  · show (match LIRS_Repl_iter P s r with
      | Step.next s1 => LIRS_Repl_loop P s1 rest
      | Step.returnFALSE s1 => Step.returnFALSE s1
      | Step.abort => Step.abort) = _
    rw [h]
  · show (match LIRS_Repl_iter P s r with
      | Step.next s1 => is_miss s r :: miss_flags P s1 rest
      | _ => []) = _
    rw [h]

theorem miss_flags_append (P : Params) (t1 t2 : List Nat) : ∀ s s1,
    LIRS_Repl_loop P s t1 = Step.next s1 →
      miss_flags P s (t1 ++ t2) = miss_flags P s t1 ++ miss_flags P s1 t2 ∧
        (miss_flags P s t1).length = t1.length := by
  induction t1 with
  | nil =>
    intro s s1 h
    have e : Step.next s = Step.next s1 := h
    cases e
    exact ⟨rfl, rfl⟩
  | cons r rest ih =>
    intro s s1 h
    cases hit : LIRS_Repl_iter P s r with
    | abort =>
      have e : LIRS_Repl_loop P s (r :: rest) = Step.abort := by
        show (match LIRS_Repl_iter P s r with
          | Step.next s1 => LIRS_Repl_loop P s1 rest
          | Step.returnFALSE s1 => Step.returnFALSE s1
          | Step.abort => Step.abort) = _
        rw [hit]
      rw [e] at h
      cases h
    | returnFALSE v =>
      have e : LIRS_Repl_loop P s (r :: rest) = Step.returnFALSE v := by
        show (match LIRS_Repl_iter P s r with
          | Step.next s1 => LIRS_Repl_loop P s1 rest
          | Step.returnFALSE s1 => Step.returnFALSE s1
          | Step.abort => Step.abort) = _
        rw [hit]
      rw [e] at h
      cases h
    | next v =>
      obtain ⟨e1, e2⟩ := loop_cons_next P r rest s v hit
      obtain ⟨e3, e4⟩ := loop_cons_next P r (rest ++ t2) s v hit
      rw [e1] at h
      obtain ⟨q1, q2⟩ := ih v s1 h
      rw [List.cons_append, e4, e2, q1, List.cons_append, List.length_cons, q2,
        List.length_cons]
      exact ⟨rfl, rfl⟩

/-- The first pass of the loop trace: every reference is a miss on a block new to S, and
the first `mem_size - HIR_block_portion_limit` blocks are admitted as LIR. -/
theorem first_pass (P : Params) (hP : PWF P) (hv : P.mem_size + 1 ≤ P.vm_size) (n : Nat) :
    ∀ k l, LInv P l → FirstPass P l k → k + n ≤ P.mem_size + 1 →
      ∃ l1, LIRS_Repl_loop P (conc l) (List.range' (k + 1) n) = Step.next (conc l1) ∧
        LInv P l1 ∧ FirstPass P l1 (k + n) ∧
        miss_flags P (conc l) (List.range' (k + 1) n) = List.replicate n true := by
  induction n with
  | zero =>
    intro k l h hf _
    exact ⟨l, rfl, h, hf, rfl⟩
  | succ n ih =>
    intro k l h hf hk
    have hlt := hP.lir_two
    have hS : k + 1 ∉ l.S := fun hm => by
      have := (hf.S_sub _ hm).2
      omega
    obtain ⟨l5, a1, a2, a3, a4, a5, a6, a7⟩ := fresh_iter P hP l (k + 1) h (by omega) hS
    have hf5 : FirstPass P l5 (k + 1) := by
      constructor
      · intro x hx
        rcases (a5 x).1 hx with e | e
        · omega
        · have := hf.S_sub x e
          omega
      · intro x hx1 hx2 hx3
        by_cases hxk : x = k + 1
        · have hfree := hf.free (by omega)
          rw [hxk]
          exact (a7 (by omega)).1
        · exact a4 x (hf.lir x hx1 (by omega) hx3)
      · intro hkl
        have hfree := hf.free (by omega)
        have := (a7 (by omega)).2
        omega
      · intro _
        exact a6
    obtain ⟨l1, b1, b2, b3, b4⟩ := ih (k + 1) l5 a2 hf5 (by omega)
    obtain ⟨e1, e2⟩ := loop_cons_next P (k + 1) (List.range' (k + 1 + 1) n) (conc l) _ a1
    refine ⟨l1, ?_, b2, ?_, ?_⟩
    · rw [List.range'_succ, e1]
      exact b1
    · have e : k + (n + 1) = k + 1 + n := by omega
      rw [e]
      exact b3
    · rw [List.range'_succ, e2, b4, a3]
      rfl

/-- The references of the second pass to the blocks admitted as LIR: all are hits. -/
theorem second_pass (P : Params) (hP : PWF P) (hv : P.mem_size + 1 ≤ P.vm_size) (n : Nat) :
    ∀ j l, LInv P l →
      (∀ x, 1 ≤ x → x ≤ P.mem_size - P.HIR_block_portion_limit → l.hirF x = false) →
      l.last ≠ some (j + 1) → j + n ≤ P.mem_size - P.HIR_block_portion_limit →
      ∃ l1, LIRS_Repl_loop P (conc l) (List.range' (j + 1) n) = Step.next (conc l1) ∧
        LInv P l1 ∧
        (∀ x, 1 ≤ x → x ≤ P.mem_size - P.HIR_block_portion_limit → l1.hirF x = false) ∧
        miss_flags P (conc l) (List.range' (j + 1) n) = List.replicate n false := by
  induction n with
  | zero =>
    intro j l h hl _ _
    exact ⟨l, rfl, h, hl, rfl⟩
  | succ n ih =>
    intro j l h hl hlast hj
    obtain ⟨l5, a1, a2, a3, a4, a5⟩ :=
      lir_iter P hP l (j + 1) h (by omega) hlast (hl (j + 1) (by omega) (by omega))
    have hl5 : ∀ x, 1 ≤ x → x ≤ P.mem_size - P.HIR_block_portion_limit →
        l5.hirF x = false := by
      intro x h1 h2
      rw [a4]
      exact hl x h1 h2
    have hlast5 : l5.last ≠ some (j + 1 + 1) := by
      rw [a5]
      intro e
      have := Option.some.inj e
      omega
    obtain ⟨l1, b1, b2, b3, b4⟩ := ih (j + 1) l5 a2 hl5 hlast5 (by omega)
    obtain ⟨e1, e2⟩ := loop_cons_next P (j + 1) (List.range' (j + 1 + 1) n) (conc l) _ a1
    refine ⟨l1, ?_, b2, b3, ?_⟩
    · rw [List.range'_succ, e1]
      exact b1
    · rw [List.range'_succ, e2, b4, a3]
      rfl

/-- C16. The loop trace, for every cache size `c = mem_size` and HIR share `hir_cap =
HIR_block_portion_limit` with `hir_cap ≥ 1` and `c - hir_cap ≥ 2` (`MAX_S_LEN ≥ c`, table
with the blocks `1 .. c + 1`): `LIRS_Repl` processes the trace `1, ..., c + 1, 1, ..., c +
1`; every reference of the first pass is a miss, the first `c - hir_cap` references of
the second pass are hits (the blocks admitted as LIR in the first pass are still LIR and
resident), so the second pass has at least `c - hir_cap` hits. -/
theorem C16_loop_retains_LIR (P : Params) (h1 : 1 ≤ P.HIR_block_portion_limit)
    (h2 : P.HIR_block_portion_limit + 2 ≤ P.mem_size) (h3 : P.mem_size ≤ P.MAX_S_LEN)
    (hv : P.mem_size + 1 ≤ P.vm_size) :
    ∃ s, LIRS_Repl P (loop_pass P.mem_size ++ loop_pass P.mem_size) = Step.next s ∧
      (miss_flags P (init_state P) (loop_pass P.mem_size ++ loop_pass P.mem_size)).length =
        2 * (P.mem_size + 1) ∧
      (miss_flags P (init_state P) (loop_pass P.mem_size ++ loop_pass P.mem_size)).take
        (P.mem_size + 1) = List.replicate (P.mem_size + 1) true ∧
      (∀ i, i < P.mem_size - P.HIR_block_portion_limit →
        (miss_flags P (init_state P)
          (loop_pass P.mem_size ++ loop_pass P.mem_size))[P.mem_size + 1 + i]? = some false) ∧
      P.mem_size - P.HIR_block_portion_limit ≤
        ((miss_flags P (init_state P) (loop_pass P.mem_size ++ loop_pass P.mem_size)).drop
          (P.mem_size + 1)).count false := by
  have hP : PWF P := ⟨h1, h2, h3⟩
  have hf0 : FirstPass P (l_init P) 0 := by
    constructor
    · intro x hx; cases hx
    · intro x hx1 hx2; omega
    · intro _; rfl
    · intro hx; omega
  obtain ⟨l1, a1, a2, a3, a4⟩ :=
    first_pass P hP hv (P.mem_size + 1) 0 (l_init P) (LInv_init P hP) hf0 (by omega)
  rw [conc_init] at a1 a4
  have e0 : List.range' (0 + 1) (P.mem_size + 1) = loop_pass P.mem_size := rfl
  rw [e0] at a1 a4
  have hl1 : ∀ x, 1 ≤ x → x ≤ P.mem_size - P.HIR_block_portion_limit →
      l1.hirF x = false := fun x hx1 hx2 => a3.lir x hx1 (by omega) hx2
  have hlast1 : l1.last ≠ some (0 + 1) := by
    rw [a3.last (by omega)]
    intro e
    have := Option.some.inj e
    omega
  obtain ⟨l2, b1, b2, b3, b4⟩ :=
    second_pass P hP hv (P.mem_size - P.HIR_block_portion_limit) 0 l1 a2 hl1 hlast1 (by omega)
  have hrange : ∀ x ∈ List.range' (P.mem_size - P.HIR_block_portion_limit + 1)
      (P.HIR_block_portion_limit + 1), x ≤ P.vm_size := by
    intro x hx
    have := List.mem_range'_1.1 hx
    omega
  obtain ⟨l3, _, _, c3⟩ := l_run_step P hP _ l2 b2 hrange
  have esplit : loop_pass P.mem_size =
      List.range' (0 + 1) (P.mem_size - P.HIR_block_portion_limit) ++
        List.range' (P.mem_size - P.HIR_block_portion_limit + 1)
          (P.HIR_block_portion_limit + 1) := by
    unfold loop_pass
    have e := List.range'_append_1 1 (P.mem_size - P.HIR_block_portion_limit)
      (P.HIR_block_portion_limit + 1)
    have e1 : 1 + (P.mem_size - P.HIR_block_portion_limit) =
        P.mem_size - P.HIR_block_portion_limit + 1 := by omega
    have e2 : P.HIR_block_portion_limit + 1 + (P.mem_size - P.HIR_block_portion_limit) =
        P.mem_size + 1 := by omega
    rw [e1, e2] at e
    exact e.symm
  have d1 := loop_append_next P _ (List.range' (P.mem_size - P.HIR_block_portion_limit + 1)
    (P.HIR_block_portion_limit + 1)) _ _ b1
  rw [← esplit, c3] at d1
  obtain ⟨f1, _⟩ := miss_flags_append P _ (List.range' (P.mem_size -
    P.HIR_block_portion_limit + 1) (P.HIR_block_portion_limit + 1)) _ _ b1
  rw [← esplit, b4] at f1
  obtain ⟨g1, g2⟩ := miss_flags_append P _ (loop_pass P.mem_size) _ _ a1
  rw [a4, f1] at g1
  obtain ⟨_, g3⟩ := miss_flags_append P _ [] _ _ d1
  have hlen : (loop_pass P.mem_size).length = P.mem_size + 1 := by
    unfold loop_pass
    exact List.length_range' _ _ _
  have d2 := loop_append_next P _ (loop_pass P.mem_size) _ _ a1
  rw [d1] at d2
  have hdrop : (miss_flags P (init_state P) (loop_pass P.mem_size ++ loop_pass P.mem_size)).drop
      (P.mem_size + 1) =
      List.replicate (P.mem_size - P.HIR_block_portion_limit) false ++
        miss_flags P (conc l2) (List.range' (P.mem_size - P.HIR_block_portion_limit + 1)
          (P.HIR_block_portion_limit + 1)) := by
    rw [g1]
    exact List.drop_left' (List.length_replicate _ _)
  refine ⟨conc l3, d2, ?_, ?_, ?_, ?_⟩
  · rw [g1, ← f1, List.length_append, List.length_replicate, g3, hlen]
    omega
  · rw [g1]
    exact List.take_left' (List.length_replicate _ _)
  · intro i hi
    rw [← List.getElem?_drop, hdrop, List.getElem?_append_left (by
      rw [List.length_replicate]; exact hi), List.getElem?_replicate, if_pos hi]
  · rw [hdrop, List.count_append, List.count_replicate_self]
    omega

end LIRS

namespace LIRS

/-! ### The scenarios of the specification -/

theorem abort_of_check {st : Step} (h : is_abort st = true) : st = Step.abort := by
  cases st with
  | abort => rfl
  | next s => cases h
  | returnFALSE s => cases h

theorem iter_withMax (P : Params) (n m : Nat) (s : State) (b : Nat)
    (hn : n ≤ P.MAX_S_LEN) (hm : n ≤ m)
    (h : (match access_core P (count_refs P s) b with
      | some s4 => decide (s4.cur_lir_S_len ≤ n)
      | none => true) = true) :
    LIRS_Repl_iter (withMax P m) s b = LIRS_Repl_iter P s b := by
  rw [LIRS_Repl_iter_eq, LIRS_Repl_iter_eq, LIRS_access_eq, LIRS_access_eq]
  have e1 : (withMax P m).vm_size = P.vm_size := rfl
  have e2 : count_refs (withMax P m) s = count_refs P s := rfl
  have e3 : access_core (withMax P m) (count_refs P s) b =
      access_core P (count_refs P s) b := rfl
  rw [e1, e2, e3]
  cases hac : access_core P (count_refs P s) b with
  | none => rfl
  | some s4 =>
    rw [hac] at h
    have hle : s4.cur_lir_S_len ≤ n := by simpa using h
    have p1 : prune_LIRS_stack (withMax P m) s4 = some s4 := by
      unfold prune_LIRS_stack
      have : s4.cur_lir_S_len ≤ (withMax P m).MAX_S_LEN := Nat.le_trans hle hm
      rw [if_pos this]
    have p2 : prune_LIRS_stack P s4 = some s4 := by
      unfold prune_LIRS_stack
      rw [if_pos (Nat.le_trans hle hn)]
    simp only [Option.some_bind, p1, p2]

/-- While the stack stays within `n` entries, a run does not depend on a bound
`MAX_S_LEN ≥ n`. -/
theorem loop_withMax (P : Params) (n m : Nat) (hn : n ≤ P.MAX_S_LEN) (hm : n ≤ m)
    (t : List Nat) : ∀ s, slen_within P n s t = true →
      LIRS_Repl_loop (withMax P m) s t = LIRS_Repl_loop P s t ∧
        miss_flags (withMax P m) s t = miss_flags P s t := by
  induction t with
  | nil => intro s _; exact ⟨rfl, rfl⟩
  | cons b rest ih =>
    intro s h
    unfold slen_within at h
    rw [Bool.and_eq_true] at h
    have e := iter_withMax P n m s b hn hm h.1
    have h2 := h.2
    constructor
    · show (match LIRS_Repl_iter (withMax P m) s b with
        | Step.next s1 => LIRS_Repl_loop (withMax P m) s1 rest
        | Step.returnFALSE s1 => Step.returnFALSE s1
        | Step.abort => Step.abort) =
        (match LIRS_Repl_iter P s b with
        | Step.next s1 => LIRS_Repl_loop P s1 rest
        | Step.returnFALSE s1 => Step.returnFALSE s1
        | Step.abort => Step.abort)
      rw [e]
      cases hit : LIRS_Repl_iter P s b with
      | abort => rfl
      | returnFALSE v => rfl
      | next v =>
        rw [hit] at h2
        exact (ih v h2).1
    · show (match LIRS_Repl_iter (withMax P m) s b with
        | Step.next s1 => is_miss s b :: miss_flags (withMax P m) s1 rest
        | _ => []) =
        (match LIRS_Repl_iter P s b with
        | Step.next s1 => is_miss s b :: miss_flags P s1 rest
        | _ => [])
      rw [e]
      cases hit : LIRS_Repl_iter P s b with
      | abort => rfl
      | returnFALSE v => rfl
      | next v =>
        rw [hit] at h2
        show is_miss s b :: miss_flags (withMax P m) v rest = is_miss s b :: miss_flags P v rest
        rw [(ih v h2).2]

theorem slen_within_take (P : Params) (n : Nat) (t : List Nat) :
    ∀ (k : Nat) (s : State), slen_within P n s t = true →
      slen_within P n s (t.take k) = true := by
  induction t with
  | nil => intro k s _; simp [slen_within]
  | cons b rest ih =>
    intro k s h
    cases k with
    | zero => rfl
    | succ k =>
      unfold slen_within at h
      rw [Bool.and_eq_true] at h
      rw [List.take_succ_cons]
      unfold slen_within
      rw [Bool.and_eq_true]
      refine ⟨h.1, ?_⟩
      have h2 := h.2
      cases hit : LIRS_Repl_iter P s b with
      | abort => rfl
      | returnFALSE v => rfl
      | next v =>
        rw [hit] at h2
        exact ih k v h2

theorem cache_after_withMax (P : Params) (n m : Nat) (hn : n ≤ P.MAX_S_LEN) (hm : n ≤ m)
    (t : List Nat) (h : slen_within P n (init_state P) t = true) (k : Nat) :
    cache_after (withMax P m) (t.take k) = cache_after P (t.take k) := by
  have e := (loop_withMax P n m hn hm (t.take k) (init_state P)
    (slen_within_take P n t k _ h)).1
  have e2 : LIRS_Repl (withMax P m) (t.take k) = LIRS_Repl P (t.take k) := e
  unfold cache_after runState
  rw [e2]
  rfl

end LIRS

namespace LIRS

/-- C15, as stated, fails: with two frames of which one for HIR blocks (`MAX_S_LEN = 100`)
the run on `A B 1 B 2 B 3 B 4 B` does not get past the sixth reference. The first five
references are misses, also the two to `B`; after them the list of S is `2, B, 1, A` with
the cursor on `B`, the only LIR block. The reference to `B` makes `remove_LIRS_list` move
the cursor to `LIRS_prev`, the HIR block 2 at the head of the list, and
`find_last_LIR_LRU` follows the null `LIRS_prev` of block 2. -/
theorem C15_counterexample :
    LIRS_Repl (scanParams 2 1 100) scan_trace = Step.abort ∧
    LIRS_Repl (scanParams 2 1 100) (scan_trace.take 6) = Step.abort ∧
    miss_flags (scanParams 2 1 100) (init_state (scanParams 2 1 100)) scan_trace =
      [true, true, true, true, true] ∧
    ∃ s, runState (scanParams 2 1 100) (scan_trace.take 5) = some s ∧
      (S_list (scanParams 2 1 100) s = [2, 5, 1, 0] ∧ s.LIR_LRU_block_ptr = some 5 ∧
       lir_blocks (scanParams 2 1 100) s = [5] ∧ (s.page_tbl 5).LIRS_prev = some 2 ∧
       (s.page_tbl 2).isHIR_block = true ∧ (s.page_tbl 2).LIRS_prev = none) :=
  ⟨abort_of_check (by decide), abort_of_check (by decide), by decide,
    exists_of_check (by decide)⟩

/-- The failure of the scan scenario with two frames does not depend on the stack bound:
for every `MAX_S_LEN ≥ 3` the run stops at the sixth reference. -/
theorem scan_two_frames_every_bound (m : Nat) (hm : 3 ≤ m) :
    LIRS_Repl (scanParams 2 1 m) scan_trace = Step.abort := by
  have h := (loop_withMax (scanParams 2 1 100) 3 m (by decide) hm scan_trace
    (init_state (scanParams 2 1 100)) (by decide)).1
  have e : LIRS_Repl (scanParams 2 1 m) scan_trace =
      LIRS_Repl_loop (withMax (scanParams 2 1 100) m) (init_state (scanParams 2 1 100))
        scan_trace := rfl
  rw [e, h]
  exact abort_of_check (by decide)

/-- The scan scenario with two frames and a stack bound below 3: with `MAX_S_LEN = 0` the
run stops at the first reference; with `MAX_S_LEN = 1` or `2` all ten references are
processed and all are misses, `A` being the only LIR block throughout. -/
theorem scan_two_frames_small_bound :
    LIRS_Repl (scanParams 2 1 0) scan_trace = Step.abort ∧
    miss_flags (scanParams 2 1 1) (init_state (scanParams 2 1 1)) scan_trace =
      List.replicate 10 true ∧
    miss_flags (scanParams 2 1 2) (init_state (scanParams 2 1 2)) scan_trace =
      List.replicate 10 true ∧
    cache_after (scanParams 2 1 1) scan_trace = some ([0], [0, 5], [5]) ∧
    cache_after (scanParams 2 1 2) scan_trace = some ([0], [0, 5], [5]) :=
  ⟨abort_of_check (by decide), by decide, by decide, by decide, by decide⟩

theorem scan_three_frames_core (m : Nat) (hm : 3 ≤ m) :
    miss_flags (scanParams 3 1 m) (init_state (scanParams 3 1 m)) scan_trace =
      [true, true, true, false, true, false, true, false, true, false] ∧
    (List.range 11).map (fun k => cache_after (scanParams 3 1 m) (scan_trace.take k)) =
      [some ([], [], []), some ([0], [0], []), some ([0, 5], [0, 5], []),
       some ([0, 5], [0, 1, 5], [1]), some ([0, 5], [0, 1, 5], [1]),
       some ([0, 5], [0, 2, 5], [2]), some ([0, 5], [0, 2, 5], [2]),
       some ([0, 5], [0, 3, 5], [3]), some ([0, 5], [0, 3, 5], [3]),
       some ([0, 5], [0, 4, 5], [4]), some ([0, 5], [0, 4, 5], [4])] := by
  by_cases h6 : 6 ≤ m
  · have hw : slen_within (scanParams 3 1 6) 6 (init_state (scanParams 3 1 6)) scan_trace =
        true := by decide
    have h := (loop_withMax (scanParams 3 1 6) 6 m (by decide) h6 scan_trace
      (init_state (scanParams 3 1 6)) hw).2
    have e : miss_flags (scanParams 3 1 m) (init_state (scanParams 3 1 m)) scan_trace =
        miss_flags (withMax (scanParams 3 1 6) m) (init_state (scanParams 3 1 6))
          scan_trace := rfl
    have e2 : (fun k => cache_after (scanParams 3 1 m) (scan_trace.take k)) =
        fun k => cache_after (scanParams 3 1 6) (scan_trace.take k) := by
      funext k
      exact cache_after_withMax (scanParams 3 1 6) 6 m (by decide) h6 scan_trace hw k
    rw [e, h, e2]
    exact ⟨by decide, by decide⟩
  · have h5 : m = 3 ∨ m = 4 ∨ m = 5 := by omega
    rcases h5 with e | e | e
    · rw [e]; exact ⟨by decide, by decide⟩
    · rw [e]; exact ⟨by decide, by decide⟩
    · rw [e]; exact ⟨by decide, by decide⟩

/-- C15 (amended). The scan scenario `A B 1 B 2 B 3 B 4 B` with three frames of which one
for HIR blocks, for every `MAX_S_LEN ≥ 3`: all ten references are processed. `A` and `B`
are admitted as LIR and `B` is LIR and resident from its first reference to the end.
Each of 1, 2, 3, 4 is a miss, is inserted as a resident HIR block (it is queue Q after its
reference) and is never referenced again; 1, 2 and 3 are evicted by the miss on the next
scan element, 4 is still resident at the end. The first reference to `B` is a miss and the
four others are hits: 80% of the references to `B`. (The table lists, after each prefix
of the trace, the LIR blocks, the resident blocks and Q.) -/
theorem C15_scan_three_frames (m : Nat) (hm : 3 ≤ m) :
    (∃ s, LIRS_Repl (scanParams 3 1 m) scan_trace = Step.next s) ∧
    miss_flags (scanParams 3 1 m) (init_state (scanParams 3 1 m)) scan_trace =
      [true, true, true, false, true, false, true, false, true, false] ∧
    (List.range 11).map (fun k => cache_after (scanParams 3 1 m) (scan_trace.take k)) =
      [some ([], [], []), some ([0], [0], []), some ([0, 5], [0, 5], []),
       some ([0, 5], [0, 1, 5], [1]), some ([0, 5], [0, 1, 5], [1]),
       some ([0, 5], [0, 2, 5], [2]), some ([0, 5], [0, 2, 5], [2]),
       some ([0, 5], [0, 3, 5], [3]), some ([0, 5], [0, 3, 5], [3]),
       some ([0, 5], [0, 4, 5], [4]), some ([0, 5], [0, 4, 5], [4])] ∧
    ((scan_trace.zip (miss_flags (scanParams 3 1 m) (init_state (scanParams 3 1 m))
        scan_trace)).filter (fun p => p.1 == 5 && !p.2)).length = 4 ∧
    ((scan_trace.zip (miss_flags (scanParams 3 1 m) (init_state (scanParams 3 1 m))
        scan_trace)).filter (fun p => p.1 == 5)).length = 5 ∧
    ((scan_trace.zip (miss_flags (scanParams 3 1 m) (init_state (scanParams 3 1 m))
        scan_trace)).filter (fun p => (p.1 == 1 || p.1 == 2 || p.1 == 3 || p.1 == 4)
          && !p.2)).length = 0 := by
  obtain ⟨hf, ht⟩ := scan_three_frames_core m hm
  refine ⟨?_, hf, ht, ?_, ?_, ?_⟩
  · have h10 := congrArg (fun L => L[10]?) ht
    have e10 : cache_after (scanParams 3 1 m) (scan_trace.take 10) =
        some ([0, 5], [0, 4, 5], [4]) := by
      have := h10
      simpa using this
    unfold cache_after at e10
    cases hr : runState (scanParams 3 1 m) (scan_trace.take 10) with
    | none => rw [hr] at e10; cases e10
    | some s => exact ⟨s, runState_eq_some.1 hr⟩
  · rw [hf]; decide
  · rw [hf]; decide
  · rw [hf]; decide

/-- Instance of C15 (amended): `MAX_S_LEN = 3`. -/
theorem C15_scan_three_frames_witness :
    3 ≤ 3 ∧
    (∃ s, LIRS_Repl (scanParams 3 1 3) scan_trace = Step.next s) ∧
    miss_flags (scanParams 3 1 3) (init_state (scanParams 3 1 3)) scan_trace =
      [true, true, true, false, true, false, true, false, true, false] ∧
    (List.range 11).map (fun k => cache_after (scanParams 3 1 3) (scan_trace.take k)) =
      [some ([], [], []), some ([0], [0], []), some ([0, 5], [0, 5], []),
       some ([0, 5], [0, 1, 5], [1]), some ([0, 5], [0, 1, 5], [1]),
       some ([0, 5], [0, 2, 5], [2]), some ([0, 5], [0, 2, 5], [2]),
       some ([0, 5], [0, 3, 5], [3]), some ([0, 5], [0, 3, 5], [3]),
       some ([0, 5], [0, 4, 5], [4]), some ([0, 5], [0, 4, 5], [4])] ∧
    ((scan_trace.zip (miss_flags (scanParams 3 1 3) (init_state (scanParams 3 1 3))
        scan_trace)).filter (fun p => p.1 == 5 && !p.2)).length = 4 ∧
    ((scan_trace.zip (miss_flags (scanParams 3 1 3) (init_state (scanParams 3 1 3))
        scan_trace)).filter (fun p => p.1 == 5)).length = 5 ∧
    ((scan_trace.zip (miss_flags (scanParams 3 1 3) (init_state (scanParams 3 1 3))
        scan_trace)).filter (fun p => (p.1 == 1 || p.1 == 2 || p.1 == 3 || p.1 == 4)
          && !p.2)).length = 0 :=
  ⟨by decide, C15_scan_three_frames 3 (by decide)⟩

/-- Instance of C16: the trace `1 2 3 4 1 2 3 4` with three frames of which one for HIR
blocks. -/
theorem C16_loop_retains_LIR_witness :
    1 ≤ loopParams.HIR_block_portion_limit ∧
    loopParams.HIR_block_portion_limit + 2 ≤ loopParams.mem_size ∧
    loopParams.mem_size ≤ loopParams.MAX_S_LEN ∧
    loopParams.mem_size + 1 ≤ loopParams.vm_size ∧
    ∃ s, LIRS_Repl loopParams (loop_pass loopParams.mem_size ++ loop_pass loopParams.mem_size) =
        Step.next s ∧
      (miss_flags loopParams (init_state loopParams)
        (loop_pass loopParams.mem_size ++ loop_pass loopParams.mem_size)).length =
        2 * (loopParams.mem_size + 1) ∧
      (miss_flags loopParams (init_state loopParams)
        (loop_pass loopParams.mem_size ++ loop_pass loopParams.mem_size)).take
        (loopParams.mem_size + 1) = List.replicate (loopParams.mem_size + 1) true ∧
      (∀ i, i < loopParams.mem_size - loopParams.HIR_block_portion_limit →
        (miss_flags loopParams (init_state loopParams)
          (loop_pass loopParams.mem_size ++ loop_pass loopParams.mem_size))[
            loopParams.mem_size + 1 + i]? = some false) ∧
      loopParams.mem_size - loopParams.HIR_block_portion_limit ≤
        ((miss_flags loopParams (init_state loopParams)
          (loop_pass loopParams.mem_size ++ loop_pass loopParams.mem_size)).drop
          (loopParams.mem_size + 1)).count false :=
  ⟨by decide, by decide, by decide, by decide,
    C16_loop_retains_LIR loopParams (by decide) (by decide) (by decide) (by decide)⟩

/-- The loop scenario of the specification in full: on `1 2 3 4 1 2 3 4` with three
frames of which one for HIR blocks, the first pass has four misses and the second pass
two hits (blocks 1 and 2, the LIR blocks) followed by two misses. -/
theorem loop_scenario_flags :
    loop_pass loopParams.mem_size ++ loop_pass loopParams.mem_size = [1, 2, 3, 4, 1, 2, 3, 4] ∧
    miss_flags loopParams (init_state loopParams) [1, 2, 3, 4, 1, 2, 3, 4] =
      [true, true, true, true, false, false, true, true] ∧
    cache_after loopParams [1, 2, 3, 4, 1, 2, 3, 4] = some ([1, 2], [1, 2, 4], [4]) :=
  ⟨by decide, by decide, by decide⟩

end LIRS
